import Mathlib

/-!
# bigint: natural numbers (`nat.h`) and the expression compiler (`nat-compiler.cc`)

A shallow embedding of the limb arithmetic of `struct nat` and of the
demo compiler pipeline (evaluate, lower to SSA, def-use analysis, linear
register allocation), followed by theorems about them.

Conventions of the embedding

* `limb_t` (32 bit) and `limb2_t` (64 bit) values are `Nat`s reduced with an
  explicit `% 2 ^ 32` or `% 2 ^ 64` wherever the C++ arithmetic wraps.
* An operation that trips an `assert`, throws, exits or runs into undefined
  behaviour has no result: it returns `none` (numeric layer) or an
  `Except.error` (compiler layer).
* `std::map` with only `find` / `operator[]` access is a lookup function;
  `reg_used`, which the allocator iterates over, is a key-sorted association
  list; `std::vector` and `std::deque` are `List`s.
-/

namespace Bigint

/-! ## nat.h -/

/-- Bit width of a limb: `limb_bits`. -/
def limb_bits : Nat := 32

/-- Bit shift of a limb: `limb_shift`. -/
def limb_shift : Nat := 5

/-- Largest element count a `std::vector<limb_t>` accepts (`max_size()` on an
LP64 target); `resize` and `insert` beyond it throw `std::length_error`. -/
def vector_max_size : Nat := 2 ^ 61 - 1

/-- Conversion of an integer to `limb_t` (`unsigned int`). -/
def to_limb (z : Int) : Nat := (z % 2 ^ 32).toNat

/-- Conversion of an integer to `unsigned long long` / `size_t`. -/
def to_limb2 (z : Int) : Nat := (z % 2 ^ 64).toNat

/-- Conversion of an unsigned value to `int` (two's complement, 32 bit). -/
def to_int (x : Nat) : Int :=
  if x % 2 ^ 32 < 2 ^ 31 then ((x % 2 ^ 32 : Nat) : Int) else ((x % 2 ^ 32 : Nat) : Int) - 2 ^ 32

/-- Conversion of an unsigned 64 bit value to `signed long long`. -/
def to_int64 (x : Nat) : Int :=
  if x % 2 ^ 64 < 2 ^ 63 then ((x % 2 ^ 64 : Nat) : Int) else ((x % 2 ^ 64 : Nat) : Int) - 2 ^ 64

/-- The C++ expression `x << s` on a `limb_t`: undefined unless `0 <= s < 32`. -/
def shl32 (x : Nat) (s : Int) : Option Nat :=
  if 0 ≤ s ∧ s < 32 then some ((x * 2 ^ s.toNat) % 2 ^ 32) else none

/-- The C++ expression `x >> s` on a `limb_t`: undefined unless `0 <= s < 32`. -/
def shr32 (x : Nat) (s : Int) : Option Nat :=
  if 0 ≤ s ∧ s < 32 then some (x / 2 ^ s.toNat) else none

/-- The number type `struct nat`: a vector of 32 bit limbs, little end at offset 0. -/
structure nat where
  limbs : List Nat
deriving DecidableEq, Repr

namespace nat

/-- The number a limb vector stands for: the sum of `limbs[i] * 2^(32*i)`. -/
def value (n : nat) : Nat :=
  n.limbs.foldr (fun x acc => x + 2 ^ 32 * acc) 0

/-- The method `expand`: `limbs.resize(max(limbs.size(), operand.limbs.size()))`. -/
def expand (self operand : nat) : nat :=
  ⟨self.limbs ++
    List.replicate (max self.limbs.length operand.limbs.length - self.limbs.length) 0⟩

/-- The loop of `contract`, on the limbs listed from the big end. -/
def contract_rev : List Nat → List Nat
  | x :: y :: rest => if x = 0 then contract_rev (y :: rest) else x :: y :: rest
  | l => l

/-- The method `contract`: pop zero limbs off the big end while more than one limb is left. -/
def contract (self : nat) : nat :=
  ⟨(contract_rev self.limbs.reverse).reverse⟩

/-- Default constructor `nat()`. -/
def ctor_default : nat := ⟨[0]⟩

/-- Integral constructor `nat(limb_t n)`; the argument is converted to `limb_t`. -/
def of_limb (n : Int) : nat := ⟨[to_limb n]⟩

/-- Array constructor `nat(std::initializer_list<limb_t>)`. -/
def of_list (l : List Nat) : nat := contract ⟨l⟩

/-- Copy constructor, move constructor and `operator=(const nat&)`: copy, then `contract`. -/
def copy (operand : nat) : nat := contract operand

/-- The method `num_limbs`. -/
def num_limbs (self : nat) : Nat := self.limbs.length

/-- The method `limb_at`: `n < limbs.size() ? limbs[n] : 0`. -/
def limb_at (self : nat) (n : Nat) : Nat := self.limbs.getD n 0

/-- Loop of `operator+=` from index `i` on, over the limbs not yet visited. -/
def add_loop (operand : nat) : Nat → List Nat → Nat → List Nat × Nat
  | _, [], carry => ([], carry)
  | i, old_val :: rest, carry =>
    let new_val := (old_val + operand.limb_at i + carry) % 2 ^ 32
    let r := add_loop operand (i + 1) rest (if new_val < old_val then 1 else 0)
    (new_val :: r.1, r.2)

/-- The operator `+=` (add with carry equals). -/
def op_add_assign (self operand : nat) : nat :=
  let r := add_loop operand 0 (self.expand operand).limbs 0
  ⟨if r.2 ≠ 0 then r.1 ++ [1] else r.1⟩

/-- Loop of `operator-=` from index `i` on, over the limbs not yet visited. -/
def sub_loop (operand : nat) : Nat → List Nat → Nat → List Nat × Nat
  | _, [], borrow => ([], borrow)
  | i, old_val :: rest, borrow =>
    let new_val := to_limb ((old_val : Int) - (operand.limb_at i : Int) - (borrow : Int))
    let r := sub_loop operand (i + 1) rest (if new_val > old_val then 1 else 0)
    (new_val :: r.1, r.2)

/-- The operator `-=` (subtract with borrow equals); `none` when `assert(borrow == 0)` trips. -/
def op_sub_assign (self operand : nat) : Option nat :=
  let r := sub_loop operand 0 (self.expand operand).limbs 0
  if r.2 = 0 then some (contract ⟨r.1⟩) else none

/-- Carry loop of `operator<<=`, for a bit count `0 < shamt < 32`. -/
def shl_loop (shamt : Nat) : List Nat → Nat → List Nat × Nat
  | [], carry => ([], carry)
  | old_val :: rest, carry =>
    let new_val := ((old_val * 2 ^ shamt) % 2 ^ 32) ||| carry
    let r := shl_loop shamt rest (old_val / 2 ^ (32 - shamt))
    (new_val :: r.1, r.2)

/-- The operator `<<=` with its `int` argument. `limb_shamt` is the `size_t` conversion of
`shamt >> limb_shift`; the bit count left for the carry loop is `shamt - limb_shamt`, as
the source computes it. No result when the `insert` exceeds `max_size` (negative `shamt`)
or when the remaining count is not a valid shift count of a 32 bit limb. -/
def op_shl_assign (self : nat) (shamt : Int) : Option nat :=
  let limb_shamt : Nat := to_limb2 (shamt / 32)
  if limb_shamt > vector_max_size then none
  else
    let limbs1 := if limb_shamt > 0 then List.replicate limb_shamt 0 ++ self.limbs else self.limbs
    let shamt1 : Int := shamt - (if limb_shamt > 0 then (limb_shamt : Int) else 0)
    if shamt1 = 0 then some ⟨limbs1⟩
    else if 0 < shamt1 ∧ shamt1 < 32 then
      let r := shl_loop shamt1.toNat limbs1 0
      some ⟨if r.2 ≠ 0 then r.1 ++ [r.2] else r.1⟩
    else none

/-- Carry loop of `operator>>=` over the limbs listed from the big end, `0 < shamt < 32`. -/
def shr_loop (shamt : Nat) : List Nat → Nat → List Nat
  | [], _ => []
  | old_val :: rest, carry =>
    ((old_val / 2 ^ shamt) ||| carry) :: shr_loop shamt rest ((old_val * 2 ^ (32 - shamt)) % 2 ^ 32)

/-- The operator `>>=` with its `int` argument; no result when `erase` is asked for more
limbs than there are or when the remaining bit count is not a valid shift count. -/
def op_shr_assign (self : nat) (shamt : Int) : Option nat :=
  let limb_shamt : Nat := to_limb2 (shamt / 32)
  if limb_shamt > self.limbs.length then none
  else
    let limbs1 := if limb_shamt > 0 then self.limbs.drop limb_shamt else self.limbs
    let shamt1 : Int := shamt - (if limb_shamt > 0 then (limb_shamt : Int) else 0)
    if shamt1 = 0 then some ⟨limbs1⟩
    else if 0 < shamt1 ∧ shamt1 < 32 then
      some (contract ⟨(shr_loop shamt1.toNat limbs1.reverse 0).reverse⟩)
    else none

/-- Loop of `operator&=` and `operator|=` from index `i` on. -/
def bit_loop (f : Nat → Nat → Nat) (operand : nat) : Nat → List Nat → List Nat
  | _, [] => []
  | i, x :: rest => f (operand.limb_at i) x :: bit_loop f operand (i + 1) rest

/-- The operator `&=` (logical and equals). -/
def op_and_assign (self operand : nat) : nat :=
  contract ⟨bit_loop (fun a b => a &&& b) operand 0 (self.expand operand).limbs⟩

/-- The operator `|=` (logical or equals). -/
def op_or_assign (self operand : nat) : nat :=
  contract ⟨bit_loop (fun a b => a ||| b) operand 0 (self.expand operand).limbs⟩

/-- The operator `+`: copy, `+=`, and the copy made by returning by value. -/
def op_add (self operand : nat) : nat := copy (op_add_assign (copy self) operand)

/-- The operator `-`: copy, `-=`, and the copy made by returning by value. -/
def op_sub (self operand : nat) : Option nat := (op_sub_assign (copy self) operand).map copy

/-- The operator `<<`. -/
def op_shl (self : nat) (shamt : Int) : Option nat := (op_shl_assign (copy self) shamt).map copy

/-- The operator `>>`. -/
def op_shr (self : nat) (shamt : Int) : Option nat := (op_shr_assign (copy self) shamt).map copy

/-- The operator `&`. -/
def op_and (self operand : nat) : nat := copy (op_and_assign (copy self) operand)

/-- The operator `|`. -/
def op_or (self operand : nat) : nat := copy (op_or_assign (copy self) operand)

/-- Loop of `operator==` over `i = 0 .. max-1`, with `i = max - todo`. -/
def eq_loop (self operand : nat) (max : Nat) : Nat → Bool
  | 0 => true
  | todo + 1 =>
    if self.limb_at (max - (todo + 1)) ≠ operand.limb_at (max - (todo + 1)) then false
    else eq_loop self operand max todo

/-- The operator `==`. -/
def op_eq (self operand : nat) : Bool :=
  eq_loop self operand (max self.num_limbs operand.num_limbs) (max self.num_limbs operand.num_limbs)

/-- Loop of `operator<` over `i = max .. 1`. -/
def lt_loop (self operand : nat) : Nat → Bool
  | 0 => false
  | i + 1 =>
    if self.limb_at i > operand.limb_at i then false
    else if self.limb_at i < operand.limb_at i then true
    else lt_loop self operand i

/-- The operator `<`. -/
def op_lt (self operand : nat) : Bool :=
  lt_loop self operand (max self.num_limbs operand.num_limbs)

/-- The operator `!=`. -/
def op_ne (self operand : nat) : Bool := !(op_eq self operand)

/-- The operator `<=`. -/
def op_le (self operand : nat) : Bool := op_lt self operand || op_eq self operand

/-- The operator `>`. -/
def op_gt (self operand : nat) : Bool := !(op_le self operand)

/-- The operator `>=`. -/
def op_ge (self operand : nat) : Bool := !(op_lt self operand) || op_eq self operand

/-- The call `std::vector::resize(k)`: truncate or pad with zero limbs. -/
def vec_resize (l : List Nat) (k : Nat) : List Nat :=
  l.take k ++ List.replicate (k - l.length) 0

/-- Inner loop of `mult` for one multiplier limb `mj` at offset `j`, from index `i` on.
`t` is the 64 bit `limb2_t` intermediate, `k` the `limb_t` carry. -/
def mult_row (mj j : Nat) : Nat → List Nat → List Nat → Nat → List Nat × Nat
  | _, [], result, k => (result, k)
  | i, x :: rest, result, k =>
    let t := (x * mj + result.getD (i + j) 0 + k) % 2 ^ 64
    mult_row mj j (i + 1) rest (result.set (i + j) (t % 2 ^ 32)) (t / 2 ^ 32 % 2 ^ 32)

/-- Outer loop of `mult` from multiplier index `j` on. -/
def mult_loop (multiplicand : List Nat) : Nat → List Nat → List Nat → List Nat
  | _, [], result => result
  | j, y :: rest, result =>
    let r := mult_row y j 0 multiplicand result 0
    mult_loop multiplicand (j + 1) rest (r.1.set (j + multiplicand.length) r.2)

/-- The method `mult` (base 2^limb_bits multiply); the multiplier is passed by value, hence
copied. Returns the new contents of `result`. -/
def mult (multiplicand multiplier result : nat) : nat :=
  let multiplier := copy multiplier
  ⟨mult_loop multiplicand.limbs 0 multiplier.limbs
    (vec_resize result.limbs (multiplicand.limbs.length + multiplier.limbs.length))⟩

/-- The operator `*`: `mult` into a local `result(0)`, returned without a further copy. -/
def op_mul (self operand : nat) : nat := mult self operand (of_limb 0)

/-- The builtin `__builtin_clz` on a nonzero 32 bit word. -/
def clz32 (x : Nat) : Nat := 31 - Nat.log2 x

/-- Single digit divisor loop of `divrem`, over the dividend limbs from the big end.
`k` is an `unsigned long long`; the product `q[j]*v[0]` is a `limb_t` product. -/
def divrem_short (v0 : Nat) : List Nat → Nat → List Nat × Nat
  | [], k => ([], k)
  | uj :: rest, k =>
    let x := (k * 2 ^ 32 + uj) % 2 ^ 64
    let qj := (x / v0) % 2 ^ 32
    let r := divrem_short v0 rest (to_limb2 ((x : Int) - ((qj * v0 % 2 ^ 32 : Nat) : Int)))
    (qj :: r.1, r.2)

/-- Normalisation `w[i] = (x[i] << s) | (x[i-1] >> (limb_bits-s))`, `w[0] = x[0] << s`. -/
def divrem_norm (x : List Nat) (s : Int) (i : Nat) : Option Nat :=
  if i = 0 then shl32 (x.getD 0 0) s
  else do
    let a ← shl32 (x.getD i 0) s
    let b ← shr32 (x.getD (i - 1) 0) (32 - s)
    pure (a ||| b)

/-- The `again:` loop correcting the estimate `qhat`; every pass lowers `qhat`, so
`qhat + 1` passes of fuel are enough. -/
def divrem_again (vn1 vn2 un2 : Nat) : Nat → Nat → Nat → Option (Nat × Nat)
  | 0, _, _ => none
  | fuel + 1, qhat, rhat =>
    if qhat ≥ 2 ^ 32 ∨ (qhat * vn2) % 2 ^ 64 > (2 ^ 32 * rhat + un2) % 2 ^ 64 then
      let qhat1 := to_limb2 ((qhat : Int) - 1)
      let rhat1 := (rhat + vn1) % 2 ^ 64
      if rhat1 < 2 ^ 32 then divrem_again vn1 vn2 un2 fuel qhat1 rhat1 else some (qhat1, rhat1)
    else some (qhat, rhat)

/-- The multiply and subtract loop of `divrem` from index `i` on; `k` is an
`unsigned long long`, `t` a `signed long long`. Returns `un` and the last `k`. -/
def divrem_mulsub (qhat j : Nat) : Nat → List Nat → List Nat → Nat → List Nat × Nat
  | _, [], un, k => (un, k)
  | i, vi :: rest, un, k =>
    let p := (qhat * vi) % 2 ^ 64
    let t := to_int64 (to_limb2 ((un.getD (i + j) 0 : Int) - (k : Int) - ((p % 2 ^ 32 : Nat) : Int)))
    divrem_mulsub qhat j (i + 1) rest (un.set (i + j) (to_limb t))
      (to_limb2 (((p / 2 ^ 32 : Nat) : Int) - t / 2 ^ 32))

/-- The add back loop of `divrem` from index `i` on; `un[i+j] + vn[i]` is a `limb_t` sum. -/
def divrem_addback (j : Nat) : Nat → List Nat → List Nat → Nat → List Nat × Nat
  | _, [], un, k => (un, k)
  | i, vi :: rest, un, k =>
    let t := to_int64 (((un.getD (i + j) 0 + vi) % 2 ^ 32 + k) % 2 ^ 64)
    divrem_addback j (i + 1) rest (un.set (i + j) (to_limb t)) (to_limb2 (t / 2 ^ 32))

/-- Main loop of `divrem` for `j = steps - 1` down to `0`, on the normalised `un`, `vn`. -/
def divrem_main (n : Nat) (vn : List Nat) : Nat → List Nat → List Nat → Option (List Nat × List Nat)
  | 0, un, q => some (un, q)
  | j + 1, un, q =>
    if vn.getD (n - 1) 0 = 0 then none
    else do
      let num := (un.getD (j + n) 0 * 2 ^ 32 + un.getD (j + n - 1) 0) % 2 ^ 64
      let qhat0 := num / vn.getD (n - 1) 0
      let rhat0 := to_limb2 ((num : Int) - ((qhat0 * vn.getD (n - 1) 0 % 2 ^ 64 : Nat) : Int))
      let (qhat, _) ← divrem_again (vn.getD (n - 1) 0) (vn.getD (n - 2) 0)
        (un.getD (j + n - 2) 0) (qhat0 + 1) qhat0 rhat0
      let ms := divrem_mulsub qhat j 0 vn un 0
      let t := to_int64 (to_limb2 ((ms.1.getD (j + n) 0 : Int) - (ms.2 : Int)))
      let un1 := ms.1.set (j + n) (to_limb t)
      let q1 := q.set j (qhat % 2 ^ 32)
      if t < 0 then
        let ab := divrem_addback j 0 vn un1 0
        divrem_main n vn j
          (ab.1.set (j + n) ((ab.1.getD (j + n) 0 + ab.2) % 2 ^ 32))
          (q1.set j (to_limb ((q1.getD j 0 : Int) - 1)))
      else divrem_main n vn j un1 q1

/-- The method `divrem` (base 2^limb_bits division): the pair `(quotient, remainder)`.
No result when a `resize` exceeds `max_size` (the `size_t` expression `m - n + 1` wraps
for `m + 1 < n`) or when a shift count is outside `0 .. 31`. The counter of the single
digit loop is the `int` conversion of `m - 1`: the loop visits the limbs `j .. 0` for a
non-negative `j` and none otherwise, the other quotient limbs staying zero. -/
def divrem (self divisor : nat) : Option (nat × nat) :=
  let m := self.limbs.length
  let n := divisor.limbs.length
  let qsize := max (to_limb2 ((m : Int) - (n : Int) + 1)) 1
  if qsize > vector_max_size then none
  else
    let q := vec_resize [0] qsize
    let r := vec_resize [0] n
    let u := self.limbs
    let v := divisor.limbs
    if m < n ∨ n ≤ 0 ∨ v.getD (n - 1) 0 = 0 then some (⟨q⟩, ⟨r⟩)
    else if n = 1 then
      let count := (to_int (m - 1) + 1).toNat
      let d := divrem_short (v.getD 0 0) (u.take count).reverse 0
      some (⟨d.1.reverse ++ List.replicate (qsize - count) 0⟩, ⟨r.set 0 (d.2 % 2 ^ 32)⟩)
    else do
      let s : Int := (clz32 (v.getD (n - 1) 0) : Int) - 32
      let vn ← (List.range n).mapM (divrem_norm v s)
      let un_top ← shr32 (u.getD (m - 1) 0) (32 - s)
      let un_low ← (List.range m).mapM (divrem_norm u s)
      let (un, q1) ← divrem_main n vn (m - n + 1) (un_low ++ [un_top]) q
      let r1 ← (List.range n).mapM (fun i => do
        let a ← shr32 (un.getD i 0) s
        let b ← shl32 (un.getD (i + 1) 0) (32 - s)
        pure (a ||| b))
      pure (contract ⟨q1⟩, contract ⟨r1⟩)

/-- The operator `/` (division quotient). -/
def op_div (self divisor : nat) : Option nat := (divrem self divisor).map (fun qr => qr.1)

/-- The operator `%` (division remainder). -/
def op_rem (self divisor : nat) : Option nat := (divrem self divisor).map (fun qr => qr.2)

end nat

/-! ## nat-compiler.h: nodes and compiler state -/

/-- Tree node opcodes: `enum op`. -/
inductive op
  | op_none | op_const_int | op_var | op_setvar | op_ssareg | op_phyreg | op_setreg
  | op_imm | op_mi | op_li | op_and | op_or | op_xor | op_seq | op_sne | op_slt | op_sle
  | op_sgt | op_sge | op_srl | op_srli | op_sll | op_slli | op_add | op_addi | op_sub
  | op_mul | op_div | op_rem | op_not | op_neg
deriving DecidableEq, Repr

/-- A register reference `struct reg` with its two subclasses `ssareg` and `phyreg`. -/
inductive reg
  | ssareg (l : Nat)
  | phyreg (l : Nat)
deriving DecidableEq, Repr

/-- The register number: field `reg::l`. -/
def reg.l : reg → Nat
  | .ssareg l => l
  | .phyreg l => l

/-- Tree nodes: `struct node` and its subclasses; the typecode of a node is its constructor.
`setreg.v` is the attached variable name, `mi` a backend machine instruction. -/
inductive node
  | const_int (r : nat)
  | unaryop (opcode : op) (l : node)
  | binaryop (opcode : op) (l r : node)
  | var (l : String)
  | setvar (l : String) (r : node)
  | ssareg (l : Nat)
  | phyreg (l : Nat)
  | setreg (l : reg) (r : node) (v : Option String)
  | imm (r : Int)
  | mi (text : String)
deriving DecidableEq, Repr

/-- The field `node::opcode`, as set by the constructors. -/
def node.opcode : node → op
  | .const_int _ => .op_const_int
  | .unaryop opcode _ => opcode
  | .binaryop opcode _ _ => opcode
  | .var _ => .op_var
  | .setvar _ _ => .op_setvar
  | .ssareg _ => .op_ssareg
  | .phyreg _ => .op_phyreg
  | .setreg _ _ _ => .op_setreg
  | .imm _ => .op_imm
  | .mi _ => .op_mi

/-- The list type `node_list`. -/
abbrev node_list := List node

/-- What the compiler asks of `target::backend` (declared in nat-target.h, which is not
among the sources): `reg_order` is the array `get_reg_order()` returns, ended by a zero,
and `reg_class_rs r` says whether `get_reg_class()[r] == target::rs`. -/
structure backend where
  reg_order : List Nat
  reg_class_rs : Nat → Bool

/-- How a run without a result ended. -/
inductive fault
  | fatal (msg : String)
  | undefined
  | abort
  | fuel
deriving DecidableEq, Repr

/-- The compiler state: `struct compiler`. -/
structure compiler where
  nodes : node_list
  var_name : String → Option node
  var_ssa : String → Option Nat
  reg_free : List Nat
  reg_used : List (Nat × Nat)
  reg_values : Nat → Option nat
  ssaregcount : Nat
  phyregcount : Nat
  def_use_ssa : List Char
  def_use_phy : List Char
  target : backend

/-- Operators that `nat-compiler.cc` applies to numbers and `nat.h` does not define:
`^`, `~` and unary `-`. -/
structure ext_ops where
  op_xor : nat → nat → Option nat
  op_not : nat → Option nat
  op_neg : nat → Option nat

/-- Lookup in a `std::map<size_t,size_t>` kept as a key-sorted list. -/
def map_find (m : List (Nat × Nat)) (k : Nat) : Option Nat :=
  (m.find? (fun e => e.1 == k)).map (fun e => e.2)

/-- Assignment `m[k] = v` in a `std::map<size_t,size_t>` kept as a key-sorted list. -/
def map_set : List (Nat × Nat) → Nat → Nat → List (Nat × Nat)
  | [], k, v => [(k, v)]
  | (k1, v1) :: rest, k, v =>
    if k < k1 then (k, v) :: (k1, v1) :: rest
    else if k = k1 then (k, v) :: rest
    else (k1, v1) :: map_set rest k v

/-- Update of a lookup function at one key. -/
def fn_set {κ ν : Type} [DecidableEq κ] (m : κ → Option ν) (k : κ) (v : ν) : κ → Option ν :=
  fun x => if x = k then some v else m x

/-- Failure of a numeric operation, seen from the evaluator. -/
def lift_num {α : Type} (o : Option α) : Except fault α :=
  match o with
  | some a => .ok a
  | none => .error .abort

namespace compiler

/-- The constructor `compiler()` for a given default backend. -/
def ctor (target : backend) : compiler :=
  { nodes := [], var_name := fun _ => none, var_ssa := fun _ => none, reg_free := [],
    reg_used := [], reg_values := fun _ => none, ssaregcount := 0, phyregcount := 31,
    def_use_ssa := [], def_use_phy := [], target := target }

/-- The method `set_variable`: a new `setvar` node, recorded as the variable's node. -/
def set_variable (d : compiler) (name : String) (r : node) : node × compiler :=
  (.setvar name r, { d with var_name := fn_set d.var_name name (.setvar name r) })

/-- The method `get_variable`: fatal error for a name without an entry in `var_name`. -/
def get_variable (d : compiler) (name : String) : Except fault node :=
  match d.var_name name with
  | none => .error (.fatal ("unknown variable: " ++ name))
  | some _ => .ok (.var name)

/-- The method `add_toplevel`. -/
def add_toplevel (d : compiler) (n : node) : compiler :=
  { d with nodes := d.nodes ++ [n] }

end compiler

/-! ## nat-compiler.cc: evaluation -/

/-- Binary operator table of `binaryop::eval`; `none` for an opcode the switch leaves to
`default`. A shift count is the `int` conversion of `limb_at(0)` of the right value. -/
def eval_binary (X : ext_ops) (opcode : op) (a b : nat) : Option (Option nat) :=
  match opcode with
  | .op_and => some (some (nat.op_and a b))
  | .op_or => some (some (nat.op_or a b))
  | .op_xor => some (X.op_xor a b)
  | .op_seq => some (some (nat.of_limb (if nat.op_eq a b then 1 else 0)))
  | .op_sne => some (some (nat.of_limb (if nat.op_ne a b then 1 else 0)))
  | .op_slt => some (some (nat.of_limb (if nat.op_lt a b then 1 else 0)))
  | .op_sle => some (some (nat.of_limb (if nat.op_le a b then 1 else 0)))
  | .op_sgt => some (some (nat.of_limb (if nat.op_gt a b then 1 else 0)))
  | .op_sge => some (some (nat.of_limb (if nat.op_ge a b then 1 else 0)))
  | .op_srl => some (nat.op_shr a (to_int (b.limb_at 0)))
  | .op_srli => some (nat.op_shr a (to_int (b.limb_at 0)))
  | .op_sll => some (nat.op_shl a (to_int (b.limb_at 0)))
  | .op_slli => some (nat.op_shl a (to_int (b.limb_at 0)))
  | .op_add => some (some (nat.op_add a b))
  | .op_sub => some (nat.op_sub a b)
  | .op_mul => some (some (nat.op_mul a b))
  | .op_div => some (nat.op_div a b)
  | .op_rem => some (nat.op_rem a b)
  | _ => none

/-- Whether `binaryop::eval` has a case for the opcode. -/
def is_binary_op (opcode : op) : Bool :=
  match opcode with
  | .op_and | .op_or | .op_xor | .op_seq | .op_sne | .op_slt | .op_sle | .op_sgt | .op_sge
  | .op_srl | .op_srli | .op_sll | .op_slli | .op_add | .op_sub | .op_mul | .op_div
  | .op_rem => true
  | _ => false

/-- The virtual method `eval` of every node class. The first argument bounds the depth of
the recursion (`var::eval` follows `var_name`, so the recursion is not structural); running
out of it is the fault `fuel`. The operands of a binary operator are evaluated left to
right. Assigning to the local `v` and returning by value copy (and `contract`) the number. -/
def node.eval (X : ext_ops) : Nat → node → compiler → Except fault (nat × compiler)
  | 0, _, _ => .error .fuel
  | fuel + 1, n, d =>
    match n with
    | .const_int r => .ok (nat.copy r, d)
    | .unaryop opcode l =>
      match opcode with
      | .op_li => do
        let (a, d1) ← node.eval X fuel l d
        pure (nat.copy a, d1)
      | .op_not => do
        let (a, d1) ← node.eval X fuel l d
        let v ← lift_num (X.op_not a)
        pure (nat.copy v, d1)
      | .op_neg => do
        let (a, d1) ← node.eval X fuel l d
        let v ← lift_num (X.op_neg a)
        pure (nat.copy v, d1)
      | _ => .ok (nat.of_limb 0, d)
    | .binaryop opcode l r =>
      if is_binary_op opcode then do
        let (a, d1) ← node.eval X fuel l d
        let (b, d2) ← node.eval X fuel r d1
        match eval_binary X opcode a b with
        | some res => do
          let v ← lift_num res
          pure (nat.copy v, d2)
        | none => pure (nat.of_limb 0, d2)
      else .ok (nat.of_limb 0, d)
    | .var l =>
      match d.var_name l with
      | some bound => node.eval X fuel bound d
      | none => .ok (nat.of_limb 0, d)
    | .setvar l r => node.eval X fuel r { d with var_name := fn_set d.var_name l r }
    | .phyreg l =>
      match d.reg_values l with
      | some v => .ok (nat.copy v, d)
      | none => .ok (nat.of_limb 0, d)
    | .setreg l r _ => do
      let (val, d1) ← node.eval X fuel r d
      pure (nat.copy val, { d1 with reg_values := fn_set d1.reg_values l.l (nat.copy val) })
    | .imm r => .ok (nat.of_limb r, d)
    | .ssareg _ => .ok (nat.of_limb 0, d)
    | .mi _ => .ok (nat.of_limb 0, d)

/-- Loop of `compiler::run(opcode)`: evaluate, in sequence order, the nodes whose opcode
is the requested `op_setvar` or `op_setreg`, and collect the numbers it prints. -/
def run_loop (X : ext_ops) (fuel : Nat) (opcode : op) :
    node_list → compiler → Except fault (List nat × compiler)
  | [], d => .ok ([], d)
  | n :: rest, d =>
    if n.opcode = opcode ∧ (opcode = .op_setvar ∨ opcode = .op_setreg) then do
      let (num, d1) ← node.eval X fuel n d
      let (nums, d2) ← run_loop X fuel opcode rest d1
      pure (num :: nums, d2)
    else run_loop X fuel opcode rest d

/-- The method `compiler::run(opcode)`. -/
def compiler.run (X : ext_ops) (fuel : Nat) (opcode : op) (d : compiler) :
    Except fault (List nat × compiler) :=
  run_loop X fuel opcode d.nodes d

/-! ## nat-compiler.cc: lowering to single static assignment form -/

/-- The method `compiler::lower_reg`: the register of the last node of a lowered list. A
trailing bare `ssareg` is popped, a trailing `setreg` stays. An empty list (`back()` of an
empty vector) and a node whose opcode does not match its class are undefined behaviour. -/
def compiler.lower_reg (l : node_list) : Except fault (Nat × node_list) :=
  match l.getLast? with
  | none => .error .undefined
  | some (.ssareg ssaregnum) => .ok (ssaregnum, l.dropLast)
  | some (.setreg dst _ _) => .ok (dst.l, l)
  | some n =>
    if n.opcode = .op_ssareg ∨ n.opcode = .op_setreg then .error .undefined
    else .error (.fatal "expected reg or setreg node")

/-- The virtual method `lower` of every node class: the lowered list and the new state.
`setvar::lower` casts the last lowered node to `setreg`; when that node is a bare `ssareg`
(the right-hand side is a variable read) or the list is empty the cast is undefined. -/
def node.lower : node → compiler → Except fault (node_list × compiler)
  | .unaryop opcode l, d => do
    let (ll, d1) ← node.lower l d
    let (lreg, ll1) ← compiler.lower_reg ll
    let sr := node.setreg (.ssareg d1.ssaregcount) (.unaryop opcode (.ssareg lreg)) none
    pure (ll1 ++ [sr], { d1 with ssaregcount := d1.ssaregcount + 1 })
  | .binaryop opcode l r, d =>
    if (opcode = .op_srl ∨ opcode = .op_sll) ∧ r.opcode = .op_const_int then
      match r with
      | .const_int c => do
        let imm_opcode := if opcode = .op_srl then op.op_srli else op.op_slli
        let (ll, d1) ← node.lower l d
        let (lreg, ll1) ← compiler.lower_reg ll
        let rimm := node.imm (to_int (c.limb_at 0))
        let sr := node.setreg (.ssareg d1.ssaregcount) (.binaryop imm_opcode (.ssareg lreg) rimm) none
        pure (ll1 ++ [sr], { d1 with ssaregcount := d1.ssaregcount + 1 })
      | _ => .error .undefined
    else do
      let (ll, d1) ← node.lower l d
      let (rl, d2) ← node.lower r d1
      let (lreg, ll1) ← compiler.lower_reg ll
      let (rreg, rl1) ← compiler.lower_reg rl
      let sr := node.setreg (.ssareg d2.ssaregcount) (.binaryop opcode (.ssareg lreg) (.ssareg rreg)) none
      pure (ll1 ++ rl1 ++ [sr], { d2 with ssaregcount := d2.ssaregcount + 1 })
  | .const_int r, d =>
    let sr := node.setreg (.ssareg d.ssaregcount) (.unaryop .op_li (.imm (to_int (r.limb_at 0)))) none
    .ok ([sr], { d with ssaregcount := d.ssaregcount + 1 })
  | .var l, d =>
    match d.var_ssa l with
    | some ssaregnum => .ok ([.ssareg ssaregnum], d)
    | none => .ok ([.ssareg 0], { d with var_ssa := fn_set d.var_ssa l 0 })
  | .setvar l r, d => do
    let (rl, d1) ← node.lower r d
    match rl.getLast? with
    | some (.setreg dst rhs _) =>
      pure (rl.dropLast ++ [.setreg dst rhs (some l)],
        { d1 with var_ssa := fn_set d1.var_ssa l dst.l })
    | _ => .error .undefined
  | _, d => .ok ([], d)

/-- Loop of `compiler::lower` over the old sequence, appending to `new_nodes`. -/
def compiler.lower_loop : node_list → node_list → compiler → Except fault (node_list × compiler)
  | [], new_nodes, d => .ok (new_nodes, d)
  | n :: rest, new_nodes, d =>
    if n.opcode = .op_setvar then do
      let (lowered, d1) ← node.lower n d
      compiler.lower_loop rest (new_nodes ++ [n] ++ lowered) d1
    else compiler.lower_loop rest (new_nodes ++ [n]) d

/-- First part of `compiler::lower`: lower every `setvar` and replace `nodes`. -/
def compiler.lower_nodes (d : compiler) : Except fault compiler := do
  let (new_nodes, d1) ← compiler.lower_loop d.nodes [] d
  pure { d1 with nodes := new_nodes }

/-! ## nat-compiler.cc: def-use analysis -/

/-- Whether a top-level node carries `op_setreg` without being a `setreg`; the casts of the
analysis and of the allocator are undefined on such a node. -/
def bad_setreg (n : node) : Bool :=
  match n with
  | .setreg _ _ _ => false
  | other => other.opcode == .op_setreg

/-- The backward loop of `use_ssa_scan`: `k` runs from `j - 1` down to `i + 1`, marking
blank cells with `|` and stopping at the first cell that is not blank. -/
def scan_back (cols defreg : Nat) : Nat → Nat → List Char → List Char
  | 0, _, m => m
  | steps + 1, k, m =>
    if m.getD (k * cols + defreg) ' ' = ' ' then
      scan_back cols defreg steps (k - 1) (m.set (k * cols + defreg) '|')
    else m

/-- The method `compiler::use_ssa_scan` on the matrix `def_use_ssa` with `cols` columns. -/
def use_ssa_scan (cols : Nat) (nr : node) (i j defreg : Nat) (m : List Char) : List Char :=
  match nr with
  | .ssareg usereg =>
    if usereg ≠ defreg then m
    else scan_back cols defreg (j - 1 - i) (j - 1) (m.set (j * cols + defreg) '+')
  | _ => m

/-- Body of the inner loop of `def_use_ssa_analysis` for the use row `j`. -/
def use_row (nodes : node_list) (cols i defreg : Nat) (m : List Char) (j : Nat) : List Char :=
  match nodes.get? j with
  | some (.setreg _ (.unaryop _ l) _) => use_ssa_scan cols l i j defreg m
  | some (.setreg _ (.binaryop _ l r) _) =>
    use_ssa_scan cols r i j defreg (use_ssa_scan cols l i j defreg m)
  | _ => m

/-- Body of the outer loop of `def_use_ssa_analysis` for the definition row `i`. -/
def def_row (nodes : node_list) (cols : Nat) (m : List Char) (i : Nat) : List Char :=
  match nodes.get? i with
  | some (.setreg dst _ _) =>
    (List.range' (i + 1) (nodes.length - (i + 1))).foldl (use_row nodes cols i dst.l)
      (m.set (i * cols + dst.l) 'v')
  | _ => m

/-- The method `compiler::def_use_ssa_analysis`. -/
def compiler.def_use_ssa_analysis (d : compiler) : Except fault compiler :=
  if d.nodes.any bad_setreg then .error .undefined
  else
    let blank := List.replicate (d.nodes.length * d.ssaregcount) ' '
    .ok { d with
      def_use_ssa := (List.range d.nodes.length).foldl (def_row d.nodes d.ssaregcount) blank }

/-! ## nat-compiler.cc: register allocation -/

/-- The loop "free unused physical registers" of `allocate_registers` at row `i`, over the
entries of `reg_used` in key order. Returns the entries kept, the registers freed (in the
order they were freed) and the matrix `def_use_phy`. -/
def reclaim_loop (d : compiler) (i : Nat) :
    List (Nat × Nat) → List Char → List (Nat × Nat) × List Nat × List Char
  | [], phy => ([], [], phy)
  | (ssaregnum, phyregnum) :: rest, phy =>
    let c := d.def_use_ssa.getD (i * d.ssaregcount + ssaregnum) ' '
    let r := reclaim_loop d i rest (phy.set (i * d.phyregcount + phyregnum) c)
    if c = ' ' then (r.1, phyregnum :: r.2.1, r.2.2)
    else ((ssaregnum, phyregnum) :: r.1, r.2.1, r.2.2)

/-- The expression `reg_used[ssaregnum]`: the entry, created with value 0 when missing. -/
def reg_used_at (m : List (Nat × Nat)) (ssaregnum : Nat) : Nat × List (Nat × Nat) :=
  match map_find m ssaregnum with
  | some phyregnum => (phyregnum, m)
  | none => (0, map_set m ssaregnum 0)

/-- Replacement of one operand in "replace ssa registers with physical registers". -/
def rewrite_operand (m : List (Nat × Nat)) (n : node) : node × List (Nat × Nat) :=
  match n with
  | .ssareg ssaregnum => (.phyreg (reg_used_at m ssaregnum).1, (reg_used_at m ssaregnum).2)
  | other => (other, m)

/-- The step "replace ssa registers with physical registers" on a right-hand side. -/
def rewrite_rhs (m : List (Nat × Nat)) (n : node) : node × List (Nat × Nat) :=
  match n with
  | .unaryop opcode l =>
    let a := rewrite_operand m l
    (.unaryop opcode a.1, a.2)
  | .binaryop opcode l r =>
    let a := rewrite_operand m l
    let b := rewrite_operand a.2 r
    (.binaryop opcode a.1 b.1, b.2)
  | other => (other, m)

/-- Body of the main loop of `allocate_registers` for the `setreg` at row `i`. The iterator
`rfi` is `reg_free.begin()` taken before the reclaim loop. The first `insert(rfi, ..)` of a
row puts the freed register at the front of the queue; `std::deque::insert` invalidates
`rfi`, and the later inserts of the same row go through it all the same, so the place of
the registers freed after the first is not fixed by the source. Here they are kept behind
the first freed register and in front of the old queue, in the order they were freed; what
is stated about the allocator rests on the front register and on the members of the queue,
not on the order of the registers behind the front. -/
def alloc_row (d : compiler) (i : Nat) (dst : reg) (rhs : node) (v : Option String) :
    Except fault compiler :=
  let rc := reclaim_loop d i d.reg_used d.def_use_phy
  let reg_free := rc.2.1 ++ d.reg_free
  let rw := rewrite_rhs rc.1 rhs
  match reg_free with
  | [] => .error (.fatal "register spilling not implemented")
  | phyregnum :: free_rest =>
    if d.target.reg_class_rs phyregnum then .error (.fatal "register spilling not implemented")
    else .ok { d with
      nodes := d.nodes.set i (.setreg (.phyreg phyregnum) rw.1 v),
      reg_free := free_rest,
      reg_used := map_set rw.2 dst.l phyregnum,
      def_use_phy :=
        rc.2.2.set (i * d.phyregcount + phyregnum) (d.def_use_ssa.getD (i * d.ssaregcount + dst.l) ' ') }

/-- Main loop of `allocate_registers` over the rows `i = length - todo .. length - 1`. -/
def alloc_loop : Nat → compiler → Except fault compiler
  | 0, d => .ok d
  | todo + 1, d =>
    match d.nodes.get? (d.nodes.length - (todo + 1)) with
    | some (.setreg dst rhs v) => do
      let d1 ← alloc_row d (d.nodes.length - (todo + 1)) dst rhs v
      alloc_loop todo d1
    | _ => alloc_loop todo d

/-- The registers read from `get_reg_order()` up to the zero that ends the array. -/
def backend.order (t : backend) : List Nat := t.reg_order.takeWhile (fun r => r ≠ 0)

/-- The method `compiler::allocate_registers`. -/
def compiler.allocate_registers (d : compiler) : Except fault compiler :=
  if d.nodes.any bad_setreg then .error .undefined
  else
    alloc_loop d.nodes.length { d with
      def_use_phy := List.replicate (d.nodes.length * d.phyregcount) (Char.ofNat 0),
      reg_values := d.target.order.foldl (fun m r => fn_set m r (nat.of_limb 0)) d.reg_values,
      reg_free := d.reg_free ++ d.target.order }

/-- The method `compiler::lower(regalloc)`. -/
def compiler.lower (regalloc : Bool) (d : compiler) : Except fault compiler := do
  let d1 ← compiler.lower_nodes d
  let d2 ← compiler.def_use_ssa_analysis d1
  if regalloc then compiler.allocate_registers d2 else pure d2

/-! ## Vocabulary of the statements -/

/-- Destination register numbers of the `setreg` nodes of a sequence, in sequence order. -/
def setreg_dests : node_list → List Nat
  | [] => []
  | .setreg dst _ _ :: rest => dst.l :: setreg_dests rest
  | _ :: rest => setreg_dests rest

/-- An instance of the operators missing from `nat.h`, for closed examples: none of the
three yields a result. -/
def ext_absent : ext_ops :=
  { op_xor := fun _ _ => none, op_not := fun _ => none, op_neg := fun _ => none }

/-- A backend for closed examples: seven registers, none of them reserved. -/
def sample_backend : backend :=
  { reg_order := [5, 6, 7, 28, 29, 30, 31, 0], reg_class_rs := fun _ => false }

/-- Modelled from the spec: the calls the front end (the parser, which is not among the
sources) makes for a sequence of top-level statements: `set_variable` for an assignment,
then `add_toplevel`. -/
def compiler.front_end : node_list → compiler → compiler
  | [], d => d
  | .setvar name r :: rest, d =>
    compiler.front_end rest ((d.set_variable name r).2.add_toplevel (d.set_variable name r).1)
  | n :: rest, d => compiler.front_end rest (d.add_toplevel n)

/-- The state of a fresh compiler after the front end has read a program. -/
def compiler.of_program (target : backend) (prog : node_list) : compiler :=
  compiler.front_end prog (compiler.ctor target)

/-- The example program `x = 3; y = x << 2; z = y + 5;`. -/
def example_program : node_list :=
  [.setvar "x" (.const_int (nat.of_limb 3)),
   .setvar "y" (.binaryop .op_sll (.var "x") (.const_int (nat.of_limb 2))),
   .setvar "z" (.binaryop .op_add (.var "y") (.const_int (nat.of_limb 5)))]

/-- The sequence `compiler::lower` makes of `example_program`: every `setvar` is followed by
the `setreg` nodes it lowers to. -/
def example_lowered_nodes : node_list :=
  [.setvar "x" (.const_int (nat.of_limb 3)),
   .setreg (.ssareg 0) (.unaryop .op_li (.imm 3)) (some "x"),
   .setvar "y" (.binaryop .op_sll (.var "x") (.const_int (nat.of_limb 2))),
   .setreg (.ssareg 1) (.binaryop .op_slli (.ssareg 0) (.imm 2)) (some "y"),
   .setvar "z" (.binaryop .op_add (.var "y") (.const_int (nat.of_limb 5))),
   .setreg (.ssareg 2) (.unaryop .op_li (.imm 5)) none,
   .setreg (.ssareg 3) (.binaryop .op_add (.ssareg 1) (.ssareg 2)) (some "z")]

/-- The state `compiler::lower(false)` leaves for `example_program`. -/
def example_lowered (target : backend) : compiler :=
  { compiler.of_program target example_program with
    nodes := example_lowered_nodes,
    var_ssa := fn_set (fn_set (fn_set (fun _ => none) "x" 0) "y" 1) "z" 3,
    ssaregcount := 4,
    def_use_ssa := "    v   |   +v   |   |v  ++v".toList }

/-- An operand of a lowered right-hand side under destination number `a`: an immediate, or
an SSA register whose number is at most `a`. -/
def operand_ok (a : Nat) : node → Bool
  | .ssareg u => decide (u ≤ a)
  | .imm _ => true
  | _ => false

/-- A lowered instruction: a `setreg` of an SSA register to a unary or binary operation whose
operands are immediates or SSA registers numbered at most like the destination. -/
def row_ok : node → Bool
  | .setreg (.ssareg a) (.unaryop _ x) _ => operand_ok a x
  | .setreg (.ssareg a) (.binaryop _ x y) _ => operand_ok a x && operand_ok a y
  | _ => false

/-- A node of a lowered sequence: a lowered instruction or an assignment of the program. -/
def seq_node_ok : node → Bool
  | .setvar _ _ => true
  | n => row_ok n

/-- A sequence is in SSA form with `count` registers when its nodes are assignments and
lowered instructions and the destinations of the instructions are `0, 1, .., count - 1`
in this order. -/
def ssa_form (nodes : node_list) (count : Nat) : Prop :=
  (∀ n ∈ nodes, seq_node_ok n = true) ∧ setreg_dests nodes = List.range count

/-- The cell `def_use_ssa[i * ssaregcount + r]` of a compiler state (blank when the index
is outside the matrix). -/
def compiler.cell (d : compiler) (i r : Nat) : Char :=
  d.def_use_ssa.getD (i * d.ssaregcount + r) ' '

/-- The three shapes of a list returned by `lower`: empty, a single bare SSA register
numbered at most `bound`, or a non-empty list of lowered instructions. -/
def lowered_shape (L : node_list) (bound : Nat) : Prop :=
  L = [] ∨ (∃ u, L = [.ssareg u] ∧ u ≤ bound) ∨ (L ≠ [] ∧ ∀ x ∈ L, row_ok x = true)

/-- The cell in row `k`, column `a` of a flat matrix with `c` columns. -/
def mcell (c : Nat) (m : List Char) (k a : Nat) : Char := m.getD (k * c + a) ' '

/-- Column `r` of a matrix is non-blank exactly on the rows `lo .. hi`. -/
def col_range (c : Nat) (m : List Char) (r lo hi : Nat) : Prop :=
  (∀ k, lo ≤ k → k ≤ hi → mcell c m k r ≠ ' ') ∧ (∀ k, k < lo ∨ hi < k → mcell c m k r = ' ')

/-- Whether a node is a `setreg` whose unary or binary right-hand side has the SSA register
`r` as a direct operand: the uses `def_use_ssa_analysis` looks for. -/
def uses_reg (r : Nat) : node → Bool
  | .setreg _ (.unaryop _ l) _ => l == .ssareg r
  | .setreg _ (.binaryop _ l r1) _ => l == .ssareg r || r1 == .ssareg r
  | _ => false

/-- Column `r` holds the live range of a register defined at row `k`: it is non-blank
exactly from `k` to some row `hi`, which is `k` itself or a row using `r`, and no row after
`hi` uses `r`. -/
def col_done (nodes : node_list) (c : Nat) (m : List Char) (r k : Nat) : Prop :=
  ∃ hi, k ≤ hi ∧ hi < nodes.length ∧ col_range c m r k hi ∧
    (hi = k ∨ ∃ nd, nodes.get? hi = some nd ∧ uses_reg r nd = true) ∧
    ∀ j nd, k < j → nodes.get? j = some nd → uses_reg r nd = true → j ≤ hi

/-- State of column `r` while the inner loop of `def_use_ssa_analysis` for the definition
row `i` has visited the rows below `j`, starting from the matrix `m0`. -/
def scan_inv (nodes : node_list) (c n r i : Nat) (m0 : List Char) (j : Nat)
    (m : List Char) : Prop :=
  m.length = n * c ∧
  (∀ x y, y < c → y ≠ r → mcell c m x y = mcell c m0 x y) ∧
  ∃ hi, i ≤ hi ∧ hi < j ∧ col_range c m r i hi ∧
    (hi = i ∨ ∃ nd, nodes.get? hi = some nd ∧ uses_reg r nd = true) ∧
    ∀ j1 nd, i < j1 → j1 < j → nodes.get? j1 = some nd → uses_reg r nd = true → j1 ≤ hi

/-- Number of `setreg` nodes before row `k`. -/
def rank (nodes : node_list) (k : Nat) : Nat := (setreg_dests (nodes.take k)).length

/-- State of the matrix when the outer loop of `def_use_ssa_analysis` has visited the rows
below `i`: the column of a register defined below `i` holds its live range, every other
column is blank. -/
def analysis_inv (nodes : node_list) (c i : Nat) (m : List Char) : Prop :=
  m.length = nodes.length * c ∧
  ∀ r, r < c →
    (∀ k dst rhs v, k < i → nodes.get? k = some (.setreg dst rhs v) → dst.l = r →
      col_done nodes c m r k) ∧
    ((∀ k dst rhs v, k < i → nodes.get? k = some (.setreg dst rhs v) → dst.l ≠ r) →
      ∀ x, mcell c m x r = ' ')

/-- What is recorded about the `setreg` row `k` (`setreg dst rhs v` in the sequence the
allocator started from) once the allocator has passed it. `h j` is the used map when the
rows below `j` have been handled, so `h k` is the map before row `k` and `h (k + 1)` the map
after it. The map after the row has distinct keys, at most as many entries as there are
registers, distinct values when the registers are distinct, an entry for every SSA register
with a non-blank cell in row `k`, and every entry `(a, p)` names the register `p` that the
definition row of `a` has received. It is the map of the entries kept by the reclaim loop
with the destination bound to a register `p`; the kept entries bind every operand of the row
other than the destination itself; and the row has become the `setreg` of `p` to the
right-hand side rewritten with the kept entries. -/
def row_hist (nodes0 : node_list) (m : List Char) (c : Nat) (free0 : List Nat)
    (nodes : node_list) (h : Nat → List (Nat × Nat)) (k : Nat) (dst : reg) (rhs : node)
    (v : Option String) : Prop :=
  ((h (k + 1)).map Prod.fst).Nodup ∧ (h (k + 1)).length ≤ free0.length ∧
  (free0.Nodup → ((h (k + 1)).map Prod.snd).Nodup) ∧
  (∀ a, a < c → mcell c m k a ≠ ' ' → ∃ p, (a, p) ∈ h (k + 1)) ∧
  (∀ a p, (a, p) ∈ h (k + 1) → ∃ ka rhs1 v1, ka ≤ k ∧ rank nodes0 ka = a ∧
    (∃ dst0 rhs0 v0, nodes0.get? ka = some (.setreg dst0 rhs0 v0)) ∧
    nodes.get? ka = some (.setreg (.phyreg p) rhs1 v1)) ∧
  ∃ p, h (k + 1) =
      map_set ((h k).filter (fun e => decide (mcell c m k e.1 ≠ ' '))) dst.l p ∧
    dst.l ∉ ((h k).filter (fun e => decide (mcell c m k e.1 ≠ ' '))).map Prod.fst ∧
    (∀ u, uses_reg u (.setreg dst rhs v) = true →
      u = dst.l ∨ ∃ q, (u, q) ∈ (h k).filter (fun e => decide (mcell c m k e.1 ≠ ' '))) ∧
    nodes.get? k = some (.setreg (.phyreg p)
      (rewrite_rhs ((h k).filter (fun e => decide (mcell c m k e.1 ≠ ' '))) rhs).1 v)

/-- Invariant of the main loop of `allocate_registers` before row `i`, for the sequence
`nodes0` and matrix `m` it started from and the free queue `free0` it started with. -/
def alloc_inv (nodes0 : node_list) (m : List Char) (c : Nat) (free0 : List Nat) (i : Nat)
    (d : compiler) : Prop :=
  d.nodes.length = nodes0.length ∧
  (∀ k, i ≤ k → d.nodes.get? k = nodes0.get? k) ∧
  d.def_use_ssa = m ∧ d.ssaregcount = c ∧
  (d.reg_used.map Prod.fst).Nodup ∧
  (d.reg_used.map Prod.snd ++ d.reg_free).Perm free0 ∧
  (∀ a p, (a, p) ∈ d.reg_used → ∃ k rhs v, k < i ∧ rank nodes0 k = a ∧
    (∃ dst0 rhs0 v0, nodes0.get? k = some (.setreg dst0 rhs0 v0)) ∧
    d.nodes.get? k = some (.setreg (.phyreg p) rhs v)) ∧
  (∀ k dst rhs v, k < i → nodes0.get? k = some (.setreg dst rhs v) →
    (∀ k1 dst1 rhs1 v1, k < k1 → k1 < i → nodes0.get? k1 = some (.setreg dst1 rhs1 v1) →
      mcell c m k1 dst.l ≠ ' ') →
    ∃ p, (dst.l, p) ∈ d.reg_used) ∧
  ∃ h : Nat → List (Nat × Nat), h 0 = [] ∧ h i = d.reg_used ∧
    (∀ k dst rhs v, k < i → nodes0.get? k = some (.setreg dst rhs v) →
      row_hist nodes0 m c free0 d.nodes h k dst rhs v) ∧
    (∀ k, k < i → (∀ dst rhs v, nodes0.get? k ≠ some (.setreg dst rhs v)) →
      h (k + 1) = h k ∧ d.nodes.get? k = nodes0.get? k)

/-- The SSA register `a` has received the physical register `p`: the row that defines `a`
in the lowered sequence defines `p` in the allocated sequence. -/
def assigned (ssa_nodes alloc_nodes : node_list) (a p : Nat) : Prop :=
  ∃ k rhs v rhs1 v1, ssa_nodes.get? k = some (.setreg (.ssareg a) rhs v) ∧
    alloc_nodes.get? k = some (.setreg (.phyreg p) rhs1 v1)

/-- Two compiler states differ at most in the SSA counter, the renaming map `var_ssa` and
the sequence `nodes`: what lowering may change. -/
def same_frame (d d1 : compiler) : Prop :=
  d1.var_name = d.var_name ∧ d1.reg_free = d.reg_free ∧ d1.reg_used = d.reg_used ∧
  d1.reg_values = d.reg_values ∧ d1.phyregcount = d.phyregcount ∧
  d1.def_use_ssa = d.def_use_ssa ∧ d1.def_use_phy = d.def_use_phy ∧ d1.target = d.target

/-- Value of an operator tree whose leaves have the values `leaf` gives them: what
`unaryop::eval` and `binaryop::eval` compute when evaluating a leaf leaves the state alone.
`none` when a numeric operation has no result. -/
def pure_eval (X : ext_ops) (leaf : node → Option nat) : node → Option nat
  | .unaryop opcode l =>
    match opcode with
    | .op_li => (pure_eval X leaf l).map nat.copy
    | .op_not => (pure_eval X leaf l).bind (fun a => (X.op_not a).map nat.copy)
    | .op_neg => (pure_eval X leaf l).bind (fun a => (X.op_neg a).map nat.copy)
    | _ => some (nat.of_limb 0)
  | .binaryop opcode l r =>
    if is_binary_op opcode then
      (pure_eval X leaf l).bind (fun a => (pure_eval X leaf r).bind (fun b =>
        match eval_binary X opcode a b with
        | some res => res.map nat.copy
        | none => some (nat.of_limb 0)))
    else some (nat.of_limb 0)
  | .const_int r => leaf (.const_int r)
  | .var l => leaf (.var l)
  | .setvar l r => leaf (.setvar l r)
  | .ssareg l => leaf (.ssareg l)
  | .phyreg l => leaf (.phyreg l)
  | .setreg l r v => leaf (.setreg l r v)
  | .imm r => leaf (.imm r)
  | .mi t => leaf (.mi t)

/-- Leaves of a source expression: a literal has its normalised value, a variable the value
`env` gives it. -/
def ast_leaf (env : String → Option nat) : node → Option nat
  | .const_int c => some (nat.copy c)
  | .var x => env x
  | _ => none

/-- Leaves of a lowered right-hand side read in a table of SSA register values. -/
def ssa_leaf (vals : Nat → Option nat) : node → Option nat
  | .ssareg u => (vals u).map nat.copy
  | .imm r => some (nat.of_limb r)
  | _ => none

/-- Leaves of an allocated right-hand side, as `phyreg::eval` and `imm::eval` read them in
the map `reg_values`. -/
def phy_leaf (regs : Nat → Option nat) : node → Option nat
  | .phyreg p =>
    some (match regs p with
      | some v => nat.copy v
      | none => nat.of_limb 0)
  | .imm r => some (nat.of_limb r)
  | _ => none

/-- Source expressions: literals, variable reads, and the unary and binary operators the
evaluator has a case for. -/
def is_expr : node → Bool
  | .const_int _ => true
  | .var _ => true
  | .unaryop opcode l =>
    (opcode == .op_li || opcode == .op_not || opcode == .op_neg) && is_expr l
  | .binaryop opcode l r => is_binary_op opcode && is_expr l && is_expr r
  | _ => false

/-- The variables an expression reads. -/
def expr_vars : node → List String
  | .var x => [x]
  | .unaryop _ l => expr_vars l
  | .binaryop _ l r => expr_vars l ++ expr_vars r
  | _ => []

/-- The literals of an expression. -/
def expr_literals : node → List nat
  | .const_int c => [c]
  | .unaryop _ l => expr_literals l
  | .binaryop _ l r => expr_literals l ++ expr_literals r
  | _ => []

/-- A literal that fits in one machine word: normalised, it is a single limb below 2^32. -/
def small_literal (c : nat) : Prop := ∃ x, x < 2 ^ 32 ∧ nat.copy c = ⟨[x]⟩

/-- Whether no logical shift of the expression has a literal as its right operand (no shift
is folded to its immediate form by `binaryop::lower`). -/
def no_folded_shift : node → Bool
  | .unaryop _ l => no_folded_shift l
  | .binaryop opcode l r =>
    !((opcode == .op_srl || opcode == .op_sll) && r.opcode == .op_const_int) &&
      no_folded_shift l && no_folded_shift r
  | _ => true

/-- Modelled from the spec: the programs the front end (the parser, which is not among the
sources) accepts, given the names `known` to `var_name`: a sequence of assignments of
expressions, where every variable read is of a known name (`get_variable` is fatal
otherwise) and an assignment makes its name known to the statements after it
(`set_variable` is called when the right-hand side has been built). -/
def accepted : List String → node_list → Prop
  | _, [] => True
  | known, .setvar x e :: rest =>
    is_expr e = true ∧ (∀ y ∈ expr_vars e, y ∈ known) ∧ accepted (x :: known) rest
  | _, _ :: _ => False

/-- No assignment of the program assigns a name of `known` or a name assigned earlier in the
program: every variable is assigned at most once. -/
def single_assignment : List String → node_list → Prop
  | _, [] => True
  | known, .setvar x _ :: rest => x ∉ known ∧ single_assignment (x :: known) rest
  | known, _ :: rest => single_assignment known rest

/-- Every literal of the program fits in one machine word. -/
def small_literals (prog : node_list) : Prop :=
  ∀ x e, node.setvar x e ∈ prog → ∀ c ∈ expr_literals e, small_literal c

/-- No shift of the program is folded to its immediate form. -/
def no_folded_shifts (prog : node_list) : Prop :=
  ∀ x e, node.setvar x e ∈ prog → no_folded_shift e = true

/-- The values of the assignments of a program, in order, each expression being evaluated
with the variables assigned before it; `none` when an operation has no result. -/
def prog_den (X : ext_ops) : (String → Option nat) → node_list → Option (List nat)
  | _, [] => some []
  | env, .setvar x e :: rest =>
    (pure_eval X (ast_leaf env) e).bind (fun v =>
      (prog_den X (fn_set env x v) rest).map (fun vs => v :: vs))
  | env, _ :: rest => prog_den X env rest

/-- Evaluation of the `setreg` nodes of a sequence in SSA form, in order, each storing its
value under its destination number: the values in order and the final table. -/
def ssa_run (X : ext_ops) : node_list → (Nat → Option nat) →
    Option (List nat × (Nat → Option nat))
  | [], vals => some ([], vals)
  | .setreg dst rhs _ :: rest, vals =>
    (pure_eval X (ssa_leaf vals) rhs).bind (fun val =>
      (ssa_run X rest (fn_set vals dst.l (nat.copy val))).map
        (fun r => (nat.copy val :: r.1, r.2)))
  | _ :: rest, vals => ssa_run X rest vals

/-- The values, among those `run(op_setreg)` has printed for a sequence, of the `setreg`
nodes that carry a variable name. -/
def named_values : node_list → List nat → List nat
  | .setreg _ _ (some _) :: rest, v :: vs => v :: named_values rest vs
  | .setreg _ _ none :: rest, _ :: vs => named_values rest vs
  | .setreg _ _ _ :: _, [] => []
  | _ :: rest, vs => named_values rest vs
  | [], _ => []

/-- The evaluator's map `var_name` and the environment `env` agree on the names `known`:
each is bound to an expression over known names whose value is the one `env` gives, and
that value is normalised. -/
def ast_env (X : ext_ops) (vn : String → Option node) (env : String → Option nat)
    (known : List String) : Prop :=
  ∀ y ∈ known, ∃ e v, vn y = some e ∧ is_expr e = true ∧ (∀ z ∈ expr_vars e, z ∈ known) ∧
    pure_eval X (ast_leaf env) e = some v ∧ env y = some v ∧ nat.copy v = v

/-- The renaming map, the environment and the table of SSA values agree on the names
`known`: each has an SSA register below the counter that holds its value. -/
def ssa_env (d : compiler) (env : String → Option nat) (vals : Nat → Option nat)
    (known : List String) : Prop :=
  ∀ y ∈ known, ∃ u v, d.var_ssa y = some u ∧ u < d.ssaregcount ∧ env y = some v ∧
    vals u = some v ∧ nat.copy v = v

/-- The numbers `run(op_setvar)` prints for a program read by a fresh compiler: the value
of every assignment, in order. `none` when the run has no result. -/
def ast_values (X : ext_ops) (fuel : Nat) (target : backend) (prog : node_list) :
    Option (List nat) :=
  match compiler.run X fuel .op_setvar (compiler.of_program target prog) with
  | .ok r => some r.1
  | .error _ => none

/-- The numbers `run(op_setreg)` prints, after `lower(regalloc)`, for the `setreg` nodes
that carry a variable name: the value of every assignment in the lowered form, in order.
`none` when lowering or the run has no result. -/
def lowered_values (X : ext_ops) (fuel : Nat) (regalloc : Bool) (target : backend)
    (prog : node_list) : Option (List nat) :=
  match compiler.lower regalloc (compiler.of_program target prog) with
  | .ok d =>
    match compiler.run X fuel .op_setreg d with
    | .ok r => some (named_values d.nodes r.1)
    | .error _ => none
  | .error _ => none

/-- The program `x = 4294967296;`: one assignment of a literal of two limbs. -/
def wide_literal_program : node_list :=
  [.setvar "x" (.const_int ⟨[0, 1]⟩)]

/-- The program `a = 1; b = a + 1; a = 5; c = b + 0;`, which assigns `a` twice. -/
def reassign_program : node_list :=
  [.setvar "a" (.const_int (nat.of_limb 1)),
   .setvar "b" (.binaryop .op_add (.var "a") (.const_int (nat.of_limb 1))),
   .setvar "a" (.const_int (nat.of_limb 5)),
   .setvar "c" (.binaryop .op_add (.var "b") (.const_int (nat.of_limb 0)))]

/-- The program `x = 3; z = x + 5;`. -/
def sum_program : node_list :=
  [.setvar "x" (.const_int (nat.of_limb 3)),
   .setvar "z" (.binaryop .op_add (.var "x") (.const_int (nat.of_limb 5)))]

/-! ## nat-compiler.cc: emission -/

/-- Loop of `compiler::emit_asm` over the old sequence, appending to `new_nodes`. The method
`emit` of the backend is not among the sources: it is the parameter `emit`, which reads the
compiler and the node and may change the state `β` of the backend. -/
def emit_loop {β : Type} (emit : β → compiler → node → node_list × β) (d : compiler) :
    node_list → node_list → β → node_list × β
  | [], new_nodes, b => (new_nodes, b)
  | n :: rest, new_nodes, b =>
    let new_nodes1 := new_nodes ++ [n]
    if n.opcode = .op_setreg then
      let minst := emit b d n
      emit_loop emit d rest (new_nodes1 ++ minst.1) minst.2
    else emit_loop emit d rest new_nodes1 b

/-- The method `compiler::emit_asm`: the new compiler state and the state of the backend. -/
def compiler.emit_asm {β : Type} (emit : β → compiler → node → node_list × β) (d : compiler)
    (b : β) : compiler × β :=
  let r := emit_loop emit d d.nodes [] b
  ({ d with nodes := r.1 }, r.2)

/-- The lists a backend returns when `emit` is called on each node of `calls`, in this
order, and the state of the backend after the last call. -/
def emit_calls {β : Type} (emit : β → compiler → node → node_list × β) (d : compiler) :
    node_list → β → List node_list × β
  | [], b => ([], b)
  | n :: rest, b =>
    let r := emit_calls emit d rest (emit b d n).2
    ((emit b d n).1 :: r.1, r.2)

/-- The sequence with the lists of `blocks` inserted, one after each node of opcode
`op_setreg`, in order. -/
def splice : node_list → List node_list → node_list
  | [], _ => []
  | n :: rest, blocks =>
    if n.opcode = .op_setreg then
      match blocks with
      | blk :: more => n :: (blk ++ splice rest more)
      | [] => n :: splice rest []
    else n :: splice rest blocks

/-! ## Vocabulary of the statements on the evaluator -/

/-- Height of a node tree: the number of nested evaluations below its root. -/
def node.depth : node → Nat
  | .unaryop _ l => l.depth + 1
  | .binaryop _ l r => max l.depth r.depth + 1
  | .setvar _ r => r.depth + 1
  | .setreg _ r _ => r.depth + 1
  | _ => 0

/-- The binary operators whose numeric operation always has a result: `&`, `|`, the six
comparisons, `+` and `*`. -/
def no_fail_op (opcode : op) : Bool :=
  match opcode with
  | .op_and | .op_or | .op_seq | .op_sne | .op_slt | .op_sle | .op_sgt | .op_sge | .op_add
  | .op_mul => true
  | _ => false

/-- Trees built from literals, immediates, physical registers, variables without a binding
in `vn`, the unary `li`, the binary operators of `no_fail_op`, and `setreg`. -/
def total_expr (vn : String → Option node) : node → Bool
  | .const_int _ => true
  | .imm _ => true
  | .phyreg _ => true
  | .var x => (vn x).isNone
  | .unaryop opcode l => opcode == .op_li && total_expr vn l
  | .binaryop opcode l r => no_fail_op opcode && total_expr vn l && total_expr vn r
  | .setreg _ r _ => total_expr vn r
  | _ => false

/-- The error a run of the evaluator ends with, if it ends with one. -/
def eval_error (X : ext_ops) (fuel : Nat) (n : node) (d : compiler) : Option fault :=
  match node.eval X fuel n d with
  | .error e => some e
  | .ok _ => none

/-! ## Vocabulary of the statements on numbers -/

/-- Every limb of the vector is a `limb_t` value: below `2^32`. -/
def limbs_ok (n : nat) : Prop := ∀ x ∈ n.limbs, x < 2 ^ 32

/-! ## nat.h: power -/

/-- Body of the loop of `pow` on the state `(exp, x, y)`: for an odd `exp`, `y = x * y`
before `x = x * x`; both assignments copy (and contract) the product. -/
def nat.pow_step (exp : Nat) (x y : nat) : Nat × nat × nat :=
  if exp &&& 1 = 0 then (exp >>> 1, nat.copy (nat.op_mul x x), y)
  else ((exp - 1) >>> 1, nat.copy (nat.op_mul x x), nat.copy (nat.op_mul x y))

/-- The loop `while (exp > 1)` of `pow`, bounded by the first argument: the final `x` and
`y`, or `none` when the bound is reached before the loop ends. -/
def nat.pow_loop : Nat → Nat → nat → nat → Option (nat × nat)
  | 0, exp, x, y => if exp > 1 then none else some (x, y)
  | fuel + 1, exp, x, y =>
    if exp > 1 then
      nat.pow_loop fuel (nat.pow_step exp x y).1 (nat.pow_step exp x y).2.1
        (nat.pow_step exp x y).2.2
    else some (x, y)

/-- The method `pow` (raise to the power), for a `size_t` exponent. The loop halves `exp`
at every pass, so `exp` passes are enough. -/
def nat.pow (self : nat) (exp : Nat) : Option nat :=
  if exp = 0 then some (nat.of_limb 1)
  else (nat.pow_loop exp exp (nat.copy self) (nat.of_limb 1)).map
    (fun r => nat.op_mul r.1 r.2)

/-! ## nat.h: conversion to a decimal string -/

/-- The inner loop of `to_string`, `do { s[--offset] = '0' + char(v % 10); v /= 10; i--; }
while (v != 0)`, bounded by the first argument: the string, `offset` and `i` after it.
`offset` and `i` are `size_t` counters; a write outside the string has no result. -/
def nat.digit_loop : Nat → List Char → Nat → Nat → Nat → Option (List Char × Nat × Nat)
  | 0, _, _, _, _ => none
  | fuel + 1, s, offset, v, i =>
    let offset1 := to_limb2 ((offset : Int) - 1)
    if offset1 < s.length then
      let s1 := s.set offset1 (Char.ofNat (48 + v % 10))
      let v1 := v / 10
      let i1 := to_limb2 ((i : Int) - 1)
      if v1 ≠ 0 then nat.digit_loop fuel s1 offset1 v1 i1 else some (s1, offset1, i1)
    else none

/-- The outer loop of `to_string`, `do { .. } while (val != 0)`, bounded by the first
argument: the string and `offset` after it. A limb has at most ten decimal digits, so ten
passes bound the inner loop. -/
def nat.to_string_loop : Nat → nat → List Char → Nat → Option (List Char × Nat)
  | 0, _, _, _ => none
  | fuel + 1, val, s, offset =>
    match nat.divrem val (nat.of_limb 1000000000) with
    | none => none
    | some (q, r) =>
      match nat.digit_loop 10 s offset (r.limb_at 0) 9 with
      | none => none
      | some (s1, offset1, i) =>
        let offset2 :=
          if nat.op_gt q (nat.of_limb 0) then to_limb2 ((offset1 : Int) - (i : Int))
          else offset1
        if nat.op_ne (nat.copy q) (nat.of_limb 0) then
          nat.to_string_loop fuel (nat.copy q) s1 offset2
        else some (s1, offset2)

/-- The method `to_string` (convert big integer to string): the characters of the result.
Every pass of the outer loop divides `val` by `10^9`, so `2 * limbs.size() + 1` passes are
enough; `substr` throws for an `offset` beyond the string. -/
def nat.to_string (self : nat) : Option (List Char) :=
  let climit := (10 * self.limbs.length + 1) % 2 ^ 64
  match nat.to_string_loop (2 * self.limbs.length + 1) (nat.copy self)
      (List.replicate climit '0') climit with
  | none => none
  | some (s, offset) => if offset ≤ s.length then some (s.drop offset) else none

/-- The character of a decimal digit: `'0' + d`. -/
def digit_char (d : Nat) : Char := Char.ofNat (48 + d)

/-- The decimal numeral of a number, most significant digit first, without leading zeros;
`"0"` for zero. -/
def decimal (n : Nat) : List Char :=
  if n = 0 then ['0'] else (Nat.digits 10 n).reverse.map digit_char

/-- The number a string of decimal digits reads as. -/
def numeral_value (cs : List Char) : Nat :=
  cs.foldl (fun acc c => acc * 10 + (c.toNat - 48)) 0

/-- Column `r` of a matrix holds the marks of a register defined at row `k`: `v` at row
`k`, `+` at every later row that uses `r`, and a blank or `|` at every other later row. -/
def col_chars (nodes : node_list) (c : Nat) (m : List Char) (r k : Nat) : Prop :=
  mcell c m k r = 'v' ∧
  ∀ x nd, k < x → nodes.get? x = some nd →
    (uses_reg r nd = true → mcell c m x r = '+') ∧
    (uses_reg r nd = false → mcell c m x r = ' ' ∨ mcell c m x r = '|')

/-- State of the matrix when the outer loop of `def_use_ssa_analysis` has visited the rows
below `i`, for a sequence whose destinations are below `c` and pairwise different: the
column of a register defined below `i` holds its live range and its marks, every other
column is blank. -/
def marks_inv (nodes : node_list) (c i : Nat) (m : List Char) : Prop :=
  m.length = nodes.length * c ∧
  ∀ r, r < c →
    (∀ k dst rhs v, k < i → nodes.get? k = some (.setreg dst rhs v) → dst.l = r →
      col_done nodes c m r k ∧ col_chars nodes c m r k) ∧
    ((∀ k dst rhs v, k < i → nodes.get? k = some (.setreg dst rhs v) → dst.l ≠ r) →
      ∀ x, mcell c m x r = ' ')

/-! ## Vocabulary of the statements on self-reference -/

/-- Whether the tree contains an assignment to the variable `x` (a `setvar` of `x`). -/
def node.assigns (x : String) : node → Bool
  | .setvar y r => y == x || node.assigns x r
  | .unaryop _ l => node.assigns x l
  | .binaryop _ l r => node.assigns x l || node.assigns x r
  | .setreg _ r _ => node.assigns x r
  | _ => false

/-- Whether the tree reads the variable `x` through unary and binary operators that the
evaluator has a case for: `x` itself, or such an operator with an operand that reads `x`. -/
def reads_var (x : String) : node → Bool
  | .var y => y == x
  | .unaryop opcode l =>
    (opcode == .op_li || opcode == .op_not || opcode == .op_neg) && reads_var x l
  | .binaryop opcode l r => is_binary_op opcode && (reads_var x l || reads_var x r)
  | _ => false

/-- Trees none of whose numeric operations can fail: the unary `li`, the binary operators
of `no_fail_op`, over any leaves, `setvar` and `setreg` included. -/
def plain_tree : node → Bool
  | .unaryop opcode l =>
    !(opcode == .op_not || opcode == .op_neg) && plain_tree l
  | .binaryop opcode l r =>
    (no_fail_op opcode || !is_binary_op opcode) && plain_tree l && plain_tree r
  | .setvar _ r => plain_tree r
  | .setreg _ r _ => plain_tree r
  | _ => true

/-- The program `x = 1; x = x + 1;`. -/
def self_reference_program : node_list :=
  [.setvar "x" (.const_int (nat.of_limb 1)),
   .setvar "x" (.binaryop .op_add (.var "x") (.const_int (nat.of_limb 1)))]

/-! ## Vocabulary of the statement on restricted programs -/

/-- No right-hand side of the program is a bare variable read. -/
def no_bare_reads (prog : node_list) : Prop :=
  ∀ x e, node.setvar x e ∈ prog → ∀ y, e ≠ node.var y

/-- A backend whose allocation order names the register 5 twice, for a closed example. -/
def twice_backend : backend :=
  { reg_order := [5, 5, 6, 7, 0], reg_class_rs := fun _ => false }

/-- The program `x = 3; y = 5; z = x + y;`. -/
def pair_sum_program : node_list :=
  [.setvar "x" (.const_int (nat.of_limb 3)),
   .setvar "y" (.const_int (nat.of_limb 5)),
   .setvar "z" (.binaryop .op_add (.var "x") (.var "y"))]

/-! ## Vocabulary of the statements on the steps of the allocator -/

/-- The state in which `allocate_registers` enters its main loop: the matrix `def_use_phy`
created, every register of the backend's order given the value zero and pushed on the free
queue. -/
def alloc_start (d : compiler) : compiler :=
  { d with
    def_use_phy := List.replicate (d.nodes.length * d.phyregcount) (Char.ofNat 0),
    reg_values := d.target.order.foldl (fun m r => fn_set m r (nat.of_limb 0)) d.reg_values,
    reg_free := d.reg_free ++ d.target.order }

/-- The first `n` passes of the main loop of `allocate_registers`, over the rows
`0 .. n - 1`: the state in which the loop reaches row `n`. -/
def alloc_upto : Nat → compiler → Except fault compiler
  | 0, d => .ok d
  | n + 1, d => do
    let d1 ← alloc_upto n d
    match d1.nodes.get? n with
    | some (.setreg dst rhs v) => alloc_row d1 n dst rhs v
    | _ => pure d1

/-- Every use of a register as a direct operand of the `setreg` node names a register
below the destination of the node. -/
def uses_below (n : node) : Prop :=
  ∀ dst rhs v u, n = node.setreg dst rhs v → uses_reg u n = true → u < dst.l

/-! # Properties -/

/-! ## Limb arithmetic: carry and borrow -/

/-- C8 (addition is exact) fails on the code: for `a = 1` and `b = 2^64 - 1`, both
normalised, `operator+` returns the number 0 although `value a + value b = 2^64`. At limb 1
the sum `0 + 0xffffffff + carry` wraps back to the old limb, so `new_val < old_val` is
false and the carry is dropped. -/
theorem C8_add_drops_carry :
    nat.op_add ⟨[1]⟩ ⟨[4294967295, 4294967295]⟩ = ⟨[0]⟩ ∧
    (nat.op_add ⟨[1]⟩ ⟨[4294967295, 4294967295]⟩).value = 0 ∧
    nat.value ⟨[1]⟩ + nat.value ⟨[4294967295, 4294967295]⟩ = 2 ^ 64 := by
  decide

/-- C9 (subtraction without underflow is exact) fails on the code: for `a = 2^64` and
`b = 2^64 - 2^32 + 1` we have `value a >= value b`, the assertion holds, and `operator-`
returns `2^64 + 2^32 - 1` instead of `2^32 - 1`: at limb 1 the difference
`0 - 0xffffffff - borrow` wraps back to the old limb and the borrow is dropped. -/
theorem C9_sub_drops_borrow :
    nat.value ⟨[1, 4294967295]⟩ ≤ nat.value ⟨[0, 0, 1]⟩ ∧
    nat.op_sub ⟨[0, 0, 1]⟩ ⟨[1, 4294967295]⟩ = some ⟨[4294967295, 0, 1]⟩ ∧
    nat.value ⟨[4294967295, 0, 1]⟩ = 2 ^ 64 + 2 ^ 32 - 1 ∧
    nat.value ⟨[0, 0, 1]⟩ - nat.value ⟨[1, 4294967295]⟩ = 2 ^ 32 - 1 := by
  decide

/-- C10 (underflow trips the assertion) fails on the code: for `a = 0` and
`b = 2^64 - 2^32 + 1` we have `value a < value b`, yet the final borrow is 0, the assertion
`borrow == 0` holds and `operator-` returns the number `2^32 - 1`. -/
theorem C10_underflow_not_detected :
    nat.value ⟨[0]⟩ < nat.value ⟨[1, 4294967295]⟩ ∧
    nat.op_sub_assign ⟨[0]⟩ ⟨[1, 4294967295]⟩ = some ⟨[4294967295]⟩ ∧
    nat.op_sub ⟨[0]⟩ ⟨[1, 4294967295]⟩ = some ⟨[4294967295]⟩ := by
  decide

/-! ## Lowering -/

theorem to_limb_to_int (x : Nat) : to_limb (to_int x) = x % 2 ^ 32 := by
  unfold to_limb to_int
  split <;> omega

theorem lower_reg_single_setreg (dst : reg) (rhs : node) (v : Option String) :
    compiler.lower_reg [.setreg dst rhs v] = .ok (dst.l, [.setreg dst rhs v]) := rfl

/-- C6: lowering a logical shift by a literal makes no `setreg` for the literal and takes no
SSA number for it. When `l` lowers to `ll` (state `d1`) and `lower_reg` yields register
`lreg` and the list `ll1`, then `l << c` and `l >> c` lower to `ll1` followed by the single
`setreg` of `slli` / `srli` over `lreg` and the immediate low word of `c`, using one SSA
number, while every other binary operator lowers to `ll1`, a load-immediate `setreg` for
`c` and the operator's `setreg`: one `setreg` and one SSA number more. -/
theorem C6_shift_by_literal (l : node) (c : nat) (d d1 : compiler) (ll ll1 : node_list)
    (lreg : Nat) (hl : node.lower l d = .ok (ll, d1))
    (hr : compiler.lower_reg ll = .ok (lreg, ll1)) :
    node.lower (.binaryop .op_sll l (.const_int c)) d =
      .ok (ll1 ++ [.setreg (.ssareg d1.ssaregcount)
          (.binaryop .op_slli (.ssareg lreg) (.imm (to_int (c.limb_at 0)))) none],
        { d1 with ssaregcount := d1.ssaregcount + 1 }) ∧
    node.lower (.binaryop .op_srl l (.const_int c)) d =
      .ok (ll1 ++ [.setreg (.ssareg d1.ssaregcount)
          (.binaryop .op_srli (.ssareg lreg) (.imm (to_int (c.limb_at 0)))) none],
        { d1 with ssaregcount := d1.ssaregcount + 1 }) ∧
    to_limb (to_int (c.limb_at 0)) = c.limb_at 0 % 2 ^ 32 ∧
    ∀ opcode : op, opcode ≠ .op_sll → opcode ≠ .op_srl →
      node.lower (.binaryop opcode l (.const_int c)) d =
        .ok (ll1 ++
            [.setreg (.ssareg d1.ssaregcount)
              (.unaryop .op_li (.imm (to_int (c.limb_at 0)))) none] ++
            [.setreg (.ssareg (d1.ssaregcount + 1))
              (.binaryop opcode (.ssareg lreg) (.ssareg d1.ssaregcount)) none],
          { d1 with ssaregcount := d1.ssaregcount + 2 }) := by
  refine ⟨?_, ?_, to_limb_to_int _, ?_⟩
  · simp [node.lower, node.opcode, hl, hr, bind, Except.bind, pure, Except.pure]
  · simp [node.lower, node.opcode, hl, hr, bind, Except.bind, pure, Except.pure]
  · intro opcode h1 h2
    simp [node.lower, node.opcode, hl, hr, h1, h2, bind, Except.bind, pure, Except.pure,
      lower_reg_single_setreg, reg.l]

/-- Witness for C6 on `x << 2` after `x = 3` has been lowered. -/
theorem C6_shift_by_literal_witness :
    node.lower (.binaryop .op_sll (.var "x") (.const_int (nat.of_limb 2)))
        { compiler.ctor sample_backend with var_ssa := fn_set (fun _ => none) "x" 0,
                                            ssaregcount := 1 } =
      .ok ([.setreg (.ssareg 1) (.binaryop .op_slli (.ssareg 0) (.imm 2)) none],
        { compiler.ctor sample_backend with var_ssa := fn_set (fun _ => none) "x" 0,
                                            ssaregcount := 2 }) :=
  (C6_shift_by_literal (.var "x") (nat.of_limb 2)
    { compiler.ctor sample_backend with var_ssa := fn_set (fun _ => none) "x" 0,
                                        ssaregcount := 1 }
    { compiler.ctor sample_backend with var_ssa := fn_set (fun _ => none) "x" 0,
                                        ssaregcount := 1 }
    [.ssareg 0] [] 0 rfl rfl).1

theorem setreg_dests_append (a b : node_list) :
    setreg_dests (a ++ b) = setreg_dests a ++ setreg_dests b := by
  induction a with
  | nil => rfl
  | cons x xs ih => cases x <;> simp [setreg_dests, ih]

theorem lower_reg_dests {l l1 : node_list} {r : Nat}
    (h : compiler.lower_reg l = .ok (r, l1)) : setreg_dests l1 = setreg_dests l := by
  unfold compiler.lower_reg at h
  split at h
  · cases h
  · rename_i u hu
    cases h
    have := List.dropLast_append_getLast? _ hu
    conv_rhs => rw [← this]
    simp [setreg_dests_append, setreg_dests]
  · cases h; rfl
  · split at h <;> cases h

theorem range_snoc (a b : Nat) (h : a ≤ b) :
    List.range' a (b - a) ++ [b] = List.range' a (b + 1 - a) := by
  have e : b + 1 - a = (b - a) + 1 := by omega
  rw [e, List.range'_concat]
  simp
  omega

theorem range_glue (a b c : Nat) (h1 : a ≤ b) (h2 : b ≤ c) :
    List.range' a (b - a) ++ List.range' b (c - b) = List.range' a (c - a) := by
  have key := List.range'_append a (b - a) (c - b) 1
  have e1 : a + 1 * (b - a) = b := by omega
  have e2 : c - b + (b - a) = c - a := by omega
  rw [e1, e2] at key
  exact key

/-- The `setreg` nodes a node lowers to take the SSA numbers from the counter before the
call up to the counter after it, in order; the counter never goes down. -/
theorem node_lower_dests (n : node) : ∀ (d : compiler) (L : node_list) (d1 : compiler),
    node.lower n d = .ok (L, d1) →
      setreg_dests L = List.range' d.ssaregcount (d1.ssaregcount - d.ssaregcount) ∧
      d.ssaregcount ≤ d1.ssaregcount := by
  induction n with
  | unaryop opcode l ih =>
    intro d L d1 h
    simp only [node.lower, bind, Except.bind] at h
    split at h
    · cases h
    · rename_i x hl
      split at h
      · cases h
      · rename_i y hr
        simp only [pure, Except.pure, Except.ok.injEq, Prod.mk.injEq] at h
        obtain ⟨rfl, rfl⟩ := h
        obtain ⟨h1, h2⟩ := ih _ _ _ hl
        rw [setreg_dests_append, lower_reg_dests hr, h1]
        simp only [setreg_dests, reg.l]
        exact ⟨range_snoc _ _ h2, by omega⟩
  | binaryop opcode l r ihl ihr =>
    intro d L d1 h
    simp only [node.lower, bind, Except.bind] at h
    split at h
    · split at h
      · split at h
        · cases h
        · rename_i x hl
          split at h
          · cases h
          · rename_i y hr
            simp only [pure, Except.pure, Except.ok.injEq, Prod.mk.injEq] at h
            obtain ⟨rfl, rfl⟩ := h
            obtain ⟨h1, h2⟩ := ihl _ _ _ hl
            rw [setreg_dests_append, lower_reg_dests hr, h1]
            simp only [setreg_dests, reg.l]
            exact ⟨range_snoc _ _ h2, by omega⟩
      · cases h
    · split at h
      · cases h
      · rename_i x hl
        split at h
        · cases h
        · rename_i y hr
          split at h
          · cases h
          · rename_i z hlr
            split at h
            · cases h
            · rename_i w hrr
              simp only [pure, Except.pure, Except.ok.injEq, Prod.mk.injEq] at h
              obtain ⟨rfl, rfl⟩ := h
              obtain ⟨h1, h2⟩ := ihl _ _ _ hl
              obtain ⟨h3, h4⟩ := ihr _ _ _ hr
              rw [setreg_dests_append, setreg_dests_append, lower_reg_dests hlr,
                lower_reg_dests hrr, h1, h3]
              simp only [setreg_dests, reg.l]
              rw [range_glue _ _ _ h2 h4]
              exact ⟨range_snoc _ _ (by omega), by omega⟩
  | const_int r =>
    intro d L d1 h
    simp only [node.lower, Except.ok.injEq, Prod.mk.injEq] at h
    obtain ⟨rfl, rfl⟩ := h
    simp [setreg_dests, reg.l]
  | var l =>
    intro d L d1 h
    simp only [node.lower] at h
    split at h <;>
      (simp only [Except.ok.injEq, Prod.mk.injEq] at h; obtain ⟨rfl, rfl⟩ := h;
       simp [setreg_dests])
  | setvar l r ih =>
    intro d L d1 h
    simp only [node.lower, bind, Except.bind] at h
    split at h
    · cases h
    · rename_i x hl
      split at h
      · rename_i dst rhs v hlast
        simp only [pure, Except.pure, Except.ok.injEq, Prod.mk.injEq] at h
        obtain ⟨rfl, rfl⟩ := h
        obtain ⟨h1, h2⟩ := ih _ _ _ hl
        have := List.dropLast_append_getLast? _ hlast
        rw [← this, setreg_dests_append] at h1
        rw [setreg_dests_append]
        simpa [setreg_dests] using And.intro h1 h2
      · cases h
  | ssareg l => intro d L d1 h; cases h; simp [setreg_dests]
  | phyreg l => intro d L d1 h; cases h; simp [setreg_dests]
  | setreg l r v _ => intro d L d1 h; cases h; simp [setreg_dests]
  | imm r => intro d L d1 h; cases h; simp [setreg_dests]
  | mi t => intro d L d1 h; cases h; simp [setreg_dests]

theorem example_lowered_eq (target : backend) :
    compiler.lower false (compiler.of_program target example_program) =
      .ok (example_lowered target) := by
  have hl : compiler.lower_loop (compiler.of_program target example_program).nodes []
      (compiler.of_program target example_program) =
      .ok (example_lowered_nodes, { compiler.of_program target example_program with
        var_ssa := fn_set (fn_set (fn_set (fun _ => none) "x" 0) "y" 1) "z" 3,
        ssaregcount := 4 }) := rfl
  simp only [compiler.lower, compiler.lower_nodes, bind, Except.bind, hl, pure, Except.pure,
    compiler.def_use_ssa_analysis]
  rfl

theorem lower_loop_dests (rest : node_list) : ∀ (acc : node_list) (d : compiler)
    (out : node_list) (d1 : compiler), (∀ n ∈ rest, ∃ x e, n = node.setvar x e) →
    compiler.lower_loop rest acc d = .ok (out, d1) →
      setreg_dests out =
        setreg_dests acc ++ List.range' d.ssaregcount (d1.ssaregcount - d.ssaregcount) ∧
      d.ssaregcount ≤ d1.ssaregcount := by
  induction rest with
  | nil =>
    intro acc d out d1 _ h
    simp only [compiler.lower_loop, Except.ok.injEq, Prod.mk.injEq] at h
    obtain ⟨rfl, rfl⟩ := h
    simp
  | cons n rest ih =>
    intro acc d out d1 hall h
    obtain ⟨x, e, rfl⟩ := hall n (List.mem_cons_self _ _)
    simp only [compiler.lower_loop, node.opcode, if_true, bind, Except.bind] at h
    split at h
    · cases h
    · rename_i y hl
      obtain ⟨h1, h2⟩ := node_lower_dests _ _ _ _ hl
      obtain ⟨h3, h4⟩ := ih _ _ _ _ (fun m hm => hall m (List.mem_cons_of_mem _ hm)) h
      refine ⟨?_, by omega⟩
      rw [h3, setreg_dests_append, setreg_dests_append, h1, List.append_assoc,
        List.append_assoc]
      simp only [setreg_dests, List.nil_append]
      rw [range_glue _ _ _ h2 h4]

theorem range_pairwise_lt (a n : Nat) : (List.range' a n).Pairwise (fun x y => x < y) := by
  simpa using List.pairwise_lt_range' a n

/-- C3: lowering a sequence of assignments, from any value of the SSA counter, gives
`setreg` nodes whose destination numbers are, along the new sequence, the consecutive
numbers from the old counter up to the new one: strictly increasing, never repeated. No
lowering step lowers the counter `ssaregcount`. -/
theorem C3_ssa_destinations_increase (d d1 : compiler)
    (hprog : ∀ n ∈ d.nodes, ∃ x e, n = node.setvar x e)
    (h : compiler.lower false d = .ok d1) :
    setreg_dests d1.nodes = List.range' d.ssaregcount (d1.ssaregcount - d.ssaregcount) ∧
    (setreg_dests d1.nodes).Pairwise (fun a b => a < b) ∧
    (setreg_dests d1.nodes).Nodup ∧
    d.ssaregcount ≤ d1.ssaregcount ∧
    ∀ (n : node) (s s1 : compiler) (L : node_list),
      node.lower n s = .ok (L, s1) → s.ssaregcount ≤ s1.ssaregcount := by
  simp only [compiler.lower, compiler.lower_nodes, compiler.def_use_ssa_analysis, bind,
    Except.bind] at h
  split at h
  · cases h
  · rename_i d2 hd2
    split at hd2
    · cases hd2
    · rename_i r hr
      simp only [pure, Except.pure, Except.ok.injEq] at hd2
      subst hd2
      split at h
      · cases h
      · rename_i d3 hd3
        split at hd3
        · cases hd3
        · simp only [Except.ok.injEq] at hd3
          subst hd3
          simp only [Bool.false_eq_true, if_false, pure, Except.pure, Except.ok.injEq] at h
          subst h
          obtain ⟨h1, h2⟩ := lower_loop_dests _ _ _ _ _ hprog hr
          simp only [setreg_dests, List.nil_append] at h1
          refine ⟨h1, ?_, ?_, h2, fun n s s1 L hn => (node_lower_dests n s L s1 hn).2⟩
          · rw [h1]; exact range_pairwise_lt _ _
          · rw [h1]; exact List.nodup_range' _ _

/-- Witness for C3: the example program, lowered from a fresh compiler. -/
theorem C3_ssa_destinations_increase_witness :
    setreg_dests (example_lowered sample_backend).nodes = [0, 1, 2, 3] ∧
    (setreg_dests (example_lowered sample_backend).nodes).Pairwise (fun a b => a < b) :=
  ⟨rfl, (C3_ssa_destinations_increase (compiler.of_program sample_backend example_program)
    (example_lowered sample_backend)
    (by
      intro n hn
      simp only [compiler.of_program, example_program, compiler.front_end,
        compiler.set_variable, compiler.add_toplevel, compiler.ctor, List.nil_append,
        List.cons_append, List.mem_cons, List.mem_singleton, List.not_mem_nil, or_false] at hn
      rcases hn with rfl | rfl | rfl <;> exact ⟨_, _, rfl⟩)
    (example_lowered_eq sample_backend)).2.1⟩

/-! ## Shape of lowered sequences -/

theorem mem_setreg_dests {L : node_list} {dst : reg} {rhs : node} {v : Option String}
    (h : node.setreg dst rhs v ∈ L) : dst.l ∈ setreg_dests L := by
  induction L with
  | nil => cases h
  | cons x xs ih =>
    rcases List.mem_cons.1 h with rfl | h1
    · simp [setreg_dests]
    · have := ih h1
      cases x <;> simp [setreg_dests, this]

theorem row_ok_dest {n : node} (h : row_ok n = true) :
    ∃ a rhs v, n = .setreg (.ssareg a) rhs v := by
  unfold row_ok at h
  split at h
  · exact ⟨_, _, _, rfl⟩
  · exact ⟨_, _, _, rfl⟩
  · cases h

theorem row_ok_rename {dst : reg} {rhs : node} {v w : Option String}
    (h : row_ok (.setreg dst rhs v) = true) : row_ok (.setreg dst rhs w) = true := by
  cases dst <;> cases rhs <;> simp_all [row_ok]

/-- What `lower_reg` yields on a list of one of the two shapes `lower` makes. -/
theorem lower_reg_shape {L L1 : node_list} {r bound : Nat}
    (hs : (∃ u, L = [.ssareg u] ∧ u ≤ bound) ∨
      (L ≠ [] ∧ ∀ x ∈ L, row_ok x = true ∧ ∀ a rhs v, x = .setreg (.ssareg a) rhs v → a < bound))
    (h : compiler.lower_reg L = .ok (r, L1)) :
    r ≤ bound ∧ (∀ x ∈ L1, row_ok x = true) := by
  rcases hs with ⟨u, rfl, hu⟩ | ⟨hne, hall⟩
  · simp only [compiler.lower_reg, List.getLast?_singleton, Except.ok.injEq,
      Prod.mk.injEq] at h
    obtain ⟨rfl, rfl⟩ := h
    exact ⟨hu, by simp⟩
  · obtain ⟨y, hy⟩ : ∃ y, L.getLast? = some y := by
      cases hL : L.getLast? with
      | none => exact absurd (List.getLast?_eq_none_iff.1 hL) hne
      | some y => exact ⟨y, rfl⟩
    have hmem : y ∈ L := List.mem_of_getLast?_eq_some hy
    obtain ⟨hrow, hlt⟩ := hall y hmem
    obtain ⟨a, rhs, v, rfl⟩ := row_ok_dest hrow
    simp only [compiler.lower_reg, hy, Except.ok.injEq, Prod.mk.injEq] at h
    obtain ⟨rfl, rfl⟩ := h
    exact ⟨Nat.le_of_lt (hlt a rhs v rfl), fun x hx => (hall x hx).1⟩

theorem lower_dest_lt {n : node} {d d1 : compiler} {L : node_list}
    (h : node.lower n d = .ok (L, d1)) {a : Nat} {rhs : node} {v : Option String}
    (hm : node.setreg (.ssareg a) rhs v ∈ L) : d.ssaregcount ≤ a ∧ a < d1.ssaregcount := by
  obtain ⟨h1, h2⟩ := node_lower_dests n d L d1 h
  have := mem_setreg_dests hm
  rw [h1] at this
  simp only [reg.l, List.mem_range'_1] at this
  omega

theorem lower_reg_of_shape {n : node} {d d1 : compiler} {L L1 : node_list} {r : Nat}
    (hl : node.lower n d = .ok (L, d1)) (hs : lowered_shape L d1.ssaregcount)
    (h : compiler.lower_reg L = .ok (r, L1)) :
    r ≤ d1.ssaregcount ∧ (∀ x ∈ L1, row_ok x = true) := by
  rcases hs with rfl | hs | ⟨hne, hall⟩
  · simp [compiler.lower_reg] at h
  · exact lower_reg_shape (Or.inl hs) h
  · refine lower_reg_shape (Or.inr ⟨hne, fun x hx => ⟨hall x hx, ?_⟩⟩) h
    rintro a rhs v rfl
    exact (lower_dest_lt hl hx).2

/-- Lowering keeps the renaming map within the counter and makes lists of lowered
instructions (or a single bare register for a variable read). -/
theorem lower_shape (n : node) : ∀ (d : compiler) (L : node_list) (d1 : compiler),
    (∀ x u, d.var_ssa x = some u → u ≤ d.ssaregcount) →
    node.lower n d = .ok (L, d1) →
      (∀ x u, d1.var_ssa x = some u → u ≤ d1.ssaregcount) ∧
      lowered_shape L d1.ssaregcount := by
  induction n with
  | unaryop opcode l ih =>
    intro d L d1 hJ h
    simp only [node.lower, bind, Except.bind] at h
    split at h
    · cases h
    · rename_i x hl
      split at h
      · cases h
      · rename_i y hr
        simp only [pure, Except.pure, Except.ok.injEq, Prod.mk.injEq] at h
        obtain ⟨rfl, rfl⟩ := h
        obtain ⟨hJ1, hs⟩ := ih _ _ _ hJ hl
        obtain ⟨hle, hrows⟩ := lower_reg_of_shape hl hs hr
        refine ⟨fun x u hx => Nat.le_succ_of_le (hJ1 x u hx), Or.inr (Or.inr ⟨by simp, ?_⟩)⟩
        intro z hz
        rcases List.mem_append.1 hz with hz | hz
        · exact hrows z hz
        · simp only [List.mem_singleton] at hz
          subst hz
          simpa [row_ok, operand_ok] using hle
  | binaryop opcode l r ihl ihr =>
    intro d L d1 hJ h
    simp only [node.lower, bind, Except.bind] at h
    split at h
    · split at h
      · split at h
        · cases h
        · rename_i x hl
          split at h
          · cases h
          · rename_i y hr
            simp only [pure, Except.pure, Except.ok.injEq, Prod.mk.injEq] at h
            obtain ⟨rfl, rfl⟩ := h
            obtain ⟨hJ1, hs⟩ := ihl _ _ _ hJ hl
            obtain ⟨hle, hrows⟩ := lower_reg_of_shape hl hs hr
            refine ⟨fun x u hx => Nat.le_succ_of_le (hJ1 x u hx),
              Or.inr (Or.inr ⟨by simp, ?_⟩)⟩
            intro z hz
            rcases List.mem_append.1 hz with hz | hz
            · exact hrows z hz
            · simp only [List.mem_singleton] at hz
              subst hz
              simpa [row_ok, operand_ok] using hle
      · cases h
    · split at h
      · cases h
      · rename_i x hl
        split at h
        · cases h
        · rename_i y hr
          split at h
          · cases h
          · rename_i z hlr
            split at h
            · cases h
            · rename_i w hrr
              simp only [pure, Except.pure, Except.ok.injEq, Prod.mk.injEq] at h
              obtain ⟨rfl, rfl⟩ := h
              obtain ⟨hJ1, hs1⟩ := ihl _ _ _ hJ hl
              obtain ⟨hJ2, hs2⟩ := ihr _ _ _ hJ1 hr
              obtain ⟨hle1, hrows1⟩ := lower_reg_of_shape hl hs1 hlr
              obtain ⟨hle2, hrows2⟩ := lower_reg_of_shape hr hs2 hrr
              have hmono := (node_lower_dests _ _ _ _ hr).2
              refine ⟨fun x u hx => Nat.le_succ_of_le (hJ2 x u hx),
                Or.inr (Or.inr ⟨by simp, ?_⟩)⟩
              intro q hq
              rcases List.mem_append.1 hq with hq | hq
              · rcases List.mem_append.1 hq with hq | hq
                · exact hrows1 q hq
                · exact hrows2 q hq
              · simp only [List.mem_singleton] at hq
                subst hq
                simp only [row_ok, operand_ok, Bool.and_eq_true, decide_eq_true_eq]
                exact ⟨by omega, hle2⟩
  | const_int r =>
    intro d L d1 hJ h
    simp only [node.lower, Except.ok.injEq, Prod.mk.injEq] at h
    obtain ⟨rfl, rfl⟩ := h
    exact ⟨fun x u hx => Nat.le_succ_of_le (hJ x u hx),
      Or.inr (Or.inr ⟨by simp, by simp [row_ok, operand_ok]⟩)⟩
  | var l =>
    intro d L d1 hJ h
    simp only [node.lower] at h
    split at h
    · rename_i u hu
      simp only [Except.ok.injEq, Prod.mk.injEq] at h
      obtain ⟨rfl, rfl⟩ := h
      exact ⟨hJ, Or.inr (Or.inl ⟨u, rfl, hJ _ _ hu⟩)⟩
    · simp only [Except.ok.injEq, Prod.mk.injEq] at h
      obtain ⟨rfl, rfl⟩ := h
      refine ⟨?_, Or.inr (Or.inl ⟨0, rfl, Nat.zero_le _⟩)⟩
      intro x u hx
      simp only [fn_set] at hx
      split at hx
      · cases hx; exact Nat.zero_le _
      · exact hJ x u hx
  | setvar l r ih =>
    intro d L d1 hJ h
    simp only [node.lower, bind, Except.bind] at h
    split at h
    · cases h
    · rename_i x hl
      split at h
      · rename_i dst rhs v hlast
        simp only [pure, Except.pure, Except.ok.injEq, Prod.mk.injEq] at h
        obtain ⟨rfl, rfl⟩ := h
        obtain ⟨hJ1, hs⟩ := ih _ _ _ hJ hl
        have hmem : node.setreg dst rhs v ∈ x.1 := List.mem_of_getLast?_eq_some hlast
        rcases hs with h0 | ⟨u, h1, _⟩ | ⟨_, hall⟩
        · rw [h0] at hmem; cases hmem
        · rw [h1] at hmem; simp at hmem
        · have hrow := hall _ hmem
          obtain ⟨a, rhs1, v1, e⟩ := row_ok_dest hrow
          cases e
          have hlt := (lower_dest_lt hl hmem).2
          refine ⟨?_, Or.inr (Or.inr ⟨by simp, ?_⟩)⟩
          · intro y u hy
            simp only [fn_set] at hy
            split at hy
            · cases hy; exact Nat.le_of_lt hlt
            · exact hJ1 y u hy
          · intro z hz
            rcases List.mem_append.1 hz with hz | hz
            · exact hall z (List.mem_of_mem_dropLast hz)
            · simp only [List.mem_singleton] at hz
              subst hz
              exact row_ok_rename hrow
      · cases h
  | ssareg l => intro d L d1 hJ h; cases h; exact ⟨hJ, Or.inl rfl⟩
  | phyreg l => intro d L d1 hJ h; cases h; exact ⟨hJ, Or.inl rfl⟩
  | setreg l r v _ => intro d L d1 hJ h; cases h; exact ⟨hJ, Or.inl rfl⟩
  | imm r => intro d L d1 hJ h; cases h; exact ⟨hJ, Or.inl rfl⟩
  | mi t => intro d L d1 hJ h; cases h; exact ⟨hJ, Or.inl rfl⟩

theorem lower_loop_shape (rest : node_list) : ∀ (acc : node_list) (d : compiler)
    (out : node_list) (d1 : compiler), (∀ n ∈ rest, ∃ x e, n = node.setvar x e) →
    (∀ x u, d.var_ssa x = some u → u ≤ d.ssaregcount) →
    (∀ n ∈ acc, seq_node_ok n = true) →
    compiler.lower_loop rest acc d = .ok (out, d1) →
      (∀ n ∈ out, seq_node_ok n = true) := by
  induction rest with
  | nil =>
    intro acc d out d1 _ _ hacc h
    simp only [compiler.lower_loop, Except.ok.injEq, Prod.mk.injEq] at h
    obtain ⟨rfl, rfl⟩ := h
    exact hacc
  | cons n rest ih =>
    intro acc d out d1 hall hJ hacc h
    obtain ⟨x, e, rfl⟩ := hall n (List.mem_cons_self _ _)
    simp only [compiler.lower_loop, node.opcode, if_true, bind, Except.bind] at h
    split at h
    · cases h
    · rename_i y hl
      obtain ⟨hJ1, hs⟩ := lower_shape _ _ _ _ hJ hl
      refine ih _ _ _ _ (fun m hm => hall m (List.mem_cons_of_mem _ hm)) hJ1 ?_ h
      intro m hm
      rcases List.mem_append.1 hm with hm | hm
      · rcases List.mem_append.1 hm with hm | hm
        · exact hacc m hm
        · simp only [List.mem_singleton] at hm
          subst hm
          rfl
      · rcases hs with h0 | ⟨u, h1, _⟩ | ⟨_, hrows⟩
        · rw [h0] at hm; cases hm
        · exfalso
          simp only [node.lower, bind, Except.bind] at hl
          split at hl
          · cases hl
          · split at hl
            · simp only [pure, Except.pure, Except.ok.injEq] at hl
              rw [← hl] at h1
              have := congrArg List.getLast? h1
              simp at this
            · cases hl
        · have := hrows m hm
          obtain ⟨a, rhs, v, rfl⟩ := row_ok_dest this
          simpa [seq_node_ok] using this

/-- Lowering the assignments of a program from a fresh compiler gives a sequence in SSA
form with `ssaregcount` registers. -/
theorem lower_nodes_ssa_form (d d1 : compiler)
    (hprog : ∀ n ∈ d.nodes, ∃ x e, n = node.setvar x e)
    (hcount : d.ssaregcount = 0) (hssa : ∀ x, d.var_ssa x = none)
    (h : compiler.lower_nodes d = .ok d1) : ssa_form d1.nodes d1.ssaregcount := by
  simp only [compiler.lower_nodes, bind, Except.bind] at h
  split at h
  · cases h
  · rename_i r hr
    simp only [pure, Except.pure, Except.ok.injEq] at h
    subst h
    refine ⟨lower_loop_shape _ _ _ _ _ hprog (fun x u hx => by simp [hssa x] at hx)
      (by simp) hr, ?_⟩
    obtain ⟨h1, _⟩ := lower_loop_dests _ _ _ _ _ hprog hr
    simpa [setreg_dests, hcount, List.range_eq_range'] using h1

/-! ## The def-use matrix -/

theorem flat_index_inj {c k a k1 a1 : Nat} (ha : a < c) (ha1 : a1 < c)
    (h : k * c + a = k1 * c + a1) : k = k1 ∧ a = a1 := by
  have h1 : (k * c + a) / c = (k1 * c + a1) / c := by rw [h]
  have hc : 0 < c := by omega
  rw [Nat.mul_comm k c, Nat.mul_comm k1 c, Nat.mul_add_div hc, Nat.mul_add_div hc,
    Nat.div_eq_of_lt ha, Nat.div_eq_of_lt ha1] at h1
  simp only [Nat.add_zero] at h1
  subst h1
  exact ⟨rfl, by omega⟩

theorem flat_index_lt {c n k a : Nat} (ha : a < c) (hk : k < n) : k * c + a < n * c := by
  have : (k + 1) * c ≤ n * c := Nat.mul_le_mul_right c hk
  rw [Nat.add_mul] at this
  omega

theorem mcell_set_same {c n : Nat} {m : List Char} {k a : Nat} (x : Char)
    (hlen : m.length = n * c) (ha : a < c) (hk : k < n) :
    mcell c (m.set (k * c + a) x) k a = x := by
  have := flat_index_lt ha hk
  simp [mcell, List.getD_eq_getElem?_getD, List.getElem?_set, hlen, this]

theorem mcell_set_other {c : Nat} {m : List Char} {k a k1 a1 : Nat} (x : Char)
    (ha : a < c) (ha1 : a1 < c) (hne : k ≠ k1 ∨ a ≠ a1) :
    mcell c (m.set (k * c + a) x) k1 a1 = mcell c m k1 a1 := by
  have : k * c + a ≠ k1 * c + a1 := by
    intro h
    obtain ⟨h1, h2⟩ := flat_index_inj ha ha1 h
    rcases hne with hne | hne
    · exact hne h1
    · exact hne h2
  simp [mcell, List.getD_eq_getElem?_getD, List.getElem?_set, this]

/-- What the backward loop of `use_ssa_scan` does to the matrix: it keeps the size, changes
only blank cells of column `r` in the rows it visits, into `|`, and marks the whole blank
run that ends at its first row. -/
theorem scan_back_spec {c n r : Nat} (hr : r < c) : ∀ (steps k : Nat) (m : List Char),
    steps ≤ k → k < n → m.length = n * c →
      (scan_back c r steps k m).length = n * c ∧
      (∀ x y, y < c → mcell c (scan_back c r steps k m) x y = mcell c m x y ∨
        (y = r ∧ mcell c m x r = ' ' ∧ mcell c (scan_back c r steps k m) x r = '|' ∧
          x ≤ k ∧ k < x + steps)) ∧
      (∀ x, x ≤ k → k < x + steps → (∀ x1, x ≤ x1 → x1 ≤ k → mcell c m x1 r = ' ') →
        mcell c (scan_back c r steps k m) x r = '|') := by
  intro steps
  induction steps with
  | zero =>
    intro k m _ _ hlen
    refine ⟨hlen, fun x y _ => Or.inl rfl, ?_⟩
    intro x h1 h2
    omega
  | succ steps ih =>
    intro k m hsk hk hlen
    simp only [scan_back]
    split
    · rename_i hblank
      have hlen1 : (m.set (k * c + r) '|').length = n * c := by simp [hlen]
      obtain ⟨ih1, ih2, ih3⟩ := ih (k - 1) (m.set (k * c + r) '|') (by omega) (by omega) hlen1
      refine ⟨ih1, ?_, ?_⟩
      · intro x y hy
        rcases ih2 x y hy with h | ⟨h1, h2, h3, h4, h5⟩
        · by_cases hxy : k = x ∧ r = y
          · obtain ⟨rfl, rfl⟩ := hxy
            right
            rw [mcell_set_same _ hlen hr hk] at h
            exact ⟨rfl, hblank, h, Nat.le_refl _, by omega⟩
          · left
            rw [h]
            exact mcell_set_other _ hr hy (by omega)
        · subst h1
          right
          have hx : k ≠ x := by omega
          rw [mcell_set_other _ hr hr (Or.inl hx)] at h2
          exact ⟨rfl, h2, h3, by omega, by omega⟩
      · intro x h1 h2 hall
        by_cases hx : x = k
        · subst hx
          rcases ih2 x r hr with h | ⟨_, _, _, h4, _⟩
          · rw [h]
            exact mcell_set_same _ hlen hr hk
          · omega
        · apply ih3 x (by omega) (by omega)
          intro x1 hx1 hx2
          rw [mcell_set_other _ hr hr (Or.inl (by omega))]
          exact hall x1 hx1 (by omega)
    · rename_i hnb
      refine ⟨hlen, fun x y _ => Or.inl rfl, ?_⟩
      intro x h1 _ hall
      exact absurd (hall k h1 (Nat.le_refl _)) hnb

theorem foldl_range_inv {α : Type} (f : α → Nat → α) (P : Nat → α → Prop) :
    ∀ (len s : Nat) (a : α), P s a →
      (∀ j b, s ≤ j → j < s + len → P j b → P (j + 1) (f b j)) →
      P (s + len) ((List.range' s len).foldl f a) := by
  intro len
  induction len with
  | zero => intro s a h0 _; simpa using h0
  | succ len ih =>
    intro s a h0 hstep
    rw [List.range'_succ, List.foldl_cons]
    have := ih (s + 1) (f a s) (hstep s a (Nat.le_refl _) (by omega) h0)
      (fun j b h1 h2 h3 => hstep j b (by omega) (by omega) h3)
    have e : s + 1 + len = s + (len + 1) := by omega
    rw [e] at this
    exact this

/-- One call of `use_ssa_scan` for the use row `j` on a column that is non-blank exactly on
`i .. hi` with `hi <= j`: if the operand is the register `r`, the column becomes non-blank
exactly on `i .. j`; otherwise nothing changes. Other columns are never touched. -/
theorem use_scan_spec {c n r : Nat} (hr : r < c) (nr : node) {i j hi : Nat} {m : List Char}
    (hij : i < j) (hj : j < n) (hlen : m.length = n * c) (h1 : i ≤ hi) (h2 : hi ≤ j)
    (hcol : col_range c m r i hi) :
    (use_ssa_scan c nr i j r m).length = n * c ∧
    (∀ x y, y < c → y ≠ r → mcell c (use_ssa_scan c nr i j r m) x y = mcell c m x y) ∧
    col_range c (use_ssa_scan c nr i j r m) r i (if nr = .ssareg r then j else hi) := by
  unfold use_ssa_scan
  split
  · rename_i usereg
    split
    · rename_i hne
      have : node.ssareg usereg ≠ node.ssareg r := by
        intro h; cases h; exact hne rfl
      rw [if_neg this]
      exact ⟨hlen, fun _ _ _ _ => rfl, hcol⟩
    · rename_i heq
      have heq : usereg = r := by
        by_contra h; exact heq h
      subst heq
      rw [if_pos rfl]
      have hlen1 : (m.set (j * c + usereg) '+').length = n * c := by simp [hlen]
      obtain ⟨s1, s2, s3⟩ := scan_back_spec (n := n) hr (j - 1 - i) (j - 1)
        (m.set (j * c + usereg) '+') (by omega) (by omega) hlen1
      refine ⟨s1, ?_, ?_, ?_⟩
      · intro x y hy hne
        rcases s2 x y hy with h | ⟨h, _⟩
        · rw [h]; exact mcell_set_other _ hr hy (Or.inr (Ne.symm hne))
        · exact absurd h hne
      · intro k hk1 hk2
        by_cases hkj : k = j
        · subst hkj
          rcases s2 k usereg hr with h | ⟨_, _, _, h4, _⟩
          · rw [h, mcell_set_same _ hlen hr hj]; decide
          · omega
        · by_cases hkhi : k ≤ hi
          · have hnb := hcol.1 k hk1 hkhi
            rcases s2 k usereg hr with h | ⟨_, hb, _, _, _⟩
            · rw [h, mcell_set_other _ hr hr (Or.inl (Ne.symm hkj))]; exact hnb
            · rw [mcell_set_other _ hr hr (Or.inl (Ne.symm hkj))] at hb
              exact absurd hb hnb
          · have : mcell c (scan_back c usereg (j - 1 - i) (j - 1)
                (m.set (j * c + usereg) '+')) k usereg = '|' := by
              apply s3 k (by omega) (by omega)
              intro x1 hx1 hx2
              rw [mcell_set_other _ hr hr (Or.inl (by omega))]
              exact hcol.2 x1 (Or.inr (by omega))
            rw [this]; decide
      · intro k hk
        have hb : mcell c m k usereg = ' ' := hcol.2 k (by omega)
        have hkj : j ≠ k := by omega
        rcases s2 k usereg hr with h | ⟨_, _, _, h4, h5⟩
        · rw [h, mcell_set_other _ hr hr (Or.inl hkj)]; exact hb
        · omega
  · rename_i hns
    have : nr ≠ node.ssareg r := by
      intro h; exact hns r h
    rw [if_neg this]
    exact ⟨hlen, fun _ _ _ _ => rfl, hcol⟩

theorem use_row_step {nodes : node_list} {c n r i j : Nat} {m0 m : List Char} (hr : r < c)
    (hij : i < j) (hj : j < n) (h : scan_inv nodes c n r i m0 j m) :
    scan_inv nodes c n r i m0 (j + 1) (use_row nodes c i r m j) := by
  obtain ⟨hlen, hframe, hi, h1, h2, hcol, hlast, hcover⟩ := h
  unfold use_row
  split
  · rename_i dst opc l v hget
    obtain ⟨s1, s2, s3⟩ := use_scan_spec hr l hij hj hlen h1 (Nat.le_of_lt h2) hcol
    refine ⟨s1, fun x y hy hne => (s2 x y hy hne).trans (hframe x y hy hne), ?_⟩
    by_cases hl : l = .ssareg r
    · rw [if_pos hl] at s3
      refine ⟨j, by omega, by omega, s3, Or.inr ⟨_, hget, by simp [uses_reg, hl]⟩, ?_⟩
      intro j1 nd _ hj1 _ _
      omega
    · rw [if_neg hl] at s3
      refine ⟨hi, h1, by omega, s3, hlast, ?_⟩
      intro j1 nd hj0 hj1 hnd hu
      by_cases hjj : j1 = j
      · subst hjj
        rw [hget] at hnd
        cases hnd
        simp [uses_reg, hl] at hu
      · exact hcover j1 nd hj0 (by omega) hnd hu
  · rename_i dst opc l r1 v hget
    obtain ⟨s1, s2, s3⟩ := use_scan_spec hr l hij hj hlen h1 (Nat.le_of_lt h2) hcol
    have hle : (if l = node.ssareg r then j else hi) ≤ j := by
      split <;> omega
    have hge : i ≤ (if l = node.ssareg r then j else hi) := by
      split <;> omega
    obtain ⟨t1, t2, t3⟩ := use_scan_spec hr r1 hij hj s1 hge hle s3
    refine ⟨t1, fun x y hy hne =>
      ((t2 x y hy hne).trans (s2 x y hy hne)).trans (hframe x y hy hne), ?_⟩
    by_cases hu : l = .ssareg r ∨ r1 = .ssareg r
    · have e : (if r1 = node.ssareg r then j else if l = node.ssareg r then j else hi) = j := by
        rcases hu with hu | hu
        · simp [hu]
        · simp [hu]
      rw [e] at t3
      refine ⟨j, by omega, by omega, t3, Or.inr ⟨_, hget, ?_⟩, ?_⟩
      · rcases hu with hu | hu <;> simp [uses_reg, hu]
      · intro j1 nd _ hj1 _ _
        omega
    · have hl : l ≠ .ssareg r := fun h => hu (Or.inl h)
      have hr1 : r1 ≠ .ssareg r := fun h => hu (Or.inr h)
      rw [if_neg hr1, if_neg hl] at t3
      refine ⟨hi, h1, by omega, t3, hlast, ?_⟩
      intro j1 nd hj0 hj1 hnd hu1
      by_cases hjj : j1 = j
      · subst hjj
        rw [hget] at hnd
        cases hnd
        simp [uses_reg, hl, hr1] at hu1
      · exact hcover j1 nd hj0 (by omega) hnd hu1
  · rename_i hn1 hn2
    refine ⟨hlen, hframe, hi, h1, by omega, hcol, hlast, ?_⟩
    intro j1 nd hj0 hj1 hnd hu
    by_cases hjj : j1 = j
    · subst hjj
      exfalso
      unfold uses_reg at hu
      split at hu
      · exact hn1 _ _ _ _ hnd
      · exact hn2 _ _ _ _ _ hnd
      · cases hu
    · exact hcover j1 nd hj0 (by omega) hnd hu

/-- The body of the outer loop of `def_use_ssa_analysis` for a definition row `i` of
register `r` whose column is still blank: afterwards column `r` holds the live range of
`r`, and every other column is as before. -/
theorem def_row_spec {nodes : node_list} {c r i : Nat} {m : List Char} {dst : reg}
    {rhs : node} {v : Option String} (hget : nodes.get? i = some (.setreg dst rhs v))
    (hdst : dst.l = r) (hr : r < c) (hlen : m.length = nodes.length * c)
    (hblank : ∀ x, mcell c m x r = ' ') :
    (def_row nodes c m i).length = nodes.length * c ∧
    (∀ x y, y < c → y ≠ r → mcell c (def_row nodes c m i) x y = mcell c m x y) ∧
    col_done nodes c (def_row nodes c m i) r i := by
  have hi : i < nodes.length := by
    rcases Nat.lt_or_ge i nodes.length with h | h
    · exact h
    · rw [List.get?_eq_none.2 h] at hget; cases hget
  subst hdst
  have hlen1 : (m.set (i * c + dst.l) 'v').length = nodes.length * c := by simp [hlen]
  have h0 : scan_inv nodes c nodes.length dst.l i m (i + 1) (m.set (i * c + dst.l) 'v') := by
    refine ⟨hlen1, fun x y hy hne => mcell_set_other _ hr hy (Or.inr (Ne.symm hne)),
      i, Nat.le_refl _, by omega, ⟨?_, ?_⟩, Or.inl rfl, ?_⟩
    · intro k hk1 hk2
      have : k = i := by omega
      subst this
      rw [mcell_set_same _ hlen hr hi]; decide
    · intro k hk
      rw [mcell_set_other _ hr hr (Or.inl (by omega))]
      exact hblank k
    · intro j1 nd h1 h2
      omega
  have key := foldl_range_inv (use_row nodes c i dst.l)
    (scan_inv nodes c nodes.length dst.l i m) (nodes.length - (i + 1)) (i + 1)
    (m.set (i * c + dst.l) 'v') h0
    (fun j b hj1 hj2 hb => use_row_step hr (by omega) (by omega) hb)
  have e : i + 1 + (nodes.length - (i + 1)) = nodes.length := by omega
  rw [e] at key
  simp only [def_row, hget]
  obtain ⟨k1, k2, hi1, k3, k4, k5, k6, k7⟩ := key
  refine ⟨k1, k2, hi1, k3, k4, k5, k6, ?_⟩
  intro j nd hj hnd hu
  have hjn : j < nodes.length := by
    rcases Nat.lt_or_ge j nodes.length with h | h
    · exact h
    · rw [List.get?_eq_none.2 h] at hnd; cases hnd
  exact k7 j nd hj hjn hnd hu

/-! ## Definition rows -/

theorem rank_succ_setreg {nodes : node_list} {k : Nat} {dst : reg} {rhs : node}
    {v : Option String} (h : nodes.get? k = some (.setreg dst rhs v)) :
    setreg_dests (nodes.take (k + 1)) = setreg_dests (nodes.take k) ++ [dst.l] ∧
    rank nodes (k + 1) = rank nodes k + 1 := by
  have h1 : nodes[k]? = some (.setreg dst rhs v) := by simpa using h
  have : nodes.take (k + 1) = nodes.take k ++ [.setreg dst rhs v] := by
    rw [List.take_succ, h1]; rfl
  simp [rank, this, setreg_dests_append, setreg_dests]

theorem rank_succ_le (nodes : node_list) (k : Nat) : rank nodes k ≤ rank nodes (k + 1) := by
  unfold rank
  rw [List.take_succ, setreg_dests_append]
  simp

theorem rank_mono (nodes : node_list) {k k1 : Nat} (h : k ≤ k1) :
    rank nodes k ≤ rank nodes k1 := by
  induction k1 with
  | zero =>
    have : k = 0 := by omega
    subst this
    exact Nat.le_refl _
  | succ k1 ih =>
    rcases Nat.lt_or_ge k (k1 + 1) with h1 | h1
    · exact Nat.le_trans (ih (by omega)) (rank_succ_le nodes k1)
    · have : k = k1 + 1 := by omega
      subst this
      exact Nat.le_refl _

theorem range_prefix_length {c : Nat} {A B : List Nat} {x : Nat}
    (h : List.range c = A ++ x :: B) : x = A.length ∧ A.length < c := by
  have hlen : c = A.length + (B.length + 1) := by
    have := congrArg List.length h
    simpa using this
  have h1 : (List.range c)[A.length]? = some x := by
    rw [h, List.getElem?_append_right (Nat.le_refl _)]; simp
  have h2 : A.length < c := by omega
  rw [List.getElem?_range h2] at h1
  cases h1
  exact ⟨rfl, h2⟩

/-- In a sequence whose `setreg` destinations are `0, 1, ..`, the destination of a `setreg`
is the number of `setreg` nodes before it. -/
theorem dest_eq_rank {nodes : node_list} {c k : Nat} {dst : reg} {rhs : node}
    {v : Option String} (hd : setreg_dests nodes = List.range c)
    (h : nodes.get? k = some (.setreg dst rhs v)) : dst.l = rank nodes k ∧ dst.l < c := by
  have h1 := (rank_succ_setreg h).1
  have h2 : setreg_dests nodes =
      setreg_dests (nodes.take (k + 1)) ++ setreg_dests (nodes.drop (k + 1)) := by
    rw [← setreg_dests_append, List.take_append_drop]
  rw [h1, hd, List.append_assoc] at h2
  obtain ⟨e1, e2⟩ := range_prefix_length h2
  exact ⟨e1, by omega⟩

theorem def_row_unique {nodes : node_list} {c k k1 : Nat} {dst dst1 : reg} {rhs rhs1 : node}
    {v v1 : Option String} (hd : setreg_dests nodes = List.range c)
    (h : nodes.get? k = some (.setreg dst rhs v))
    (h1 : nodes.get? k1 = some (.setreg dst1 rhs1 v1)) :
    (k < k1 ↔ dst.l < dst1.l) ∧ (dst.l = dst1.l → k = k1) := by
  obtain ⟨e, _⟩ := dest_eq_rank hd h
  obtain ⟨e1, _⟩ := dest_eq_rank hd h1
  have a1 : k < k1 → dst.l < dst1.l := by
    intro hk
    have := rank_mono nodes (show k + 1 ≤ k1 from hk)
    have := (rank_succ_setreg h).2
    omega
  have a2 : k1 < k → dst1.l < dst.l := by
    intro hk
    have := rank_mono nodes (show k1 + 1 ≤ k from hk)
    have := (rank_succ_setreg h1).2
    omega
  refine ⟨⟨a1, ?_⟩, ?_⟩
  · intro hlt
    rcases Nat.lt_trichotomy k k1 with hk | hk | hk
    · exact hk
    · subst hk; rw [h] at h1; cases h1; omega
    · have := a2 hk; omega
  · intro heq
    rcases Nat.lt_trichotomy k k1 with hk | hk | hk
    · have := a1 hk; omega
    · exact hk
    · have := a2 hk; omega

/-- Every number below the rank of a row is the rank of an earlier `setreg` row. -/
theorem exists_def_row (nodes : node_list) : ∀ (k u : Nat), u < rank nodes k →
    ∃ k0 dst rhs v, k0 < k ∧ nodes.get? k0 = some (.setreg dst rhs v) ∧ rank nodes k0 = u := by
  intro k
  induction k with
  | zero => intro u hu; simp [rank, setreg_dests] at hu
  | succ k ih =>
    intro u hu
    by_cases hlt : u < rank nodes k
    · obtain ⟨k0, dst, rhs, v, h1, h2, h3⟩ := ih u hlt
      exact ⟨k0, dst, rhs, v, by omega, h2, h3⟩
    · cases hget : nodes.get? k with
      | none =>
        exfalso
        have hk : nodes.length ≤ k := List.get?_eq_none.1 hget
        have : rank nodes (k + 1) = rank nodes k := by
          unfold rank
          rw [List.take_of_length_le hk, List.take_of_length_le (by omega)]
        omega
      | some nd =>
        have h1 : nodes[k]? = some nd := by simpa using hget
        have hk : nodes.take (k + 1) = nodes.take k ++ [nd] := by
          rw [List.take_succ, h1]; rfl
        cases nd with
        | setreg dst rhs v =>
          have := (rank_succ_setreg hget).2
          exact ⟨k, dst, rhs, v, by omega, hget, by omega⟩
        | _ =>
          exfalso
          have : rank nodes (k + 1) = rank nodes k := by
            simp [rank, hk, setreg_dests_append, setreg_dests]
          omega

theorem col_done_congr {nodes : node_list} {c r k : Nat} {m m1 : List Char}
    (h : ∀ x, mcell c m1 x r = mcell c m x r) (hd : col_done nodes c m r k) :
    col_done nodes c m1 r k := by
  obtain ⟨hi, h1, h2, ⟨h3, h4⟩, h5, h6⟩ := hd
  refine ⟨hi, h1, h2, ⟨?_, ?_⟩, h5, h6⟩
  · intro x hx1 hx2; rw [h]; exact h3 x hx1 hx2
  · intro x hx; rw [h]; exact h4 x hx

theorem analysis_step {nodes : node_list} {c i : Nat} {m : List Char}
    (hd : setreg_dests nodes = List.range c) (h : analysis_inv nodes c i m) :
    analysis_inv nodes c (i + 1) (def_row nodes c m i) := by
  obtain ⟨hlen, hcols⟩ := h
  cases hget : nodes.get? i with
  | none =>
    have e : def_row nodes c m i = m := by simp only [def_row, hget]
    rw [e]
    refine ⟨hlen, fun r hr => ⟨?_, ?_⟩⟩
    · intro k dst rhs v hk hk1 hk2
      have : k ≠ i := by intro h; subst h; rw [hget] at hk1; cases hk1
      exact (hcols r hr).1 k dst rhs v (by omega) hk1 hk2
    · intro hno
      exact (hcols r hr).2 (fun k dst rhs v hk => hno k dst rhs v (by omega))
  | some nd =>
    by_cases hsr : ∃ dst rhs v, nd = .setreg dst rhs v
    · obtain ⟨dst, rhs, v, rfl⟩ := hsr
      obtain ⟨_, hr0⟩ := dest_eq_rank hd hget
      have hblank : ∀ x, mcell c m x dst.l = ' ' := by
        apply (hcols dst.l hr0).2
        intro k dst1 rhs1 v1 hk hk1 heq
        have := (def_row_unique hd hk1 hget).2 heq
        omega
      obtain ⟨s1, s2, s3⟩ := def_row_spec hget rfl hr0 hlen hblank
      refine ⟨s1, fun r hr => ⟨?_, ?_⟩⟩
      · intro k dst1 rhs1 v1 hk hk1 heq
        by_cases hki : k = i
        · subst hki
          rw [hget] at hk1
          cases hk1
          subst heq
          exact s3
        · have hne : r ≠ dst.l := by
            intro e
            have := (def_row_unique hd hk1 hget).2 (heq.trans e)
            exact hki this
          exact col_done_congr (fun x => s2 x r hr hne)
            ((hcols r hr).1 k dst1 rhs1 v1 (by omega) hk1 heq)
      · intro hno x
        have hne : r ≠ dst.l := fun e => hno i dst rhs v (by omega) hget e.symm
        rw [s2 x r hr hne]
        exact (hcols r hr).2 (fun k dst1 rhs1 v1 hk => hno k dst1 rhs1 v1 (by omega)) x
    · have e : def_row nodes c m i = m := by
        simp only [def_row, hget]
        split
        · rename_i dst rhs v heq
          cases heq
          exact absurd ⟨_, _, _, rfl⟩ hsr
        · rfl
      rw [e]
      refine ⟨hlen, fun r hr => ⟨?_, ?_⟩⟩
      · intro k dst rhs v hk hk1 hk2
        have : k ≠ i := by
          intro h; subst h; rw [hget] at hk1; cases hk1; exact hsr ⟨_, _, _, rfl⟩
        exact (hcols r hr).1 k dst rhs v (by omega) hk1 hk2
      · intro hno
        exact (hcols r hr).2 (fun k dst rhs v hk => hno k dst rhs v (by omega))

/-- The matrix `def_use_ssa_analysis` computes for a sequence in SSA form: the column of
every register holds its live range, from the row that defines it to the last row that
uses it. -/
theorem analysis_spec {d d1 : compiler} (hf : ssa_form d.nodes d.ssaregcount)
    (h : compiler.def_use_ssa_analysis d = .ok d1) :
    d1 = { d with def_use_ssa := d1.def_use_ssa } ∧
    d1.def_use_ssa.length = d.nodes.length * d.ssaregcount ∧
    ∀ k dst rhs v, d.nodes.get? k = some (.setreg dst rhs v) →
      col_done d.nodes d.ssaregcount d1.def_use_ssa dst.l k := by
  unfold compiler.def_use_ssa_analysis at h
  split at h
  · cases h
  · simp only [Except.ok.injEq] at h
    subst h
    have h0 : analysis_inv d.nodes d.ssaregcount 0
        (List.replicate (d.nodes.length * d.ssaregcount) ' ') := by
      refine ⟨by simp, fun r _ => ⟨fun k _ _ _ hk => absurd hk (Nat.not_lt_zero _), ?_⟩⟩
      intro _ x
      simp [mcell, List.getD_eq_getElem?_getD, List.getElem?_replicate]
      split <;> rfl
    have key := foldl_range_inv (def_row d.nodes d.ssaregcount)
      (analysis_inv d.nodes d.ssaregcount) d.nodes.length 0 _ h0
      (fun j b _ _ hb => analysis_step hf.2 hb)
    rw [Nat.zero_add, ← List.range_eq_range'] at key
    refine ⟨rfl, key.1, ?_⟩
    intro k dst rhs v hget
    have hk : k < d.nodes.length := by
      rcases Nat.lt_or_ge k d.nodes.length with h | h
      · exact h
      · rw [List.get?_eq_none.2 h] at hget; cases hget
    exact (key.2 dst.l (dest_eq_rank hf.2 hget).2).1 k dst rhs v hk hget rfl

/-! ## The map `reg_used` and the reclaim loop -/

theorem map_find_map_set (m : List (Nat × Nat)) (a x u : Nat) :
    map_find (map_set m a x) u = if u = a then some x else map_find m u := by
  induction m with
  | nil =>
    by_cases h : u = a
    · simp [map_set, map_find, List.find?, h]
    · have : (a == u) = false := by simpa using fun e => h e.symm
      simp [map_set, map_find, List.find?, h, this]
  | cons e rest ih =>
    obtain ⟨k1, v1⟩ := e
    simp only [map_set]
    by_cases h1 : a < k1
    · rw [if_pos h1]
      by_cases h : u = a
      · simp [map_find, List.find?, h]
      · have : (a == u) = false := by simpa using fun e => h e.symm
        simp [map_find, List.find?, h, this]
    · rw [if_neg h1]
      by_cases h2 : a = k1
      · subst h2
        rw [if_pos rfl]
        by_cases h : u = a
        · simp [map_find, List.find?, h]
        · have : (a == u) = false := by simpa using fun e => h e.symm
          simp [map_find, List.find?, h, this]
      · rw [if_neg h2]
        by_cases h3 : k1 = u
        · subst h3
          have : ¬ k1 = a := fun e => h2 e.symm
          simp [map_find, List.find?, this]
        · have h4 : (k1 == u) = false := by simpa using h3
          have e1 : map_find ((k1, v1) :: map_set rest a x) u = map_find (map_set rest a x) u := by
            simp [map_find, List.find?, h4]
          have e2 : map_find ((k1, v1) :: rest) u = map_find rest u := by
            simp [map_find, List.find?, h4]
          rw [e1, e2, ih]

theorem map_find_mem {m : List (Nat × Nat)} {u q : Nat} (h : map_find m u = some q) :
    (u, q) ∈ m := by
  unfold map_find at h
  cases hf : m.find? (fun e => e.1 == u) with
  | none => rw [hf] at h; cases h
  | some e =>
    rw [hf] at h
    simp only [Option.map_some', Option.some.injEq] at h
    have h1 := List.find?_some hf
    have h2 := List.mem_of_find?_eq_some hf
    simp only [beq_iff_eq] at h1
    obtain ⟨e1, e2⟩ := e
    simp only at h h1
    subst h h1
    exact h2

theorem map_find_of_mem {m : List (Nat × Nat)} {u p : Nat} (h : (u, p) ∈ m) :
    ∃ q, map_find m u = some q := by
  unfold map_find
  cases hf : m.find? (fun e => e.1 == u) with
  | none =>
    have := List.find?_eq_none.1 hf (u, p) h
    simp at this
  | some e => exact ⟨e.2, rfl⟩

theorem map_find_unique {m : List (Nat × Nat)} {u p q : Nat}
    (hn : (m.map Prod.fst).Nodup) (h : (u, p) ∈ m) (hq : map_find m u = some q) : q = p := by
  have h1 := map_find_mem hq
  induction m with
  | nil => cases h
  | cons e rest ih =>
    simp only [List.map_cons, List.nodup_cons] at hn
    rcases List.mem_cons.1 h with rfl | h2
    · rcases List.mem_cons.1 h1 with e1 | e1
      · cases e1; rfl
      · exact absurd (List.mem_map_of_mem Prod.fst e1) hn.1
    · rcases List.mem_cons.1 h1 with e1 | e1
      · subst e1
        exact absurd (List.mem_map_of_mem Prod.fst h2) hn.1
      · have hne : e.1 ≠ u := by
          intro e2
          exact hn.1 (e2 ▸ List.mem_map_of_mem Prod.fst h2)
        have : map_find (e :: rest) u = map_find rest u := by
          have : (e.1 == u) = false := by simpa using hne
          simp [map_find, List.find?, this]
        rw [this] at hq
        exact ih hn.2 h2 hq e1

theorem map_set_idem (m : List (Nat × Nat)) (a x p : Nat) :
    map_set (map_set m a x) a p = map_set m a p := by
  induction m with
  | nil => simp [map_set]
  | cons e rest ih =>
    obtain ⟨k1, v1⟩ := e
    simp only [map_set]
    by_cases h1 : a < k1
    · simp [h1, map_set]
    · rw [if_neg h1, if_neg h1]
      by_cases h2 : a = k1
      · subst h2
        simp [map_set]
      · rw [if_neg h2, if_neg h2]
        simp only [map_set, if_neg h1, if_neg h2]
        rw [ih]

theorem map_set_perm (m : List (Nat × Nat)) (a p : Nat) (h : a ∉ m.map Prod.fst) :
    (map_set m a p).Perm ((a, p) :: m) := by
  induction m with
  | nil => simp [map_set]
  | cons e rest ih =>
    obtain ⟨k1, v1⟩ := e
    simp only [List.map_cons, List.mem_cons, not_or] at h
    simp only [map_set]
    by_cases h1 : a < k1
    · rw [if_pos h1]
    · rw [if_neg h1, if_neg h.1]
      exact ((ih h.2).cons (k1, v1)).trans (List.Perm.swap _ _ _)

/-- The reclaim loop keeps the entries whose SSA register has a non-blank cell in row `i`
and frees the physical registers of the others, in the order of the map. -/
theorem reclaim_spec (d : compiler) (i : Nat) : ∀ (u : List (Nat × Nat)) (phy : List Char),
    (reclaim_loop d i u phy).1 = u.filter (fun e => decide (d.cell i e.1 ≠ ' ')) ∧
    (reclaim_loop d i u phy).2.1 =
      (u.filter (fun e => decide (d.cell i e.1 = ' '))).map Prod.snd := by
  intro u
  induction u with
  | nil => intro phy; simp [reclaim_loop]
  | cons e rest ih =>
    intro phy
    obtain ⟨a, p⟩ := e
    simp only [reclaim_loop]
    obtain ⟨ih1, ih2⟩ := ih (phy.set (i * d.phyregcount + p)
      (d.def_use_ssa.getD (i * d.ssaregcount + a) ' '))
    have hc : d.def_use_ssa.getD (i * d.ssaregcount + a) ' ' = d.cell i a := rfl
    rw [hc] at ih1 ih2 ⊢
    by_cases h : d.cell i a = ' '
    · rw [if_pos h, List.filter_cons, List.filter_cons]
      simp only [h, ne_eq, not_true_eq_false, decide_False, decide_True, if_true,
        Bool.false_eq_true, if_false, List.map_cons]
      exact ⟨(ih _).1, by rw [(ih _).2]⟩
    · rw [if_neg h, List.filter_cons, List.filter_cons]
      simp only [h, ne_eq, not_false_eq_true, decide_False, decide_True, if_true,
        Bool.false_eq_true, if_false]
      exact ⟨by rw [(ih _).1], (ih _).2⟩

/-! ## Register allocation: one row -/

theorem rewrite_operand_used {K m : List (Nat × Nat)} {a : Nat} {n : node}
    (hm : m = K ∨ m = map_set K a 0)
    (hn : ∀ u, n = .ssareg u → u = a ∨ ∃ p, (u, p) ∈ K) :
    (rewrite_operand m n).2 = K ∨ (rewrite_operand m n).2 = map_set K a 0 := by
  unfold rewrite_operand
  split
  · rename_i u
    simp only [reg_used_at]
    cases hfind : map_find m u with
    | some q => exact hm
    | none =>
      simp only
      rcases hm with rfl | rfl
      · rcases hn u rfl with rfl | ⟨p, hp⟩
        · exact Or.inr rfl
        · obtain ⟨q, hq⟩ := map_find_of_mem hp
          rw [hq] at hfind; cases hfind
      · rw [map_find_map_set] at hfind
        split at hfind
        · cases hfind
        · rcases hn u rfl with rfl | ⟨p, hp⟩
          · rename_i hne; exact absurd rfl hne
          · obtain ⟨q, hq⟩ := map_find_of_mem hp
            rw [hq] at hfind; cases hfind
  · exact hm

/-- Rewriting the operands of a lowered instruction with destination `a` leaves the used
map as it is, up to an entry for `a` itself, which the allocation of `a` overwrites. -/
theorem rewrite_rhs_used {K : List (Nat × Nat)} {a p : Nat} {rhs : node} {v : Option String}
    (hrow : row_ok (.setreg (.ssareg a) rhs v) = true)
    (hops : ∀ u, uses_reg u (.setreg (.ssareg a) rhs v) = true → u = a ∨ ∃ q, (u, q) ∈ K) :
    map_set (rewrite_rhs K rhs).2 a p = map_set K a p := by
  have key : (rewrite_rhs K rhs).2 = K ∨ (rewrite_rhs K rhs).2 = map_set K a 0 := by
    cases rhs with
    | unaryop opc x =>
      simp only [rewrite_rhs]
      apply rewrite_operand_used (Or.inl rfl)
      rintro u rfl
      exact hops u (by simp [uses_reg])
    | binaryop opc x y =>
      simp only [rewrite_rhs]
      apply rewrite_operand_used
      · apply rewrite_operand_used (Or.inl rfl)
        rintro u rfl
        exact hops u (by simp [uses_reg])
      · rintro u rfl
        exact hops u (by simp [uses_reg])
    | _ => simp [row_ok] at hrow
  rcases key with h | h
  · rw [h]
  · rw [h, map_set_idem]

theorem col_done_live {nodes : node_list} {c r k i : Nat} {m : List Char}
    (hd : col_done nodes c m r k) (h : mcell c m i r ≠ ' ') :
    k ≤ i ∧ ∀ k1, k ≤ k1 → k1 ≤ i → mcell c m k1 r ≠ ' ' := by
  obtain ⟨hi, _, _, ⟨h3, h4⟩, _, _⟩ := hd
  have h5 : ¬ (i < k ∨ hi < i) := fun hc => h (h4 i hc)
  exact ⟨by omega, fun k1 hk1 hk2 => h3 k1 hk1 (by omega)⟩

theorem col_done_use {nodes : node_list} {c r k i : Nat} {m : List Char} {nd : node}
    (hd : col_done nodes c m r k) (hk : k < i) (hget : nodes.get? i = some nd)
    (hu : uses_reg r nd = true) : mcell c m i r ≠ ' ' := by
  obtain ⟨hi, h1, _, ⟨h3, _⟩, _, h6⟩ := hd
  exact h3 i (by omega) (h6 i nd hk hget hu)

theorem get_lt_length {nodes : node_list} {k : Nat} {nd : node}
    (h : nodes.get? k = some nd) : k < nodes.length := by
  rcases Nat.lt_or_ge k nodes.length with h1 | h1
  · exact h1
  · rw [List.get?_eq_none.2 h1] at h; cases h

theorem ssa_form_row {nodes : node_list} {c k : Nat} {dst : reg} {rhs : node}
    {v : Option String} (hf : ssa_form nodes c)
    (h : nodes.get? k = some (.setreg dst rhs v)) :
    dst = .ssareg (rank nodes k) ∧ rank nodes k < c ∧
    row_ok (.setreg (.ssareg (rank nodes k)) rhs v) = true := by
  have hmem : node.setreg dst rhs v ∈ nodes := List.get?_mem h
  have hok := hf.1 _ hmem
  have hrow : row_ok (.setreg dst rhs v) = true := by simpa [seq_node_ok] using hok
  obtain ⟨a, rhs1, v1, e⟩ := row_ok_dest hrow
  cases e
  obtain ⟨e1, e2⟩ := dest_eq_rank hf.2 h
  simp only [reg.l] at e1 e2
  subst e1
  exact ⟨rfl, e2, hrow⟩

theorem rank_length {nodes : node_list} {c : Nat} (hd : setreg_dests nodes = List.range c) :
    rank nodes nodes.length = c := by
  simp [rank, hd]

/-- An SSA register below `c` has a definition row. -/
theorem exists_def_of_lt {nodes : node_list} {c a : Nat} (hf : ssa_form nodes c) (ha : a < c) :
    ∃ k rhs v, nodes.get? k = some (.setreg (.ssareg a) rhs v) := by
  have := exists_def_row nodes nodes.length a (by rw [rank_length hf.2]; exact ha)
  obtain ⟨k0, dst, rhs, v, _, h2, h3⟩ := this
  obtain ⟨e, _, _⟩ := ssa_form_row hf h2
  rw [h3] at e
  subst e
  exact ⟨k0, rhs, v, h2⟩

/-- A register used by row `i` or live in row `i`, and defined before row `i`, is bound in
the used map before row `i` if the allocator invariant holds. -/
theorem live_in_used {nodes0 : node_list} {m : List Char} {c : Nat} {free0 : List Nat}
    {i : Nat} {d : compiler} {k0 : Nat} {dst0 : reg} {rhs0 : node} {v0 : Option String}
    (hM : ∀ k dst rhs v, nodes0.get? k = some (.setreg dst rhs v) →
      col_done nodes0 c m dst.l k)
    (hinv : alloc_inv nodes0 m c free0 i d)
    (hk0 : nodes0.get? k0 = some (.setreg dst0 rhs0 v0)) (hlt : k0 < i)
    (hcell : mcell c m i dst0.l ≠ ' ') : ∃ p, (dst0.l, p) ∈ d.reg_used := by
  obtain ⟨_, _, _, _, _, _, _, hlive, _⟩ := hinv
  obtain ⟨_, hall⟩ := col_done_live (hM _ _ _ _ hk0) hcell
  exact hlive k0 dst0 rhs0 v0 hlt hk0
    (fun k1 _ _ _ h1 h2 _ => hall k1 (by omega) (by omega))

theorem uses_le_dest {a u : Nat} {rhs : node} {v : Option String}
    (hrow : row_ok (.setreg (.ssareg a) rhs v) = true)
    (hu : uses_reg u (.setreg (.ssareg a) rhs v) = true) : u ≤ a := by
  cases rhs with
  | unaryop opc x =>
    simp only [uses_reg, beq_iff_eq] at hu
    subst hu
    simpa [row_ok, operand_ok] using hrow
  | binaryop opc x y =>
    simp only [uses_reg, Bool.or_eq_true, beq_iff_eq] at hu
    simp only [row_ok, Bool.and_eq_true] at hrow
    rcases hu with rfl | rfl
    · simpa [operand_ok] using hrow.1
    · simpa [operand_ok] using hrow.2
  | _ => simp [uses_reg] at hu

theorem row_hist_congr {nodes0 : node_list} {m : List Char} {c : Nat} {free0 : List Nat}
    {nodes nodes1 : node_list} {h h1 : Nat → List (Nat × Nat)} {k : Nat} {dst : reg}
    {rhs : node} {v : Option String} (e1 : h1 k = h k) (e2 : h1 (k + 1) = h (k + 1))
    (en : ∀ j, j ≤ k → nodes1.get? j = nodes.get? j)
    (hh : row_hist nodes0 m c free0 nodes h k dst rhs v) :
    row_hist nodes0 m c free0 nodes1 h1 k dst rhs v := by
  obtain ⟨a1, a2, a3, a4, a5, p, a6, a7, a8, a9⟩ := hh
  unfold row_hist
  rw [e1, e2]
  refine ⟨a1, a2, a3, a4, ?_, p, a6, a7, a8, by rw [en k (Nat.le_refl _)]; exact a9⟩
  intro a q haq
  obtain ⟨ka, r1, w1, b1, b2, b3, b4⟩ := a5 a q haq
  exact ⟨ka, r1, w1, b1, b2, b3, by rw [en ka b1]; exact b4⟩

/-- The body of the allocation loop keeps the invariant: the row of a `setreg`. -/
theorem alloc_row_step {nodes0 : node_list} {m : List Char} {c : Nat} {free0 : List Nat}
    {i : Nat} {d d1 : compiler} {dst : reg} {rhs : node} {v : Option String}
    (hf : ssa_form nodes0 c)
    (hM : ∀ k dst rhs v, nodes0.get? k = some (.setreg dst rhs v) →
      col_done nodes0 c m dst.l k)
    (hinv : alloc_inv nodes0 m c free0 i d)
    (hget : nodes0.get? i = some (.setreg dst rhs v))
    (h : alloc_row d i dst rhs v = .ok d1) :
    alloc_inv nodes0 m c free0 (i + 1) d1 := by
  have hinv0 := hinv
  obtain ⟨hlen, hrows, hm, hc, hkeys, hperm, hbound, hlive, H, hH0, hHi, hhist, hskip⟩ := hinv
  obtain ⟨hdst, hac, hrow⟩ := ssa_form_row hf hget
  have hi : i < nodes0.length := get_lt_length hget
  subst hdst
  have hfilt : (fun e : Nat × Nat => decide (d.cell i e.1 ≠ ' ')) =
      (fun e : Nat × Nat => decide (mcell c m i e.1 ≠ ' ')) := by
    funext e; simp [compiler.cell, mcell, hm, hc]
  have hfilt2 : (fun e : Nat × Nat => decide (d.cell i e.1 = ' ')) =
      (fun e : Nat × Nat => decide (mcell c m i e.1 = ' ')) := by
    funext e; simp [compiler.cell, mcell, hm, hc]
  obtain ⟨hK, hfreed⟩ := reclaim_spec d i d.reg_used d.def_use_phy
  rw [hfilt] at hK
  rw [hfilt2] at hfreed
  have hKsub : ∀ e, e ∈ d.reg_used.filter (fun e => decide (mcell c m i e.1 ≠ ' ')) →
      e ∈ d.reg_used := fun e he => (List.mem_filter.1 he).1
  have hKlt : ∀ a1 p1, (a1, p1) ∈ d.reg_used → a1 < rank nodes0 i := by
    intro a1 p1 h1
    obtain ⟨k, _, _, hk, hr, ⟨dst0, rhs0, v0, hk0⟩, _⟩ := hbound a1 p1 h1
    have := (rank_succ_setreg hk0).2
    have := rank_mono nodes0 (show k + 1 ≤ i from hk)
    omega
  have haK : rank nodes0 i ∉
      (d.reg_used.filter (fun e => decide (mcell c m i e.1 ≠ ' '))).map Prod.fst := by
    intro hmem
    obtain ⟨e, he, he1⟩ := List.mem_map.1 hmem
    have := hKlt e.1 e.2 (hKsub _ he)
    omega
  have hkeep : ∀ a1 p1, (a1, p1) ∈ d.reg_used → mcell c m i a1 ≠ ' ' →
      (a1, p1) ∈ d.reg_used.filter (fun e => decide (mcell c m i e.1 ≠ ' ')) := by
    intro a1 p1 h1 h2
    exact List.mem_filter.2 ⟨h1, by simpa using h2⟩
  have hops : ∀ u, uses_reg u (.setreg (.ssareg (rank nodes0 i)) rhs v) = true →
      u = rank nodes0 i ∨
      ∃ q, (u, q) ∈ d.reg_used.filter (fun e => decide (mcell c m i e.1 ≠ ' ')) := by
    intro u hu
    rcases Nat.eq_or_lt_of_le (uses_le_dest hrow hu) with e | hlt
    · exact Or.inl e
    · right
      obtain ⟨k0, dst0, rhs0, v0, hk0lt, hk0, hr0⟩ := exists_def_row nodes0 i u hlt
      obtain ⟨e0, _, _⟩ := ssa_form_row hf hk0
      rw [hr0] at e0
      subst e0
      have hnb : mcell c m i u ≠ ' ' := col_done_use (hM _ _ _ _ hk0) hk0lt hget hu
      obtain ⟨q, hq⟩ := live_in_used hM hinv0 hk0 hk0lt hnb
      exact ⟨q, hkeep u q hq hnb⟩
  simp only [alloc_row] at h
  split at h
  · cases h
  · rename_i p free_rest heq
    split at h
    · cases h
    · simp only [Except.ok.injEq] at h
      subst h
      have hU1 : map_set (rewrite_rhs (reclaim_loop d i d.reg_used d.def_use_phy).1 rhs).2
          (reg.ssareg (rank nodes0 i)).l p =
          map_set (d.reg_used.filter (fun e => decide (mcell c m i e.1 ≠ ' ')))
            (rank nodes0 i) p := by
        rw [hK]; exact rewrite_rhs_used hrow hops
      have hperm1 := map_set_perm
        (d.reg_used.filter (fun e => decide (mcell c m i e.1 ≠ ' '))) (rank nodes0 i) p haK
      have hmemU : ∀ a1 p1, (a1, p1) ∈ map_set (d.reg_used.filter
          (fun e => decide (mcell c m i e.1 ≠ ' '))) (rank nodes0 i) p →
          (a1 = rank nodes0 i ∧ p1 = p) ∨ ((a1, p1) ∈ d.reg_used ∧ mcell c m i a1 ≠ ' ') := by
        intro a1 p1 h1
        rcases List.mem_cons.1 (hperm1.mem_iff.1 h1) with e | e
        · cases e; exact Or.inl ⟨rfl, rfl⟩
        · obtain ⟨e1, e2⟩ := List.mem_filter.1 e
          exact Or.inr ⟨e1, by simpa using e2⟩
      have hnodes : ∀ k, k ≠ i → (d.nodes.set i (.setreg (.phyreg p)
          (rewrite_rhs (reclaim_loop d i d.reg_used d.def_use_phy).1 rhs).1 v)).get? k =
          d.nodes.get? k := by
        intro k hk
        simp [List.getElem?_set, Ne.symm hk]
      have hnodei : (d.nodes.set i (.setreg (.phyreg p)
          (rewrite_rhs (reclaim_loop d i d.reg_used d.def_use_phy).1 rhs).1 v)).get? i =
          some (.setreg (.phyreg p)
            (rewrite_rhs (d.reg_used.filter (fun e => decide (mcell c m i e.1 ≠ ' '))) rhs).1
            v) := by
        rw [hK]
        simp [List.getElem?_set, hlen, hi]
      have hpermF : ((map_set (d.reg_used.filter (fun e => decide (mcell c m i e.1 ≠ ' ')))
          (rank nodes0 i) p).map Prod.snd ++ free_rest).Perm free0 := by
        have e1 : ((d.reg_used.filter (fun e => decide (mcell c m i e.1 ≠ ' '))).map Prod.snd ++
            (d.reg_used.filter (fun e => decide (mcell c m i e.1 = ' '))).map Prod.snd).Perm
            (d.reg_used.map Prod.snd) := by
          rw [← List.map_append]
          apply List.Perm.map
          have e2 : d.reg_used.filter (fun e => decide (mcell c m i e.1 = ' ')) =
              d.reg_used.filter (fun e => !decide (mcell c m i e.1 ≠ ' ')) := by
            apply List.filter_congr
            intro x _
            simp
          rw [e2]
          exact List.filter_append_perm _ _
        rw [hfreed] at heq
        have e3 : ((map_set (d.reg_used.filter (fun e => decide (mcell c m i e.1 ≠ ' ')))
            (rank nodes0 i) p).map Prod.snd ++ free_rest).Perm
            ((d.reg_used.filter (fun e => decide (mcell c m i e.1 ≠ ' '))).map Prod.snd ++
              p :: free_rest) := by
          refine ((hperm1.map Prod.snd).append_right free_rest).trans ?_
          simp only [List.map_cons, List.cons_append]
          exact List.perm_middle.symm
        rw [← heq, ← List.append_assoc] at e3
        exact (e3.trans (e1.append_right _)).trans hperm
      have hboundU : ∀ a1 p1, (a1, p1) ∈ map_set (d.reg_used.filter
          (fun e => decide (mcell c m i e.1 ≠ ' '))) (rank nodes0 i) p →
          ∃ k rhs1 v1, k < i + 1 ∧ rank nodes0 k = a1 ∧
            (∃ dst0 rhs0 v0, nodes0.get? k = some (.setreg dst0 rhs0 v0)) ∧
            (d.nodes.set i (.setreg (.phyreg p)
              (rewrite_rhs (reclaim_loop d i d.reg_used d.def_use_phy).1 rhs).1 v)).get? k =
              some (.setreg (.phyreg p1) rhs1 v1) := by
        intro a1 p1 h1
        rcases hmemU a1 p1 h1 with ⟨rfl, rfl⟩ | ⟨h2, _⟩
        · exact ⟨i, _, _, by omega, rfl, ⟨_, _, _, hget⟩, hnodei⟩
        · obtain ⟨k, rhs1, v1, hk, hr, hk0, hk1⟩ := hbound a1 p1 h2
          exact ⟨k, rhs1, v1, by omega, hr, hk0, by rw [hnodes k (by omega)]; exact hk1⟩
      have hliveU : ∀ a1, a1 < c → mcell c m i a1 ≠ ' ' →
          ∃ p1, (a1, p1) ∈ map_set (d.reg_used.filter
            (fun e => decide (mcell c m i e.1 ≠ ' '))) (rank nodes0 i) p := by
        intro a1 ha1 hnb
        obtain ⟨k0, rhs0, v0, hk0⟩ := exists_def_of_lt hf ha1
        obtain ⟨hle, _⟩ := col_done_live (hM _ _ _ _ hk0) hnb
        rcases Nat.eq_or_lt_of_le hle with e | hlt
        · subst e
          rw [hget] at hk0
          cases hk0
          exact ⟨p, hperm1.mem_iff.2 (List.mem_cons_self _ _)⟩
        · obtain ⟨q, hq⟩ := live_in_used hM hinv0 hk0 hlt hnb
          exact ⟨q, hperm1.mem_iff.2 (List.mem_cons_of_mem _ (hkeep a1 q hq hnb))⟩
      have hkeysU : ((map_set (d.reg_used.filter (fun e => decide (mcell c m i e.1 ≠ ' ')))
          (rank nodes0 i) p).map Prod.fst).Nodup := by
        rw [(hperm1.map Prod.fst).nodup_iff]
        simp only [List.map_cons, List.nodup_cons]
        exact ⟨haK, hkeys.sublist ((List.filter_sublist _).map _)⟩
      refine ⟨by simp [hlen], fun k hk => ?_, hm, hc, ?_, ?_, ?_, ?_, ?_⟩
      · show (d.nodes.set i _).get? k = _
        rw [hnodes k (by omega)]
        exact hrows k (by omega)
      · show (List.map Prod.fst (map_set _ _ _)).Nodup
        rw [hU1]; exact hkeysU
      · show (List.map Prod.snd (map_set _ _ _) ++ free_rest).Perm free0
        rw [hU1]; exact hpermF
      · intro a1 p1 h1
        have h2 : (a1, p1) ∈ map_set _ _ _ := h1
        rw [hU1] at h2
        exact hboundU a1 p1 h2
      · intro k dst1 rhs1 v1 hk hk1 hall
        show ∃ p1, (dst1.l, p1) ∈ map_set _ _ _
        rw [hU1]
        obtain ⟨e1, hlt1, _⟩ := ssa_form_row hf hk1
        rcases Nat.eq_or_lt_of_le (Nat.le_of_lt_succ hk) with e | hlt
        · subst e
          rw [hget] at hk1
          cases hk1
          exact ⟨p, hperm1.mem_iff.2 (List.mem_cons_self _ _)⟩
        · have hnb : mcell c m i dst1.l ≠ ' ' := hall i _ _ _ hlt (by omega) hget
          obtain ⟨q, hq⟩ := hlive k dst1 rhs1 v1 hlt hk1
            (fun k1 d2 r2 v2 h1 h2 h3 => hall k1 d2 r2 v2 h1 (by omega) h3)
          exact ⟨q, hperm1.mem_iff.2 (List.mem_cons_of_mem _ (hkeep _ q hq hnb))⟩
      · refine ⟨fun j => if j = i + 1 then map_set (d.reg_used.filter
          (fun e => decide (mcell c m i e.1 ≠ ' '))) (rank nodes0 i) p else H j, ?_, ?_, ?_, ?_⟩
        · simp [hH0]
        · show _ = map_set _ _ _
          rw [hU1]; simp
        · intro k dst1 rhs1 v1 hk hk1
          rcases Nat.eq_or_lt_of_le (Nat.le_of_lt_succ hk) with e | hlt
          · subst e
            rw [hget] at hk1
            cases hk1
            have ek : (if k = k + 1 then map_set (d.reg_used.filter
                (fun e => decide (mcell c m k e.1 ≠ ' '))) (rank nodes0 k) p else H k) =
                d.reg_used := by
              rw [if_neg (by omega)]; exact hHi
            unfold row_hist
            simp only [if_true, ek, reg.l]
            refine ⟨hkeysU, ?_, ?_, hliveU, ?_, p, rfl, haK, hops, hnodei⟩
            · have := hpermF.length_eq
              simp only [List.length_append, List.length_map] at this
              omega
            · intro hnd
              exact (List.nodup_append.1 ((hpermF.nodup_iff).2 hnd)).1
            · intro a1 p1 h1
              obtain ⟨k1, r1, w1, h2, h3, h4, h5⟩ := hboundU a1 p1 h1
              exact ⟨k1, r1, w1, by omega, h3, h4, h5⟩
          · refine row_hist_congr ?_ ?_ ?_ (hhist k dst1 rhs1 v1 hlt hk1)
            · show (if k = i + 1 then _ else H k) = H k
              rw [if_neg (by omega)]
            · show (if k + 1 = i + 1 then _ else H (k + 1)) = H (k + 1)
              rw [if_neg (by omega)]
            · intro j hj
              show (d.nodes.set i _).get? j = _
              exact hnodes j (by omega)
        · intro k hk hno
          have hki : k < i := by
            rcases Nat.eq_or_lt_of_le (Nat.le_of_lt_succ hk) with e | hlt
            · subst e; exact absurd hget (hno _ _ _)
            · exact hlt
          obtain ⟨s1, s2⟩ := hskip k hki hno
          refine ⟨?_, ?_⟩
          · show (if k + 1 = i + 1 then _ else H (k + 1)) = (if k = i + 1 then _ else H k)
            rw [if_neg (by omega), if_neg (by omega)]; exact s1
          · show (d.nodes.set i _).get? k = _
            rw [hnodes k (by omega)]; exact s2

theorem alloc_skip_step {nodes0 : node_list} {m : List Char} {c : Nat} {free0 : List Nat}
    {i : Nat} {d : compiler} (hinv : alloc_inv nodes0 m c free0 i d)
    (hno : ∀ dst rhs v, nodes0.get? i ≠ some (.setreg dst rhs v)) :
    alloc_inv nodes0 m c free0 (i + 1) d := by
  obtain ⟨hlen, hrows, hm, hc, hkeys, hperm, hbound, hlive, H, hH0, hHi, hhist, hskip⟩ := hinv
  have hlt : ∀ k dst rhs v, k < i + 1 → nodes0.get? k = some (.setreg dst rhs v) → k < i := by
    intro k dst rhs v hk hk1
    rcases Nat.eq_or_lt_of_le (Nat.le_of_lt_succ hk) with e | h
    · subst e; exact absurd hk1 (hno _ _ _)
    · exact h
  refine ⟨hlen, fun k hk => hrows k (by omega), hm, hc, hkeys, hperm, ?_, ?_, ?_⟩
  · intro a p h
    obtain ⟨k, rhs, v, h1, h2⟩ := hbound a p h
    exact ⟨k, rhs, v, by omega, h2⟩
  · intro k dst rhs v hk hk1 hall
    exact hlive k dst rhs v (hlt _ _ _ _ hk hk1) hk1
      (fun k1 d1 r1 v1 h1 h2 h3 => hall k1 d1 r1 v1 h1 (by omega) h3)
  · refine ⟨fun j => if j = i + 1 then d.reg_used else H j, ?_, ?_, ?_, ?_⟩
    · simp [hH0]
    · simp
    · intro k dst rhs v hk hk1
      have hki := hlt _ _ _ _ hk hk1
      refine row_hist_congr ?_ ?_ (fun _ _ => rfl) (hhist k dst rhs v hki hk1)
      · show (if k = i + 1 then _ else H k) = H k
        rw [if_neg (by omega)]
      · show (if k + 1 = i + 1 then _ else H (k + 1)) = H (k + 1)
        rw [if_neg (by omega)]
    · intro k hk hno1
      rcases Nat.eq_or_lt_of_le (Nat.le_of_lt_succ hk) with e | hki
      · subst e
        refine ⟨?_, hrows k (Nat.le_refl _)⟩
        show (if k + 1 = k + 1 then d.reg_used else H (k + 1)) =
          (if k = k + 1 then d.reg_used else H k)
        rw [if_pos rfl, if_neg (by omega)]; exact hHi.symm
      · obtain ⟨s1, s2⟩ := hskip k hki hno1
        refine ⟨?_, s2⟩
        show (if k + 1 = i + 1 then _ else H (k + 1)) = (if k = i + 1 then _ else H k)
        rw [if_neg (by omega), if_neg (by omega)]; exact s1

theorem alloc_loop_inv {nodes0 : node_list} {m : List Char} {c : Nat} {free0 : List Nat}
    (hf : ssa_form nodes0 c)
    (hM : ∀ k dst rhs v, nodes0.get? k = some (.setreg dst rhs v) →
      col_done nodes0 c m dst.l k) :
    ∀ (todo : Nat) (d d1 : compiler), todo ≤ nodes0.length →
      alloc_inv nodes0 m c free0 (nodes0.length - todo) d →
      alloc_loop todo d = .ok d1 → alloc_inv nodes0 m c free0 nodes0.length d1 := by
  intro todo
  induction todo with
  | zero =>
    intro d d1 _ hinv h
    simp only [alloc_loop, Except.ok.injEq] at h
    subst h
    simpa using hinv
  | succ todo ih =>
    intro d d1 htodo hinv h
    have hlen : d.nodes.length = nodes0.length := hinv.1
    have hrow : d.nodes.get? (nodes0.length - (todo + 1)) =
        nodes0.get? (nodes0.length - (todo + 1)) := hinv.2.1 _ (Nat.le_refl _)
    have e : nodes0.length - (todo + 1) + 1 = nodes0.length - todo := by omega
    simp only [alloc_loop, hlen, hrow] at h
    split at h
    · rename_i dst rhs v hget
      simp only [bind, Except.bind] at h
      split at h
      · cases h
      · rename_i d2 hd2
        have := alloc_row_step hf hM hinv hget hd2
        rw [e] at this
        exact ih d2 d1 (by omega) this h
    · rename_i hno
      have := alloc_skip_step hinv (fun dst rhs v hc => hno dst rhs v hc)
      rw [e] at this
      exact ih d d1 (by omega) this h

theorem alloc_loop_error : ∀ (todo : Nat) (d : compiler) (e : fault),
    alloc_loop todo d = .error e → e = .fatal "register spilling not implemented" := by
  intro todo
  induction todo with
  | zero => intro d e h; cases h
  | succ todo ih =>
    intro d e h
    simp only [alloc_loop] at h
    split at h
    · simp only [bind, Except.bind] at h
      split at h
      · rename_i err herr
        simp only [Except.error.injEq] at h
        subst h
        simp only [alloc_row] at herr
        split at herr
        · cases herr; rfl
        · split at herr
          · cases herr; rfl
          · cases herr
      · exact ih _ _ h
    · exact ih _ _ h

theorem ssa_form_not_bad {nodes : node_list} {c : Nat} (hf : ssa_form nodes c) :
    nodes.any bad_setreg = false := by
  rw [List.any_eq_false]
  intro n hn
  have := hf.1 n hn
  cases n <;> simp_all [seq_node_ok, row_ok, bad_setreg, node.opcode]

/-- The allocator on a sequence in SSA form with its def-use matrix and an empty used map:
it fails only for want of a register, and when it returns the loop invariant holds for all
rows. -/
theorem allocate_spec {d : compiler} (hf : ssa_form d.nodes d.ssaregcount)
    (hM : ∀ k dst rhs v, d.nodes.get? k = some (.setreg dst rhs v) →
      col_done d.nodes d.ssaregcount d.def_use_ssa dst.l k)
    (hused : d.reg_used = []) :
    (∀ e, compiler.allocate_registers d = .error e →
      e = .fatal "register spilling not implemented") ∧
    ∀ d1, compiler.allocate_registers d = .ok d1 →
      alloc_inv d.nodes d.def_use_ssa d.ssaregcount (d.reg_free ++ d.target.order)
        d.nodes.length d1 ∧
      ∃ d0, alloc_loop d.nodes.length d0 = .ok d1 ∧ d0.var_name = d.var_name := by
  simp only [compiler.allocate_registers, ssa_form_not_bad hf, Bool.false_eq_true, if_false]
  refine ⟨fun e h => alloc_loop_error _ _ _ h, fun d1 h => ⟨?_, _, h, rfl⟩⟩
  refine alloc_loop_inv hf hM d.nodes.length _ d1 (Nat.le_refl _) ?_ h
  rw [Nat.sub_self]
  refine ⟨rfl, fun _ _ => rfl, rfl, rfl, ?_, ?_, ?_, ?_, fun _ => [], rfl, ?_, ?_, ?_⟩
  · simp [hused]
  · simp [hused]
  · intro a p h; simp [hused] at h
  · intro k _ _ _ hk; omega
  · exact hused.symm
  · intro k _ _ _ hk; omega
  · intro k hk; omega

/-! ## The pipeline `compiler::lower` -/

theorem same_frame_refl (d : compiler) : same_frame d d :=
  ⟨rfl, rfl, rfl, rfl, rfl, rfl, rfl, rfl⟩

theorem same_frame_trans {d d1 d2 : compiler} (h1 : same_frame d d1) (h2 : same_frame d1 d2) :
    same_frame d d2 := by
  obtain ⟨a1, a2, a3, a4, a5, a6, a7, a8⟩ := h1
  obtain ⟨b1, b2, b3, b4, b5, b6, b7, b8⟩ := h2
  exact ⟨b1.trans a1, b2.trans a2, b3.trans a3, b4.trans a4, b5.trans a5, b6.trans a6,
    b7.trans a7, b8.trans a8⟩

theorem node_lower_frame (n : node) : ∀ (d : compiler) (L : node_list) (d1 : compiler),
    node.lower n d = .ok (L, d1) → same_frame d d1 := by
  induction n with
  | unaryop opcode l ih =>
    intro d L d1 h
    simp only [node.lower, bind, Except.bind] at h
    split at h
    · cases h
    · rename_i x hl
      split at h
      · cases h
      · simp only [pure, Except.pure, Except.ok.injEq, Prod.mk.injEq] at h
        obtain ⟨_, rfl⟩ := h
        exact same_frame_trans (ih _ _ _ hl) (same_frame_refl _)
  | binaryop opcode l r ihl ihr =>
    intro d L d1 h
    simp only [node.lower, bind, Except.bind] at h
    split at h
    · split at h
      · split at h
        · cases h
        · rename_i x hl
          split at h
          · cases h
          · simp only [pure, Except.pure, Except.ok.injEq, Prod.mk.injEq] at h
            obtain ⟨_, rfl⟩ := h
            exact same_frame_trans (ihl _ _ _ hl) (same_frame_refl _)
      · cases h
    · split at h
      · cases h
      · rename_i x hl
        split at h
        · cases h
        · rename_i y hr
          split at h
          · cases h
          · split at h
            · cases h
            · simp only [pure, Except.pure, Except.ok.injEq, Prod.mk.injEq] at h
              obtain ⟨_, rfl⟩ := h
              exact same_frame_trans (same_frame_trans (ihl _ _ _ hl) (ihr _ _ _ hr))
                (same_frame_refl _)
  | const_int r =>
    intro d L d1 h
    simp only [node.lower, Except.ok.injEq, Prod.mk.injEq] at h
    obtain ⟨_, rfl⟩ := h
    exact same_frame_refl _
  | var l =>
    intro d L d1 h
    simp only [node.lower] at h
    split at h <;>
      (simp only [Except.ok.injEq, Prod.mk.injEq] at h; obtain ⟨_, rfl⟩ := h;
       exact same_frame_refl _)
  | setvar l r ih =>
    intro d L d1 h
    simp only [node.lower, bind, Except.bind] at h
    split at h
    · cases h
    · rename_i x hl
      split at h
      · simp only [pure, Except.pure, Except.ok.injEq, Prod.mk.injEq] at h
        obtain ⟨_, rfl⟩ := h
        exact same_frame_trans (ih _ _ _ hl) (same_frame_refl _)
      · cases h
  | ssareg l => intro d L d1 h; cases h; exact same_frame_refl _
  | phyreg l => intro d L d1 h; cases h; exact same_frame_refl _
  | setreg l r v _ => intro d L d1 h; cases h; exact same_frame_refl _
  | imm r => intro d L d1 h; cases h; exact same_frame_refl _
  | mi t => intro d L d1 h; cases h; exact same_frame_refl _

theorem lower_loop_frame (rest : node_list) : ∀ (acc : node_list) (d : compiler)
    (out : node_list) (d1 : compiler),
    compiler.lower_loop rest acc d = .ok (out, d1) → same_frame d d1 := by
  induction rest with
  | nil =>
    intro acc d out d1 h
    simp only [compiler.lower_loop, Except.ok.injEq, Prod.mk.injEq] at h
    obtain ⟨_, rfl⟩ := h
    exact same_frame_refl _
  | cons n rest ih =>
    intro acc d out d1 h
    simp only [compiler.lower_loop] at h
    split at h
    · simp only [bind, Except.bind] at h
      split at h
      · cases h
      · rename_i y hl
        exact same_frame_trans (node_lower_frame _ _ _ _ hl) (ih _ _ _ _ h)
    · exact ih _ _ _ _ h

/-- What `compiler::lower(false)` leaves for a program of assignments lowered from a state
with a zero SSA counter and an empty renaming map: a sequence in SSA form, the live range
of every register in the matrix, and the rest of the state untouched. With `true` the same
state is handed to `allocate_registers`. -/
theorem lower_false_facts {d d2 : compiler}
    (hprog : ∀ n ∈ d.nodes, ∃ x e, n = node.setvar x e)
    (hcount : d.ssaregcount = 0) (hssa : ∀ x, d.var_ssa x = none)
    (h : compiler.lower false d = .ok d2) :
    ssa_form d2.nodes d2.ssaregcount ∧
    (∀ k dst rhs v, d2.nodes.get? k = some (.setreg dst rhs v) →
      col_done d2.nodes d2.ssaregcount d2.def_use_ssa dst.l k) ∧
    d2.def_use_ssa.length = d2.nodes.length * d2.ssaregcount ∧
    d2.reg_used = d.reg_used ∧ d2.reg_free = d.reg_free ∧ d2.target = d.target ∧
    d2.reg_values = d.reg_values ∧ d2.var_name = d.var_name ∧
    compiler.lower true d = compiler.allocate_registers d2 := by
  simp only [compiler.lower, bind, Except.bind] at h ⊢
  split at h
  · cases h
  · rename_i d1 hd1
    split at h
    · cases h
    · rename_i d3 hd3
      simp only [Bool.false_eq_true, if_false, pure, Except.pure, Except.ok.injEq] at h
      subst h
      have hf := lower_nodes_ssa_form d d1 hprog hcount hssa hd1
      obtain ⟨e, hlen, hcol⟩ := analysis_spec hf hd3
      have hfr : same_frame d d1 := by
        simp only [compiler.lower_nodes, bind, Except.bind] at hd1
        split at hd1
        · cases hd1
        · rename_i r hr
          simp only [pure, Except.pure, Except.ok.injEq] at hd1
          subst hd1
          exact same_frame_trans (lower_loop_frame _ _ _ _ _ hr) (same_frame_refl _)
      obtain ⟨f1, f2, f3, f4, f5, f6, f7, f8⟩ := hfr
      have en : d3.nodes = d1.nodes := by rw [e]
      have ec : d3.ssaregcount = d1.ssaregcount := by rw [e]
      refine ⟨by rw [en, ec]; exact hf, ?_, by rw [en, ec]; exact hlen, by rw [e]; exact f3,
        by rw [e]; exact f2, by rw [e]; exact f8, by rw [e]; exact f4, by rw [e]; exact f1, ?_⟩
      · intro k dst rhs v hk
        rw [en] at hk
        rw [en, ec]
        exact hcol k dst rhs v hk
      · simp only [hd1, hd3, if_true]

theorem front_end_spec (prog : node_list) : ∀ (d : compiler),
    (compiler.front_end prog d).nodes = d.nodes ++ prog ∧
    (compiler.front_end prog d).ssaregcount = d.ssaregcount ∧
    (compiler.front_end prog d).var_ssa = d.var_ssa ∧
    (compiler.front_end prog d).reg_used = d.reg_used ∧
    (compiler.front_end prog d).reg_free = d.reg_free ∧
    (compiler.front_end prog d).reg_values = d.reg_values ∧
    (compiler.front_end prog d).target = d.target := by
  induction prog with
  | nil => intro d; simp [compiler.front_end]
  | cons n rest ih =>
    intro d
    cases n <;>
      simp [compiler.front_end, ih, compiler.add_toplevel, compiler.set_variable]

theorem of_program_spec (target : backend) (prog : node_list) :
    (compiler.of_program target prog).nodes = prog ∧
    (compiler.of_program target prog).ssaregcount = 0 ∧
    (∀ x, (compiler.of_program target prog).var_ssa x = none) ∧
    (compiler.of_program target prog).reg_used = [] ∧
    (compiler.of_program target prog).reg_free = [] ∧
    (compiler.of_program target prog).target = target := by
  obtain ⟨h1, h2, h3, h4, h5, _, h7⟩ := front_end_spec prog (compiler.ctor target)
  unfold compiler.of_program
  refine ⟨by rw [h1]; simp [compiler.ctor], by rw [h2]; rfl, fun x => by rw [h3]; rfl,
    by rw [h4]; rfl, by rw [h5]; rfl, by rw [h7]; rfl⟩

/-- The state after a successful `lower(true)` of a program, in terms of the state `d2` that
`lower(false)` gives: the allocation invariant holds for all rows. -/
theorem lower_true_inv {target : backend} {prog : node_list} {d2 d3 : compiler}
    (hprog : ∀ n ∈ prog, ∃ x e, n = node.setvar x e)
    (h2 : compiler.lower false (compiler.of_program target prog) = .ok d2)
    (h3 : compiler.lower true (compiler.of_program target prog) = .ok d3) :
    alloc_inv d2.nodes d2.def_use_ssa d2.ssaregcount target.order d2.nodes.length d3 := by
  obtain ⟨p1, p2, p3, p4, p5, p6⟩ := of_program_spec target prog
  obtain ⟨hf, hM, _, hu, hfree, ht, _, _, hlow⟩ :=
    lower_false_facts (by rw [p1]; exact hprog) p2 p3 h2
  rw [hlow] at h3
  have := ((allocate_spec hf hM (hu.trans p4)).2 d3 h3).1
  rw [hfree, p5, ht, p6, List.nil_append] at this
  exact this

theorem assigned_unique {target : backend} {prog : node_list} {d2 d3 : compiler}
    (hprog : ∀ n ∈ prog, ∃ x e, n = node.setvar x e)
    (h2 : compiler.lower false (compiler.of_program target prog) = .ok d2)
    {a p q : Nat} (hp : assigned d2.nodes d3.nodes a p) (hq : assigned d2.nodes d3.nodes a q) :
    p = q := by
  obtain ⟨p1, p2, p3, _, _, _⟩ := of_program_spec target prog
  obtain ⟨hf, _⟩ := lower_false_facts (by rw [p1]; exact hprog) p2 p3 h2
  obtain ⟨k, _, _, _, _, hk, hk1⟩ := hp
  obtain ⟨k1, _, _, _, _, hk2, hk3⟩ := hq
  have := (def_row_unique hf.2 hk hk2).2 rfl
  subst this
  rw [hk1] at hk3
  cases hk3
  rfl

/-- C2: after `allocate_registers` has succeeded on the lowered sequence of a program, with
a backend whose allocation order has no duplicate, any two distinct SSA registers whose
cells in a `setreg` row `i` of `def_use_ssa` are both non-blank have received different
physical registers. -/
theorem C2_live_registers_distinct (target : backend) (prog : node_list)
    (d2 d3 : compiler) (hprog : ∀ n ∈ prog, ∃ x e, n = node.setvar x e)
    (h2 : compiler.lower false (compiler.of_program target prog) = .ok d2)
    (h3 : compiler.lower true (compiler.of_program target prog) = .ok d3)
    (hnodup : target.order.Nodup) (i a b : Nat)
    (hrow : ∃ dst rhs v, d2.nodes.get? i = some (.setreg dst rhs v))
    (ha : a < d2.ssaregcount) (hb : b < d2.ssaregcount) (hab : a ≠ b)
    (hla : d2.cell i a ≠ ' ') (hlb : d2.cell i b ≠ ' ') :
    ∃ pa pb, assigned d2.nodes d3.nodes a pa ∧ assigned d2.nodes d3.nodes b pb ∧ pa ≠ pb ∧
      ∀ qa qb, assigned d2.nodes d3.nodes a qa → assigned d2.nodes d3.nodes b qb →
        qa ≠ qb := by
  obtain ⟨p1, p2, p3, _, _, _⟩ := of_program_spec target prog
  obtain ⟨hf, _⟩ := lower_false_facts (by rw [p1]; exact hprog) p2 p3 h2
  have hinv := lower_true_inv hprog h2 h3
  obtain ⟨dst, rhs, v, hget⟩ := hrow
  obtain ⟨_, _, _, _, _, _, _, _, H, _, _, hhist, _⟩ := hinv
  obtain ⟨_, _, u3, u4, u5, _⟩ := hhist i dst rhs v (get_lt_length hget) hget
  obtain ⟨pa, hpa⟩ := u4 a ha hla
  obtain ⟨pb, hpb⟩ := u4 b hb hlb
  have key : ∀ x p, (x, p) ∈ H (i + 1) → assigned d2.nodes d3.nodes x p := by
    intro x p hx
    obtain ⟨ka, r1, w1, _, hr, ⟨dst0, rhs0, v0, hk0⟩, hk1⟩ := u5 x p hx
    obtain ⟨e, _, _⟩ := ssa_form_row hf hk0
    rw [hr] at e
    subst e
    exact ⟨ka, rhs0, v0, r1, w1, hk0, hk1⟩
  have hne : pa ≠ pb := by
    intro e
    have := List.inj_on_of_nodup_map (u3 hnodup) hpa hpb e
    cases this
    exact hab rfl
  refine ⟨pa, pb, key a pa hpa, key b pb hpb, hne, ?_⟩
  intro qa qb hqa hqb
  rw [← assigned_unique hprog h2 (key a pa hpa) hqa,
    ← assigned_unique hprog h2 (key b pb hpb) hqb]
  exact hne

theorem example_program_setvars : ∀ n ∈ example_program, ∃ x e, n = node.setvar x e := by
  intro n hn
  simp only [example_program, List.mem_cons, List.mem_singleton, List.not_mem_nil,
    or_false] at hn
  rcases hn with rfl | rfl | rfl <;> exact ⟨_, _, rfl⟩

theorem except_ok_of_isOk {ε α : Type} {e : Except ε α} (h : e.isOk = true) :
    ∃ a, e = .ok a := by
  cases e with
  | error _ => cases h
  | ok a => exact ⟨a, rfl⟩

theorem example_alloc_ok :
    ∃ d3, compiler.lower true (compiler.of_program sample_backend example_program) = .ok d3 :=
  except_ok_of_isOk (by decide)

/-- Witness for C2: in the example, `_1` and `_2` are both live in the row of
`_3 := add _1, _2` (row 6) and have different physical registers. -/
theorem C2_live_registers_distinct_witness :
    ∃ d3, compiler.lower true (compiler.of_program sample_backend example_program) = .ok d3 ∧
      ∃ pa pb, assigned (example_lowered sample_backend).nodes d3.nodes 1 pa ∧
        assigned (example_lowered sample_backend).nodes d3.nodes 2 pb ∧ pa ≠ pb := by
  obtain ⟨d3, h3⟩ := example_alloc_ok
  obtain ⟨pa, pb, k1, k2, k3, _⟩ := C2_live_registers_distinct sample_backend example_program
    (example_lowered sample_backend) d3 example_program_setvars
    (example_lowered_eq sample_backend) h3 (by decide) 6 1 2 ⟨_, _, _, rfl⟩
    (by decide) (by decide) (by decide) (by decide) (by decide)
  exact ⟨d3, h3, pa, pb, k1, k2, k3⟩

theorem contract_rev_idem : ∀ l : List Nat,
    nat.contract_rev (nat.contract_rev l) = nat.contract_rev l
  | [] => rfl
  | [_] => rfl
  | x :: y :: rest => by
    by_cases h : x = 0
    · simp only [nat.contract_rev, h, if_true]
      exact contract_rev_idem (y :: rest)
    · simp only [nat.contract_rev, h, if_false]

theorem copy_idem (v : nat) : nat.copy (nat.copy v) = nat.copy v := by
  simp [nat.copy, nat.contract, contract_rev_idem]

theorem copy_of_limb (z : Int) : nat.copy (nat.of_limb z) = nat.of_limb z := rfl

theorem contract_rev_suffix : ∀ l : List Nat,
    (∃ pre, l = pre ++ nat.contract_rev l) ∧ (l ≠ [] → nat.contract_rev l ≠ [])
  | [] => ⟨⟨[], rfl⟩, fun h => absurd rfl h⟩
  | [x] => ⟨⟨[], rfl⟩, fun _ => by simp [nat.contract_rev]⟩
  | x :: y :: rest => by
    by_cases h : x = 0
    · simp only [nat.contract_rev, h, if_true]
      obtain ⟨⟨pre, hpre⟩, hne⟩ := contract_rev_suffix (y :: rest)
      refine ⟨⟨0 :: pre, ?_⟩, fun _ => hne (by simp)⟩
      rw [List.cons_append, ← hpre]
    · simp only [nat.contract_rev, h, if_false]
      exact ⟨⟨[], rfl⟩, fun _ => by simp⟩

/-- Normalising a number keeps its low limb. -/
theorem limb_at_copy (c : nat) : (nat.copy c).limb_at 0 = c.limb_at 0 := by
  obtain ⟨⟨pre, hpre⟩, hne⟩ := contract_rev_suffix c.limbs.reverse
  have h1 : c.limbs = (nat.contract_rev c.limbs.reverse).reverse ++ pre.reverse := by
    have := congrArg List.reverse hpre
    simpa using this
  simp only [nat.copy, nat.contract, nat.limb_at]
  cases hl : c.limbs with
  | nil => simp [nat.contract_rev]
  | cons x xs =>
    have hne1 : nat.contract_rev c.limbs.reverse ≠ [] := hne (by simp [hl])
    rw [← hl]
    conv_rhs => rw [h1]
    cases hr : (nat.contract_rev c.limbs.reverse).reverse with
    | nil => simp at hr; exact absurd hr hne1
    | cons y ys => simp

/-! ## The evaluator on source expressions -/

theorem is_expr_unary {opcode : op} {l : node} (h : is_expr (.unaryop opcode l) = true) :
    (opcode = .op_li ∨ opcode = .op_not ∨ opcode = .op_neg) ∧ is_expr l = true := by
  simp only [is_expr, Bool.and_eq_true, Bool.or_eq_true, beq_iff_eq] at h
  exact ⟨by tauto, h.2⟩

theorem is_expr_binary {opcode : op} {l r : node} (h : is_expr (.binaryop opcode l r) = true) :
    is_binary_op opcode = true ∧ is_expr l = true ∧ is_expr r = true := by
  simp only [is_expr, Bool.and_eq_true] at h
  exact ⟨h.1.1, h.1.2, h.2⟩

theorem pure_eval_congr (X : ext_ops) {env env1 : String → Option nat} (e : node) :
    (∀ y ∈ expr_vars e, env y = env1 y) →
    pure_eval X (ast_leaf env) e = pure_eval X (ast_leaf env1) e := by
  induction e with
  | unaryop opcode l ih =>
    intro h
    have := ih (fun y hy => h y (by simpa [expr_vars] using hy))
    simp only [pure_eval, this]
  | binaryop opcode l r ihl ihr =>
    intro h
    have h1 := ihl (fun y hy => h y (by simp [expr_vars, hy]))
    have h2 := ihr (fun y hy => h y (by simp [expr_vars, hy]))
    simp only [pure_eval, h1, h2]
  | var x =>
    intro h
    simp only [pure_eval, ast_leaf]
    exact h x (by simp [expr_vars])
  | _ => intro _; rfl

theorem pure_eval_normal (X : ext_ops) {env : String → Option nat} {e : node} {v : nat}
    (he : is_expr e = true) (hn : ∀ y ∈ expr_vars e, ∀ w, env y = some w → nat.copy w = w)
    (h : pure_eval X (ast_leaf env) e = some v) : nat.copy v = v := by
  cases e with
  | const_int c =>
    simp only [pure_eval, ast_leaf, Option.some.injEq] at h
    rw [← h, copy_idem]
  | var x =>
    simp only [pure_eval, ast_leaf] at h
    exact hn x (by simp [expr_vars]) v h
  | unaryop opcode l =>
    obtain ⟨ho, _⟩ := is_expr_unary he
    rcases ho with rfl | rfl | rfl
    · simp only [pure_eval, Option.map_eq_some'] at h
      obtain ⟨a, _, rfl⟩ := h
      exact copy_idem a
    · simp only [pure_eval, Option.bind_eq_some, Option.map_eq_some'] at h
      obtain ⟨a, _, b, _, rfl⟩ := h
      exact copy_idem b
    · simp only [pure_eval, Option.bind_eq_some, Option.map_eq_some'] at h
      obtain ⟨a, _, b, _, rfl⟩ := h
      exact copy_idem b
  | binaryop opcode l r =>
    obtain ⟨ho, _, _⟩ := is_expr_binary he
    simp only [pure_eval, ho, if_true, Option.bind_eq_some] at h
    obtain ⟨a, _, b, _, h⟩ := h
    split at h
    · simp only [Option.map_eq_some'] at h
      obtain ⟨w, _, rfl⟩ := h
      exact copy_idem w
    · cases h; rfl
  | _ => simp [is_expr] at he

/-- Evaluating a source expression in a state whose bindings agree with an environment: the
state is left as it is and the value is the value of the expression in the environment. -/
theorem ast_sound (X : ext_ops) {env : String → Option nat} {known : List String} :
    ∀ (fuel : Nat) (e : node) (d d1 : compiler) (v : nat),
      ast_env X d.var_name env known → is_expr e = true →
      (∀ y ∈ expr_vars e, y ∈ known) → node.eval X fuel e d = .ok (v, d1) →
      d1 = d ∧ pure_eval X (ast_leaf env) e = some v := by
  intro fuel
  induction fuel with
  | zero => intro e d d1 v _ _ _ h; cases h
  | succ fuel ih =>
    intro e d d1 v henv he hv h
    cases e with
    | const_int c =>
      simp only [node.eval, Except.ok.injEq, Prod.mk.injEq] at h
      obtain ⟨rfl, rfl⟩ := h
      exact ⟨rfl, rfl⟩
    | var x =>
      obtain ⟨e1, w, h1, h2, h3, h4, h5, _⟩ := henv x (hv x (by simp [expr_vars]))
      simp only [node.eval, h1] at h
      obtain ⟨rfl, h6⟩ := ih e1 d d1 v henv h2 h3 h
      rw [h4] at h6
      cases h6
      exact ⟨rfl, by simpa [pure_eval, ast_leaf] using h5⟩
    | unaryop opcode l =>
      obtain ⟨ho, hl⟩ := is_expr_unary he
      have hvl : ∀ y ∈ expr_vars l, y ∈ known := fun y hy => hv y (by simpa [expr_vars] using hy)
      rcases ho with rfl | rfl | rfl
      · simp only [node.eval, bind, Except.bind] at h
        split at h
        · cases h
        · rename_i r hr
          simp only [pure, Except.pure, Except.ok.injEq, Prod.mk.injEq] at h
          obtain ⟨rfl, rfl⟩ := h
          obtain ⟨e1, e2⟩ := ih l d r.2 r.1 henv hl hvl hr
          exact ⟨e1, by simp [pure_eval, e2]⟩
      · simp only [node.eval, bind, Except.bind] at h
        split at h
        · cases h
        · rename_i r hr
          obtain ⟨e1, e2⟩ := ih l d r.2 r.1 henv hl hvl hr
          cases hop : X.op_not r.1 with
          | none => simp [hop, lift_num] at h
          | some w =>
            simp only [hop, lift_num, pure, Except.pure, Except.ok.injEq, Prod.mk.injEq] at h
            obtain ⟨rfl, rfl⟩ := h
            exact ⟨e1, by simp [pure_eval, e2, hop]⟩
      · simp only [node.eval, bind, Except.bind] at h
        split at h
        · cases h
        · rename_i r hr
          obtain ⟨e1, e2⟩ := ih l d r.2 r.1 henv hl hvl hr
          cases hop : X.op_neg r.1 with
          | none => simp [hop, lift_num] at h
          | some w =>
            simp only [hop, lift_num, pure, Except.pure, Except.ok.injEq, Prod.mk.injEq] at h
            obtain ⟨rfl, rfl⟩ := h
            exact ⟨e1, by simp [pure_eval, e2, hop]⟩
    | binaryop opcode l r =>
      obtain ⟨ho, hl, hr⟩ := is_expr_binary he
      have hvl : ∀ y ∈ expr_vars l, y ∈ known := fun y hy => hv y (by simp [expr_vars, hy])
      have hvr : ∀ y ∈ expr_vars r, y ∈ known := fun y hy => hv y (by simp [expr_vars, hy])
      simp only [node.eval, ho, if_true, bind, Except.bind] at h
      split at h
      · cases h
      · rename_i ra hra
        obtain ⟨e1, e2⟩ := ih l d ra.2 ra.1 henv hl hvl hra
        rw [e1] at h
        split at h
        · cases h
        · rename_i rb hrb
          obtain ⟨e3, e4⟩ := ih r d rb.2 rb.1 henv hr hvr hrb
          simp only [pure_eval, ho, if_true, e2, e4, Option.some_bind]
          cases hop : eval_binary X opcode ra.1 rb.1 with
          | none =>
            simp only [hop, pure, Except.pure, Except.ok.injEq, Prod.mk.injEq] at h
            obtain ⟨rfl, rfl⟩ := h
            exact ⟨e3, rfl⟩
          | some res =>
            cases res with
            | none => simp [hop, lift_num] at h
            | some w =>
              simp only [hop, lift_num, pure, Except.pure, Except.ok.injEq,
                Prod.mk.injEq] at h
              obtain ⟨rfl, rfl⟩ := h
              exact ⟨e3, rfl⟩
    | _ => simp [is_expr] at he

theorem ast_env_bind (X : ext_ops) {vn : String → Option node} {env : String → Option nat}
    {known : List String} {x : String} {e : node} {v : nat}
    (henv : ast_env X vn env known) (hx : x ∉ known) (he : is_expr e = true)
    (hv : ∀ y ∈ expr_vars e, y ∈ known) (hval : pure_eval X (ast_leaf env) e = some v) :
    ast_env X (fn_set vn x e) (fn_set env x v) (x :: known) := by
  have hcongr : ∀ e1 : node, (∀ z ∈ expr_vars e1, z ∈ known) →
      pure_eval X (ast_leaf (fn_set env x v)) e1 = pure_eval X (ast_leaf env) e1 := by
    intro e1 h1
    apply pure_eval_congr
    intro y hy
    have : y ≠ x := fun e2 => hx (e2 ▸ h1 y hy)
    simp [fn_set, this]
  have hnorm : nat.copy v = v := by
    apply pure_eval_normal X he _ hval
    intro y hy w hw
    obtain ⟨_, w1, _, _, _, _, h5, h6⟩ := henv y (hv y hy)
    rw [h5] at hw
    cases hw
    exact h6
  intro y hy
  rcases List.mem_cons.1 hy with rfl | hy1
  · exact ⟨e, v, by simp [fn_set], he, fun z hz => List.mem_cons_of_mem _ (hv z hz),
      by rw [hcongr e hv]; exact hval, by simp [fn_set], hnorm⟩
  · obtain ⟨e1, w, h1, h2, h3, h4, h5, h6⟩ := henv y hy1
    have hne : y ≠ x := fun e2 => hx (e2 ▸ hy1)
    exact ⟨e1, w, by simp [fn_set, hne, h1], h2, fun z hz => List.mem_cons_of_mem _ (h3 z hz),
      by rw [hcongr e1 h3]; exact h4, by simp [fn_set, hne, h5], h6⟩

theorem ast_env_shadow (X : ext_ops) {vn : String → Option node} {env : String → Option nat}
    {known : List String} {x : String} {e : node}
    (henv : ast_env X vn env known) (hx : x ∉ known) :
    ast_env X (fn_set vn x e) env known := by
  intro y hy
  obtain ⟨e1, w, h1, h2⟩ := henv y hy
  have hne : y ≠ x := fun e2 => hx (e2 ▸ hy)
  exact ⟨e1, w, by simp [fn_set, hne, h1], h2⟩

/-- Running the assignments of an accepted single-assignment program with the evaluator
gives the values of the program. -/
theorem ast_run_sound (X : ext_ops) : ∀ (prog : node_list) (known : List String)
    (env : String → Option nat) (d d1 : compiler) (fuel : Nat) (vals : List nat),
    accepted known prog → single_assignment known prog →
    ast_env X d.var_name env known →
    run_loop X fuel .op_setvar prog d = .ok (vals, d1) →
    prog_den X env prog = some vals := by
  intro prog
  induction prog with
  | nil =>
    intro known env d d1 fuel vals _ _ _ h
    simp only [run_loop, Except.ok.injEq, Prod.mk.injEq] at h
    simp [prog_den, h.1]
  | cons n rest ih =>
    intro known env d d1 fuel vals hacc hsingle henv h
    cases n with
    | setvar x e =>
      obtain ⟨he, hv, hacc1⟩ := hacc
      obtain ⟨hx, hsingle1⟩ := hsingle
      simp only [run_loop, node.opcode, true_and, true_or, if_true, bind, Except.bind] at h
      split at h
      · cases h
      · rename_i r hr
        split at h
        · cases h
        · rename_i r1 hr1
          simp only [pure, Except.pure, Except.ok.injEq, Prod.mk.injEq] at h
          obtain ⟨rfl, rfl⟩ := h
          cases fuel with
          | zero => cases hr
          | succ fuel =>
            simp only [node.eval] at hr
            have henv1 : ast_env X (fn_set d.var_name x e) env known :=
              ast_env_shadow X henv hx
            obtain ⟨e1, e2⟩ := ast_sound X fuel e
              { d with var_name := fn_set d.var_name x e } r.2 r.1 henv1 he hv hr
            have henv2 := ast_env_bind X henv hx he hv e2
            rw [e1] at hr1
            have := ih (x :: known) (fn_set env x r.1) _ r1.2 (fuel + 1) r1.1 hacc1 hsingle1
              henv2 hr1
            simp [prog_den, e2, this]
    | _ => exact absurd hacc (by simp [accepted])

/-! ## Lowering preserves the values -/

theorem ssa_run_append (X : ext_ops) (L1 L2 : node_list) : ∀ (vals : Nat → Option nat),
    ssa_run X (L1 ++ L2) vals =
      (ssa_run X L1 vals).bind (fun r1 =>
        (ssa_run X L2 r1.2).map (fun r2 => (r1.1 ++ r2.1, r2.2))) := by
  induction L1 with
  | nil =>
    intro vals
    simp only [List.nil_append, ssa_run, Option.some_bind]
    cases ssa_run X L2 vals <;> simp
  | cons n rest ih =>
    intro vals
    cases n with
    | setreg dst rhs w =>
      rw [List.cons_append]
      simp only [ssa_run]
      cases hp : pure_eval X (ssa_leaf vals) rhs with
      | none => simp
      | some val =>
        simp only [Option.some_bind]
        rw [ih]
        cases h1 : ssa_run X rest (fn_set vals dst.l (nat.copy val)) with
        | none => simp
        | some r1 =>
          simp only [Option.some_bind, Option.map_some']
          cases h2 : ssa_run X L2 r1.2 <;> simp
    | _ => rw [List.cons_append]; simp only [ssa_run]; exact ih vals

theorem named_values_append (X : ext_ops) (L1 L2 : node_list) :
    ∀ (vals : Nat → Option nat) (a1 a2 : List nat) (vals1 : Nat → Option nat),
      ssa_run X L1 vals = some (a1, vals1) →
      named_values (L1 ++ L2) (a1 ++ a2) = named_values L1 a1 ++ named_values L2 a2 := by
  induction L1 with
  | nil =>
    intro vals a1 a2 vals1 h
    simp only [ssa_run, Option.some.injEq, Prod.mk.injEq] at h
    obtain ⟨rfl, _⟩ := h
    cases L2 <;> simp [named_values]
  | cons n rest ih =>
    intro vals a1 a2 vals1 h
    cases n with
    | setreg dst rhs w =>
      simp only [ssa_run, Option.bind_eq_some, Option.map_eq_some'] at h
      obtain ⟨val, _, r, hr, he⟩ := h
      simp only [Prod.mk.injEq] at he
      obtain ⟨rfl, rfl⟩ := he
      have := ih _ r.1 a2 r.2 hr
      cases w <;> simp [named_values, this]
    | _ =>
      simp only [ssa_run] at h
      have := ih vals a1 a2 vals1 h
      simp [named_values, this]

theorem ssa_run_frame (X : ext_ops) (L : node_list) :
    ∀ (vals : Nat → Option nat) (all : List nat) (vals1 : Nat → Option nat),
      ssa_run X L vals = some (all, vals1) →
      ∀ u, u ∉ setreg_dests L → vals1 u = vals u := by
  induction L with
  | nil =>
    intro vals all vals1 h u _
    simp only [ssa_run, Option.some.injEq, Prod.mk.injEq] at h
    rw [h.2]
  | cons n rest ih =>
    intro vals all vals1 h u hu
    cases n with
    | setreg dst rhs w =>
      simp only [ssa_run, Option.bind_eq_some, Option.map_eq_some'] at h
      obtain ⟨val, _, r, hr, he⟩ := h
      simp only [Prod.mk.injEq] at he
      obtain ⟨_, rfl⟩ := he
      simp only [setreg_dests, List.mem_cons, not_or] at hu
      rw [ih _ _ _ hr u hu.2]
      simp [fn_set, hu.1]
    | _ =>
      simp only [ssa_run] at h
      exact ih _ _ _ h u (by simpa [setreg_dests] using hu)

theorem ssa_run_single (X : ext_ops) (dst : reg) (rhs : node) (w : Option String)
    (vals : Nat → Option nat) (val : nat) (h : pure_eval X (ssa_leaf vals) rhs = some val) :
    ssa_run X [.setreg dst rhs w] vals =
      some ([nat.copy val], fn_set vals dst.l (nat.copy val)) := by
  simp [ssa_run, h]

/-- Running a list that ends with a `setreg`: the values of the list before it, then the
value of that `setreg`, which the table holds under its destination. -/
theorem ssa_run_snoc (X : ext_ops) {pre : node_list} {dst : reg} {rhs : node}
    {w : Option String} {vals vals1 : Nat → Option nat} {all : List nat}
    (h : ssa_run X (pre ++ [.setreg dst rhs w]) vals = some (all, vals1)) :
    ∃ apre x valsp, ssa_run X pre vals = some (apre, valsp) ∧ all = apre ++ [x] ∧
      vals1 dst.l = some x ∧
      ∀ w1, ssa_run X (pre ++ [.setreg dst rhs w1]) vals = some (all, vals1) := by
  rw [ssa_run_append] at h
  simp only [Option.bind_eq_some, Option.map_eq_some'] at h
  obtain ⟨r1, hr1, r2, hr2, he⟩ := h
  simp only [ssa_run, Option.bind_eq_some, Option.map_eq_some', Option.some.injEq] at hr2
  obtain ⟨val, hval, r3, hr3, he3⟩ := hr2
  subst hr3
  subst he3
  simp only [Prod.mk.injEq] at he
  obtain ⟨rfl, rfl⟩ := he
  refine ⟨r1.1, nat.copy val, r1.2, hr1, rfl, by simp [fn_set], ?_⟩
  intro w1
  rw [ssa_run_append]
  simp [hr1, ssa_run, hval]

theorem is_expr_const {r : node} (h : is_expr r = true) (ho : r.opcode = .op_const_int) :
    ∃ c, r = .const_int c := by
  cases r with
  | const_int c => exact ⟨c, rfl⟩
  | unaryop opcode l =>
    obtain ⟨h1, _⟩ := is_expr_unary h
    simp only [node.opcode] at ho
    subst ho
    rcases h1 with h1 | h1 | h1 <;> cases h1
  | binaryop opcode l r =>
    obtain ⟨h1, _⟩ := is_expr_binary h
    simp only [node.opcode] at ho
    subst ho
    simp [is_binary_op] at h1
  | _ => simp [node.opcode] at ho

theorem to_int_mod (x : Nat) : to_int (x % 2 ^ 32) = to_int x := by
  simp [to_int]

theorem small_literal_lower {c : nat} (h : small_literal c) :
    nat.of_limb (to_int (c.limb_at 0)) = nat.copy c := by
  obtain ⟨x, hx, hc⟩ := h
  have h0 : c.limb_at 0 = x := by
    rw [← limb_at_copy, hc]; rfl
  rw [hc, h0]
  simp only [nat.of_limb, to_limb_to_int]
  rw [Nat.mod_eq_of_lt hx]

/-- A shift by a literal and its immediate form compute the same: both take the shift
count from the low word of the literal. -/
theorem shift_fold_eq (X : ext_ops) (opcode : op) (a c : nat)
    (ho : opcode = .op_srl ∨ opcode = .op_sll) :
    eval_binary X (if opcode = .op_srl then .op_srli else .op_slli) a
        (nat.of_limb (to_int (c.limb_at 0))) =
      eval_binary X opcode a (nat.copy c) := by
  have h1 : (nat.of_limb (to_int (c.limb_at 0))).limb_at 0 = c.limb_at 0 % 2 ^ 32 := by
    simp [nat.of_limb, nat.limb_at, to_limb_to_int]
  rcases ho with rfl | rfl
  · simp only [if_true, eval_binary, h1, to_int_mod, limb_at_copy]
  · simp only [eval_binary, h1, to_int_mod, limb_at_copy]
    rfl

theorem pure_eval_unary_some (X : ext_ops) {leaf : node → Option nat} {opcode : op}
    {l : node} {v : nat} (ho : opcode = .op_li ∨ opcode = .op_not ∨ opcode = .op_neg)
    (h : pure_eval X leaf (.unaryop opcode l) = some v) : ∃ a, pure_eval X leaf l = some a := by
  rcases ho with rfl | rfl | rfl <;> simp only [pure_eval] at h <;>
    cases hl : pure_eval X leaf l <;> simp_all

theorem pure_eval_binary_some (X : ext_ops) {leaf : node → Option nat} {opcode : op}
    {l r : node} {v : nat} (ho : is_binary_op opcode = true)
    (h : pure_eval X leaf (.binaryop opcode l r) = some v) :
    ∃ a b, pure_eval X leaf l = some a ∧ pure_eval X leaf r = some b := by
  simp only [pure_eval, ho, if_true, Option.bind_eq_some] at h
  obtain ⟨a, ha, b, hb, _⟩ := h
  exact ⟨a, b, ha, hb⟩

theorem pure_eval_unary_congr (X : ext_ops) {leaf1 leaf2 : node → Option nat} (opcode : op)
    {x1 x2 : node} (h : pure_eval X leaf1 x1 = pure_eval X leaf2 x2) :
    pure_eval X leaf1 (.unaryop opcode x1) = pure_eval X leaf2 (.unaryop opcode x2) := by
  simp only [pure_eval, h]

theorem pure_eval_binary_congr (X : ext_ops) {leaf1 leaf2 : node → Option nat} (opcode : op)
    {x1 x2 y1 y2 : node} (h : pure_eval X leaf1 x1 = pure_eval X leaf2 x2)
    (h1 : pure_eval X leaf1 y1 = pure_eval X leaf2 y2) :
    pure_eval X leaf1 (.binaryop opcode x1 y1) = pure_eval X leaf2 (.binaryop opcode x2 y2) := by
  simp only [pure_eval, h, h1]

theorem lower_reg_snoc (pre : node_list) (dst : reg) (rhs : node) (w : Option String) :
    compiler.lower_reg (pre ++ [.setreg dst rhs w]) =
      .ok (dst.l, pre ++ [.setreg dst rhs w]) := by
  simp [compiler.lower_reg]

theorem lower_reg_of_last {L : node_list} {dst : reg} {rhs : node} {w : Option String}
    (h : L.getLast? = some (.setreg dst rhs w)) : compiler.lower_reg L = .ok (dst.l, L) := by
  simp [compiler.lower_reg, h]

theorem ssa_env_mono {d d1 : compiler} {env : String → Option nat}
    {vals vals1 : Nat → Option nat} {known : List String} (h : ssa_env d env vals known)
    (hs : d1.var_ssa = d.var_ssa) (hc : d.ssaregcount ≤ d1.ssaregcount)
    (hv : ∀ u, u < d.ssaregcount → vals1 u = vals u) : ssa_env d1 env vals1 known := by
  intro y hy
  obtain ⟨u, v, h1, h2, h3, h4, h5⟩ := h y hy
  exact ⟨u, v, by rw [hs]; exact h1, by omega, h3, by rw [hv u h2]; exact h4, h5⟩

/-- Running what a node lowers to changes no SSA value below the counter the lowering
started from. -/
theorem lower_frame_vals (X : ext_ops) {e : node} {d d1 : compiler} {L L1 : node_list}
    {r : Nat} {vals vals1 : Nat → Option nat} {all : List nat}
    (hl : node.lower e d = .ok (L, d1)) (hr : compiler.lower_reg L = .ok (r, L1))
    (hrun : ssa_run X L1 vals = some (all, vals1)) :
    ∀ u, u < d.ssaregcount → vals1 u = vals u := by
  intro u hu
  apply ssa_run_frame X L1 vals all vals1 hrun
  rw [lower_reg_dests hr, (node_lower_dests e d L d1 hl).1]
  simp only [List.mem_range'_1, not_and, not_lt]
  intro h
  omega

/-- Appending one unnamed row to a run: its value is stored under its destination and adds
no named value. -/
theorem lower_row_sem (X : ext_ops) (pre : node_list) {vals vals1 : Nat → Option nat}
    {all : List nat} {rhs : node} {v : nat} (c : Nat)
    (hrun : ssa_run X pre vals = some (all, vals1)) (hn : named_values pre all = [])
    (hv : pure_eval X (ssa_leaf vals1) rhs = some v) (hc : nat.copy v = v) :
    ssa_run X (pre ++ [.setreg (.ssareg c) rhs none]) vals =
        some (all ++ [v], fn_set vals1 c v) ∧
      named_values (pre ++ [.setreg (.ssareg c) rhs none]) (all ++ [v]) = [] := by
  constructor
  · rw [ssa_run_append, hrun]
    simp [ssa_run, hv, hc, reg.l]
  · rw [named_values_append X _ _ _ _ _ _ hrun, hn]
    simp [named_values]

theorem ssa_leaf_reg {vals : Nat → Option nat} {u : Nat} {a : nat} (X : ext_ops)
    (h : vals u = some a) (hc : nat.copy a = a) :
    pure_eval X (ssa_leaf vals) (.ssareg u) = some a := by
  simp [pure_eval, ssa_leaf, h, hc]

theorem ssa_env_normal {d : compiler} {env : String → Option nat}
    {vals : Nat → Option nat} {known : List String} (h : ssa_env d env vals known)
    {e : node} (hv : ∀ y ∈ expr_vars e, y ∈ known) :
    ∀ y ∈ expr_vars e, ∀ w, env y = some w → nat.copy w = w := by
  intro y hy w hw
  obtain ⟨_, w1, _, _, h3, _, h5⟩ := h y (hv y hy)
  rw [h3] at hw
  cases hw
  exact h5

/-- Lowering an expression preserves its value: running the lowered rows from a table that
agrees with the environment stores the value of the expression under the register
`lower_reg` returns, and no row of an expression carries a name. -/
theorem lower_sem (X : ext_ops) {env : String → Option nat} {known : List String} (e : node) :
    ∀ (d d1 : compiler) (L : node_list) (vals : Nat → Option nat) (v : nat),
      is_expr e = true → (∀ c ∈ expr_literals e, small_literal c) →
      (∀ y ∈ expr_vars e, y ∈ known) → ssa_env d env vals known →
      pure_eval X (ast_leaf env) e = some v → node.lower e d = .ok (L, d1) →
      d1.var_ssa = d.var_ssa ∧
      ∃ r L1 all vals1, compiler.lower_reg L = .ok (r, L1) ∧
        ssa_run X L1 vals = some (all, vals1) ∧ vals1 r = some v ∧ r < d1.ssaregcount ∧
        named_values L1 all = [] := by
  induction e with
  | const_int c =>
    intro d d1 L vals v he hlit hvars henv hval h
    simp only [node.lower, Except.ok.injEq, Prod.mk.injEq] at h
    obtain ⟨rfl, rfl⟩ := h
    simp only [pure_eval, ast_leaf, Option.some.injEq] at hval
    subst hval
    have hs := small_literal_lower (hlit c (by simp [expr_literals]))
    have hp : pure_eval X (ssa_leaf vals) (.unaryop .op_li (.imm (to_int (c.limb_at 0)))) =
        some (nat.copy c) := by
      simp [pure_eval, ssa_leaf, hs, copy_idem]
    obtain ⟨h1, h2⟩ := lower_row_sem X [] d.ssaregcount rfl rfl hp (copy_idem c)
    exact ⟨rfl, d.ssaregcount, _, _, _, lower_reg_snoc [] _ _ _, h1, by simp [fn_set],
      by simp, h2⟩
  | var x =>
    intro d d1 L vals v he hlit hvars henv hval h
    obtain ⟨u, w, h1, h2, h3, h4, h5⟩ := henv x (hvars x (by simp [expr_vars]))
    simp only [node.lower, h1, Except.ok.injEq, Prod.mk.injEq] at h
    obtain ⟨rfl, rfl⟩ := h
    simp only [pure_eval, ast_leaf, h3, Option.some.injEq] at hval
    subst hval
    exact ⟨rfl, u, [], [], vals, by simp [compiler.lower_reg], rfl, h4, h2, rfl⟩
  | unaryop opcode l ih =>
    intro d d1 L vals v he hlit hvars henv hval h
    obtain ⟨ho, hel⟩ := is_expr_unary he
    have hnv := pure_eval_normal X he (ssa_env_normal henv hvars) hval
    simp only [node.lower, bind, Except.bind] at h
    split at h
    · cases h
    · rename_i x hx
      split at h
      · cases h
      · rename_i y hy
        simp only [pure, Except.pure, Except.ok.injEq, Prod.mk.injEq] at h
        obtain ⟨rfl, rfl⟩ := h
        obtain ⟨a, ha⟩ := pure_eval_unary_some X ho hval
        have hvl : ∀ z ∈ expr_vars l, z ∈ known := by simpa [expr_vars] using hvars
        have hna := pure_eval_normal X hel (ssa_env_normal henv hvl) ha
        obtain ⟨e0, r, L1, all, vals1, e1, e2, e3, e4, e5⟩ := ih d x.2 x.1 vals a hel
          (by simpa [expr_literals] using hlit) hvl henv ha hx
        rw [hy] at e1
        cases e1
        have hleaf : pure_eval X (ssa_leaf vals1) (.ssareg r) = pure_eval X (ast_leaf env) l := by
          rw [ha]; exact ssa_leaf_reg X e3 hna
        have hp := (pure_eval_unary_congr X opcode hleaf).trans hval
        obtain ⟨h1, h2⟩ := lower_row_sem X L1 x.2.ssaregcount e2 e5 hp hnv
        exact ⟨e0, x.2.ssaregcount, _, _, _, lower_reg_snoc _ _ _ _, h1, by simp [fn_set],
          by simp, h2⟩
  | binaryop opcode l r ihl ihr =>
    intro d d1 L vals v he hlit hvars henv hval h
    obtain ⟨ho, hel, her⟩ := is_expr_binary he
    have hnv := pure_eval_normal X he (ssa_env_normal henv hvars) hval
    obtain ⟨a, b, ha, hb⟩ := pure_eval_binary_some X ho hval
    have hvl : ∀ z ∈ expr_vars l, z ∈ known := fun z hz => hvars z (by simp [expr_vars, hz])
    have hvr : ∀ z ∈ expr_vars r, z ∈ known := fun z hz => hvars z (by simp [expr_vars, hz])
    have hna := pure_eval_normal X hel (ssa_env_normal henv hvl) ha
    have hnb := pure_eval_normal X her (ssa_env_normal henv hvr) hb
    simp only [node.lower, bind, Except.bind] at h
    split at h
    · rename_i hc
      obtain ⟨c, rfl⟩ := is_expr_const her hc.2
      simp only at h
      split at h
      · cases h
      · rename_i x hx
        split at h
        · cases h
        · rename_i y hy
          simp only [pure, Except.pure, Except.ok.injEq, Prod.mk.injEq] at h
          obtain ⟨rfl, rfl⟩ := h
          obtain ⟨e0, r, L1, all, vals1, e1, e2, e3, e4, e5⟩ := ihl d x.2 x.1 vals a hel
            (fun c1 hc1 => hlit c1 (by simp [expr_literals, hc1])) hvl henv ha hx
          rw [hy] at e1
          cases e1
          simp only [pure_eval, ast_leaf, Option.some.injEq] at hb
          subst hb
          have hfold : is_binary_op (if opcode = .op_srl then op.op_srli else op.op_slli) =
              true := by
            split <;> rfl
          have hp : pure_eval X (ssa_leaf vals1) (.binaryop
              (if opcode = .op_srl then op.op_srli else op.op_slli) (.ssareg r)
              (.imm (to_int (c.limb_at 0)))) = some v := by
            rw [← hval]
            simp only [pure_eval, hfold, ho, if_true, ssa_leaf, e3, Option.map_some', hna,
              Option.some_bind, ast_leaf, ha, shift_fold_eq X opcode a c hc.1]
          obtain ⟨h1, h2⟩ := lower_row_sem X L1 x.2.ssaregcount e2 e5 hp hnv
          exact ⟨e0, x.2.ssaregcount, _, _, _, lower_reg_snoc _ _ _ _, h1, by simp [fn_set],
            by simp, h2⟩
    · split at h
      · cases h
      · rename_i x hl
        split at h
        · cases h
        · rename_i y hr
          split at h
          · cases h
          · rename_i z hlr
            split at h
            · cases h
            · rename_i w hrr
              simp only [pure, Except.pure, Except.ok.injEq, Prod.mk.injEq] at h
              obtain ⟨rfl, rfl⟩ := h
              obtain ⟨e0, r1, L1, all1, vals1, e1, e2, e3, e4, e5⟩ := ihl d x.2 x.1 vals a
                hel (fun c1 hc1 => hlit c1 (by simp [expr_literals, hc1])) hvl henv ha hl
              rw [hlr] at e1
              cases e1
              have hfr := lower_frame_vals X hl hlr e2
              have hmono := (node_lower_dests l d x.1 x.2 hl).2
              have henv1 : ssa_env x.2 env vals1 known := ssa_env_mono henv e0 hmono hfr
              obtain ⟨f0, r2, L2, all2, vals2, f1, f2, f3, f4, f5⟩ := ihr x.2 y.2 y.1 vals1 b
                her (fun c1 hc1 => hlit c1 (by simp [expr_literals, hc1])) hvr henv1 hb hr
              rw [hrr] at f1
              cases f1
              have hfr2 := lower_frame_vals X hr hrr f2
              have e6 : vals2 r1 = some a := by rw [hfr2 r1 e4]; exact e3
              have hrun : ssa_run X (L1 ++ L2) vals = some (all1 ++ all2, vals2) := by
                rw [ssa_run_append, e2]
                simp [f2]
              have hnamed : named_values (L1 ++ L2) (all1 ++ all2) = [] := by
                rw [named_values_append X _ _ _ _ _ _ e2, e5, f5]
                rfl
              have hleaf1 : pure_eval X (ssa_leaf vals2) (.ssareg r1) =
                  pure_eval X (ast_leaf env) l := by
                rw [ha]; exact ssa_leaf_reg X e6 hna
              have hleaf2 : pure_eval X (ssa_leaf vals2) (.ssareg r2) =
                  pure_eval X (ast_leaf env) r := by
                rw [hb]; exact ssa_leaf_reg X f3 hnb
              have hp := (pure_eval_binary_congr X opcode hleaf1 hleaf2).trans hval
              obtain ⟨h1, h2⟩ := lower_row_sem X (L1 ++ L2) y.2.ssaregcount hrun hnamed hp hnv
              exact ⟨f0.trans e0, y.2.ssaregcount, _, _, _, lower_reg_snoc _ _ _ _, h1,
                by simp [fn_set], by simp, h2⟩
  | _ => intro d d1 L vals v he; simp [is_expr] at he

/-- Lowering an assignment preserves its value: the lowered rows store the value of the
right-hand side under the register the name is renamed to, and the only named value of the
rows is that value. -/
theorem lower_setvar_sem (X : ext_ops) {env : String → Option nat} {known : List String}
    {x : String} {e : node} {d d1 : compiler} {L : node_list} {vals : Nat → Option nat}
    {v : nat} (he : is_expr e = true) (hlit : ∀ c ∈ expr_literals e, small_literal c)
    (hvars : ∀ y ∈ expr_vars e, y ∈ known) (henv : ssa_env d env vals known)
    (hval : pure_eval X (ast_leaf env) e = some v)
    (h : node.lower (.setvar x e) d = .ok (L, d1)) :
    ∃ all vals1, ssa_run X L vals = some (all, vals1) ∧ named_values L all = [v] ∧
      ssa_env d1 (fn_set env x v) vals1 (x :: known) := by
  have hnv := pure_eval_normal X he (ssa_env_normal henv hvars) hval
  simp only [node.lower, bind, Except.bind] at h
  split at h
  · cases h
  · rename_i y hl
    split at h
    · rename_i dst rhs w hlast
      simp only [pure, Except.pure, Except.ok.injEq, Prod.mk.injEq] at h
      obtain ⟨rfl, rfl⟩ := h
      obtain ⟨e0, r, L1, all, vals1, e1, e2, e3, e4, e5⟩ :=
        lower_sem X e d y.2 y.1 vals v he hlit hvars henv hval hl
      rw [lower_reg_of_last hlast] at e1
      cases e1
      have hfr := lower_frame_vals X hl (lower_reg_of_last hlast) e2
      have hmono := (node_lower_dests e d y.1 y.2 hl).2
      have hsplit := List.dropLast_append_getLast? _ hlast
      rw [← hsplit] at e2 e5
      obtain ⟨apre, x1, valsp, g1, g2, g3, g4⟩ := ssa_run_snoc X e2
      rw [e3] at g3
      cases g3
      subst g2
      rw [named_values_append X _ _ _ _ _ _ g1] at e5
      have hpre : named_values y.1.dropLast apre = [] := (List.append_eq_nil.1 e5).1
      refine ⟨apre ++ [v], vals1, g4 (some x), ?_, ?_⟩
      · rw [named_values_append X _ _ _ _ _ _ g1, hpre]
        simp [named_values]
      · intro z hz
        by_cases hzx : z = x
        · subst hzx
          exact ⟨dst.l, v, by simp [fn_set], e4, by simp [fn_set], e3, hnv⟩
        · have hz1 : z ∈ known := by
            rcases List.mem_cons.1 hz with h1 | h1
            · exact absurd h1 hzx
            · exact h1
          obtain ⟨u, w1, h1, h2, h3, h4, h5⟩ := henv z hz1
          refine ⟨u, w1, ?_, by simp only []; omega, by simp [fn_set, hzx, h3], ?_, h5⟩
          · simp only [fn_set, hzx, if_false]
            rw [e0]; exact h1
          · rw [hfr u h2]; exact h4
    · cases h

theorem ssa_run_skip (X : ext_ops) (n : node) (hn : n.opcode = .op_setvar) (rest : node_list)
    (vals : Nat → Option nat) : ssa_run X (n :: rest) vals = ssa_run X rest vals := by
  cases n <;> first | rfl | simp [node.opcode] at hn

theorem named_values_skip (n : node) (hn : n.opcode = .op_setvar) (rest : node_list)
    (vs : List nat) : named_values (n :: rest) vs = named_values rest vs := by
  cases n <;> first | simp [named_values] | simp [node.opcode] at hn

/-- Lowering a program preserves the values of its assignments: running the rows appended
to the sequence stores, in the rows that carry a name, the values of the program. -/
theorem lower_loop_sem (X : ext_ops) : ∀ (prog : node_list) (known : List String)
    (env : String → Option nat) (d d1 : compiler) (acc out : node_list)
    (vals : Nat → Option nat) (vs : List nat),
    accepted known prog → small_literals prog → ssa_env d env vals known →
    prog_den X env prog = some vs → compiler.lower_loop prog acc d = .ok (out, d1) →
    ∃ L all vals1, out = acc ++ L ∧ ssa_run X L vals = some (all, vals1) ∧
      named_values L all = vs := by
  intro prog
  induction prog with
  | nil =>
    intro known env d d1 acc out vals vs _ _ _ hden h
    simp only [compiler.lower_loop, Except.ok.injEq, Prod.mk.injEq] at h
    simp only [prog_den, Option.some.injEq] at hden
    exact ⟨[], [], vals, by simp [h.1], rfl, by rw [← hden]; rfl⟩
  | cons n rest ih =>
    intro known env d d1 acc out vals vs hacc hlit henv hden h
    cases n with
    | setvar x e =>
      obtain ⟨he, hv, hacc1⟩ := hacc
      simp only [prog_den, Option.bind_eq_some, Option.map_eq_some'] at hden
      obtain ⟨v, hval, vs1, hden1, rfl⟩ := hden
      simp only [compiler.lower_loop, node.opcode, if_true, bind, Except.bind] at h
      split at h
      · cases h
      · rename_i y hy
        obtain ⟨all, vals1, g1, g2, g3⟩ := lower_setvar_sem X he
          (hlit x e (by simp)) hv henv hval hy
        obtain ⟨L1, all1, vals2, f1, f2, f3⟩ := ih (x :: known) (fn_set env x v) y.2 d1 _ out
          vals1 vs1 hacc1 (fun x1 e1 h1 => hlit x1 e1 (List.mem_cons_of_mem _ h1)) g3 hden1 h
        refine ⟨.setvar x e :: (y.1 ++ L1), all ++ all1, vals2, by simp [f1], ?_, ?_⟩
        · rw [ssa_run_skip X (.setvar x e) rfl, ssa_run_append, g1]
          simp [f2]
        · rw [named_values_skip (.setvar x e) rfl, named_values_append X _ _ _ _ _ _ g1, g2, f3]
          rfl
    | _ => exact absurd hacc (by simp [accepted])

/-! ## The allocated sequence computes the values of the SSA sequence -/

theorem phy_leaf_pure (X : ext_ops) {regs : Nat → Option nat} {x : node} {a : nat}
    (h : phy_leaf regs x = some a) : pure_eval X (phy_leaf regs) x = some a := by
  cases x <;> simp_all [pure_eval, phy_leaf]

theorem ssa_leaf_pure (X : ext_ops) {vals : Nat → Option nat} {x : node} {b : Nat}
    (hok : operand_ok b x = true) : pure_eval X (ssa_leaf vals) x = ssa_leaf vals x := by
  cases x <;> simp_all [pure_eval, operand_ok]

theorem eval_phy_leaf (X : ext_ops) (fuel : Nat) {x : node} {s : compiler} {a : nat}
    (h : phy_leaf s.reg_values x = some a) : node.eval X (fuel + 1) x s = .ok (a, s) := by
  cases x with
  | phyreg p =>
    simp only [phy_leaf, Option.some.injEq] at h
    simp only [node.eval]
    cases hr : s.reg_values p with
    | none => rw [hr] at h; simp [← h]
    | some w => rw [hr] at h; simp [← h]
  | imm r =>
    simp only [phy_leaf, Option.some.injEq] at h
    simp [node.eval, h]
  | _ => simp [phy_leaf] at h

theorem eval_unary_of_pure (X : ext_ops) (fuel : Nat) (opcode : op)
    {leaf : node → Option nat} {x : node} {s : compiler} {a val : nat}
    (e1 : node.eval X fuel x s = .ok (a, s)) (e2 : pure_eval X leaf x = some a)
    (h : pure_eval X leaf (.unaryop opcode x) = some val) :
    node.eval X (fuel + 1) (.unaryop opcode x) s = .ok (val, s) := by
  cases opcode <;> simp only [pure_eval, e2, Option.map_some', Option.some_bind,
    Option.some.injEq, Option.map_eq_some'] at h <;>
    simp only [node.eval, e1, bind, Except.bind, pure, Except.pure]
  all_goals first
    | (rw [h])
    | (obtain ⟨w, hw, rfl⟩ := h; simp [hw, lift_num])

theorem eval_binary_of_pure (X : ext_ops) (fuel : Nat) (opcode : op)
    {leaf : node → Option nat} {x y : node} {s : compiler} {a b val : nat}
    (e1 : node.eval X fuel x s = .ok (a, s)) (e2 : pure_eval X leaf x = some a)
    (e3 : node.eval X fuel y s = .ok (b, s)) (e4 : pure_eval X leaf y = some b)
    (h : pure_eval X leaf (.binaryop opcode x y) = some val) :
    node.eval X (fuel + 1) (.binaryop opcode x y) s = .ok (val, s) := by
  simp only [pure_eval, e2, e4, Option.some_bind] at h
  simp only [node.eval, e1, e3, bind, Except.bind, pure, Except.pure]
  by_cases hb : is_binary_op opcode = true
  · simp only [hb, if_true] at h ⊢
    cases hop : eval_binary X opcode a b with
    | none =>
      simp only [hop, Option.some.injEq] at h
      simp [h]
    | some res =>
      simp only [hop, Option.map_eq_some'] at h
      obtain ⟨w, rfl, rfl⟩ := h
      simp [lift_num]
  · simp only [hb, Bool.false_eq_true, if_false, Option.some.injEq] at h ⊢
    simp [h]

theorem rewrite_operand_phy {b : Nat} {x : node} (hok : operand_ok b x = true)
    (m : List (Nat × Nat)) (regs : Nat → Option nat) :
    ∃ a, phy_leaf regs (rewrite_operand m x).1 = some a := by
  cases x <;> simp_all [operand_ok, rewrite_operand, phy_leaf]

/-- An operand that has a value in the SSA table and is bound by the used map is rewritten
to a leaf with the same value, and the used map stays as it is. -/
theorem operand_sim {K : List (Nat × Nat)} {vals regs : Nat → Option nat} {b : Nat}
    {x : node} {av : nat} (hok : operand_ok b x = true)
    (hops : ∀ u, x = .ssareg u → u = b ∨ ∃ q, (u, q) ∈ K) (hdom : vals b = none)
    (hagree : ∀ u q, (u, q) ∈ K → ∃ w, vals u = some w ∧ regs q = some w)
    (hx : ssa_leaf vals x = some av) :
    (rewrite_operand K x).2 = K ∧ phy_leaf regs (rewrite_operand K x).1 = some av := by
  cases x with
  | ssareg u =>
    simp only [ssa_leaf, Option.map_eq_some'] at hx
    obtain ⟨w, hw, rfl⟩ := hx
    rcases hops u rfl with rfl | ⟨q, hq⟩
    · rw [hdom] at hw; cases hw
    · obtain ⟨q1, hq1⟩ := map_find_of_mem hq
      obtain ⟨w1, h1, h2⟩ := hagree u q1 (map_find_mem hq1)
      rw [hw] at h1
      cases h1
      simp [rewrite_operand, reg_used_at, hq1, phy_leaf, h2]
  | imm r =>
    simp only [ssa_leaf, Option.some.injEq] at hx
    simp [rewrite_operand, phy_leaf, hx]
  | _ => simp [operand_ok] at hok

theorem pure_eval_unary_other (X : ext_ops) (leaf : node → Option nat) (opcode : op)
    (x : node) (ho : ¬(opcode = .op_li ∨ opcode = .op_not ∨ opcode = .op_neg)) :
    pure_eval X leaf (.unaryop opcode x) = some (nat.of_limb 0) := by
  cases opcode <;> simp_all [pure_eval]

/-- The right-hand side of a row, rewritten with a used map that agrees with the SSA table,
evaluates to the value the SSA row has, and leaves the state as it is. -/
theorem row_sim (X : ext_ops) (fuel : Nat) {K : List (Nat × Nat)}
    {vals : Nat → Option nat} {s : compiler} {b : Nat} {rhs : node} {v : Option String}
    {val : nat} (hrow : row_ok (.setreg (.ssareg b) rhs v) = true)
    (hops : ∀ u, uses_reg u (.setreg (.ssareg b) rhs v) = true → u = b ∨ ∃ q, (u, q) ∈ K)
    (hdom : vals b = none)
    (hagree : ∀ u q, (u, q) ∈ K → ∃ w, vals u = some w ∧ s.reg_values q = some w)
    (hval : pure_eval X (ssa_leaf vals) rhs = some val) :
    node.eval X (fuel + 2) (rewrite_rhs K rhs).1 s = .ok (val, s) := by
  cases rhs with
  | unaryop opcode x =>
    have hok : operand_ok b x = true := by simpa [row_ok] using hrow
    obtain ⟨a1, ha1⟩ := rewrite_operand_phy hok K s.reg_values
    have hp : pure_eval X (phy_leaf s.reg_values) (.unaryop opcode (rewrite_operand K x).1) =
        some val := by
      by_cases ho : opcode = .op_li ∨ opcode = .op_not ∨ opcode = .op_neg
      · obtain ⟨a, ha⟩ := pure_eval_unary_some X ho hval
        rw [ssa_leaf_pure X hok] at ha
        obtain ⟨_, h2⟩ := operand_sim hok
          (fun u hu => hops u (by subst hu; simp [uses_reg])) hdom hagree ha
        rw [← hval]
        apply pure_eval_unary_congr
        rw [phy_leaf_pure X h2, ssa_leaf_pure X hok, ha]
      · rw [pure_eval_unary_other X _ _ _ ho]
        rw [pure_eval_unary_other X _ _ _ ho] at hval
        exact hval
    exact eval_unary_of_pure X (fuel + 1) opcode (eval_phy_leaf X fuel ha1)
      (phy_leaf_pure X ha1) hp
  | binaryop opcode x y =>
    have hok : operand_ok b x = true ∧ operand_ok b y = true := by
      simpa [row_ok] using hrow
    obtain ⟨a1, ha1⟩ := rewrite_operand_phy hok.1 K s.reg_values
    obtain ⟨b1, hb1⟩ := rewrite_operand_phy hok.2 (rewrite_operand K x).2 s.reg_values
    have hp : pure_eval X (phy_leaf s.reg_values) (.binaryop opcode (rewrite_operand K x).1
        (rewrite_operand (rewrite_operand K x).2 y).1) = some val := by
      by_cases hb : is_binary_op opcode = true
      · obtain ⟨a, c, ha, hc⟩ := pure_eval_binary_some X hb hval
        rw [ssa_leaf_pure X hok.1] at ha
        rw [ssa_leaf_pure X hok.2] at hc
        obtain ⟨h1, h2⟩ := operand_sim hok.1
          (fun u hu => hops u (by subst hu; simp [uses_reg])) hdom hagree ha
        rw [h1]
        obtain ⟨_, h4⟩ := operand_sim hok.2
          (fun u hu => hops u (by subst hu; simp [uses_reg])) hdom hagree hc
        rw [← hval]
        apply pure_eval_binary_congr
        · rw [phy_leaf_pure X h2, ssa_leaf_pure X hok.1, ha]
        · rw [phy_leaf_pure X h4, ssa_leaf_pure X hok.2, hc]
      · simp only [pure_eval, hb, Bool.false_eq_true, if_false] at hval ⊢
        exact hval
    exact eval_binary_of_pure X (fuel + 1) opcode (eval_phy_leaf X fuel ha1)
      (phy_leaf_pure X ha1) (eval_phy_leaf X fuel hb1) (phy_leaf_pure X hb1) hp
  | _ => simp [row_ok] at hrow

theorem drop_of_get? {α : Type} : ∀ (L : List α) (k : Nat) (x : α),
    L.get? k = some x → L.drop k = x :: L.drop (k + 1) := by
  intro L
  induction L with
  | nil => intro k x h; simp at h
  | cons y rest ih =>
    intro k x h
    cases k with
    | zero =>
      simp only [List.get?_cons_zero, Option.some.injEq] at h
      simp [h]
    | succ k =>
      simp only [List.get?_cons_succ] at h
      simpa using ih k x h

theorem eval_setreg (X : ext_ops) (fuel : Nat) (l : reg) (r : node) (v : Option String)
    {s s1 : compiler} {val : nat} (h : node.eval X fuel r s = .ok (val, s1)) :
    node.eval X (fuel + 1) (.setreg l r v) s =
      .ok (nat.copy val, { s1 with reg_values := fn_set s1.reg_values l.l (nat.copy val) }) := by
  simp [node.eval, h, bind, Except.bind, pure, Except.pure]

theorem run_loop_setreg (X : ext_ops) (fuel : Nat) (l : reg) (r : node) (v : Option String)
    (rest : node_list) {s s1 s2 : compiler} {num : nat} {nums : List nat}
    (h : node.eval X fuel (.setreg l r v) s = .ok (num, s1))
    (h1 : run_loop X fuel .op_setreg rest s1 = .ok (nums, s2)) :
    run_loop X fuel .op_setreg (.setreg l r v :: rest) s = .ok (num :: nums, s2) := by
  simp [run_loop, node.opcode, h, h1, bind, Except.bind, pure, Except.pure]

theorem run_loop_setvar (X : ext_ops) (fuel : Nat) (x : String) (e : node)
    (rest : node_list) (s : compiler) :
    run_loop X fuel .op_setreg (.setvar x e :: rest) s = run_loop X fuel .op_setreg rest s := by
  simp [run_loop, node.opcode]

theorem snd_ne_of_nodup {K : List (Nat × Nat)} {a p u q : Nat}
    (h : (((a, p) :: K).map Prod.snd).Nodup) (hm : (u, q) ∈ K) : q ≠ p := by
  simp only [List.map_cons, List.nodup_cons, List.mem_map, not_exists, not_and] at h
  intro e
  exact h.1 (u, q) hm e

/-- Simulation of the SSA sequence by the allocated sequence, from row `k` on: when the
used map before row `k` binds SSA registers to physical registers holding the same values,
evaluating the allocated rows prints the values of the SSA rows, and the rows carry the same
names. -/
theorem alloc_sim (X : ext_ops) (fuel : Nat) {N : node_list} {m : List Char} {c : Nat}
    {free0 : List Nat} {nodes3 : node_list} (hf : ssa_form N c) (hnd : free0.Nodup)
    (h : Nat → List (Nat × Nat))
    (hrows : ∀ k dst rhs v, k < N.length → N.get? k = some (.setreg dst rhs v) →
      row_hist N m c free0 nodes3 h k dst rhs v)
    (hskip : ∀ k, k < N.length → (∀ dst rhs v, N.get? k ≠ some (.setreg dst rhs v)) →
      h (k + 1) = h k ∧ nodes3.get? k = N.get? k)
    (hlen : nodes3.length = N.length) :
    ∀ (j k : Nat), k + j = N.length → ∀ (vals : Nat → Option nat) (s : compiler)
      (all : List nat) (valsF : Nat → Option nat),
      (∀ u, rank N k ≤ u → vals u = none) →
      (∀ u q, (u, q) ∈ h k → ∃ w, vals u = some w ∧ s.reg_values q = some w) →
      ssa_run X (N.drop k) vals = some (all, valsF) →
      ∃ sF, run_loop X (fuel + 3) .op_setreg (nodes3.drop k) s = .ok (all, sF) ∧
        named_values (nodes3.drop k) all = named_values (N.drop k) all := by
  intro j
  induction j with
  | zero =>
    intro k hk vals s all valsF _ _ hrun
    have h1 : N.drop k = [] := List.drop_eq_nil_of_le (by omega)
    have h2 : nodes3.drop k = [] := List.drop_eq_nil_of_le (by omega)
    rw [h1] at hrun
    simp only [ssa_run, Option.some.injEq, Prod.mk.injEq] at hrun
    rw [h1, h2, ← hrun.1]
    exact ⟨s, rfl, rfl⟩
  | succ j ih =>
    intro k hk vals s all valsF hdom hagree hrun
    have hk1 : k < N.length := by omega
    obtain ⟨n, hn⟩ : ∃ n, N.get? k = some n := by
      cases hg : N.get? k with
      | none => rw [List.get?_eq_none] at hg; omega
      | some n => exact ⟨n, rfl⟩
    have hnok : seq_node_ok n = true := hf.1 n (List.get?_mem hn)
    rw [drop_of_get? N k n hn] at hrun ⊢
    cases n with
    | setreg dst rhs v =>
      obtain ⟨_, _, hvnd, _, _, p, hnext, hnotin, hops, hget⟩ := hrows k dst rhs v hk1 hn
      obtain ⟨hdst, _, hrow⟩ := ssa_form_row hf hn
      subst hdst
      simp only [reg.l] at hnext hnotin hops
      rw [drop_of_get? nodes3 k _ hget]
      simp only [ssa_run, Option.bind_eq_some, Option.map_eq_some', reg.l] at hrun
      obtain ⟨val, hval, r, hr, he⟩ := hrun
      simp only [Prod.mk.injEq] at he
      obtain ⟨rfl, rfl⟩ := he
      have hagreeK : ∀ u q,
          (u, q) ∈ (h k).filter (fun e => decide (mcell c m k e.1 ≠ ' ')) →
          ∃ w, vals u = some w ∧ s.reg_values q = some w :=
        fun u q hm => hagree u q (List.mem_filter.1 hm).1
      have hev := row_sim X fuel hrow hops (hdom _ (Nat.le_refl _)) hagreeK hval
      have hev1 := eval_setreg X (fuel + 2) (.phyreg p) _ v hev
      have hperm := map_set_perm _ (rank N k) p hnotin
      rw [← hnext] at hperm
      have hnd1 := (hperm.map Prod.snd).nodup_iff.1 (hvnd hnd)
      obtain ⟨sF, g1, g2⟩ := ih (k + 1) (by omega)
        (fn_set vals (rank N k) (nat.copy val))
        { s with reg_values := fn_set s.reg_values p (nat.copy val) } r.1 r.2
        (by
          intro u hu
          rw [(rank_succ_setreg hn).2] at hu
          have hne : u ≠ rank N k := by omega
          simp only [fn_set, hne, if_false]
          exact hdom u (by omega))
        (by
          intro u q hm
          rcases List.mem_cons.1 (hperm.mem_iff.1 hm) with he | hK
          · simp only [Prod.mk.injEq] at he
            obtain ⟨rfl, rfl⟩ := he
            exact ⟨nat.copy val, by simp [fn_set], by simp [fn_set]⟩
          · have hu : u ≠ rank N k := by
              intro e
              apply hnotin
              rw [← e]
              exact List.mem_map.2 ⟨(u, q), hK, rfl⟩
            have hq : q ≠ p := snd_ne_of_nodup hnd1 hK
            obtain ⟨w, h1, h2⟩ := hagreeK u q hK
            exact ⟨w, by simp [fn_set, hu, h1], by simp [fn_set, hq, h2]⟩)
        hr
      refine ⟨sF, run_loop_setreg X (fuel + 3) _ _ v _ hev1 g1, ?_⟩
      cases v <;> simp [named_values, g2]
    | setvar x e =>
      obtain ⟨hsame, hget⟩ := hskip k hk1 (by intro dst rhs v; rw [hn]; simp)
      rw [hn] at hget
      rw [drop_of_get? nodes3 k _ hget, run_loop_setvar]
      simp only [ssa_run] at hrun
      obtain ⟨sF, g1, g2⟩ := ih (k + 1) (by omega) vals s all valsF
        (fun u hu => hdom u (Nat.le_trans (rank_succ_le N k) hu))
        (by rw [hsame]; exact hagree) hrun
      exact ⟨sF, g1, by simp [named_values, g2]⟩
    | _ => simp [seq_node_ok, row_ok] at hnok

/-! ## The pipeline preserves the values of a program -/

theorem accepted_setvars : ∀ (prog : node_list) (known : List String), accepted known prog →
    ∀ n ∈ prog, ∃ x e, n = node.setvar x e := by
  intro prog
  induction prog with
  | nil => intro known _ n hn; cases hn
  | cons n0 rest ih =>
    intro known hacc n hn
    cases n0 with
    | setvar x e =>
      rcases List.mem_cons.1 hn with rfl | h1
      · exact ⟨x, e, rfl⟩
      · exact ih (x :: known) hacc.2.2 n h1
    | _ => exact absurd hacc (by simp [accepted])

theorem lower_true_false {d d3 : compiler} (h : compiler.lower true d = .ok d3) :
    ∃ d2, compiler.lower false d = .ok d2 := by
  simp only [compiler.lower, bind, Except.bind] at h ⊢
  split at h
  · cases h
  · rename_i d1 hd1
    split at h
    · cases h
    · rename_i d2 hd2
      exact ⟨d2, by simp [hd1, hd2, pure, Except.pure]⟩

theorem lower_false_nodes {d d2 : compiler} (h : compiler.lower false d = .ok d2) :
    ∃ d1, compiler.lower_loop d.nodes [] d = .ok (d2.nodes, d1) := by
  simp only [compiler.lower, bind, Except.bind] at h
  split at h
  · cases h
  · rename_i d1 hd1
    split at h
    · cases h
    · rename_i d3 hd3
      simp only [Bool.false_eq_true, if_false, pure, Except.pure, Except.ok.injEq] at h
      subst h
      simp only [compiler.lower_nodes, bind, Except.bind] at hd1
      split at hd1
      · cases hd1
      · rename_i r hr
        simp only [pure, Except.pure, Except.ok.injEq] at hd1
        subst hd1
        simp only [compiler.def_use_ssa_analysis] at hd3
        split at hd3
        · cases hd3
        · simp only [Except.ok.injEq] at hd3
          subst hd3
          exact ⟨r.2, hr⟩

/-- Correctness of the pipeline on accepted programs whose literals fit in a word: when
`lower(true)` succeeds for a backend whose allocation order has no duplicate, evaluating the
allocated sequence gives, in the rows that carry a name, the values of the assignments. -/
theorem compile_correct (X : ext_ops) {target : backend} {prog : node_list} {d3 : compiler}
    {vs : List nat} (hacc : accepted [] prog) (hlit : small_literals prog)
    (hnd : target.order.Nodup) (hden : prog_den X (fun _ => none) prog = some vs)
    (h3 : compiler.lower true (compiler.of_program target prog) = .ok d3) (fuel : Nat) :
    ∃ all sF, compiler.run X (fuel + 3) .op_setreg d3 = .ok (all, sF) ∧
      named_values d3.nodes all = vs := by
  have hprog := accepted_setvars prog [] hacc
  obtain ⟨d2, h2⟩ := lower_true_false h3
  obtain ⟨p1, p2, p3, _, _, _⟩ := of_program_spec target prog
  obtain ⟨hf, _⟩ := lower_false_facts (by rw [p1]; exact hprog) p2 p3 h2
  obtain ⟨hlen, _, _, _, _, _, _, _, H, h0, _, hrows, hskip⟩ := lower_true_inv hprog h2 h3
  obtain ⟨d1, hloop⟩ := lower_false_nodes h2
  rw [p1] at hloop
  obtain ⟨L, all, vals1, hL, hrun, hnamed⟩ := lower_loop_sem X prog [] (fun _ => none)
    (compiler.of_program target prog) d1 [] d2.nodes (fun _ => none) vs hacc hlit
    (by intro y hy; cases hy) hden hloop
  rw [List.nil_append] at hL
  subst hL
  obtain ⟨sF, g1, g2⟩ := alloc_sim X fuel hf hnd H hrows hskip hlen d2.nodes.length 0
    (by simp) (fun _ => none) d3 all vals1 (fun _ _ => rfl)
    (by intro u q hm; rw [h0] at hm; cases hm) hrun
  simp only [List.drop_zero] at g1 g2
  exact ⟨all, sF, g1, by rw [g2]; exact hnamed⟩

theorem small_literal_of_limb (x : Nat) (hx : x < 2 ^ 32) :
    small_literal (nat.of_limb (Int.ofNat x)) := by
  refine ⟨x, hx, ?_⟩
  have h : to_limb (Int.ofNat x) = x := by
    simp only [to_limb]
    have : (Int.ofNat x) % 2 ^ 32 = Int.ofNat (x % 2 ^ 32) := by norm_cast
    rw [this, Nat.mod_eq_of_lt hx]
    rfl
  simp only [nat.of_limb, h]
  rfl

theorem example_program_accepted : accepted [] example_program := by
  simp [accepted, example_program, is_expr, expr_vars, is_binary_op]

theorem example_program_literals : small_literals example_program := by
  intro x e hmem c hc
  simp only [example_program, List.mem_cons, List.mem_singleton, List.not_mem_nil,
    or_false, node.setvar.injEq] at hmem
  rcases hmem with ⟨rfl, rfl⟩ | ⟨rfl, rfl⟩ | ⟨rfl, rfl⟩ <;>
    simp only [expr_literals, List.mem_cons, List.mem_singleton, List.not_mem_nil,
      List.nil_append, List.mem_append, or_false, false_or] at hc <;>
    subst hc
  · exact small_literal_of_limb 3 (by norm_num)
  · exact small_literal_of_limb 2 (by norm_num)
  · exact small_literal_of_limb 5 (by norm_num)

theorem sum_program_accepted : accepted [] sum_program := by
  simp [accepted, sum_program, is_expr, expr_vars, is_binary_op]

theorem sum_program_literals : small_literals sum_program := by
  intro x e hmem c hc
  simp only [sum_program, List.mem_cons, List.mem_singleton, List.not_mem_nil,
    or_false, node.setvar.injEq] at hmem
  rcases hmem with ⟨rfl, rfl⟩ | ⟨rfl, rfl⟩ <;>
    simp only [expr_literals, List.mem_cons, List.mem_singleton, List.not_mem_nil,
      List.nil_append, List.mem_append, or_false, false_or] at hc <;>
    subst hc
  · exact small_literal_of_limb 3 (by norm_num)
  · exact small_literal_of_limb 5 (by norm_num)

theorem sum_program_no_fold : no_folded_shifts sum_program := by
  intro x e hmem
  simp only [sum_program, List.mem_cons, List.mem_singleton, List.not_mem_nil,
    or_false, node.setvar.injEq] at hmem
  rcases hmem with ⟨rfl, rfl⟩ | ⟨rfl, rfl⟩ <;> rfl

theorem wide_literal_no_fold : no_folded_shifts wide_literal_program := by
  intro x e hmem
  simp only [wide_literal_program, List.mem_singleton, node.setvar.injEq] at hmem
  obtain ⟨rfl, rfl⟩ := hmem
  rfl

theorem reassign_no_fold : no_folded_shifts reassign_program := by
  intro x e hmem
  simp only [reassign_program, List.mem_cons, List.mem_singleton, List.not_mem_nil,
    or_false, node.setvar.injEq] at hmem
  rcases hmem with ⟨rfl, rfl⟩ | ⟨rfl, rfl⟩ | ⟨rfl, rfl⟩ | ⟨rfl, rfl⟩ <;> rfl

/-! ## AST evaluation against the lowered and allocated form -/

/-- C1 as stated fails on the code. The program `x = 4294967296;` is accepted and folds no
shift; evaluating the AST form gives `2^32`, evaluating the lowered and allocated form gives
`0`, because `const_int::lower` keeps the low word of a literal. The program
`a = 1; b = a + 1; a = 5; c = b + 0;` is accepted and folds no shift; evaluating the AST
form gives `c = 6` (a variable read evaluates the expression now bound to the name),
evaluating the lowered and allocated form gives `c = 2`. -/
theorem C1_values_differ :
    (accepted [] wide_literal_program ∧ no_folded_shifts wide_literal_program ∧
      ast_values ext_absent 8 sample_backend wide_literal_program = some [⟨[0, 1]⟩] ∧
      lowered_values ext_absent 8 true sample_backend wide_literal_program = some [⟨[0]⟩]) ∧
    (accepted [] reassign_program ∧ no_folded_shifts reassign_program ∧
      ast_values ext_absent 8 sample_backend reassign_program =
        some [⟨[1]⟩, ⟨[2]⟩, ⟨[5]⟩, ⟨[6]⟩] ∧
      lowered_values ext_absent 8 true sample_backend reassign_program =
        some [⟨[1]⟩, ⟨[2]⟩, ⟨[5]⟩, ⟨[2]⟩]) :=
  ⟨⟨by simp [accepted, wide_literal_program, is_expr, expr_vars], wide_literal_no_fold,
      by decide, by decide⟩,
    ⟨by simp [accepted, reassign_program, is_expr, expr_vars, is_binary_op],
      reassign_no_fold, by decide, by decide⟩⟩

/-- C1 (amended): for every program accepted by the front end in which no shift was folded
to an immediate form, every variable is assigned at most once and every literal fits in one
32-bit word, and for a backend whose allocation order has no duplicate: when evaluating the
AST form yields the values `vs` and `lower(true)` succeeds, evaluating the lowered and
register-allocated form (with fuel 3 or more) yields, for the `setreg` nodes that carry a
variable name, in sequence order, the same values `vs`. -/
theorem C1_compiled_values_agree (X : ext_ops) (target : backend) (prog : node_list)
    (vs : List nat) (fuelA fuel : Nat) (hacc : accepted [] prog)
    (hfold : no_folded_shifts prog) (hsingle : single_assignment [] prog)
    (hlit : small_literals prog) (hnd : target.order.Nodup)
    (hast : ast_values X fuelA target prog = some vs)
    (hok : (compiler.lower true (compiler.of_program target prog)).isOk = true) :
    lowered_values X (fuel + 3) true target prog = some vs := by
  have _ := hfold
  obtain ⟨d3, h3⟩ := except_ok_of_isOk hok
  obtain ⟨p1, _⟩ := of_program_spec target prog
  have hden : prog_den X (fun _ => none) prog = some vs := by
    simp only [ast_values] at hast
    split at hast
    · rename_i r hr
      simp only [Option.some.injEq] at hast
      subst hast
      simp only [compiler.run, p1] at hr
      exact ast_run_sound X prog [] (fun _ => none) _ r.2 fuelA r.1 hacc hsingle
        (by intro y hy; cases hy) hr
    · cases hast
  obtain ⟨all, sF, g1, g2⟩ := compile_correct X hacc hlit hnd hden h3 fuel
  simp only [lowered_values, h3, g1, g2]

/-- Witness for C1: the program `x = 3; z = x + 5;`, whose values are 3 and 8, on the
backend with seven registers. -/
theorem C1_compiled_values_agree_witness :
    (accepted [] sum_program ∧ no_folded_shifts sum_program ∧
      single_assignment [] sum_program ∧ small_literals sum_program ∧
      sample_backend.order.Nodup ∧
      ast_values ext_absent 4 sample_backend sum_program = some [⟨[3]⟩, ⟨[8]⟩] ∧
      (compiler.lower true (compiler.of_program sample_backend sum_program)).isOk = true) ∧
    lowered_values ext_absent 3 true sample_backend sum_program = some [⟨[3]⟩, ⟨[8]⟩] :=
  ⟨⟨sum_program_accepted, sum_program_no_fold, by simp [single_assignment, sum_program],
      sum_program_literals, by decide, by decide, by decide⟩,
    C1_compiled_values_agree ext_absent sample_backend sum_program [⟨[3]⟩, ⟨[8]⟩] 4 0
      sum_program_accepted sum_program_no_fold (by simp [single_assignment, sum_program])
      sum_program_literals (by decide) (by decide) (by decide)⟩

/-! ## The example `x = 3; y = x << 2; z = y + 5` -/

/-- C7 as stated fails on the code: evaluating the form that lowering gives for the example
(the rows over the SSA registers `_0 .. _3`) yields `x = 3`, `y = 0`, `z = 0`, because an
SSA register operand has no evaluation of its own and evaluates to zero. -/
theorem C7_ssa_form_values :
    lowered_values ext_absent 8 false sample_backend example_program =
      some [⟨[3]⟩, ⟨[0]⟩, ⟨[0]⟩] := by
  decide

/-- C7 (amended): for the program `x = 3; y = x << 2; z = y + 5`, lowering gives, after the
assignment of `x`, the row `_0 := li 3`; after that of `y`, the single row
`_1 := slli _0, 2` (no register for the literal 2); after that of `z`, the rows
`_2 := li 5` and `_3 := add _1, _2`. Evaluating the AST form yields 3, 12, 17, and, for a
backend whose allocation order has no duplicate and on which `lower(true)` succeeds,
evaluating the lowered form after register allocation yields 3, 12, 17. -/
theorem C7_example_lowering_and_values (X : ext_ops) (target : backend) (fuel : Nat)
    (hnd : target.order.Nodup)
    (hok : (compiler.lower true (compiler.of_program target example_program)).isOk = true) :
    (∃ d2, compiler.lower false (compiler.of_program target example_program) = .ok d2 ∧
      d2.nodes =
        [.setvar "x" (.const_int (nat.of_limb 3)),
         .setreg (.ssareg 0) (.unaryop .op_li (.imm 3)) (some "x"),
         .setvar "y" (.binaryop .op_sll (.var "x") (.const_int (nat.of_limb 2))),
         .setreg (.ssareg 1) (.binaryop .op_slli (.ssareg 0) (.imm 2)) (some "y"),
         .setvar "z" (.binaryop .op_add (.var "y") (.const_int (nat.of_limb 5))),
         .setreg (.ssareg 2) (.unaryop .op_li (.imm 5)) none,
         .setreg (.ssareg 3) (.binaryop .op_add (.ssareg 1) (.ssareg 2)) (some "z")]) ∧
    ast_values X (fuel + 6) target example_program = some [⟨[3]⟩, ⟨[12]⟩, ⟨[17]⟩] ∧
    lowered_values X (fuel + 3) true target example_program =
      some [⟨[3]⟩, ⟨[12]⟩, ⟨[17]⟩] := by
  refine ⟨⟨example_lowered target, example_lowered_eq target, rfl⟩, rfl, ?_⟩
  obtain ⟨d3, h3⟩ := except_ok_of_isOk hok
  have hden : prog_den X (fun _ => none) example_program =
      some [⟨[3]⟩, ⟨[12]⟩, ⟨[17]⟩] := rfl
  obtain ⟨all, sF, g1, g2⟩ := compile_correct X example_program_accepted
    example_program_literals hnd hden h3 fuel
  simp only [lowered_values, h3, g1, g2]

/-- Witness for C7: the backend with seven registers. -/
theorem C7_example_lowering_and_values_witness :
    (sample_backend.order.Nodup ∧
      (compiler.lower true (compiler.of_program sample_backend example_program)).isOk =
        true) ∧
    ast_values ext_absent 6 sample_backend example_program = some [⟨[3]⟩, ⟨[12]⟩, ⟨[17]⟩] ∧
    lowered_values ext_absent 3 true sample_backend example_program =
      some [⟨[3]⟩, ⟨[12]⟩, ⟨[17]⟩] :=
  ⟨⟨by decide, by decide⟩,
    (C7_example_lowering_and_values ext_absent sample_backend 0 (by decide) (by decide)).2⟩

/-! ## Shifts by 32 bits or more -/

/-- C13 (left shift is exact, also for counts of 32 and more) fails on the code: for
`a = 1` and `s = 32`, `a << s` is the limb vector `{0, 2^31}`, whose value is `2^63`, not
`value(a) * 2^32`: `operator<<=` inserts one zero limb and then takes `32 - 1 = 31` as the
remaining bit count, since it subtracts the limb count from the bit count. -/
theorem C13_shl_by_32_is_shl_by_63 :
    nat.op_shl ⟨[1]⟩ 32 = some ⟨[0, 2147483648]⟩ ∧
      nat.value ⟨[0, 2147483648]⟩ = 2 ^ 63 ∧
      nat.value ⟨[0, 2147483648]⟩ ≠ nat.value ⟨[1]⟩ * 2 ^ 32 := by
  decide

/-- C14 (right shift is exact, also for counts of 32 and more) fails on the code: for
`a = 2^32` and `s = 32`, `a >> s` is `0`, not `floor(value(a) / 2^32) = 1`: `operator>>=`
erases one limb and then shifts by the remaining count `32 - 1 = 31`. -/
theorem C14_shr_by_32_is_shr_by_63 :
    nat.op_shr ⟨[0, 1]⟩ 32 = some ⟨[0]⟩ ∧ nat.value ⟨[0]⟩ = 0 ∧
      nat.value ⟨[0, 1]⟩ / 2 ^ 32 = 1 := by
  decide

/-! ## Emission -/

theorem emit_loop_spec {β : Type} (emit : β → compiler → node → node_list × β)
    (d : compiler) (todo : node_list) : ∀ (acc : node_list) (b : β),
    emit_loop emit d todo acc b =
      (acc ++ splice todo
          (emit_calls emit d (todo.filter (fun n => decide (n.opcode = .op_setreg))) b).1,
        (emit_calls emit d (todo.filter (fun n => decide (n.opcode = .op_setreg))) b).2) := by
  induction todo with
  | nil => intro acc b; simp [emit_loop, splice, emit_calls]
  | cons n rest ih =>
    intro acc b
    by_cases h : n.opcode = .op_setreg
    · simp [emit_loop, h, ih, splice, emit_calls, List.filter_cons]
    · simp [emit_loop, h, ih, splice, List.filter_cons]

theorem splice_sublist (todo : node_list) : ∀ blocks : List node_list,
    todo.Sublist (splice todo blocks) := by
  induction todo with
  | nil => intro blocks; simp [splice]
  | cons n rest ih =>
    intro blocks
    simp only [splice]
    split
    · cases blocks with
      | nil => exact (ih []).cons₂ n
      | cons blk more =>
        exact ((ih more).trans (List.sublist_append_right blk _)).cons₂ n
    · exact (ih blocks).cons₂ n

theorem splice_length (todo : node_list) : ∀ blocks : List node_list,
    blocks.length = (todo.filter (fun n => decide (n.opcode = .op_setreg))).length →
    (splice todo blocks).length = todo.length + (blocks.map List.length).sum := by
  induction todo with
  | nil =>
    intro blocks h
    cases blocks with
    | nil => rfl
    | cons blk more => simp at h
  | cons n rest ih =>
    intro blocks h
    by_cases hn : n.opcode = .op_setreg
    · cases blocks with
      | nil => simp [List.filter_cons, hn] at h
      | cons blk more =>
        simp only [List.filter_cons, hn, decide_True, if_true, List.length_cons,
          Nat.add_right_cancel_iff] at h
        simp only [splice, hn, if_true, List.length_cons, List.length_append, ih more h,
          List.map_cons, List.sum_cons]
        omega
    · simp only [List.filter_cons, hn, decide_False, Bool.false_eq_true, if_false] at h
      simp only [splice, hn, if_false, List.length_cons, ih blocks h]
      omega

theorem emit_calls_length {β : Type} (emit : β → compiler → node → node_list × β)
    (d : compiler) (calls : node_list) : ∀ b : β,
    (emit_calls emit d calls b).1.length = calls.length := by
  induction calls with
  | nil => intro b; rfl
  | cons n rest ih => intro b; simp [emit_calls, ih]

/-- C19: `emit_asm` replaces the sequence by the one obtained by inserting, immediately after
each node of opcode `op_setreg`, the list `emit` returns for it; `emit` is called on the
`op_setreg` nodes of the sequence, once each, in sequence order, and on no other node (the
backend is left in the state these calls lead to); every node of the input is kept in its
relative order, and the output has no node besides those of the input and of the emitted
lists. The other fields of the compiler are unchanged. -/
theorem C19_emit_asm_splices {β : Type} (emit : β → compiler → node → node_list × β)
    (d : compiler) (b : β) :
    (compiler.emit_asm emit d b).1.nodes =
        splice d.nodes (emit_calls emit d
          (d.nodes.filter (fun n => decide (n.opcode = .op_setreg))) b).1 ∧
      (compiler.emit_asm emit d b).2 = (emit_calls emit d
          (d.nodes.filter (fun n => decide (n.opcode = .op_setreg))) b).2 ∧
      d.nodes.Sublist (compiler.emit_asm emit d b).1.nodes ∧
      (compiler.emit_asm emit d b).1.nodes.length = d.nodes.length +
          ((emit_calls emit d
            (d.nodes.filter (fun n => decide (n.opcode = .op_setreg))) b).1.map
              List.length).sum ∧
      (compiler.emit_asm emit d b).1 = { d with nodes := (compiler.emit_asm emit d b).1.nodes } := by
  have h := emit_loop_spec emit d d.nodes [] b
  simp only [List.nil_append] at h
  have h1 : (compiler.emit_asm emit d b).1.nodes =
      splice d.nodes (emit_calls emit d
        (d.nodes.filter (fun n => decide (n.opcode = .op_setreg))) b).1 := by
    simp only [compiler.emit_asm, h]
  refine ⟨h1, ?_, ?_, ?_, rfl⟩
  · simp only [compiler.emit_asm, h]
  · rw [h1]; exact splice_sublist _ _
  · rw [h1]; exact splice_length _ _ (emit_calls_length emit d _ b)

/-! ## The evaluator and its failures -/

theorem eval_binary_no_fail (X : ext_ops) {opcode : op} (h : no_fail_op opcode = true)
    (a b : nat) : is_binary_op opcode = true ∧ ∃ w, eval_binary X opcode a b = some (some w) := by
  cases opcode <;> simp [no_fail_op] at h <;> exact ⟨rfl, _, rfl⟩

/-- The evaluator on a tree of `total_expr`: with fuel above the height of the tree it
returns a value and leaves the variable bindings as they are. -/
theorem eval_total (X : ext_ops) (n : node) : ∀ (d : compiler) (fuel : Nat),
    total_expr d.var_name n = true → n.depth < fuel →
    ∃ v d1, node.eval X fuel n d = .ok (v, d1) ∧ d1.var_name = d.var_name := by
  induction n with
  | const_int r =>
    intro d fuel _ hf
    obtain ⟨f, rfl⟩ := Nat.exists_eq_succ_of_ne_zero (show fuel ≠ 0 by omega)
    exact ⟨_, _, rfl, rfl⟩
  | imm r =>
    intro d fuel _ hf
    obtain ⟨f, rfl⟩ := Nat.exists_eq_succ_of_ne_zero (show fuel ≠ 0 by omega)
    exact ⟨_, _, rfl, rfl⟩
  | phyreg p =>
    intro d fuel _ hf
    obtain ⟨f, rfl⟩ := Nat.exists_eq_succ_of_ne_zero (show fuel ≠ 0 by omega)
    simp only [node.eval]
    cases d.reg_values p <;> exact ⟨_, _, rfl, rfl⟩
  | var x =>
    intro d fuel ht hf
    obtain ⟨f, rfl⟩ := Nat.exists_eq_succ_of_ne_zero (show fuel ≠ 0 by omega)
    simp only [total_expr, Option.isNone_iff_eq_none] at ht
    simp only [node.eval, ht]
    exact ⟨_, _, rfl, rfl⟩
  | unaryop opcode l ih =>
    intro d fuel ht hf
    obtain ⟨f, rfl⟩ := Nat.exists_eq_succ_of_ne_zero (show fuel ≠ 0 by omega)
    simp only [total_expr, Bool.and_eq_true, beq_iff_eq] at ht
    obtain ⟨rfl, hl⟩ := ht
    simp only [node.depth] at hf
    obtain ⟨v, d1, h1, h2⟩ := ih d f hl (by omega)
    exact ⟨nat.copy v, d1, by simp [node.eval, h1, bind, Except.bind, pure, Except.pure], h2⟩
  | binaryop opcode l r ihl ihr =>
    intro d fuel ht hf
    obtain ⟨f, rfl⟩ := Nat.exists_eq_succ_of_ne_zero (show fuel ≠ 0 by omega)
    simp only [total_expr, Bool.and_eq_true] at ht
    obtain ⟨⟨ho, hl⟩, hr⟩ := ht
    simp only [node.depth] at hf
    obtain ⟨a, d1, h1, h2⟩ := ihl d f hl (by omega)
    obtain ⟨b, d2, h3, h4⟩ := ihr d1 f (by rw [h2]; exact hr) (by omega)
    obtain ⟨hb, w, hw⟩ := eval_binary_no_fail X ho a b
    exact ⟨nat.copy w, d2,
      by simp [node.eval, hb, h1, h3, hw, lift_num, bind, Except.bind, pure, Except.pure],
      h4.trans h2⟩
  | setreg dst r v ih =>
    intro d fuel ht hf
    obtain ⟨f, rfl⟩ := Nat.exists_eq_succ_of_ne_zero (show fuel ≠ 0 by omega)
    simp only [total_expr] at ht
    simp only [node.depth] at hf
    obtain ⟨a, d1, h1, h2⟩ := ih d f ht (by omega)
    exact ⟨_, _, eval_setreg X f dst r v h1, h2⟩
  | _ => intro d fuel ht; simp [total_expr] at ht

/-- The errors of the evaluator: a numeric operation without a result, or the end of the
fuel. -/
theorem eval_errors (X : ext_ops) : ∀ (fuel : Nat) (n : node) (d : compiler) (e : fault),
    node.eval X fuel n d = .error e → e = .abort ∨ e = .fuel := by
  intro fuel
  induction fuel with
  | zero => intro n d e h; simp only [node.eval, Except.error.injEq] at h; exact Or.inr h.symm
  | succ f ih =>
    intro n d e h
    cases n with
    | const_int r => simp [node.eval] at h
    | imm r => simp [node.eval] at h
    | ssareg l => simp [node.eval] at h
    | mi t => simp [node.eval] at h
    | phyreg p =>
      simp only [node.eval] at h
      split at h <;> cases h
    | var x =>
      simp only [node.eval] at h
      split at h
      · exact ih _ _ _ h
      · cases h
    | setvar x r =>
      simp only [node.eval] at h
      exact ih _ _ _ h
    | setreg dst r v =>
      simp only [node.eval, bind, Except.bind] at h
      split at h
      · rename_i e1 h1
        cases h
        exact ih _ _ _ h1
      · cases h
    | unaryop opcode l =>
      simp only [node.eval] at h
      split at h
      · simp only [bind, Except.bind] at h
        split at h
        · rename_i e1 h1
          cases h
          exact ih _ _ _ h1
        · cases h
      · simp only [bind, Except.bind] at h
        split at h
        · rename_i e1 h1
          cases h
          exact ih _ _ _ h1
        · rename_i r1 h1
          cases hx : X.op_not r1.1 with
          | none =>
            simp only [hx, lift_num, Except.error.injEq] at h
            exact Or.inl h.symm
          | some w => simp [hx, lift_num, pure, Except.pure] at h
      · simp only [bind, Except.bind] at h
        split at h
        · rename_i e1 h1
          cases h
          exact ih _ _ _ h1
        · rename_i r1 h1
          cases hx : X.op_neg r1.1 with
          | none =>
            simp only [hx, lift_num, Except.error.injEq] at h
            exact Or.inl h.symm
          | some w => simp [hx, lift_num, pure, Except.pure] at h
      · cases h
    | binaryop opcode l r =>
      simp only [node.eval] at h
      split at h
      · simp only [bind, Except.bind] at h
        split at h
        · rename_i e1 h1
          cases h
          exact ih _ _ _ h1
        · rename_i r1 h1
          split at h
          · rename_i e2 h2
            cases h
            exact ih _ _ _ h2
          · rename_i r2 h2
            split at h
            · rename_i res hres
              cases res with
              | none =>
                simp only [lift_num, Except.error.injEq] at h
                exact Or.inl h.symm
              | some w => simp [lift_num, pure, Except.pure] at h
            · simp [pure, Except.pure] at h
      · cases h

/-- C18 as stated fails on the code: evaluating `1 - 2` in a fresh compiler ends in an
abort, the assertion `borrow == 0` of `operator-=` tripping on the underflow. -/
theorem C18_subtraction_underflow_aborts :
    eval_error ext_absent 8
      (.binaryop .op_sub (.const_int (nat.of_limb 1)) (.const_int (nat.of_limb 2)))
      (compiler.ctor sample_backend) = some .abort := by
  decide

/-- C18 (amended): the evaluator raises no error of its own. For every state of the maps,
a tree built from literals, immediates, physical registers, variables whose name has no
binding, the unary `li`, the binary operators `&`, `|`, `==`, `!=`, `<`, `<=`, `>`, `>=`,
`+`, `*` and `setreg` evaluates to a value once the fuel exceeds its height; an evaluation
that fails does so because a numeric operation has no result (abort) or because it does
not end (fuel); a variable without a binding and a physical register without a value
evaluate to zero and leave the state as it is. -/
theorem C18_evaluator_failures (X : ext_ops) (n : node) (d : compiler) (fuel : Nat) :
    (total_expr d.var_name n = true → n.depth < fuel →
      ∃ v d1, node.eval X fuel n d = .ok (v, d1)) ∧
    (∀ e, node.eval X fuel n d = .error e → e = .abort ∨ e = .fuel) ∧
    (∀ x, d.var_name x = none → node.eval X (fuel + 1) (.var x) d = .ok (nat.of_limb 0, d)) ∧
    (∀ p, d.reg_values p = none →
      node.eval X (fuel + 1) (.phyreg p) d = .ok (nat.of_limb 0, d)) := by
  refine ⟨?_, eval_errors X fuel n d, ?_, ?_⟩
  · intro ht hf
    obtain ⟨v, d1, h, _⟩ := eval_total X n d fuel ht hf
    exact ⟨v, d1, h⟩
  · intro x hx
    simp [node.eval, hx]
  · intro p hp
    simp [node.eval, hp]

/-- Witness for C18: `u + r3` in a fresh compiler, where `u` has no binding and the
physical register 3 no value. -/
theorem C18_evaluator_failures_witness :
    total_expr (compiler.ctor sample_backend).var_name
        (.binaryop .op_add (.var "u") (.phyreg 3)) = true ∧
      (node.binaryop .op_add (.var "u") (.phyreg 3)).depth < 2 ∧
      (∃ v d1, node.eval ext_absent 2 (.binaryop .op_add (.var "u") (.phyreg 3))
        (compiler.ctor sample_backend) = .ok (v, d1)) ∧
      node.eval ext_absent 1 (.var "u") (compiler.ctor sample_backend) =
        .ok (nat.of_limb 0, compiler.ctor sample_backend) :=
  ⟨by decide, by decide,
    (C18_evaluator_failures ext_absent (.binaryop .op_add (.var "u") (.phyreg 3))
      (compiler.ctor sample_backend) 2).1 (by decide) (by decide),
    (C18_evaluator_failures ext_absent (.binaryop .op_add (.var "u") (.phyreg 3))
      (compiler.ctor sample_backend) 0).2.2.1 "u" rfl⟩

/-! ## Values of limb vectors -/

theorem value_nil : nat.value ⟨[]⟩ = 0 := rfl

theorem value_cons (x : Nat) (l : List Nat) :
    nat.value ⟨x :: l⟩ = x + 2 ^ 32 * nat.value ⟨l⟩ := rfl

theorem value_append (a b : List Nat) :
    nat.value ⟨a ++ b⟩ = nat.value ⟨a⟩ + 2 ^ (32 * a.length) * nat.value ⟨b⟩ := by
  induction a with
  | nil => simp [value_nil]
  | cons x rest ih =>
    rw [List.cons_append, value_cons, value_cons, ih, List.length_cons]
    have : (2 : Nat) ^ (32 * (rest.length + 1)) = 2 ^ 32 * 2 ^ (32 * rest.length) := by
      rw [Nat.mul_add, Nat.mul_one, Nat.pow_add, Nat.mul_comm]
    rw [this]
    ring

theorem value_replicate_zero (k : Nat) : nat.value ⟨List.replicate k 0⟩ = 0 := by
  induction k with
  | zero => rfl
  | succ k ih => rw [List.replicate_succ, value_cons, ih]; rfl

theorem value_lt (l : List Nat) (h : ∀ x ∈ l, x < 2 ^ 32) :
    nat.value ⟨l⟩ < 2 ^ (32 * l.length) := by
  induction l with
  | nil => simp [value_nil]
  | cons x rest ih =>
    have hx := h x (List.mem_cons_self _ _)
    have hr := ih (fun y hy => h y (List.mem_cons_of_mem _ hy))
    rw [value_cons, List.length_cons]
    have : (2 : Nat) ^ (32 * (rest.length + 1)) = 2 ^ 32 * 2 ^ (32 * rest.length) := by
      rw [Nat.mul_add, Nat.mul_one, Nat.pow_add, Nat.mul_comm]
    rw [this]
    have h1 : nat.value ⟨rest⟩ + 1 ≤ 2 ^ (32 * rest.length) := hr
    calc x + 2 ^ 32 * nat.value ⟨rest⟩ < 2 ^ 32 + 2 ^ 32 * nat.value ⟨rest⟩ := by omega
      _ = 2 ^ 32 * (nat.value ⟨rest⟩ + 1) := by ring
      _ ≤ 2 ^ 32 * 2 ^ (32 * rest.length) := Nat.mul_le_mul_left _ h1

theorem value_take_succ (l : List Nat) : ∀ k : Nat,
    nat.value ⟨l.take (k + 1)⟩ = nat.value ⟨l.take k⟩ + l.getD k 0 * 2 ^ (32 * k) := by
  induction l with
  | nil => intro k; simp [value_nil]
  | cons x rest ih =>
    intro k
    cases k with
    | zero => simp [value_cons, value_nil]
    | succ k =>
      rw [List.take_succ_cons, value_cons, ih k, List.take_succ_cons, value_cons]
      simp only [List.getD_cons_succ]
      have : (2 : Nat) ^ (32 * (k + 1)) = 2 ^ 32 * 2 ^ (32 * k) := by
        rw [Nat.mul_add, Nat.mul_one, Nat.pow_add, Nat.mul_comm]
      rw [this]
      ring

theorem value_take_lt (l : List Nat) (h : ∀ x ∈ l, x < 2 ^ 32) (k : Nat) :
    nat.value ⟨l.take k⟩ < 2 ^ (32 * k) := by
  have h1 := value_lt (l.take k) (fun x hx => h x (List.mem_of_mem_take hx))
  have h2 : (l.take k).length ≤ k := by simp
  exact Nat.lt_of_lt_of_le h1 (Nat.pow_le_pow_right (by norm_num) (by omega))

theorem value_take_of_le (l : List Nat) (k : Nat) (h : l.length ≤ k) :
    nat.value ⟨l.take k⟩ = nat.value ⟨l⟩ := by
  rw [List.take_of_length_le h]

theorem getD_lt (l : List Nat) (h : ∀ x ∈ l, x < 2 ^ 32) (i : Nat) : l.getD i 0 < 2 ^ 32 := by
  by_cases hi : i < l.length
  · rw [List.getD_eq_getElem _ _ hi]
    exact h _ (List.getElem_mem _)
  · rw [List.getD_eq_default _ _ (by omega)]
    norm_num

/-! ## Comparisons -/

theorem digit_not_lt {A B W x y : Nat} (hB : B < W) (h : y < x) :
    ¬(A + x * W < B + y * W) := by
  have h1 : (y + 1) * W ≤ x * W := Nat.mul_le_mul_right W h
  have e : (y + 1) * W = y * W + W := by ring
  omega

theorem digit_lt {A B W x y : Nat} (hA : A < W) (h : x < y) : A + x * W < B + y * W := by
  have h1 : (x + 1) * W ≤ y * W := Nat.mul_le_mul_right W h
  have e : (x + 1) * W = x * W + W := by ring
  omega

theorem lt_loop_spec (a b : nat) (ha : limbs_ok a) (hb : limbs_ok b) : ∀ k : Nat,
    nat.lt_loop a b k = true ↔
      nat.value ⟨a.limbs.take k⟩ < nat.value ⟨b.limbs.take k⟩ := by
  intro k
  induction k with
  | zero => simp [nat.lt_loop, value_nil]
  | succ k ih =>
    have hA := value_take_lt a.limbs ha k
    have hB := value_take_lt b.limbs hb k
    rw [value_take_succ, value_take_succ]
    simp only [nat.lt_loop, nat.limb_at]
    by_cases h1 : a.limbs.getD k 0 > b.limbs.getD k 0
    · rw [if_pos h1]
      simp only [Bool.false_eq_true, false_iff]
      exact digit_not_lt hB h1
    · rw [if_neg h1]
      by_cases h2 : a.limbs.getD k 0 < b.limbs.getD k 0
      · rw [if_pos h2]
        simp only [true_iff]
        exact digit_lt hA h2
      · rw [if_neg h2]
        have e : a.limbs.getD k 0 = b.limbs.getD k 0 := by omega
        rw [e, ih]
        omega

theorem eq_loop_spec (a b : nat) (M : Nat) : ∀ todo : Nat, todo ≤ M →
    (nat.eq_loop a b M todo = true ↔
      ∀ i, M - todo ≤ i → i < M → a.limbs.getD i 0 = b.limbs.getD i 0) := by
  intro todo
  induction todo with
  | zero =>
    intro _
    simp only [nat.eq_loop, true_iff]
    intro i h1 h2
    omega
  | succ t ih =>
    intro ht
    simp only [nat.eq_loop, nat.limb_at]
    by_cases h : a.limbs.getD (M - (t + 1)) 0 = b.limbs.getD (M - (t + 1)) 0
    · simp only [h, ne_eq, not_true_eq_false, if_false, ih (by omega)]
      constructor
      · intro hh i h1 h2
        by_cases hi : i = M - (t + 1)
        · rw [hi]; exact h
        · exact hh i (by omega) h2
      · intro hh i h1 h2
        exact hh i (by omega) h2
    · simp only [h, ne_eq, not_false_eq_true, if_true, Bool.false_eq_true, false_iff]
      intro hh
      exact h (hh _ (Nat.le_refl _) (by omega))

theorem digits_eq_iff (a b : List Nat) (ha : ∀ x ∈ a, x < 2 ^ 32)
    (hb : ∀ x ∈ b, x < 2 ^ 32) : ∀ k : Nat,
    (∀ i, i < k → a.getD i 0 = b.getD i 0) ↔
      nat.value ⟨a.take k⟩ = nat.value ⟨b.take k⟩ := by
  intro k
  induction k with
  | zero => simp [value_nil]
  | succ k ih =>
    have hA := value_take_lt a ha k
    have hB := value_take_lt b hb k
    rw [value_take_succ, value_take_succ]
    constructor
    · intro h
      rw [h k (by omega), ih.1 (fun i hi => h i (by omega))]
    · intro h
      have hW : 0 < 2 ^ (32 * k) := by positivity
      have e1 := Nat.add_mul_div_right (nat.value ⟨a.take k⟩) (a.getD k 0) hW
      have e2 := Nat.add_mul_div_right (nat.value ⟨b.take k⟩) (b.getD k 0) hW
      rw [Nat.div_eq_of_lt hA, Nat.zero_add] at e1
      rw [Nat.div_eq_of_lt hB, Nat.zero_add] at e2
      have hxy : a.getD k 0 = b.getD k 0 := by rw [← e1, ← e2, h]
      rw [hxy] at h
      have hAB := Nat.add_right_cancel h
      intro i hi
      by_cases hik : i = k
      · rw [hik]; exact hxy
      · exact ih.2 hAB i (by omega)

theorem op_eq_spec (a b : nat) (ha : limbs_ok a) (hb : limbs_ok b) :
    nat.op_eq a b = true ↔ nat.value a = nat.value b := by
  simp only [nat.op_eq, nat.num_limbs]
  rw [eq_loop_spec a b _ _ (Nat.le_refl _)]
  simp only [Nat.sub_self, Nat.zero_le, forall_true_left]
  rw [digits_eq_iff a.limbs b.limbs ha hb,
    value_take_of_le _ _ (Nat.le_max_left _ _), value_take_of_le _ _ (Nat.le_max_right _ _)]

theorem op_lt_spec (a b : nat) (ha : limbs_ok a) (hb : limbs_ok b) :
    nat.op_lt a b = true ↔ nat.value a < nat.value b := by
  simp only [nat.op_lt, nat.num_limbs]
  rw [lt_loop_spec a b ha hb,
    value_take_of_le _ _ (Nat.le_max_left _ _), value_take_of_le _ _ (Nat.le_max_right _ _)]

/-- C15: on limb vectors (with or without high-order zero limbs) the six comparisons are
those of the values, and exactly one of `a < b`, `a == b`, `a > b` holds. -/
theorem C15_comparisons_are_numeric (a b : nat) (ha : limbs_ok a) (hb : limbs_ok b) :
    (nat.op_eq a b = true ↔ nat.value a = nat.value b) ∧
    (nat.op_lt a b = true ↔ nat.value a < nat.value b) ∧
    (nat.op_ne a b = true ↔ nat.value a ≠ nat.value b) ∧
    (nat.op_le a b = true ↔ nat.value a ≤ nat.value b) ∧
    (nat.op_gt a b = true ↔ nat.value a > nat.value b) ∧
    (nat.op_ge a b = true ↔ nat.value a ≥ nat.value b) ∧
    ((nat.op_lt a b = true ∧ nat.op_eq a b = false ∧ nat.op_gt a b = false) ∨
      (nat.op_lt a b = false ∧ nat.op_eq a b = true ∧ nat.op_gt a b = false) ∨
      (nat.op_lt a b = false ∧ nat.op_eq a b = false ∧ nat.op_gt a b = true)) := by
  have he := op_eq_spec a b ha hb
  have hl := op_lt_spec a b ha hb
  have he1 : nat.op_eq a b = false ↔ nat.value a ≠ nat.value b := by
    rw [Ne, ← he]; simp
  have hl1 : nat.op_lt a b = false ↔ ¬(nat.value a < nat.value b) := by
    rw [← hl]; simp
  refine ⟨he, hl, ?_, ?_, ?_, ?_, ?_⟩
  · simp only [nat.op_ne, Bool.not_eq_true', he1]
  · simp only [nat.op_le, Bool.or_eq_true, he, hl]
    omega
  · simp only [nat.op_gt, nat.op_le, Bool.not_eq_true', Bool.or_eq_false_iff, he1, hl1]
    omega
  · simp only [nat.op_ge, Bool.or_eq_true, Bool.not_eq_true', he, hl1]
    omega
  · simp only [nat.op_gt, nat.op_le, Bool.not_eq_false', Bool.not_eq_true',
      Bool.or_eq_true, Bool.or_eq_false_iff, he, hl, he1, hl1]
    omega

/-- Witness for C15: `{5, 0}` carries a high-order zero limb and equals `{5}`. -/
theorem C15_comparisons_are_numeric_witness :
    limbs_ok ⟨[5, 0]⟩ ∧ limbs_ok ⟨[5]⟩ ∧
      (nat.op_eq ⟨[5, 0]⟩ ⟨[5]⟩ = true ↔ nat.value ⟨[5, 0]⟩ = nat.value ⟨[5]⟩) :=
  ⟨by unfold limbs_ok; decide, by unfold limbs_ok; decide,
    (C15_comparisons_are_numeric ⟨[5, 0]⟩ ⟨[5]⟩ (by unfold limbs_ok; decide)
      (by unfold limbs_ok; decide)).1⟩

/-! ## Multiplication -/

theorem value_set (R : List Nat) : ∀ (p v : Nat), p < R.length →
    nat.value ⟨R.set p v⟩ + R.getD p 0 * 2 ^ (32 * p) = nat.value ⟨R⟩ + v * 2 ^ (32 * p) := by
  induction R with
  | nil => intro p v h; simp at h
  | cons x rest ih =>
    intro p v h
    cases p with
    | zero =>
      simp only [List.set_cons_zero, value_cons, List.getD_cons_zero, Nat.mul_zero,
        Nat.pow_zero, Nat.mul_one]
      omega
    | succ p =>
      simp only [List.set_cons_succ, value_cons, List.getD_cons_succ]
      have h1 := ih p v (by simpa using h)
      have e : (2 : Nat) ^ (32 * (p + 1)) = 2 ^ 32 * 2 ^ (32 * p) := by
        rw [Nat.mul_add, Nat.mul_one, Nat.pow_add, Nat.mul_comm]
      rw [e]
      have e1 : x + 2 ^ 32 * nat.value ⟨rest.set p v⟩ + rest.getD p 0 * (2 ^ 32 * 2 ^ (32 * p)) =
          x + 2 ^ 32 * (nat.value ⟨rest.set p v⟩ + rest.getD p 0 * 2 ^ (32 * p)) := by ring
      rw [e1, h1]
      ring

theorem limb_product_fits {x y r k : Nat} (hx : x < 2 ^ 32) (hy : y < 2 ^ 32)
    (hr : r < 2 ^ 32) (hk : k < 2 ^ 32) : x * y + r + k < 2 ^ 64 := by
  have h1 : x * y ≤ (2 ^ 32 - 1) * (2 ^ 32 - 1) :=
    Nat.mul_le_mul (by omega) (by omega)
  have h2 : (2 ^ 32 - 1) * (2 ^ 32 - 1) + (2 ^ 32 - 1) + (2 ^ 32 - 1) < 2 ^ 64 := by norm_num
  omega

theorem mem_set_lt {R : List Nat} {p v : Nat} (hR : ∀ x ∈ R, x < 2 ^ 32) (hv : v < 2 ^ 32) :
    ∀ x ∈ R.set p v, x < 2 ^ 32 := by
  intro x hx
  rcases List.mem_or_eq_of_mem_set hx with h | h
  · exact hR x h
  · rw [h]; exact hv

theorem getD_set_ne (R : List Nat) {p q : Nat} (v : Nat) (h : p ≠ q) :
    (R.set p v).getD q 0 = R.getD q 0 := by
  simp [List.getD_eq_getElem?_getD, List.getElem?_set_ne h]

/-- One row of the schoolbook product: the result grows by `multiplicand * mj` at limb
offset `j`, the last carry being still to be stored. -/
theorem mult_row_spec (mj j : Nat) (hmj : mj < 2 ^ 32) : ∀ (xs : List Nat) (i : Nat)
    (R : List Nat) (k : Nat), (∀ x ∈ xs, x < 2 ^ 32) → (∀ x ∈ R, x < 2 ^ 32) → k < 2 ^ 32 →
    i + j + xs.length ≤ R.length →
    nat.value ⟨(nat.mult_row mj j i xs R k).1⟩ +
        (nat.mult_row mj j i xs R k).2 * 2 ^ (32 * (i + j + xs.length)) =
      nat.value ⟨R⟩ + (nat.value ⟨xs⟩ * mj + k) * 2 ^ (32 * (i + j)) ∧
    (nat.mult_row mj j i xs R k).1.length = R.length ∧
    (∀ x ∈ (nat.mult_row mj j i xs R k).1, x < 2 ^ 32) ∧
    (nat.mult_row mj j i xs R k).2 < 2 ^ 32 ∧
    ∀ q, i + j + xs.length ≤ q → (nat.mult_row mj j i xs R k).1.getD q 0 = R.getD q 0 := by
  intro xs
  induction xs with
  | nil =>
    intro i R k _ hR hk _
    refine ⟨?_, rfl, hR, hk, fun _ _ => rfl⟩
    simp only [nat.mult_row, value_nil, List.length_nil, Nat.add_zero, Nat.zero_mul,
      Nat.zero_add]
  | cons x rest ih =>
    intro i R k hxs hR hk hlen
    have hx := hxs x (List.mem_cons_self _ _)
    have hrest : ∀ y ∈ rest, y < 2 ^ 32 := fun y hy => hxs y (List.mem_cons_of_mem _ hy)
    simp only [List.length_cons] at hlen
    have hfit := limb_product_fits hx hmj (getD_lt R hR (i + j)) hk
    have hmod : (x * mj + R.getD (i + j) 0 + k) % 2 ^ 64 = x * mj + R.getD (i + j) 0 + k :=
      Nat.mod_eq_of_lt hfit
    have hhi : (x * mj + R.getD (i + j) 0 + k) / 2 ^ 32 < 2 ^ 32 := by
      rw [Nat.div_lt_iff_lt_mul (by norm_num)]
      calc x * mj + R.getD (i + j) 0 + k < 2 ^ 64 := hfit
        _ = 2 ^ 32 * 2 ^ 32 := by norm_num
    have hlo : (x * mj + R.getD (i + j) 0 + k) % 2 ^ 32 < 2 ^ 32 := Nat.mod_lt _ (by norm_num)
    simp only [nat.mult_row, hmod, Nat.mod_eq_of_lt hhi]
    obtain ⟨h1, h2, h3, h4, h5⟩ := ih (i + 1)
      (R.set (i + j) ((x * mj + R.getD (i + j) 0 + k) % 2 ^ 32))
      ((x * mj + R.getD (i + j) 0 + k) / 2 ^ 32) hrest (mem_set_lt hR hlo) hhi
      (by rw [List.length_set]; omega)
    have hset := value_set R (i + j) ((x * mj + R.getD (i + j) 0 + k) % 2 ^ 32) (by omega)
    have hdm := Nat.mod_add_div (x * mj + R.getD (i + j) 0 + k) (2 ^ 32)
    refine ⟨?_, by rw [h2, List.length_set], h3, h4, ?_⟩
    · have e1 : i + j + (rest.length + 1) = i + 1 + j + rest.length := by omega
      have e2 : (2 : Nat) ^ (32 * (i + 1 + j)) = 2 ^ 32 * 2 ^ (32 * (i + j)) := by
        rw [← Nat.pow_add]; congr 1; omega
      rw [List.length_cons, e1, h1, value_cons, e2]
      refine Nat.add_right_cancel (?_ : _ + R.getD (i + j) 0 * 2 ^ (32 * (i + j)) =
        _ + R.getD (i + j) 0 * 2 ^ (32 * (i + j)))
      zify at hset hdm ⊢
      linear_combination hset + (2 : Int) ^ (32 * (i + j)) * hdm
    · intro q hq
      rw [h5 q (by simp only [List.length_cons] at hq; omega)]
      exact getD_set_ne R _ (by simp only [List.length_cons] at hq; omega)

theorem contract_rev_zeros : ∀ l : List Nat,
    ∃ k, l = List.replicate k 0 ++ nat.contract_rev l
  | [] => ⟨0, rfl⟩
  | [x] => ⟨0, rfl⟩
  | x :: y :: rest => by
    by_cases h : x = 0
    · simp only [nat.contract_rev, h, if_true]
      obtain ⟨k, hk⟩ := contract_rev_zeros (y :: rest)
      refine ⟨k + 1, ?_⟩
      rw [List.replicate_succ, List.cons_append, ← hk]
    · simp only [nat.contract_rev, h, if_false]
      exact ⟨0, rfl⟩

theorem contract_limbs (n : nat) :
    ∃ k, n.limbs = (nat.contract n).limbs ++ List.replicate k 0 := by
  obtain ⟨k, hk⟩ := contract_rev_zeros n.limbs.reverse
  refine ⟨k, ?_⟩
  have := congrArg List.reverse hk
  simpa [nat.contract] using this

theorem value_contract (n : nat) : nat.value (nat.contract n) = nat.value n := by
  obtain ⟨k, hk⟩ := contract_limbs n
  have h1 : nat.value n = nat.value ⟨n.limbs⟩ := rfl
  have h2 : nat.value (nat.contract n) = nat.value ⟨(nat.contract n).limbs⟩ := rfl
  rw [h1, hk, value_append, value_replicate_zero, ← h2]
  simp

theorem value_copy (n : nat) : nat.value (nat.copy n) = nat.value n := value_contract n

theorem limbs_ok_contract {n : nat} (h : limbs_ok n) : limbs_ok (nat.contract n) := by
  obtain ⟨k, hk⟩ := contract_limbs n
  intro x hx
  apply h x
  rw [hk]
  exact List.mem_append_left _ hx

theorem limbs_ok_copy {n : nat} (h : limbs_ok n) : limbs_ok (nat.copy n) :=
  limbs_ok_contract h

theorem vec_resize_zero (k : Nat) : nat.vec_resize [0] k = List.replicate k 0 := by
  cases k with
  | zero => simp [nat.vec_resize]
  | succ k => simp [nat.vec_resize, List.replicate_succ]

theorem getD_replicate_zero (k q : Nat) : (List.replicate k 0).getD q 0 = 0 := by
  by_cases h : q < k
  · simp [List.getD_eq_getElem?_getD, List.getElem?_replicate, h]
  · simp [List.getD_eq_getElem?_getD, List.getElem?_replicate, h]

/-- The rows of the schoolbook product from multiplier offset `j` on: the result grows by
`multiplicand * multiplier` at limb offset `j`. -/
theorem mult_loop_spec (u : List Nat) (hu : ∀ x ∈ u, x < 2 ^ 32) : ∀ (ys : List Nat)
    (j : Nat) (R : List Nat), (∀ y ∈ ys, y < 2 ^ 32) → (∀ x ∈ R, x < 2 ^ 32) →
    j + ys.length + u.length ≤ R.length → (∀ q, j + u.length ≤ q → R.getD q 0 = 0) →
    nat.value ⟨nat.mult_loop u j ys R⟩ =
        nat.value ⟨R⟩ + nat.value ⟨u⟩ * nat.value ⟨ys⟩ * 2 ^ (32 * j) ∧
      (nat.mult_loop u j ys R).length = R.length ∧
      ∀ x ∈ nat.mult_loop u j ys R, x < 2 ^ 32 := by
  intro ys
  induction ys with
  | nil =>
    intro j R _ hR _ _
    refine ⟨?_, rfl, hR⟩
    simp [nat.mult_loop, value_nil]
  | cons y rest ih =>
    intro j R hys hR hlen hzero
    have hy := hys y (List.mem_cons_self _ _)
    have hrest : ∀ z ∈ rest, z < 2 ^ 32 := fun z hz => hys z (List.mem_cons_of_mem _ hz)
    simp only [List.length_cons] at hlen
    obtain ⟨h1, h2, h3, h4, h5⟩ := mult_row_spec y j hy u 0 R 0 hu hR (by norm_num)
      (by omega)
    simp only [Nat.zero_add, Nat.add_zero] at h1 h5
    have hset := value_set (nat.mult_row y j 0 u R 0).1 (j + u.length)
      (nat.mult_row y j 0 u R 0).2 (by rw [h2]; omega)
    rw [h5 _ (Nat.le_refl _), hzero _ (Nat.le_refl _), Nat.zero_mul, Nat.add_zero, h1] at hset
    obtain ⟨g1, g2, g3⟩ := ih (j + 1)
      ((nat.mult_row y j 0 u R 0).1.set (j + u.length) (nat.mult_row y j 0 u R 0).2) hrest
      (mem_set_lt h3 h4) (by rw [List.length_set, h2]; omega)
      (by
        intro q hq
        rw [getD_set_ne _ _ (by omega), h5 q (by omega)]
        exact hzero q (by omega))
    simp only [nat.mult_loop]
    refine ⟨?_, by rw [g2, List.length_set, h2], g3⟩
    rw [g1, hset, value_cons]
    have e : (2 : Nat) ^ (32 * (j + 1)) = 2 ^ 32 * 2 ^ (32 * j) := by
      rw [Nat.mul_add, Nat.mul_one, Nat.pow_add, Nat.mul_comm]
    rw [e]
    ring

/-- The operator `*` on limb vectors: the value of the product is the product of the
values, and the product has as many limbs as the two operands together. -/
theorem op_mul_spec (a b : nat) (ha : limbs_ok a) (hb : limbs_ok b) :
    nat.value (nat.op_mul a b) = nat.value a * nat.value b ∧
      (nat.op_mul a b).limbs.length = a.limbs.length + (nat.copy b).limbs.length ∧
      limbs_ok (nat.op_mul a b) := by
  have hz : (nat.of_limb 0).limbs = [0] := rfl
  obtain ⟨h1, h2, h3⟩ := mult_loop_spec a.limbs ha (nat.copy b).limbs 0
    (List.replicate (a.limbs.length + (nat.copy b).limbs.length) 0) (limbs_ok_copy hb)
    (by intro x hx; rw [List.eq_of_mem_replicate hx]; norm_num)
    (by rw [List.length_replicate]; omega)
    (fun q _ => getD_replicate_zero _ q)
  simp only [nat.op_mul, nat.mult, hz, vec_resize_zero]
  refine ⟨?_, by rw [h2, List.length_replicate], h3⟩
  rw [h1, value_replicate_zero]
  have e1 : nat.value ⟨a.limbs⟩ = nat.value a := rfl
  have e2 : nat.value ⟨(nat.copy b).limbs⟩ = nat.value b := value_copy b
  rw [e1, e2]
  simp

/-- C11: multiplication is exact. For limb vectors `a` and `b`, the value of `a * b` is the
product of the values; the product is written into `m + n` limbs, `m` the limbs of `a` and
`n` those of the multiplier as passed (by value, hence contracted); and every intermediate
`limb * limb + limb + carry` of the loop is below `2^64`. -/
theorem C11_multiplication_exact (a b : nat) (ha : limbs_ok a) (hb : limbs_ok b) :
    nat.value (nat.op_mul a b) = nat.value a * nat.value b ∧
      (nat.op_mul a b).limbs.length = a.limbs.length + (nat.copy b).limbs.length ∧
      ∀ x ∈ a.limbs, ∀ y ∈ (nat.copy b).limbs, ∀ r k, r < 2 ^ 32 → k < 2 ^ 32 →
        x * y + r + k < 2 ^ 64 := by
  obtain ⟨h1, h2, _⟩ := op_mul_spec a b ha hb
  exact ⟨h1, h2, fun x hx y hy r k hr hk =>
    limb_product_fits (ha x hx) (limbs_ok_copy hb y hy) hr hk⟩

/-- Witness for C11: `(2^64 - 1) * (2^64 - 1)`. -/
theorem C11_multiplication_exact_witness :
    limbs_ok ⟨[4294967295, 4294967295]⟩ ∧
      nat.value (nat.op_mul ⟨[4294967295, 4294967295]⟩ ⟨[4294967295, 4294967295]⟩) =
        nat.value ⟨[4294967295, 4294967295]⟩ * nat.value ⟨[4294967295, 4294967295]⟩ :=
  ⟨by unfold limbs_ok; decide,
    (C11_multiplication_exact ⟨[4294967295, 4294967295]⟩ ⟨[4294967295, 4294967295]⟩
      (by unfold limbs_ok; decide) (by unfold limbs_ok; decide)).1⟩

/-! ## Power -/

theorem op_mul_copy_spec (a b : nat) (ha : limbs_ok a) (hb : limbs_ok b) :
    nat.value (nat.copy (nat.op_mul a b)) = nat.value a * nat.value b ∧
      limbs_ok (nat.copy (nat.op_mul a b)) := by
  obtain ⟨h1, _, h3⟩ := op_mul_spec a b ha hb
  exact ⟨by rw [value_copy, h1], limbs_ok_copy h3⟩

/-- One pass of the loop of `pow` keeps `x^exp * y` and lowers `exp`, which stays
positive. -/
theorem pow_step_spec (exp : Nat) (x y : nat) (hx : limbs_ok x) (hy : limbs_ok y)
    (he : 1 < exp) :
    nat.value (nat.pow_step exp x y).2.1 ^ (nat.pow_step exp x y).1 *
        nat.value (nat.pow_step exp x y).2.2 = nat.value x ^ exp * nat.value y ∧
      1 ≤ (nat.pow_step exp x y).1 ∧ (nat.pow_step exp x y).1 < exp ∧
      limbs_ok (nat.pow_step exp x y).2.1 ∧ limbs_ok (nat.pow_step exp x y).2.2 := by
  obtain ⟨hxx, hxxok⟩ := op_mul_copy_spec x x hx hx
  obtain ⟨hxy, hxyok⟩ := op_mul_copy_spec x y hx hy
  have hand : exp &&& 1 = exp % 2 := Nat.and_one_is_mod exp
  by_cases hpar : exp % 2 = 0
  · have hs : nat.pow_step exp x y = (exp >>> 1, nat.copy (nat.op_mul x x), y) := by
      simp [nat.pow_step, hand, hpar]
    rw [hs]
    simp only [Nat.shiftRight_eq_div_pow, Nat.pow_one]
    refine ⟨?_, by omega, by omega, hxxok, hy⟩
    rw [hxx, ← Nat.pow_two, ← Nat.pow_mul]
    congr 2
    omega
  · have hs : nat.pow_step exp x y =
        ((exp - 1) >>> 1, nat.copy (nat.op_mul x x), nat.copy (nat.op_mul x y)) := by
      simp [nat.pow_step, hand, hpar]
    rw [hs]
    simp only [Nat.shiftRight_eq_div_pow, Nat.pow_one]
    refine ⟨?_, by omega, by omega, hxxok, hxyok⟩
    rw [hxx, hxy, ← Nat.pow_two, ← Nat.pow_mul]
    have e : exp = 2 * ((exp - 1) / 2) + 1 := by omega
    conv_rhs => rw [e, Nat.pow_succ]
    ring

theorem pow_loop_spec : ∀ (fuel exp : Nat) (x y : nat), 1 ≤ exp → exp ≤ fuel →
    limbs_ok x → limbs_ok y →
    ∃ r, nat.pow_loop fuel exp x y = some r ∧
      nat.value r.1 * nat.value r.2 = nat.value x ^ exp * nat.value y ∧
      limbs_ok r.1 ∧ limbs_ok r.2 := by
  intro fuel
  induction fuel with
  | zero => intro exp x y h1 h2; omega
  | succ f ih =>
    intro exp x y h1 h2 hx hy
    by_cases he : exp > 1
    · obtain ⟨g1, g2, g3, g4, g5⟩ := pow_step_spec exp x y hx hy he
      obtain ⟨r, hr, hv, hr1, hr2⟩ := ih _ _ _ g2 (by omega) g4 g5
      refine ⟨r, ?_, by rw [hv, g1], hr1, hr2⟩
      simp only [nat.pow_loop, he, if_true]
      exact hr
    · have e : exp = 1 := by omega
      subst e
      exact ⟨(x, y), by simp [nat.pow_loop], by simp, hx, hy⟩

/-- C16: exponentiation by repeated squaring is exact. For a limb vector `n` and an
exponent `e`, `n.pow(e)` returns a number whose value is `value(n)^e`; `pow(0)` is `1` for
every `n`; and a pass of the loop from a state `(exp, x, y)` with `exp > 1` leads to a state
with the same `x^exp * y`. -/
theorem C16_pow_exact (n : nat) (e : Nat) (hn : limbs_ok n) :
    (∃ r, nat.pow n e = some r ∧ nat.value r = nat.value n ^ e) ∧
    nat.pow n 0 = some ⟨[1]⟩ ∧
    ∀ (exp : Nat) (x y : nat), limbs_ok x → limbs_ok y → 1 < exp →
      nat.value (nat.pow_step exp x y).2.1 ^ (nat.pow_step exp x y).1 *
        nat.value (nat.pow_step exp x y).2.2 = nat.value x ^ exp * nat.value y := by
  refine ⟨?_, rfl, fun exp x y hx hy he => (pow_step_spec exp x y hx hy he).1⟩
  by_cases h0 : e = 0
  · subst h0
    exact ⟨⟨[1]⟩, rfl, by simp [nat.value]⟩
  · have h1 : limbs_ok (nat.of_limb 1) := by unfold limbs_ok; decide
    obtain ⟨r, hr, hv, hr1, hr2⟩ := pow_loop_spec e e (nat.copy n) (nat.of_limb 1)
      (by omega) (Nat.le_refl _) (limbs_ok_copy hn) h1
    refine ⟨nat.op_mul r.1 r.2, by simp [nat.pow, h0, hr], ?_⟩
    rw [(op_mul_spec r.1 r.2 hr1 hr2).1, hv, value_copy]
    have : nat.value (nat.of_limb 1) = 1 := by decide
    rw [this, Nat.mul_one]

/-- Witness for C16: `3^5 = 243`. -/
theorem C16_pow_exact_witness :
    limbs_ok ⟨[3]⟩ ∧ nat.pow ⟨[3]⟩ 5 = some ⟨[243, 0]⟩ ∧
      ∃ r, nat.pow ⟨[3]⟩ 5 = some r ∧ nat.value r = nat.value ⟨[3]⟩ ^ 5 :=
  ⟨by unfold limbs_ok; decide, by decide,
    (C16_pow_exact ⟨[3]⟩ 5 (by unfold limbs_ok; decide)).1⟩

/-! ## Division by a single limb -/

theorem value_reverse_cons (x : Nat) (l : List Nat) :
    nat.value ⟨(x :: l).reverse⟩ = nat.value ⟨l.reverse⟩ + 2 ^ (32 * l.length) * x := by
  rw [List.reverse_cons, value_append, List.length_reverse, value_cons, value_nil]
  ring

/-- The single digit loop of `divrem` over the limbs from the big end: with the running
remainder in the low word of `k`, the quotient digits and the last remainder are those of
the division by `v0`. -/
theorem divrem_short_spec (v0 : Nat) (h0 : 0 < v0) (hv : v0 < 2 ^ 32) : ∀ (us : List Nat)
    (k : Nat), (∀ x ∈ us, x < 2 ^ 32) → k % 2 ^ 32 < v0 →
    nat.value ⟨(nat.divrem_short v0 us k).1.reverse⟩ * v0 +
        (nat.divrem_short v0 us k).2 % 2 ^ 32 =
      k % 2 ^ 32 * 2 ^ (32 * us.length) + nat.value ⟨us.reverse⟩ ∧
    (nat.divrem_short v0 us k).2 % 2 ^ 32 < v0 ∧
    (nat.divrem_short v0 us k).1.length = us.length ∧
    ∀ x ∈ (nat.divrem_short v0 us k).1, x < 2 ^ 32 := by
  intro us
  induction us with
  | nil =>
    intro k _ hk
    simp only [nat.divrem_short, List.reverse_nil, value_nil, List.length_nil, Nat.mul_zero,
      Nat.pow_zero, Nat.mul_one, Nat.zero_mul, Nat.zero_add, Nat.add_zero]
    exact ⟨trivial, hk, trivial, fun x hx => absurd hx (List.not_mem_nil x)⟩
  | cons u rest ih =>
    intro k hus hk
    have hu := hus u (List.mem_cons_self _ _)
    have hrest : ∀ x ∈ rest, x < 2 ^ 32 := fun x hx => hus x (List.mem_cons_of_mem _ hx)
    have hx : (k * 2 ^ 32 + u) % 2 ^ 64 = k % 2 ^ 32 * 2 ^ 32 + u := by
      have e : k * 2 ^ 32 + u = (k % 2 ^ 32 * 2 ^ 32 + u) + 2 ^ 64 * (k / 2 ^ 32) := by
        have := Nat.mod_add_div k (2 ^ 32)
        omega
      rw [e, Nat.add_mul_mod_self_left]
      apply Nat.mod_eq_of_lt
      omega
    have hq : (k % 2 ^ 32 * 2 ^ 32 + u) / v0 < 2 ^ 32 := by
      rw [Nat.div_lt_iff_lt_mul h0]
      have : (k % 2 ^ 32 + 1) * 2 ^ 32 ≤ v0 * 2 ^ 32 := Nat.mul_le_mul_right _ hk
      have e : (k % 2 ^ 32 + 1) * 2 ^ 32 = k % 2 ^ 32 * 2 ^ 32 + 2 ^ 32 := by ring
      have e1 : 2 ^ 32 * v0 = v0 * 2 ^ 32 := Nat.mul_comm _ _
      omega
    have hdm := Nat.div_add_mod (k % 2 ^ 32 * 2 ^ 32 + u) v0
    have hml := Nat.mod_lt (k % 2 ^ 32 * 2 ^ 32 + u) h0
    have hk1 : to_limb2 (((k % 2 ^ 32 * 2 ^ 32 + u : Nat) : Int) -
        (((k % 2 ^ 32 * 2 ^ 32 + u) / v0 * v0 % 2 ^ 32 : Nat) : Int)) % 2 ^ 32 =
        (k % 2 ^ 32 * 2 ^ 32 + u) % v0 := by
      have hle : (k % 2 ^ 32 * 2 ^ 32 + u) / v0 * v0 ≤ k % 2 ^ 32 * 2 ^ 32 + u :=
        Nat.div_mul_le_self _ _
      have hle1 : (k % 2 ^ 32 * 2 ^ 32 + u) / v0 * v0 % 2 ^ 32 ≤
          (k % 2 ^ 32 * 2 ^ 32 + u) / v0 * v0 := Nat.mod_le _ _
      have hlt : k % 2 ^ 32 * 2 ^ 32 + u < 2 ^ 64 := by omega
      have e1 : to_limb2 (((k % 2 ^ 32 * 2 ^ 32 + u : Nat) : Int) -
          (((k % 2 ^ 32 * 2 ^ 32 + u) / v0 * v0 % 2 ^ 32 : Nat) : Int)) =
          (k % 2 ^ 32 * 2 ^ 32 + u) -
            (k % 2 ^ 32 * 2 ^ 32 + u) / v0 * v0 % 2 ^ 32 := by
        simp only [to_limb2]
        omega
      rw [e1]
      have hd2 := Nat.mod_add_div ((k % 2 ^ 32 * 2 ^ 32 + u) / v0 * v0) (2 ^ 32)
      have e2 : (k % 2 ^ 32 * 2 ^ 32 + u) -
          (k % 2 ^ 32 * 2 ^ 32 + u) / v0 * v0 % 2 ^ 32 =
          (k % 2 ^ 32 * 2 ^ 32 + u) % v0 +
            2 ^ 32 * ((k % 2 ^ 32 * 2 ^ 32 + u) / v0 * v0 / 2 ^ 32) := by
        have e3 : v0 * ((k % 2 ^ 32 * 2 ^ 32 + u) / v0) =
            (k % 2 ^ 32 * 2 ^ 32 + u) / v0 * v0 := Nat.mul_comm _ _
        omega
      rw [e2, Nat.add_mul_mod_self_left]
      exact Nat.mod_eq_of_lt (by omega)
    simp only [nat.divrem_short, hx, Nat.mod_eq_of_lt hq]
    obtain ⟨g1, g2, g3, g4⟩ := ih _ hrest (by rw [hk1]; exact hml)
    rw [hk1] at g1
    refine ⟨?_, g2, by rw [List.length_cons, List.length_cons, g3], ?_⟩
    · rw [value_reverse_cons, value_reverse_cons, g3, List.length_cons]
      have e4 : (2 : Nat) ^ (32 * (rest.length + 1)) = 2 ^ (32 * rest.length) * 2 ^ 32 := by
        rw [Nat.mul_add, Nat.mul_one, Nat.pow_add]
      rw [e4]
      zify at g1 hdm ⊢
      linear_combination g1 + (2 : Int) ^ (32 * rest.length) * hdm
    · intro x hx1
      rcases List.mem_cons.1 hx1 with h | h
      · rw [h]; exact hq
      · exact g4 x h

theorem to_int_small (x : Nat) (h : x < 2 ^ 31) : to_int x = (x : Int) := by
  have h1 : x % 2 ^ 32 = x := Nat.mod_eq_of_lt (by omega)
  simp only [to_int, h1, h, if_true]

/-- Division by a divisor of one non-zero limb: `divrem` returns the quotient and the
remainder of the values. -/
theorem divrem_single_spec (a b : nat) (v0 : Nat) (ha : limbs_ok a)
    (hm : a.limbs.length ≤ 2 ^ 31) (hb : b.limbs = [v0]) (h0 : 0 < v0) (hv : v0 < 2 ^ 32) :
    ∃ q r, nat.divrem a b = some (q, r) ∧ nat.value a = nat.value q * v0 + nat.value r ∧
      nat.value r < v0 ∧ limbs_ok q ∧ limbs_ok r ∧ r.limb_at 0 = nat.value r ∧
      q.limbs.length ≤ max a.limbs.length 1 := by
  have hn : b.limbs.length = 1 := by rw [hb]; rfl
  have hv0 : b.limbs.getD 0 0 = v0 := by rw [hb]; rfl
  by_cases hm0 : a.limbs.length = 0
  · have hnil : a.limbs = [] := List.length_eq_zero.1 hm0
    refine ⟨⟨[0]⟩, ⟨[0]⟩, ?_, ?_, ?_, ?_, ?_, rfl, ?_⟩
    · have e : to_limb2 0 = 0 := by decide
      simp [nat.divrem, hm0, hn, e, vector_max_size, nat.vec_resize]
    · have : nat.value a = nat.value ⟨a.limbs⟩ := rfl
      rw [this, hnil]
      simp [nat.value]
    · exact h0
    · unfold limbs_ok; decide
    · unfold limbs_ok; decide
    · simp
  · have hq1 : to_limb2 ((a.limbs.length : Int) - ((1 : Nat) : Int) + 1) = a.limbs.length := by
      simp only [to_limb2]
      omega
    have hcount : (to_int (a.limbs.length - 1) + 1).toNat = a.limbs.length := by
      rw [to_int_small _ (by omega)]
      omega
    obtain ⟨g1, g2, g3, g4⟩ := divrem_short_spec v0 h0 hv a.limbs.reverse 0
      (fun x hx => ha x (List.mem_reverse.1 hx)) (by simpa using h0)
    simp only [Nat.zero_mod, Nat.zero_mul, Nat.zero_add, List.reverse_reverse] at g1
    refine ⟨⟨(nat.divrem_short v0 a.limbs.reverse 0).1.reverse⟩,
      ⟨[(nat.divrem_short v0 a.limbs.reverse 0).2 % 2 ^ 32]⟩, ?_, ?_, ?_, ?_, ?_,
      by simp [nat.limb_at, nat.value], by simp [g3]⟩
    · have hmax : max a.limbs.length 1 = a.limbs.length := by omega
      have hmax1 : ¬(a.limbs.length > vector_max_size) := by
        simp only [vector_max_size]; omega
      have hlt : ¬(a.limbs.length < 1) := by omega
      have hv1 : ¬(v0 = 0) := by omega
      simp only [nat.divrem, hn, hq1, hmax, hmax1, hlt, hv0, hv1, hcount, if_false,
        Nat.le_zero_eq, Nat.one_ne_zero, or_self, Nat.sub_self, List.take_length,
        List.replicate_zero, List.append_nil, if_true, Nat.lt_irrefl, one_ne_zero, or_false]
      rfl
    · have : nat.value a = nat.value ⟨a.limbs⟩ := rfl
      rw [this, ← g1]
      simp [nat.value]
    · simpa [nat.value] using g2
    · intro x hx
      exact g4 x (List.mem_reverse.1 hx)
    · intro x hx
      simp only [List.mem_singleton] at hx
      rw [hx]
      exact Nat.mod_lt _ (by norm_num)

theorem mapM_range_none (f : Nat → Option Nat) (n : Nat) (hn : 0 < n) (h0 : f 0 = none) :
    (List.range n).mapM f = none := by
  obtain ⟨k, rfl⟩ := Nat.exists_eq_succ_of_ne_zero (show n ≠ 0 by omega)
  rw [List.range_succ_eq_map, List.mapM_cons, h0]
  rfl

theorem clz32_lt (x : Nat) : ((nat.clz32 x : Nat) : Int) - 32 < 0 := by
  simp only [nat.clz32]
  omega

/-- A divisor of two or more limbs whose top limb is not zero, and a dividend with at least
as many limbs: the normalisation shifts by a negative count and `divrem` has no result. -/
theorem divrem_long_none (a b : nat) (hn : 2 ≤ b.limbs.length)
    (hm : b.limbs.length ≤ a.limbs.length)
    (htop : b.limbs.getD (b.limbs.length - 1) 0 ≠ 0) : nat.divrem a b = none := by
  have hs := clz32_lt (b.limbs.getD (b.limbs.length - 1) 0)
  have hnorm : nat.divrem_norm b.limbs
      (((nat.clz32 (b.limbs.getD (b.limbs.length - 1) 0) : Nat) : Int) - 32) 0 = none := by
    simp only [nat.divrem_norm, if_true, shl32]
    rw [if_neg (by omega)]
  have hmap := mapM_range_none _ b.limbs.length (by omega) hnorm
  simp only [nat.divrem]
  split
  · rfl
  · rw [if_neg (by omega), if_neg (by omega)]
    simp only [hmap]
    rfl

/-- C12 as stated fails on the code. For `a = 5` and `b = 2^32` (the dividend has fewer
limbs than the divisor) `divrem` returns at its guard with quotient `0` and remainder `0`,
and `5` is not `0 * 2^32 + 0`. For `a = 2^32 + 5` and `b = 2^32` the normalisation shifts by
`__builtin_clz(v[n-1]) - limb_bits`, a negative count, and there is no result. -/
theorem C12_division_not_exact :
    (nat.op_div ⟨[5]⟩ ⟨[0, 1]⟩ = some ⟨[0]⟩ ∧ nat.op_rem ⟨[5]⟩ ⟨[0, 1]⟩ = some ⟨[0, 0]⟩ ∧
      nat.value ⟨[0, 1]⟩ ≠ 0 ∧
      nat.value ⟨[5]⟩ ≠ nat.value ⟨[0]⟩ * nat.value ⟨[0, 1]⟩ + nat.value ⟨[0, 0]⟩) ∧
    nat.divrem ⟨[5, 1]⟩ ⟨[0, 1]⟩ = none :=
  ⟨by decide, divrem_long_none ⟨[5, 1]⟩ ⟨[0, 1]⟩ (by decide) (by decide) (by decide)⟩

/-- C12 (amended): division by a divisor of a single non-zero limb is exact: for a limb
vector `a` of at most `2^31` limbs and `b` of one limb `v0 ≠ 0`, `a / b` and `a % b` return
`q` and `r` with `value(a) = value(q) * value(b) + value(r)` and `value(r) < value(b)`. A
dividend with one limb fewer than the divisor stops `divrem` at its guard: the quotient is
`0` and the remainder has the value `0`. -/
theorem C12_division_by_one_limb (a b : nat) :
    (∀ v0, limbs_ok a → a.limbs.length ≤ 2 ^ 31 → b.limbs = [v0] → 0 < v0 → v0 < 2 ^ 32 →
      ∃ q r, nat.op_div a b = some q ∧ nat.op_rem a b = some r ∧
        nat.value a = nat.value q * nat.value b + nat.value r ∧
        nat.value r < nat.value b) ∧
    (a.limbs.length + 1 = b.limbs.length →
      nat.op_div a b = some ⟨[0]⟩ ∧ ∃ r, nat.op_rem a b = some r ∧ nat.value r = 0) := by
  constructor
  · intro v0 ha hm hb h0 hv
    obtain ⟨q, r, h1, h2, h3, _, _⟩ := divrem_single_spec a b v0 ha hm hb h0 hv
    have hvb : nat.value b = v0 := by
      have : nat.value b = nat.value ⟨b.limbs⟩ := rfl
      rw [this, hb]
      simp [nat.value]
    exact ⟨q, r, by simp [nat.op_div, h1], by simp [nat.op_rem, h1], by rw [hvb]; exact h2,
      by rw [hvb]; exact h3⟩
  · intro h
    have hq : to_limb2 ((a.limbs.length : Int) - (b.limbs.length : Int) + 1) = 0 := by
      simp only [to_limb2]
      omega
    have hd : nat.divrem a b =
        some (⟨[0]⟩, ⟨nat.vec_resize [0] b.limbs.length⟩) := by
      have hlt : a.limbs.length < b.limbs.length := by omega
      simp [nat.divrem, hq, vector_max_size, hlt, nat.vec_resize]
    refine ⟨by simp [nat.op_div, hd], ⟨nat.vec_resize [0] b.limbs.length⟩,
      by simp [nat.op_rem, hd], ?_⟩
    rw [vec_resize_zero, value_replicate_zero]

/-- Witness for C12: `2^32 = 1431655765 * 3 + 1`. -/
theorem C12_division_by_one_limb_witness :
    (limbs_ok ⟨[0, 1]⟩ ∧ (nat.mk [0, 1]).limbs.length ≤ 2 ^ 31 ∧ (nat.mk [3]).limbs = [3]) ∧
    nat.op_div ⟨[0, 1]⟩ ⟨[3]⟩ = some ⟨[1431655765, 0]⟩ ∧
    nat.op_rem ⟨[0, 1]⟩ ⟨[3]⟩ = some ⟨[1]⟩ ∧
    ∃ q r, nat.op_div ⟨[0, 1]⟩ ⟨[3]⟩ = some q ∧ nat.op_rem ⟨[0, 1]⟩ ⟨[3]⟩ = some r ∧
      nat.value ⟨[0, 1]⟩ = nat.value q * nat.value ⟨[3]⟩ + nat.value r ∧
      nat.value r < nat.value ⟨[3]⟩ :=
  ⟨⟨by unfold limbs_ok; decide, by decide, rfl⟩, by decide, by decide,
    (C12_division_by_one_limb ⟨[0, 1]⟩ ⟨[3]⟩).1 3 (by unfold limbs_ok; decide) (by decide) rfl
      (by decide) (by decide)⟩

/-! ## Conversion to a decimal string -/

theorem decimal_length_pos (v : Nat) : 0 < (decimal v).length := by
  by_cases h : v = 0
  · simp [decimal, h]
  · have : Nat.digits 10 v ≠ [] := Nat.digits_ne_nil_iff_ne_zero.2 h
    simp only [decimal, h, if_false, List.length_map, List.length_reverse]
    exact List.length_pos.2 this

theorem decimal_small (v : Nat) (h : v / 10 = 0) : decimal v = [digit_char (v % 10)] := by
  have hlt : v < 10 := by omega
  by_cases h0 : v = 0
  · subst h0
    rfl
  · simp only [decimal, h0, if_false, Nat.digits_of_lt 10 v h0 hlt, List.reverse_singleton,
      List.map_cons, List.map_nil, Nat.mod_eq_of_lt hlt]

theorem decimal_step (v : Nat) (h : v / 10 ≠ 0) :
    decimal v = decimal (v / 10) ++ [digit_char (v % 10)] := by
  have h0 : v ≠ 0 := by
    intro e
    apply h
    rw [e]
  simp only [decimal, h0, h, if_false,
    Nat.digits_def' (by norm_num : 1 < 10) (Nat.pos_of_ne_zero h0), List.reverse_cons,
    List.map_append, List.map_cons, List.map_nil]

theorem drop_set_self {α : Type} (s : List α) (p : Nat) (c : α) (h : p < s.length) :
    (s.set p c).drop p = c :: s.drop (p + 1) := by
  rw [List.drop_set, if_neg (Nat.lt_irrefl p), Nat.sub_self, List.drop_eq_getElem_cons h,
    List.set_cons_zero]

/-- The inner loop of `to_string` writes the decimal numeral of `v` in front of `offset`. -/
theorem digit_loop_spec : ∀ (fuel : Nat) (s : List Char) (offset v i : Nat),
    (decimal v).length ≤ fuel → (decimal v).length ≤ offset → offset ≤ s.length →
    offset < 2 ^ 64 → (decimal v).length ≤ i → i < 2 ^ 64 →
    nat.digit_loop fuel s offset v i =
      some (s.take (offset - (decimal v).length) ++ decimal v ++ s.drop offset,
        offset - (decimal v).length, i - (decimal v).length) := by
  intro fuel
  induction fuel with
  | zero =>
    intro s offset v i h
    have := decimal_length_pos v
    omega
  | succ f ih =>
    intro s offset v i hf ho hs ho64 hi hi64
    have hpos := decimal_length_pos v
    have e1 : to_limb2 ((offset : Int) - 1) = offset - 1 := by
      simp only [to_limb2]
      omega
    have e2 : to_limb2 ((i : Int) - 1) = i - 1 := by
      simp only [to_limb2]
      omega
    have hp : offset - 1 < s.length := by omega
    simp only [nat.digit_loop, e1, e2, hp, if_true]
    by_cases hv : v / 10 = 0
    · have hd := decimal_small v hv
      simp only [hv, ne_eq, not_true_eq_false, if_false, hd, List.length_singleton]
      rw [List.set_eq_take_cons_drop _ hp]
      have : offset - 1 + 1 = offset := by omega
      rw [this]
      simp [digit_char]
    · have hd := decimal_step v hv
      have hlen : (decimal v).length = (decimal (v / 10)).length + 1 := by
        rw [hd, List.length_append, List.length_singleton]
      have hpos1 := decimal_length_pos (v / 10)
      simp only [hv, ne_eq, not_false_eq_true, if_true]
      rw [ih _ _ _ _ (by omega) (by omega) (by rw [List.length_set]; omega) (by omega)
        (by omega) (by omega)]
      rw [List.take_set_of_lt _ _ (by omega), drop_set_self _ _ _ hp, hd]
      have e3 : offset - 1 + 1 = offset := by omega
      have e4 : offset - 1 - (decimal (v / 10)).length =
          offset - (decimal (v / 10) ++ [digit_char (v % 10)]).length := by
        rw [List.length_append, List.length_singleton]
        omega
      have e5 : i - 1 - (decimal (v / 10)).length =
          i - (decimal (v / 10) ++ [digit_char (v % 10)]).length := by
        rw [List.length_append, List.length_singleton]
        omega
      rw [e3, e4, e5]
      simp [digit_char]

theorem digits_length_le {n k : Nat} (h : n < 10 ^ k) : (Nat.digits 10 n).length ≤ k := by
  by_cases h0 : n = 0
  · simp [h0]
  · by_contra hc
    have h1 := Nat.base_pow_length_digits_le 10 n (by norm_num) h0
    have h2 : 10 ^ (k + 1) ≤ 10 ^ (Nat.digits 10 n).length :=
      Nat.pow_le_pow_right (by norm_num) (by omega)
    have h3 : 10 ^ (k + 1) = 10 * 10 ^ k := by ring
    omega

theorem digits_length_gt {n k : Nat} (h : 10 ^ k ≤ n) : k < (Nat.digits 10 n).length := by
  have h1 : n < 10 ^ (Nat.digits 10 n).length :=
    Nat.lt_base_pow_length_digits (by norm_num)
  by_contra hc
  have h2 : 10 ^ (Nat.digits 10 n).length ≤ 10 ^ k :=
    Nat.pow_le_pow_right (by norm_num) (by omega)
  omega

theorem decimal_length_le {v : Nat} (h : v < 10 ^ 9) : (decimal v).length ≤ 9 := by
  by_cases h0 : v = 0
  · simp [decimal, h0]
  · simp only [decimal, h0, if_false, List.length_map, List.length_reverse]
    exact digits_length_le h

theorem decimal_length_digits {v : Nat} (h0 : v ≠ 0) :
    (decimal v).length = (Nat.digits 10 v).length := by
  simp only [decimal, h0, if_false, List.length_map, List.length_reverse]

/-- The numeral of a chunk below `10^9` behind a run of `'0'` is that chunk padded to nine
digits behind a shorter run. -/
theorem decimal_pad {v offset : Nat} (h : v < 10 ^ 9) (ho : 9 ≤ offset) :
    List.replicate (offset - (decimal v).length) '0' ++ decimal v =
      List.replicate (offset - 9) '0' ++
        (Nat.digits 10 v ++ List.replicate (9 - (Nat.digits 10 v).length) 0).reverse.map
          digit_char := by
  have hz : digit_char 0 = '0' := rfl
  by_cases h0 : v = 0
  · subst h0
    have e1 : offset - 1 = (offset - 9) + 8 := by omega
    simp only [decimal, if_true, List.length_singleton, Nat.digits_zero, List.length_nil,
      Nat.sub_zero, List.nil_append, List.reverse_replicate, List.map_replicate, hz, e1]
    rw [List.replicate_add, List.append_assoc]
    rfl
  · have hl := digits_length_le h
    have e1 : offset - (Nat.digits 10 v).length =
        (offset - 9) + (9 - (Nat.digits 10 v).length) := by omega
    rw [decimal_length_digits h0, e1, List.replicate_add]
    simp only [decimal, h0, if_false, List.reverse_append, List.reverse_replicate,
      List.map_append, List.map_replicate, hz, List.append_assoc]

theorem value_of_limb_zero : nat.value (nat.of_limb 0) = 0 := by decide

theorem limbs_ok_of_limb (z : Int) : limbs_ok (nat.of_limb z) := by
  intro x hx
  simp only [nat.of_limb, List.mem_singleton] at hx
  rw [hx]
  simp only [to_limb]
  omega

theorem op_gt_zero (q : nat) (hq : limbs_ok q) :
    nat.op_gt q (nat.of_limb 0) = true ↔ 0 < nat.value q := by
  have h1 := op_lt_spec q (nat.of_limb 0) hq (limbs_ok_of_limb 0)
  have h2 := op_eq_spec q (nat.of_limb 0) hq (limbs_ok_of_limb 0)
  rw [value_of_limb_zero] at h1 h2
  simp only [nat.op_gt, nat.op_le, Bool.not_eq_true', Bool.or_eq_false_iff]
  constructor
  · intro h
    have : ¬(nat.value q = 0) := by
      intro e
      have := h2.2 e
      rw [h.2] at this
      cases this
    omega
  · intro h
    constructor
    · cases hlt : q.op_lt (nat.of_limb 0) with
      | false => rfl
      | true => have := h1.1 hlt; omega
    · cases heq : q.op_eq (nat.of_limb 0) with
      | false => rfl
      | true => have := h2.1 heq; omega

theorem op_ne_zero (q : nat) (hq : limbs_ok q) :
    nat.op_ne q (nat.of_limb 0) = true ↔ nat.value q ≠ 0 := by
  have h2 := op_eq_spec q (nat.of_limb 0) hq (limbs_ok_of_limb 0)
  rw [value_of_limb_zero] at h2
  simp only [nat.op_ne, Bool.not_eq_true']
  constructor
  · intro h e
    have := h2.2 e
    rw [h] at this
    cases this
  · intro h
    cases heq : q.op_eq (nat.of_limb 0) with
    | false => rfl
    | true => exact absurd (h2.1 heq) h

theorem copy_length_le (n : nat) : (nat.copy n).limbs.length ≤ n.limbs.length := by
  obtain ⟨k, hk⟩ := contract_limbs n
  have := congrArg List.length hk
  simp only [List.length_append, List.length_replicate] at this
  simp only [nat.copy]
  omega

/-- The outer loop of `to_string`: with the digits `P` of the chunks already written behind
`offset` (least significant first) and the rest of the number in `val`, the loop ends with
the decimal numeral of the number behind the final `offset`. -/
theorem to_string_loop_spec (N C : Nat) (hC : C < 2 ^ 64)
    (hN : (Nat.digits 10 N).length < C) : ∀ (fuel : Nat) (val : nat) (s : List Char)
    (offset : Nat) (P : List Nat), limbs_ok val → val.limbs.length ≤ 2 ^ 31 → 0 < fuel →
    nat.value val < (10 ^ 9) ^ fuel →
    s = List.replicate offset '0' ++ P.reverse.map digit_char → offset + P.length = C →
    (nat.value val = 0 → P = [] ∧ N = 0) →
    (nat.value val ≠ 0 → P ++ Nat.digits 10 (nat.value val) = Nat.digits 10 N) →
    ∃ s1 offset1, nat.to_string_loop fuel val s offset = some (s1, offset1) ∧
      offset1 ≤ s1.length ∧ s1.drop offset1 = decimal N := by
  intro fuel
  induction fuel with
  | zero => intro val s offset P _ _ h; omega
  | succ f ih =>
    intro val s offset P hok hlen _ hV hs hoff hz hnz
    obtain ⟨q, r, hdiv, hval, hr, hqok, hrok, hr0, hqlen⟩ :=
      divrem_single_spec val (nat.of_limb 1000000000) 1000000000 hok hlen rfl (by norm_num)
        (by norm_num)
    have hr9 : nat.value r < 10 ^ 9 := by norm_num; exact hr
    have hL9 := decimal_length_le hr9
    have hLpos := decimal_length_pos (nat.value r)
    have hslen : s.length = offset + P.length := by
      rw [hs]; simp
    have hbounds : (decimal (nat.value r)).length ≤ offset ∧
        (0 < nat.value q → 9 ≤ offset) := by
      by_cases hV0 : nat.value val = 0
      · obtain ⟨hP, _⟩ := hz hV0
        rw [hP] at hoff
        simp only [List.length_nil, Nat.add_zero] at hoff
        have hr00 : nat.value r = 0 := by omega
        have hq00 : nat.value q = 0 := by
          by_contra hq
          have : 1 * 1000000000 ≤ nat.value q * 1000000000 :=
            Nat.mul_le_mul_right _ (Nat.pos_of_ne_zero hq)
          omega
        rw [hr00]
        refine ⟨?_, fun h => by omega⟩
        simp only [decimal, if_true, List.length_singleton]
        omega
      · have h1 := congrArg List.length (hnz hV0)
        rw [List.length_append] at h1
        have hVpos : (Nat.digits 10 (nat.value val)).length ≠ 0 := by
          intro e
          exact (Nat.digits_ne_nil_iff_ne_zero.2 hV0) (List.length_eq_zero.1 e)
        constructor
        · by_cases hr00 : nat.value r = 0
          · rw [hr00]
            simp only [decimal, if_true, List.length_singleton]
            omega
          · rw [decimal_length_digits hr00]
            have := Nat.le_digits_len_le 10 (nat.value r) (nat.value val) (by omega)
            omega
        · intro hq
          have h2 : 1 * 1000000000 ≤ nat.value q * 1000000000 :=
            Nat.mul_le_mul_right _ hq
          have h3 : 10 ^ 9 ≤ nat.value val := by norm_num; omega
          have := digits_length_gt h3
          omega
    have hdl := digit_loop_spec 10 s offset (nat.value r) 9 (by omega) hbounds.1
      (by omega) (by omega) hL9 (by norm_num)
    have htake : s.take (offset - (decimal (nat.value r)).length) =
        List.replicate (offset - (decimal (nat.value r)).length) '0' := by
      rw [hs, List.take_append_of_le_length (by simp), List.take_replicate]
      congr 1
      omega
    have hdrop : s.drop offset = P.reverse.map digit_char := by
      rw [hs]
      simp [List.drop_append_eq_append_drop]
    rw [htake, hdrop] at hdl
    rw [nat.to_string_loop]
    simp only [hdiv, hr0, hdl]
    by_cases hq : 0 < nat.value q
    · have hgt := (op_gt_zero q hqok).2 hq
      have hne := (op_ne_zero (nat.copy q) (limbs_ok_copy hqok)).2
        (by rw [value_copy]; omega)
      have h9 := hbounds.2 hq
      have e1 : to_limb2 (((offset - (decimal (nat.value r)).length : Nat) : Int) -
          ((9 - (decimal (nat.value r)).length : Nat) : Int)) = offset - 9 := by
        simp only [to_limb2]
        omega
      simp only [hgt, hne, if_true, e1]
      have hV0 : nat.value val ≠ 0 := by
        intro e
        rw [e] at hval
        have : 1 * 1000000000 ≤ nat.value q * 1000000000 := Nat.mul_le_mul_right _ hq
        omega
      have hdl9 := digits_length_le hr9
      have hf : 0 < f := by
        by_contra hf0
        have e : f = 0 := by omega
        rw [e] at hV
        have : 1 * 1000000000 ≤ nat.value q * 1000000000 := Nat.mul_le_mul_right _ hq
        norm_num at hV
        omega
      apply ih (nat.copy q) _ (offset - 9)
        (P ++ (Nat.digits 10 (nat.value r) ++
          List.replicate (9 - (Nat.digits 10 (nat.value r)).length) 0))
        (limbs_ok_copy hqok) (by have := copy_length_le q; omega) hf
      · rw [value_copy]
        have e2 : (10 ^ 9) ^ (f + 1) = (10 ^ 9) ^ f * 1000000000 := by
          rw [Nat.pow_succ]
          norm_num
        rw [e2] at hV
        by_contra hc
        have : (10 ^ 9) ^ f * 1000000000 ≤ nat.value q * 1000000000 :=
          Nat.mul_le_mul_right _ (by omega)
        omega
      · rw [decimal_pad hr9 h9]
        simp only [List.reverse_append, List.map_append, List.append_assoc]
      · simp only [List.length_append, List.length_replicate]
        omega
      · intro e
        rw [value_copy] at e
        omega
      · intro _
        rw [value_copy, List.append_assoc, ← hnz hV0]
        congr 1
        have := @Nat.digits_append_zeroes_append_digits 10
          (9 - (Nat.digits 10 (nat.value r)).length) (nat.value q) (nat.value r)
          (by norm_num) hq
        rw [this, hval]
        congr 1
        have e3 : (Nat.digits 10 (nat.value r)).length +
            (9 - (Nat.digits 10 (nat.value r)).length) = 9 := by omega
        rw [e3]
        norm_num
        ring
    · have hq0 : nat.value q = 0 := by omega
      have hgt : nat.op_gt q (nat.of_limb 0) = false := by
        cases h : nat.op_gt q (nat.of_limb 0) with
        | false => rfl
        | true => exact absurd ((op_gt_zero q hqok).1 h) hq
      have hne : nat.op_ne (nat.copy q) (nat.of_limb 0) = false := by
        cases h : nat.op_ne (nat.copy q) (nat.of_limb 0) with
        | false => rfl
        | true =>
          have := (op_ne_zero (nat.copy q) (limbs_ok_copy hqok)).1 h
          rw [value_copy] at this
          exact absurd hq0 this
      simp only [hgt, hne, Bool.false_eq_true, if_false]
      refine ⟨_, _, rfl, ?_, ?_⟩
      · simp only [List.length_append, List.length_replicate]
        omega
      · rw [List.append_assoc]
        have hl : (List.replicate (offset - (decimal (nat.value r)).length) '0').length =
            offset - (decimal (nat.value r)).length := by simp
        rw [List.drop_append_eq_append_drop, hl, Nat.sub_self, List.drop_zero,
          List.drop_replicate, Nat.sub_self, List.replicate_zero, List.nil_append]
        rw [hq0, Nat.zero_mul, Nat.zero_add] at hval
        by_cases hV0 : nat.value val = 0
        · obtain ⟨hP, hN0⟩ := hz hV0
          rw [← hval, hV0, hP, hN0]
          rfl
        · have hd := hnz hV0
          have hN0 : N ≠ 0 := by
            intro e
            rw [e, Nat.digits_zero] at hd
            have := congrArg List.length hd
            simp only [List.length_append, List.length_nil] at this
            have h2 : Nat.digits 10 (nat.value val) ≠ [] :=
              Nat.digits_ne_nil_iff_ne_zero.2 hV0
            exact h2 (List.length_eq_zero.1 (by omega))
          rw [← hval]
          simp only [decimal, hV0, hN0, if_false, ← hd, List.reverse_append, List.map_append]

/-- The method `to_string` on a limb vector of at most `2^31` limbs: the decimal numeral of
its value. -/
theorem to_string_spec (n : nat) (hok : limbs_ok n) (hlen : n.limbs.length ≤ 2 ^ 31) :
    nat.to_string n = some (decimal (nat.value n)) := by
  have hv : nat.value n < 2 ^ (32 * n.limbs.length) := value_lt n.limbs hok
  have hpow : (2 : Nat) ^ (32 * n.limbs.length) = (2 ^ 32) ^ n.limbs.length := by
    rw [Nat.pow_mul]
  have h10 : (2 ^ 32) ^ n.limbs.length ≤ (10 ^ 10) ^ n.limbs.length :=
    Nat.pow_le_pow_left (by norm_num) _
  have h18 : (2 ^ 32) ^ n.limbs.length ≤ (10 ^ 18) ^ n.limbs.length :=
    Nat.pow_le_pow_left (by norm_num) _
  have e10 : (10 ^ 10) ^ n.limbs.length = 10 ^ (10 * n.limbs.length) := by
    rw [← Nat.pow_mul]
  have e18 : (10 ^ 18) ^ n.limbs.length = (10 ^ 9) ^ (2 * n.limbs.length) := by
    rw [← Nat.pow_mul, ← Nat.pow_mul]
    congr 1
    omega
  have e19 : (10 ^ 9) ^ (2 * n.limbs.length) ≤ (10 ^ 9) ^ (2 * n.limbs.length + 1) :=
    Nat.pow_le_pow_right (by norm_num) (by omega)
  have hdig : (Nat.digits 10 (nat.value n)).length < 10 * n.limbs.length + 1 := by
    have := digits_length_le (show nat.value n < 10 ^ (10 * n.limbs.length) by omega)
    omega
  have hC : (10 * n.limbs.length + 1) % 2 ^ 64 = 10 * n.limbs.length + 1 :=
    Nat.mod_eq_of_lt (by omega)
  obtain ⟨s1, offset1, h1, h2, h3⟩ := to_string_loop_spec (nat.value n)
    (10 * n.limbs.length + 1) (by omega) hdig (2 * n.limbs.length + 1) (nat.copy n)
    (List.replicate (10 * n.limbs.length + 1) '0') (10 * n.limbs.length + 1) []
    (limbs_ok_copy hok) (by have := copy_length_le n; omega) (by omega)
    (by rw [value_copy]; omega) (by simp) (by simp)
    (fun h => ⟨rfl, by rw [value_copy] at h; exact h⟩)
    (fun _ => by rw [value_copy]; rfl)
  simp only [nat.to_string, hC, h1, h2, if_true, h3]

theorem digit_char_toNat {d : Nat} (h : d < 10) : (digit_char d).toNat - 48 = d := by
  interval_cases d <;> rfl

theorem digit_char_ne_zero {d : Nat} (h : d < 10) (h0 : d ≠ 0) : digit_char d ≠ '0' := by
  interval_cases d <;> first | exact absurd rfl h0 | decide

theorem numeral_value_digits (L : List Nat) (h : ∀ d ∈ L, d < 10) :
    numeral_value (L.reverse.map digit_char) = Nat.ofDigits 10 L := by
  induction L with
  | nil => rfl
  | cons d rest ih =>
    have hd := h d (List.mem_cons_self _ _)
    have hr := ih (fun x hx => h x (List.mem_cons_of_mem _ hx))
    simp only [numeral_value] at hr
    simp only [numeral_value, List.reverse_cons, List.map_append, List.map_cons, List.map_nil,
      List.foldl_append, List.foldl_cons, List.foldl_nil, hr, digit_char_toNat hd,
      Nat.ofDigits_cons]
    ring

theorem decimal_chars (N : Nat) : ∀ c ∈ decimal N, ∃ d, d < 10 ∧ c = digit_char d := by
  intro c hc
  by_cases h0 : N = 0
  · simp only [decimal, h0, if_true, List.mem_singleton] at hc
    exact ⟨0, by norm_num, hc⟩
  · simp only [decimal, h0, if_false, List.mem_map, List.mem_reverse] at hc
    obtain ⟨d, hd, rfl⟩ := hc
    exact ⟨d, Nat.digits_lt_base (by norm_num) hd, rfl⟩

theorem decimal_value (N : Nat) : numeral_value (decimal N) = N := by
  by_cases h0 : N = 0
  · subst h0
    rfl
  · simp only [decimal, h0, if_false]
    rw [numeral_value_digits _ (fun d hd => Nat.digits_lt_base (by norm_num) hd),
      Nat.ofDigits_digits]

theorem decimal_head (N : Nat) (h0 : N ≠ 0) : (decimal N).head? ≠ some '0' := by
  have hne : Nat.digits 10 N ≠ [] := Nat.digits_ne_nil_iff_ne_zero.2 h0
  have hlast := Nat.getLast_digit_ne_zero 10 h0
  have hlt : (Nat.digits 10 N).getLast hne < 10 :=
    Nat.digits_lt_base (by norm_num) (List.getLast_mem hne)
  simp only [decimal, h0, if_false, List.head?_map, List.head?_reverse,
    List.getLast?_eq_getLast _ hne, Option.map_some', ne_eq, Option.some.injEq]
  exact digit_char_ne_zero hlt hlast

theorem contract_rev_head {x : Nat} (h : x ≠ 0) (l : List Nat) :
    nat.contract_rev (x :: l) = x :: l := by
  cases l with
  | nil => rfl
  | cons y rest => simp [nat.contract_rev, h]

theorem copy_replicate_one (m : Nat) : nat.copy ⟨List.replicate m 1⟩ = ⟨List.replicate m 1⟩ := by
  cases m with
  | zero => rfl
  | succ k =>
    simp only [nat.copy, nat.contract, List.reverse_replicate]
    rw [List.replicate_succ, contract_rev_head (by norm_num), ← List.replicate_succ,
      List.reverse_replicate]

theorem value_replicate_one {m : Nat} (h : 0 < m) : nat.value ⟨List.replicate m 1⟩ ≠ 0 := by
  obtain ⟨k, rfl⟩ := Nat.exists_eq_succ_of_ne_zero (show m ≠ 0 by omega)
  rw [List.replicate_succ, value_cons]
  omega

/-- The single digit loop of `divrem` counts with an `int`: on a dividend of more than
`2^31` (and at most `2^32`) limbs the counter starts negative, no limb is visited and the
quotient and the remainder stay zero. -/
theorem divrem_wide (a : nat) (v0 : Nat) (h1 : 2 ^ 31 < a.limbs.length)
    (h2 : a.limbs.length ≤ 2 ^ 32) (h0 : v0 ≠ 0) :
    nat.divrem a ⟨[v0]⟩ = some (⟨List.replicate a.limbs.length 0⟩, ⟨[0]⟩) := by
  have hq1 : to_limb2 ((a.limbs.length : Int) - ((1 : Nat) : Int) + 1) = a.limbs.length := by
    simp only [to_limb2]
    omega
  have hcount : (to_int (a.limbs.length - 1) + 1).toNat = 0 := by
    have e : (a.limbs.length - 1) % 2 ^ 32 = a.limbs.length - 1 :=
      Nat.mod_eq_of_lt (by omega)
    simp only [to_int, e]
    rw [if_neg (by omega)]
    omega
  have hmax : max a.limbs.length 1 = a.limbs.length := by omega
  have hmax1 : ¬(a.limbs.length > vector_max_size) := by
    simp only [vector_max_size]; omega
  have hlt : ¬(a.limbs.length < 1) := by omega
  simp only [nat.divrem, List.length_singleton, hq1, hmax, hmax1, hlt, hcount, if_false,
    Nat.le_zero_eq, Nat.one_ne_zero, or_self, Nat.sub_self, List.getD_cons_zero, h0,
    List.take_zero, List.reverse_nil, nat.divrem_short, Nat.sub_zero, List.nil_append,
    if_true, false_or, or_false]
  rfl

/-- On a limb vector of `m` limbs `1`, `2^31 < m <= 2^32`, `to_string` returns `"0"`. -/
theorem to_string_wide (m : Nat) (h1 : 2 ^ 31 < m) (h2 : m ≤ 2 ^ 32) :
    nat.to_string ⟨List.replicate m 1⟩ = some ['0'] := by
  have hlen : (List.replicate m 1).length = m := List.length_replicate _ _
  have hdiv := divrem_wide ⟨List.replicate m 1⟩ 1000000000 (by simp only [hlen]; exact h1)
    (by simp only [hlen]; exact h2) (by norm_num)
  simp only [hlen] at hdiv
  have hC : (10 * m + 1) % 2 ^ 64 = 10 * m + 1 := Nat.mod_eq_of_lt (by omega)
  have hd0 : decimal 0 = ['0'] := rfl
  have hdl := digit_loop_spec 10 (List.replicate (10 * m + 1) '0') (10 * m + 1) 0 9
    (by rw [hd0]; simp) (by rw [hd0]; simp) (by simp) (by omega) (by rw [hd0]; simp)
    (by norm_num)
  rw [hd0] at hdl
  simp only [List.length_singleton, Nat.add_sub_cancel] at hdl
  have hqok : limbs_ok ⟨List.replicate m 0⟩ := by
    intro x hx
    rw [List.eq_of_mem_replicate hx]
    norm_num
  have hq0 : nat.value ⟨List.replicate m 0⟩ = 0 := value_replicate_zero m
  have hgt : nat.op_gt ⟨List.replicate m 0⟩ (nat.of_limb 0) = false := by
    cases h : nat.op_gt ⟨List.replicate m 0⟩ (nat.of_limb 0) with
    | false => rfl
    | true =>
      have := (op_gt_zero _ hqok).1 h
      omega
  have hne : nat.op_ne (nat.copy ⟨List.replicate m 0⟩) (nat.of_limb 0) = false := by
    cases h : nat.op_ne (nat.copy ⟨List.replicate m 0⟩) (nat.of_limb 0) with
    | false => rfl
    | true =>
      have := (op_ne_zero _ (limbs_ok_copy hqok)).1 h
      rw [value_copy] at this
      exact absurd hq0 this
  have htenp : nat.of_limb 1000000000 = ⟨[1000000000]⟩ := rfl
  have hr0 : (nat.mk [0]).limb_at 0 = 0 := rfl
  have hf : 2 * m + 1 = (2 * m) + 1 := rfl
  simp only [nat.to_string, hlen, hC, copy_replicate_one]
  rw [hf, nat.to_string_loop]
  simp only [htenp, hdiv, hr0, hdl, hgt, hne, Bool.false_eq_true, if_false]
  simp

theorem limbs_ok_replicate_one (m : Nat) : limbs_ok ⟨List.replicate m 1⟩ := by
  intro x hx
  rw [List.eq_of_mem_replicate hx]
  norm_num

/-- C17 as stated fails on the code: for the limb vector of `2^31 + 1` limbs `1` (not
empty, value not zero) `to_string` returns `"0"`. The single digit loop of `divrem` counts
its limbs with an `int`, which starts negative for more than `2^31` limbs. -/
theorem C17_wide_vector_prints_zero :
    (nat.mk (List.replicate (2 ^ 31 + 1) 1)).limbs.length = 2 ^ 31 + 1 ∧
      limbs_ok ⟨List.replicate (2 ^ 31 + 1) 1⟩ ∧
      nat.to_string ⟨List.replicate (2 ^ 31 + 1) 1⟩ = some ['0'] ∧
      nat.value ⟨List.replicate (2 ^ 31 + 1) 1⟩ ≠ 0 :=
  ⟨List.length_replicate _ _, limbs_ok_replicate_one _,
    to_string_wide (2 ^ 31 + 1) (by norm_num) (by norm_num),
    value_replicate_one (by norm_num)⟩

/-- C17 (amended): decimal conversion is exact and has no leading zeros for a limb vector
of at most `2^31` limbs: `to_string(n)` returns a string that consists only of the
characters `'0'..'9'`, reads as the base-10 numeral of `value(n)`, does not start with `'0'`
unless `value(n) = 0`, and is exactly `"0"` for `value(n) = 0`. -/
theorem C17_decimal_string (n : nat) (hok : limbs_ok n) (hlen : n.limbs.length ≤ 2 ^ 31) :
    ∃ out, nat.to_string n = some out ∧
      (∀ c ∈ out, ∃ d, d < 10 ∧ c = digit_char d) ∧
      numeral_value out = nat.value n ∧
      (nat.value n ≠ 0 → out.head? ≠ some '0') ∧
      (nat.value n = 0 → out = ['0']) := by
  refine ⟨decimal (nat.value n), to_string_spec n hok hlen, decimal_chars _,
    decimal_value _, decimal_head _, ?_⟩
  intro h
  rw [h]
  rfl

/-- Witness for C17: `2^32` prints as `4294967296`. -/
theorem C17_decimal_string_witness :
    limbs_ok ⟨[0, 1]⟩ ∧ (nat.mk [0, 1]).limbs.length ≤ 2 ^ 31 ∧
      nat.to_string ⟨[0, 1]⟩ = some "4294967296".toList ∧
      ∃ out, nat.to_string ⟨[0, 1]⟩ = some out ∧
        (∀ c ∈ out, ∃ d, d < 10 ∧ c = digit_char d) ∧
        numeral_value out = nat.value ⟨[0, 1]⟩ ∧
        (nat.value ⟨[0, 1]⟩ ≠ 0 → out.head? ≠ some '0') ∧
        (nat.value ⟨[0, 1]⟩ = 0 → out = ['0']) :=
  ⟨by unfold limbs_ok; decide, by decide, by decide,
    C17_decimal_string ⟨[0, 1]⟩ (by unfold limbs_ok; decide) (by decide)⟩

/-! ## The marks of the def-use matrix -/

/-- What `use_ssa_scan` changes in column `r`: at the use row `j` the mark `+` when the
operand is the register, and in the rows between the definition and `j` a blank may become
`|`. -/
theorem use_scan_chars {c n r : Nat} (hr : r < c) (nr : node) {i j : Nat} {m : List Char}
    (hij : i < j) (hj : j < n) (hlen : m.length = n * c) :
    (use_ssa_scan c nr i j r m).length = n * c ∧
    (∀ x, x ≠ j → mcell c (use_ssa_scan c nr i j r m) x r = mcell c m x r ∨
      (mcell c m x r = ' ' ∧ mcell c (use_ssa_scan c nr i j r m) x r = '|' ∧ i < x ∧ x < j)) ∧
    (nr = .ssareg r → mcell c (use_ssa_scan c nr i j r m) j r = '+') ∧
    (nr ≠ .ssareg r → use_ssa_scan c nr i j r m = m) := by
  by_cases hnr : nr = .ssareg r
  · subst hnr
    have hlen1 : (m.set (j * c + r) '+').length = n * c := by simp [hlen]
    obtain ⟨s1, s2, _⟩ := scan_back_spec hr (j - 1 - i) (j - 1) (m.set (j * c + r) '+')
      (by omega) (by omega) hlen1
    have e : use_ssa_scan c (.ssareg r) i j r m =
        scan_back c r (j - 1 - i) (j - 1) (m.set (j * c + r) '+') := by
      simp [use_ssa_scan]
    rw [e]
    refine ⟨s1, ?_, ?_, fun h => absurd rfl h⟩
    · intro x hx
      rcases s2 x r hr with h | ⟨_, h1, h2, h3, h4⟩
      · left
        rw [h, mcell_set_other _ hr hr (Or.inl (Ne.symm hx))]
      · right
        rw [mcell_set_other _ hr hr (Or.inl (Ne.symm hx))] at h1
        exact ⟨h1, h2, by omega, by omega⟩
    · intro _
      rcases s2 j r hr with h | ⟨_, _, _, h3, _⟩
      · rw [h, mcell_set_same _ hlen hr hj]
      · omega
  · have e : use_ssa_scan c nr i j r m = m := by
      cases nr with
      | ssareg u =>
        have : u ≠ r := fun h => hnr (by rw [h])
        simp [use_ssa_scan, this]
      | _ => rfl
    rw [e]
    exact ⟨hlen, fun x _ => Or.inl rfl, fun h => absurd h hnr, fun _ => rfl⟩

/-- What the body of the inner loop of `def_use_ssa_analysis` for the use row `j` changes
in column `r`. -/
theorem use_row_chars {nodes : node_list} {c n r i j : Nat} {m : List Char} (hr : r < c)
    (hij : i < j) (hj : j < n) (hlen : m.length = n * c) :
    (use_row nodes c i r m j).length = n * c ∧
    (∀ x, x ≠ j → mcell c (use_row nodes c i r m j) x r = mcell c m x r ∨
      (mcell c m x r = ' ' ∧ mcell c (use_row nodes c i r m j) x r = '|' ∧ i < x ∧ x < j)) ∧
    (∀ nd, nodes.get? j = some nd → uses_reg r nd = true →
      mcell c (use_row nodes c i r m j) j r = '+') ∧
    (∀ nd, nodes.get? j = some nd → uses_reg r nd = false →
      mcell c (use_row nodes c i r m j) j r = mcell c m j r) := by
  have hsame : use_row nodes c i r m j = m →
      (∀ nd, nodes.get? j = some nd → uses_reg r nd = false) →
      (use_row nodes c i r m j).length = n * c ∧
      (∀ x, x ≠ j → mcell c (use_row nodes c i r m j) x r = mcell c m x r ∨
        (mcell c m x r = ' ' ∧ mcell c (use_row nodes c i r m j) x r = '|' ∧ i < x ∧
          x < j)) ∧
      (∀ nd, nodes.get? j = some nd → uses_reg r nd = true →
        mcell c (use_row nodes c i r m j) j r = '+') ∧
      (∀ nd, nodes.get? j = some nd → uses_reg r nd = false →
        mcell c (use_row nodes c i r m j) j r = mcell c m j r) := by
    intro e hno
    rw [e]
    refine ⟨hlen, fun x _ => Or.inl rfl, ?_, fun _ _ _ => rfl⟩
    intro nd h1 h2
    rw [hno nd h1] at h2
    cases h2
  obtain ⟨o, hget⟩ : ∃ o, nodes.get? j = o := ⟨_, rfl⟩
  cases o with
  | none =>
    exact hsame (by simp only [use_row, hget]) (fun nd h => by rw [hget] at h; cases h)
  | some nd0 =>
    cases nd0 with
    | setreg dst rhs v =>
      cases rhs with
      | unaryop opcode l =>
        have e : use_row nodes c i r m j = use_ssa_scan c l i j r m := by
          simp only [use_row, hget]
        obtain ⟨s1, s2, s3, s4⟩ := use_scan_chars hr l hij hj hlen
        rw [e]
        refine ⟨s1, s2, ?_, ?_⟩
        · intro nd h1 h2
          rw [hget] at h1
          cases h1
          simp only [uses_reg, beq_iff_eq] at h2
          exact s3 h2
        · intro nd h1 h2
          rw [hget] at h1
          cases h1
          simp only [uses_reg, beq_eq_false_iff_ne, ne_eq] at h2
          rw [s4 h2]
      | binaryop opcode l r1 =>
        have e : use_row nodes c i r m j =
            use_ssa_scan c r1 i j r (use_ssa_scan c l i j r m) := by
          simp only [use_row, hget]
        obtain ⟨s1, s2, s3, s4⟩ := use_scan_chars hr l hij hj hlen
        obtain ⟨t1, t2, t3, t4⟩ := use_scan_chars hr r1 hij hj s1
        rw [e]
        refine ⟨t1, ?_, ?_, ?_⟩
        · intro x hx
          rcases t2 x hx with h | ⟨h1, h2, h3, h4⟩
          · rcases s2 x hx with g | ⟨g1, g2, g3, g4⟩
            · left; rw [h, g]
            · right; exact ⟨g1, by rw [h, g2], g3, g4⟩
          · rcases s2 x hx with g | ⟨g1, g2, g3, g4⟩
            · right; exact ⟨by rw [← g]; exact h1, h2, h3, h4⟩
            · rw [g2] at h1; cases h1
        · intro nd h1 h2
          rw [hget] at h1
          cases h1
          simp only [uses_reg, Bool.or_eq_true, beq_iff_eq] at h2
          by_cases hr1 : r1 = .ssareg r
          · exact t3 hr1
          · rw [t4 hr1]
            rcases h2 with h | h
            · exact s3 h
            · exact absurd h hr1
        · intro nd h1 h2
          rw [hget] at h1
          cases h1
          simp only [uses_reg, Bool.or_eq_false_iff, beq_eq_false_iff_ne, ne_eq] at h2
          rw [t4 h2.2, s4 h2.1]
      | _ =>
        exact hsame (by simp only [use_row, hget])
          (fun nd h => by rw [hget] at h; cases h; rfl)
    | _ =>
      exact hsame (by simp only [use_row, hget])
        (fun nd h => by rw [hget] at h; cases h; rfl)

theorem col_chars_congr {nodes : node_list} {c r k : Nat} {m m1 : List Char}
    (h : ∀ x, mcell c m1 x r = mcell c m x r) (hd : col_chars nodes c m r k) :
    col_chars nodes c m1 r k := by
  obtain ⟨h1, h2⟩ := hd
  refine ⟨by rw [h]; exact h1, fun x nd hx hnd => ?_⟩
  rw [h]
  exact h2 x nd hx hnd

/-- The marks the outer loop body writes in the column of the register defined at row
`i`. -/
theorem def_row_chars {nodes : node_list} {c r i : Nat} {m : List Char} {dst : reg}
    {rhs : node} {v : Option String} (hget : nodes.get? i = some (.setreg dst rhs v))
    (hdst : dst.l = r) (hr : r < c) (hlen : m.length = nodes.length * c)
    (hblank : ∀ x, mcell c m x r = ' ') :
    col_chars nodes c (def_row nodes c m i) r i := by
  have hi : i < nodes.length := get_lt_length hget
  subst hdst
  have hlen1 : (m.set (i * c + dst.l) 'v').length = nodes.length * c := by simp [hlen]
  have key := foldl_range_inv (use_row nodes c i dst.l)
    (fun j b => b.length = nodes.length * c ∧ mcell c b i dst.l = 'v' ∧
      (∀ x nd, i < x → x < j → nodes.get? x = some nd →
        (uses_reg dst.l nd = true → mcell c b x dst.l = '+') ∧
        (uses_reg dst.l nd = false → mcell c b x dst.l = ' ' ∨ mcell c b x dst.l = '|')) ∧
      ∀ x, j ≤ x → mcell c b x dst.l = ' ')
    (nodes.length - (i + 1)) (i + 1) (m.set (i * c + dst.l) 'v')
    ⟨hlen1, mcell_set_same _ hlen hr hi, fun x nd h1 h2 => by omega,
      fun x hx => by
        rw [mcell_set_other _ hr hr (Or.inl (by omega))]
        exact hblank x⟩
    (by
      intro j b hj1 hj2 ⟨b1, b2, b3, b4⟩
      obtain ⟨s1, s2, s3, s4⟩ := @use_row_chars nodes c nodes.length dst.l i j b hr
        (show i < j by omega) (show j < nodes.length by omega) b1
      refine ⟨s1, ?_, ?_, ?_⟩
      · rcases s2 i (by omega) with h | ⟨_, _, h3, _⟩
        · rw [h]; exact b2
        · omega
      · intro x nd hx1 hx2 hnd
        by_cases hxj : x = j
        · subst hxj
          refine ⟨fun hu => s3 nd hnd hu, fun hu => ?_⟩
          rw [s4 nd hnd hu]
          exact Or.inl (b4 x (Nat.le_refl _))
        · obtain ⟨c1, c2⟩ := b3 x nd hx1 (by omega) hnd
          rcases s2 x hxj with h | ⟨h1, h2, _, _⟩
          · rw [h]; exact ⟨c1, c2⟩
          · refine ⟨fun hu => ?_, fun _ => Or.inr h2⟩
            rw [c1 hu] at h1
            cases h1
      · intro x hx
        rcases s2 x (by omega) with h | ⟨_, _, _, h4⟩
        · rw [h]; exact b4 x (by omega)
        · omega)
  have e : i + 1 + (nodes.length - (i + 1)) = nodes.length := by omega
  rw [e] at key
  simp only [def_row, hget]
  obtain ⟨_, k2, k3, _⟩ := key
  exact ⟨k2, fun x nd hx hnd => k3 x nd hx (get_lt_length hnd) hnd⟩

/-- One pass of the outer loop of `def_use_ssa_analysis` keeps `marks_inv`. -/
theorem marks_step {nodes : node_list} {c i : Nat} {m : List Char}
    (hdst : ∀ k dst rhs v, nodes.get? k = some (.setreg dst rhs v) → dst.l < c)
    (huniq : ∀ k k1 dst dst1 rhs rhs1 v v1, nodes.get? k = some (.setreg dst rhs v) →
      nodes.get? k1 = some (.setreg dst1 rhs1 v1) → dst.l = dst1.l → k = k1)
    (h : marks_inv nodes c i m) : marks_inv nodes c (i + 1) (def_row nodes c m i) := by
  obtain ⟨hlen, hcols⟩ := h
  by_cases hsr : ∃ dst rhs v, nodes.get? i = some (.setreg dst rhs v)
  · obtain ⟨dst, rhs, v, hget⟩ := hsr
    have hr0 := hdst i dst rhs v hget
    have hblank : ∀ x, mcell c m x dst.l = ' ' := by
      apply (hcols dst.l hr0).2
      intro k dst1 rhs1 v1 hk hk1 heq
      have := huniq k i dst1 dst rhs1 rhs v1 v hk1 hget heq
      omega
    obtain ⟨s1, s2, s3⟩ := def_row_spec hget rfl hr0 hlen hblank
    have s4 := def_row_chars hget rfl hr0 hlen hblank
    refine ⟨s1, fun r hr => ⟨?_, ?_⟩⟩
    · intro k dst1 rhs1 v1 hk hk1 heq
      by_cases hki : k = i
      · subst hki
        rw [hget] at hk1
        cases hk1
        subst heq
        exact ⟨s3, s4⟩
      · have hne : r ≠ dst.l := by
          intro e
          exact hki (huniq k i dst1 dst rhs1 rhs v1 v hk1 hget (heq.trans e))
        obtain ⟨g1, g2⟩ := (hcols r hr).1 k dst1 rhs1 v1 (by omega) hk1 heq
        exact ⟨col_done_congr (fun x => s2 x r hr hne) g1,
          col_chars_congr (fun x => s2 x r hr hne) g2⟩
    · intro hno x
      have hne : r ≠ dst.l := fun e => hno i dst rhs v (by omega) hget e.symm
      rw [s2 x r hr hne]
      exact (hcols r hr).2 (fun k dst1 rhs1 v1 hk => hno k dst1 rhs1 v1 (by omega)) x
  · have e : def_row nodes c m i = m := by
      simp only [def_row]
      split
      · rename_i dst rhs v heq
        exact absurd ⟨_, _, _, heq⟩ hsr
      · rfl
    rw [e]
    refine ⟨hlen, fun r hr => ⟨?_, ?_⟩⟩
    · intro k dst rhs v hk hk1 hk2
      have : k ≠ i := by
        intro h; subst h; exact hsr ⟨_, _, _, hk1⟩
      exact (hcols r hr).1 k dst rhs v (by omega) hk1 hk2
    · intro hno
      exact (hcols r hr).2 (fun k dst rhs v hk => hno k dst rhs v (by omega))

/-- The matrix `def_use_ssa_analysis` computes for a sequence in which every `setreg`
defines a register below the counter and no two define the same: it returns, and the
column of every register holds its live range and its marks. -/
theorem analysis_marks {d : compiler} (hbad : d.nodes.any bad_setreg = false)
    (hdst : ∀ k dst rhs v, d.nodes.get? k = some (.setreg dst rhs v) →
      dst.l < d.ssaregcount)
    (huniq : ∀ k k1 dst dst1 rhs rhs1 v v1, d.nodes.get? k = some (.setreg dst rhs v) →
      d.nodes.get? k1 = some (.setreg dst1 rhs1 v1) → dst.l = dst1.l → k = k1) :
    ∃ d1, compiler.def_use_ssa_analysis d = .ok d1 ∧
      d1 = { d with def_use_ssa := d1.def_use_ssa } ∧
      ∀ k dst rhs v, d.nodes.get? k = some (.setreg dst rhs v) →
        col_done d.nodes d.ssaregcount d1.def_use_ssa dst.l k ∧
        col_chars d.nodes d.ssaregcount d1.def_use_ssa dst.l k := by
  have h0 : marks_inv d.nodes d.ssaregcount 0
      (List.replicate (d.nodes.length * d.ssaregcount) ' ') := by
    refine ⟨by simp, fun r _ => ⟨fun k _ _ _ hk => absurd hk (Nat.not_lt_zero _), ?_⟩⟩
    intro _ x
    simp [mcell, List.getD_eq_getElem?_getD, List.getElem?_replicate]
    split <;> rfl
  have key := foldl_range_inv (def_row d.nodes d.ssaregcount)
    (marks_inv d.nodes d.ssaregcount) d.nodes.length 0 _ h0
    (fun j b _ _ hb => marks_step hdst huniq hb)
  rw [Nat.zero_add, ← List.range_eq_range'] at key
  refine ⟨{ d with def_use_ssa := (List.foldl (def_row d.nodes d.ssaregcount)
    (List.replicate (d.nodes.length * d.ssaregcount) ' ') (List.range d.nodes.length)) },
    ?_, rfl, ?_⟩
  · simp only [compiler.def_use_ssa_analysis, hbad, Bool.false_eq_true, if_false]
  · intro k dst rhs v hget
    exact (key.2 dst.l (hdst k dst rhs v hget)).1 k dst rhs v (get_lt_length hget) hget rfl

/-! ## The example sequence as an input of the analysis -/

theorem example_lowered_dests (target : backend) : ∀ k dst rhs v,
    (example_lowered target).nodes.get? k = some (.setreg dst rhs v) →
    dst.l < (example_lowered target).ssaregcount := by
  intro k dst rhs v h
  have hk : k < 7 := get_lt_length h
  simp only [example_lowered, example_lowered_nodes] at h ⊢
  interval_cases k <;> simp at h <;> (obtain ⟨rfl, _, _⟩ := h; decide)

theorem example_lowered_unique (target : backend) : ∀ k k1 dst dst1 rhs rhs1 v v1,
    (example_lowered target).nodes.get? k = some (.setreg dst rhs v) →
    (example_lowered target).nodes.get? k1 = some (.setreg dst1 rhs1 v1) →
    dst.l = dst1.l → k = k1 := by
  intro k k1 dst dst1 rhs rhs1 v v1 h h1 he
  have hk : k < 7 := get_lt_length h
  have hk1 : k1 < 7 := get_lt_length h1
  simp only [example_lowered, example_lowered_nodes] at h h1
  interval_cases k <;> simp at h <;> obtain ⟨rfl, _, _⟩ := h <;>
    interval_cases k1 <;> simp at h1 <;> obtain ⟨rfl, _, _⟩ := h1 <;>
    first | rfl | (simp [reg.l] at he)

theorem example_lowered_uses (target : backend) : ∀ k dst rhs v j nd,
    (example_lowered target).nodes.get? k = some (.setreg dst rhs v) →
    (example_lowered target).nodes.get? j = some nd → uses_reg dst.l nd = true → k < j := by
  intro k dst rhs v j nd h h1 hu
  have hk : k < 7 := get_lt_length h
  have hk1 : j < 7 := get_lt_length h1
  simp only [example_lowered, example_lowered_nodes] at h h1
  interval_cases k <;> simp at h <;> obtain ⟨rfl, _, _⟩ := h <;>
    interval_cases j <;> simp at h1 <;> subst h1 <;>
    first | omega | (simp [uses_reg, reg.l] at hu)

/-! ## C20: the marks of the def-use matrix -/

/-- C20: on a sequence in which only `setreg` nodes carry `op_setreg`, whose `setreg` nodes
define registers numbered below `ssaregcount`, no two of them the same register, and in
which the rows having a register as a direct operand come after the row defining it,
`def_use_ssa_analysis` returns, and for every
register `r` defined at row `k`: cell `(k, r)` is `v`; cell `(j, r)` is `+` for every row
`j` using `r`; cell `(x, r)` is `|` for every row `x` after `k` and before some row using
`r` that does not itself use `r`; every cell of column `r` before `k`, or after `k` with no
use of `r` at or after it, is blank; and the non-blank cells of column `r` are the rows from
`k` to the last use. -/
theorem C20_matrix_marks_live_range (d : compiler) (hbad : d.nodes.any bad_setreg = false)
    (hdst : ∀ k dst rhs v, d.nodes.get? k = some (.setreg dst rhs v) →
      dst.l < d.ssaregcount)
    (huniq : ∀ k k1 dst dst1 rhs rhs1 v v1, d.nodes.get? k = some (.setreg dst rhs v) →
      d.nodes.get? k1 = some (.setreg dst1 rhs1 v1) → dst.l = dst1.l → k = k1)
    (huse : ∀ k dst rhs v j nd, d.nodes.get? k = some (.setreg dst rhs v) →
      d.nodes.get? j = some nd → uses_reg dst.l nd = true → k < j) :
    ∃ d1, compiler.def_use_ssa_analysis d = .ok d1 ∧
      ∀ k dst rhs v, d.nodes.get? k = some (.setreg dst rhs v) →
        d1.cell k dst.l = 'v' ∧
        (∀ j nd, d.nodes.get? j = some nd → uses_reg dst.l nd = true →
          d1.cell j dst.l = '+') ∧
        (∀ x nx j nd, k < x → x < j → d.nodes.get? x = some nx →
          uses_reg dst.l nx = false → d.nodes.get? j = some nd →
          uses_reg dst.l nd = true → d1.cell x dst.l = '|') ∧
        (∀ x, (x < k ∨ (k < x ∧ ∀ j nd, x ≤ j → d.nodes.get? j = some nd →
          uses_reg dst.l nd = false)) → d1.cell x dst.l = ' ') ∧
        col_done d.nodes d.ssaregcount d1.def_use_ssa dst.l k := by
  obtain ⟨d1, h1, h2, h3⟩ := analysis_marks hbad hdst huniq
  refine ⟨d1, h1, fun k dst rhs v hget => ?_⟩
  obtain ⟨hdone, hv, hch⟩ := h3 k dst rhs v hget
  have hc : ∀ x, d1.cell x dst.l = mcell d.ssaregcount d1.def_use_ssa x dst.l := by
    intro x
    rw [h2]
    rfl
  obtain ⟨hi, g1, g2, ⟨g3, g4⟩, g5, g6⟩ := hdone
  refine ⟨by rw [hc]; exact hv, ?_, ?_, ?_, ⟨hi, g1, g2, ⟨g3, g4⟩, g5, g6⟩⟩
  · intro j nd hj hu
    rw [hc]
    exact (hch j nd (huse k dst rhs v j nd hget hj hu) hj).1 hu
  · intro x nx j nd hkx hxj hx hnu hj hu
    rw [hc]
    rcases (hch x nx hkx hx).2 hnu with h | h
    · exact absurd h (g3 x (by omega) (by have := g6 j nd (by omega) hj hu; omega))
    · exact h
  · intro x hx
    rw [hc]
    apply g4
    rcases hx with hx | ⟨hx, hno⟩
    · exact Or.inl hx
    · right
      rcases g5 with rfl | ⟨nd, hnd, hu⟩
      · exact hx
      · by_contra hcon
        have := hno hi nd (by omega) hnd
        rw [hu] at this
        cases this

/-- Witness for C20: the lowered example; the column of `_0` (defined at row 1, used at
row 3) reads blank, `v`, `|`, `+`, blank. -/
theorem C20_matrix_marks_live_range_witness :
    ∃ d1, compiler.def_use_ssa_analysis (example_lowered sample_backend) = .ok d1 ∧
      d1.cell 0 0 = ' ' ∧ d1.cell 1 0 = 'v' ∧ d1.cell 2 0 = '|' ∧ d1.cell 3 0 = '+' ∧
      d1.cell 4 0 = ' ' := by
  obtain ⟨d1, h1, h2⟩ := C20_matrix_marks_live_range (example_lowered sample_backend)
    (by decide) (example_lowered_dests sample_backend)
    (example_lowered_unique sample_backend) (example_lowered_uses sample_backend)
  obtain ⟨a, b, c, e, _⟩ := h2 1 (.ssareg 0) (.unaryop .op_li (.imm 3)) (some "x") rfl
  refine ⟨d1, h1, e 0 (Or.inl (by decide)), a, ?_, b 3 _ rfl rfl, ?_⟩
  · exact c 2 _ 3 _ (by decide) (by decide) rfl rfl rfl rfl
  · refine e 4 (Or.inr ⟨by decide, fun j nd hj hnd => ?_⟩)
    have hlt : j < 7 := get_lt_length hnd
    simp only [example_lowered, example_lowered_nodes] at hnd
    interval_cases j <;> simp at hnd <;> subst hnd <;> rfl

/-! ## Lowering of a literal -/

theorem limb_at_zero_value (v : nat) (hv : limbs_ok v) :
    v.limb_at 0 = nat.value v % 2 ^ 32 := by
  obtain ⟨l⟩ := v
  cases l with
  | nil => rfl
  | cons x rest =>
    have hx : x < 2 ^ 32 := hv x (List.mem_cons_self _ _)
    rw [value_cons]
    simp only [nat.limb_at, List.getD_cons_zero]
    omega

theorem eval_li_imm (X : ext_ops) (fuel : Nat) (l : reg) (r : Int) (v : Option String)
    (s : compiler) :
    node.eval X (fuel + 3) (.setreg l (.unaryop .op_li (.imm r)) v) s =
      .ok (nat.of_limb r,
        { s with reg_values := fn_set s.reg_values l.l (nat.of_limb r) }) := by
  simp [node.eval, bind, Except.bind, pure, Except.pure, copy_of_limb]

/-- C23: lowering the literal `v` takes the SSA index `ssaregcount`, raises the counter by
one and returns the single instruction `setreg(ssareg, unaryop(li, imm(limb_at(0))))`; the
immediate, read back as a limb, is `value(v) mod 2^32`; evaluating the instruction (in any
state `s`) yields a number of that value and stores it under the index; and the value is
`value(v)` exactly when `value(v) < 2^32`. -/
theorem C23_const_int_lowering (X : ext_ops) (v : nat) (d s : compiler) (fuel : Nat)
    (hv : limbs_ok v) :
    node.lower (.const_int v) d =
      .ok ([.setreg (.ssareg d.ssaregcount) (.unaryop .op_li (.imm (to_int (v.limb_at 0)))) none],
        { d with ssaregcount := d.ssaregcount + 1 }) ∧
    to_limb (to_int (v.limb_at 0)) = nat.value v % 2 ^ 32 ∧
    (∃ w s1, node.eval X (fuel + 3)
        (.setreg (.ssareg d.ssaregcount) (.unaryop .op_li (.imm (to_int (v.limb_at 0)))) none)
        s = .ok (w, s1) ∧
      nat.value w = nat.value v % 2 ^ 32 ∧ s1.reg_values d.ssaregcount = some w) ∧
    (nat.value v % 2 ^ 32 = nat.value v ↔ nat.value v < 2 ^ 32) := by
  have hlow : to_limb (to_int (v.limb_at 0)) = nat.value v % 2 ^ 32 := by
    rw [to_limb_to_int, limb_at_zero_value v hv, Nat.mod_mod]
  refine ⟨rfl, hlow, ⟨_, _, eval_li_imm X fuel _ _ _ s, ?_, ?_⟩, ?_⟩
  · rw [← hlow]
    simp [nat.of_limb, nat.value]
  · simp [fn_set, reg.l]
  · constructor
    · intro h
      rw [← h]
      exact Nat.mod_lt _ (by norm_num)
    · exact Nat.mod_eq_of_lt

/-- Witness for C23: the literal `2^32 + 7` (limbs 7 and 1), lowered at counter 0: the
instruction is `_0 := li 7` and evaluates to 7. -/
theorem C23_const_int_lowering_witness :
    limbs_ok ⟨[7, 1]⟩ ∧
    node.lower (.const_int ⟨[7, 1]⟩) (compiler.ctor sample_backend) =
      .ok ([.setreg (.ssareg 0) (.unaryop .op_li (.imm 7)) none],
        { compiler.ctor sample_backend with ssaregcount := 1 }) ∧
    nat.value ⟨[7, 1]⟩ % 2 ^ 32 = 7 :=
  ⟨by unfold limbs_ok; decide,
    (C23_const_int_lowering ext_absent ⟨[7, 1]⟩ (compiler.ctor sample_backend)
      (compiler.ctor sample_backend) 0 (by unfold limbs_ok; decide)).1,
    by decide⟩

/-! ## Division by a divisor of value zero -/

theorem value_zero_limbs : ∀ l : List Nat, nat.value ⟨l⟩ = 0 → ∀ x ∈ l, x = 0
  | [], _ => fun x hx => absurd hx (List.not_mem_nil x)
  | y :: rest, h => by
    rw [value_cons] at h
    intro x hx
    rcases List.mem_cons.1 hx with rfl | hx
    · omega
    · exact value_zero_limbs rest (by
        rcases Nat.eq_zero_or_pos (nat.value ⟨rest⟩) with h0 | h0
        · exact h0
        · have : 0 < 2 ^ 32 * nat.value ⟨rest⟩ := Nat.mul_pos (by norm_num) h0
          omega) x hx

/-- A divisor of value zero with at most one limb more than the dividend stops `divrem` at
its guard: quotient and remainder are returned with the value zero. -/
theorem divrem_zero_divisor (a b : nat) (hb : nat.value b = 0)
    (hlen : b.limbs.length ≤ a.limbs.length + 1) (hmax : a.limbs.length < vector_max_size) :
    ∃ q r, nat.divrem a b = some (q, r) ∧ nat.value q = 0 ∧ nat.value r = 0 := by
  have hz : ∀ x ∈ b.limbs, x = 0 := value_zero_limbs b.limbs hb
  have hlast : b.limbs.getD (b.limbs.length - 1) 0 = 0 := by
    rcases Nat.lt_or_ge (b.limbs.length - 1) b.limbs.length with h | h
    · rw [List.getD_eq_getElem _ _ h]
      exact hz _ (List.getElem_mem _)
    · rw [List.getD_eq_default _ _ h]
  have hq : to_limb2 ((a.limbs.length : Int) - (b.limbs.length : Int) + 1) =
      a.limbs.length + 1 - b.limbs.length := by
    simp only [to_limb2, vector_max_size] at hmax ⊢
    omega
  have hsize : ¬ (max (a.limbs.length + 1 - b.limbs.length) 1 > vector_max_size) := by
    simp only [vector_max_size] at hmax ⊢
    omega
  refine ⟨⟨nat.vec_resize [0] (max (a.limbs.length + 1 - b.limbs.length) 1)⟩,
    ⟨nat.vec_resize [0] b.limbs.length⟩, ?_, ?_, ?_⟩
  · simp only [nat.divrem, hq, hsize, if_false, hlast, or_true, if_true]
  · rw [vec_resize_zero, value_replicate_zero]
  · rw [vec_resize_zero, value_replicate_zero]

/-- C24 fails on the code for a divisor of value zero that has two limbs more than the
dividend. The limb vector `{0, 0, 0}` is what `mult` leaves in its `result` for
`(0 * 0) * 0` (it resizes `result` to `m + n` limbs and does not contract), and dividing
`5` by it has no result: the `size_t` expression `m - n + 1` wraps to `2^64 - 1` and
`quotient.limbs.resize` throws before the guard for invalid parameters is reached. -/
theorem C24_long_zero_divisor_throws :
    nat.mult (nat.mult ⟨[0]⟩ ⟨[0]⟩ ⟨[0]⟩) ⟨[0]⟩ ⟨[0]⟩ = ⟨[0, 0, 0]⟩ ∧
    nat.op_mul (nat.op_mul ⟨[0]⟩ ⟨[0]⟩) ⟨[0]⟩ = ⟨[0, 0, 0]⟩ ∧
    nat.value ⟨[0, 0, 0]⟩ = 0 ∧
    nat.divrem ⟨[5]⟩ ⟨[0, 0, 0]⟩ = none ∧
    nat.op_div ⟨[5]⟩ ⟨[0, 0, 0]⟩ = none ∧ nat.op_rem ⟨[5]⟩ ⟨[0, 0, 0]⟩ = none := by
  decide

/-! ## Short division: quotient and remainder -/

/-- C28 as stated fails on the code for a dividend of more than `2^31` limbs: the single
digit loop counts with `int j = m - 1`, which starts negative, so for the normalised vector
of `2^31 + 1` limbs `1` and the divisor `1` the quotient returned is zero, not the
dividend. -/
theorem C28_wide_dividend_quotient_zero :
    limbs_ok ⟨List.replicate (2 ^ 31 + 1) 1⟩ ∧
    nat.copy ⟨List.replicate (2 ^ 31 + 1) 1⟩ = ⟨List.replicate (2 ^ 31 + 1) 1⟩ ∧
    nat.divrem ⟨List.replicate (2 ^ 31 + 1) 1⟩ ⟨[1]⟩ =
      some (⟨List.replicate (2 ^ 31 + 1) 0⟩, ⟨[0]⟩) ∧
    nat.value ⟨List.replicate (2 ^ 31 + 1) 0⟩ ≠ nat.value ⟨List.replicate (2 ^ 31 + 1) 1⟩ / 1 := by
  have hlen : (List.replicate (2 ^ 31 + 1) 1).length = 2 ^ 31 + 1 := List.length_replicate _ _
  have hdiv := divrem_wide ⟨List.replicate (2 ^ 31 + 1) 1⟩ 1
    (by simp only [hlen]; norm_num) (by simp only [hlen]; norm_num) (by norm_num)
  simp only [hlen] at hdiv
  refine ⟨limbs_ok_replicate_one _, copy_replicate_one _, hdiv, ?_⟩
  rw [value_replicate_zero, Nat.div_one]
  exact (value_replicate_one (by norm_num)).symm

/-- C28 (amended): for a limb vector `a` of at most `2^31` limbs and a divisor `b` of one
limb `v0` with `0 < v0 < 2^32`, `divrem` returns a quotient of value
`floor(value(a) / v0)` and a remainder of value `value(a) mod v0`, which are the results of
`a / b` and `a % b`, although the loop keeps its running remainder from the 32 bit product
`q[j] * v[0]` and `k * b` wraps modulo `2^64`. -/
theorem C28_short_division_exact (a b : nat) (v0 : Nat) (ha : limbs_ok a)
    (hm : a.limbs.length ≤ 2 ^ 31) (hb : b.limbs = [v0]) (h0 : 0 < v0) (hv : v0 < 2 ^ 32) :
    ∃ q r, nat.divrem a b = some (q, r) ∧ nat.op_div a b = some q ∧ nat.op_rem a b = some r ∧
      nat.value q = nat.value a / v0 ∧ nat.value r = nat.value a % v0 := by
  obtain ⟨q, r, h1, h2, h3, _⟩ := divrem_single_spec a b v0 ha hm hb h0 hv
  refine ⟨q, r, h1, by simp [nat.op_div, h1], by simp [nat.op_rem, h1], ?_, ?_⟩
  · rw [h2, Nat.mul_comm, Nat.mul_add_div h0, Nat.div_eq_of_lt h3, Nat.add_zero]
  · rw [h2, Nat.mul_comm, Nat.mul_add_mod, Nat.mod_eq_of_lt h3]

/-- Witness for C28: `2^32 + 5` divided by `7` is `613566757`, remainder `2`. -/
theorem C28_short_division_exact_witness :
    (limbs_ok ⟨[5, 1]⟩ ∧ (nat.mk [5, 1]).limbs.length ≤ 2 ^ 31) ∧
    nat.divrem ⟨[5, 1]⟩ ⟨[7]⟩ = some (⟨[613566757, 0]⟩, ⟨[2]⟩) ∧
    ∃ q r, nat.divrem ⟨[5, 1]⟩ ⟨[7]⟩ = some (q, r) ∧ nat.op_div ⟨[5, 1]⟩ ⟨[7]⟩ = some q ∧
      nat.op_rem ⟨[5, 1]⟩ ⟨[7]⟩ = some r ∧
      nat.value q = nat.value ⟨[5, 1]⟩ / 7 ∧ nat.value r = nat.value ⟨[5, 1]⟩ % 7 :=
  ⟨⟨by unfold limbs_ok; decide, by decide⟩, by decide,
    C28_short_division_exact ⟨[5, 1]⟩ ⟨[7]⟩ 7 (by unfold limbs_ok; decide) (by decide) rfl
      (by decide) (by decide)⟩

/-! ## Lowering of an assignment -/

/-- What `setvar::lower` returns when the list lowered from the right-hand side ends with a
`setreg`: the same list with the name attached to that `setreg`, and the renaming map
binding the name to its destination. -/
theorem lower_setvar_of_setreg {x : String} {e : node} {d d1 : compiler} {L : node_list}
    {dst : reg} {rhs : node} {v : Option String} (h : node.lower e d = .ok (L, d1))
    (hlast : L.getLast? = some (.setreg dst rhs v)) :
    node.lower (.setvar x e) d =
      .ok (L.dropLast ++ [.setreg dst rhs (some x)],
        { d1 with var_ssa := fn_set d1.var_ssa x dst.l }) := by
  simp [node.lower, h, hlast, bind, Except.bind, pure, Except.pure]

/-- C21 fails on the code for a right-hand side that is a variable read. In the program
`x = 1; y = x` the list `var::lower` returns for `x` is the single bare node `ssareg 0`,
not a `setreg`; `setvar::lower` casts that node to `setreg` and writes its field `v`, which
is undefined, so neither the assignment nor the program has a lowered form. -/
theorem C21_variable_read_has_no_setreg :
    node.lower (.var "x")
        { compiler.ctor sample_backend with
          var_ssa := fn_set (fun _ => none) "x" 0, ssaregcount := 1 } =
      .ok ([.ssareg 0],
        { compiler.ctor sample_backend with
          var_ssa := fn_set (fun _ => none) "x" 0, ssaregcount := 1 }) ∧
    node.lower (.setvar "y" (.var "x"))
        { compiler.ctor sample_backend with
          var_ssa := fn_set (fun _ => none) "x" 0, ssaregcount := 1 } = .error .undefined ∧
    compiler.lower false (compiler.of_program sample_backend
        [.setvar "x" (.const_int (nat.of_limb 1)), .setvar "y" (.var "x")]) =
      .error .undefined :=
  ⟨rfl, rfl, rfl⟩

/-! ## Evaluation of a self-referencing assignment -/

/-- The evaluator on a tree without an assignment to `x`, in a state that binds `x` to an
expression `e` reading `x` and whose other bindings hold no assignment to `x`: a returning
evaluation leaves such a state, and a tree that reads `x` has no returning evaluation. -/
theorem eval_self_reference (X : ext_ops) (x : String) (e : node)
    (he : node.assigns x e = false) (hr : reads_var x e = true) :
    ∀ (fuel : Nat) (t : node) (s : compiler), node.assigns x t = false →
      s.var_name x = some e →
      (∀ y n, y ≠ x → s.var_name y = some n → node.assigns x n = false) →
      (∀ v s1, node.eval X fuel t s = .ok (v, s1) →
        s1.var_name x = some e ∧
        ∀ y n, y ≠ x → s1.var_name y = some n → node.assigns x n = false) ∧
      (reads_var x t = true → ∃ err, node.eval X fuel t s = .error err) := by
  intro fuel
  induction fuel with
  | zero =>
    intro t s _ _ _
    exact ⟨fun v s1 h => by simp [node.eval] at h, fun _ => ⟨.fuel, rfl⟩⟩
  | succ f ih =>
    intro t s ht hx hs
    cases t with
    | const_int r =>
      refine ⟨fun v s1 h => ?_, fun h => by simp [reads_var] at h⟩
      simp only [node.eval, Except.ok.injEq, Prod.mk.injEq] at h
      rw [← h.2]; exact ⟨hx, hs⟩
    | imm r =>
      refine ⟨fun v s1 h => ?_, fun h => by simp [reads_var] at h⟩
      simp only [node.eval, Except.ok.injEq, Prod.mk.injEq] at h
      rw [← h.2]; exact ⟨hx, hs⟩
    | ssareg l =>
      refine ⟨fun v s1 h => ?_, fun h => by simp [reads_var] at h⟩
      simp only [node.eval, Except.ok.injEq, Prod.mk.injEq] at h
      rw [← h.2]; exact ⟨hx, hs⟩
    | mi l =>
      refine ⟨fun v s1 h => ?_, fun h => by simp [reads_var] at h⟩
      simp only [node.eval, Except.ok.injEq, Prod.mk.injEq] at h
      rw [← h.2]; exact ⟨hx, hs⟩
    | phyreg p =>
      refine ⟨fun v s1 h => ?_, fun h => by simp [reads_var] at h⟩
      simp only [node.eval] at h
      split at h <;>
        (simp only [Except.ok.injEq, Prod.mk.injEq] at h; rw [← h.2]; exact ⟨hx, hs⟩)
    | var y =>
      by_cases hy : y = x
      · subst hy
        have e1 : node.eval X (f + 1) (.var y) s = node.eval X f e s := by
          simp only [node.eval, hx]
        rw [e1]
        exact ⟨(ih e s he hx hs).1, fun _ => (ih e s he hx hs).2 hr⟩
      · refine ⟨fun v s1 h => ?_, fun h => by simp [reads_var, hy] at h⟩
        simp only [node.eval] at h
        split at h
        · rename_i bound hb
          exact (ih bound s (hs y bound hy hb) hx hs).1 v s1 h
        · simp only [Except.ok.injEq, Prod.mk.injEq] at h
          rw [← h.2]; exact ⟨hx, hs⟩
    | setvar y r =>
      simp only [node.assigns, Bool.or_eq_false_iff, beq_eq_false_iff_ne, ne_eq] at ht
      refine ⟨fun v s1 h => ?_, fun h => by simp [reads_var] at h⟩
      simp only [node.eval] at h
      refine (ih r _ ht.2 ?_ ?_).1 v s1 h
      · simp only [fn_set]
        rw [if_neg (fun h => ht.1 h.symm)]
        exact hx
      · intro z n hz hn
        simp only [fn_set] at hn
        split at hn
        · cases hn; exact ht.2
        · exact hs z n hz hn
    | setreg dst r w =>
      simp only [node.assigns] at ht
      refine ⟨fun v s1 h => ?_, fun h => by simp [reads_var] at h⟩
      simp only [node.eval, bind, Except.bind] at h
      split at h
      · cases h
      · rename_i r1 h1
        simp only [pure, Except.pure, Except.ok.injEq, Prod.mk.injEq] at h
        rw [← h.2]
        exact (ih r s ht hx hs).1 r1.1 r1.2 h1
    | unaryop opcode l =>
      simp only [node.assigns] at ht
      obtain ⟨k1, k2⟩ := ih l s ht hx hs
      constructor
      · intro v s1 h
        simp only [node.eval] at h
        split at h
        · simp only [bind, Except.bind] at h
          split at h
          · cases h
          · rename_i r1 h1
            simp only [pure, Except.pure, Except.ok.injEq, Prod.mk.injEq] at h
            rw [← h.2]; exact k1 _ _ h1
        · simp only [bind, Except.bind] at h
          split at h
          · cases h
          · rename_i r1 h1
            split at h
            · cases h
            · simp only [pure, Except.pure, Except.ok.injEq, Prod.mk.injEq] at h
              rw [← h.2]; exact k1 _ _ h1
        · simp only [bind, Except.bind] at h
          split at h
          · cases h
          · rename_i r1 h1
            split at h
            · cases h
            · simp only [pure, Except.pure, Except.ok.injEq, Prod.mk.injEq] at h
              rw [← h.2]; exact k1 _ _ h1
        · simp only [Except.ok.injEq, Prod.mk.injEq] at h
          rw [← h.2]; exact ⟨hx, hs⟩
      · intro hrd
        simp only [reads_var, Bool.and_eq_true, Bool.or_eq_true, beq_iff_eq] at hrd
        obtain ⟨err, herr⟩ := k2 hrd.2
        rcases hrd.1 with (h | h) | h <;> subst h <;>
          exact ⟨err, by simp [node.eval, herr, bind, Except.bind]⟩
    | binaryop opcode l r =>
      simp only [node.assigns, Bool.or_eq_false_iff] at ht
      obtain ⟨k1, k2⟩ := ih l s ht.1 hx hs
      constructor
      · intro v s1 h
        simp only [node.eval] at h
        split at h
        · simp only [bind, Except.bind] at h
          split at h
          · cases h
          · rename_i r1 h1
            obtain ⟨g1, g2⟩ := k1 _ _ h1
            split at h
            · cases h
            · rename_i r2 h2
              have g3 := (ih r r1.2 ht.2 g1 g2).1 _ _ h2
              split at h
              · split at h
                · cases h
                · simp only [pure, Except.pure, Except.ok.injEq, Prod.mk.injEq] at h
                  rw [← h.2]; exact g3
              · simp only [pure, Except.pure, Except.ok.injEq, Prod.mk.injEq] at h
                rw [← h.2]; exact g3
        · simp only [Except.ok.injEq, Prod.mk.injEq] at h
          rw [← h.2]; exact ⟨hx, hs⟩
      · intro hrd
        simp only [reads_var, Bool.and_eq_true, Bool.or_eq_true] at hrd
        obtain ⟨hop, hlr⟩ := hrd
        cases h1 : node.eval X f l s with
        | error err => exact ⟨err, by simp [node.eval, hop, h1, bind, Except.bind]⟩
        | ok r1 =>
          obtain ⟨g1, g2⟩ := k1 _ _ h1
          rcases hlr with hl | hr1
          · obtain ⟨err, herr⟩ := k2 hl
            rw [herr] at h1
            cases h1
          · obtain ⟨err, herr⟩ := (ih r r1.2 ht.2 g1 g2).2 hr1
            exact ⟨err, by simp [node.eval, hop, h1, herr, bind, Except.bind]⟩

/-- The evaluator on a tree none of whose numeric operations can fail, in a state whose
bindings are such trees: it ends with a value or by running out of fuel, and leaves such a
state. -/
theorem eval_plain (X : ext_ops) : ∀ (fuel : Nat) (t : node) (s : compiler),
    plain_tree t = true → (∀ y n, s.var_name y = some n → plain_tree n = true) →
    (∀ err, node.eval X fuel t s = .error err → err = .fuel) ∧
    (∀ v s1, node.eval X fuel t s = .ok (v, s1) →
      ∀ y n, s1.var_name y = some n → plain_tree n = true) := by
  intro fuel
  induction fuel with
  | zero =>
    intro t s _ _
    exact ⟨fun err h => by simp only [node.eval, Except.error.injEq] at h; exact h.symm,
      fun v s1 h => by simp [node.eval] at h⟩
  | succ f ih =>
    intro t s ht hs
    cases t with
    | const_int r =>
      refine ⟨fun err h => by simp [node.eval] at h, fun v s1 h => ?_⟩
      simp only [node.eval, Except.ok.injEq, Prod.mk.injEq] at h
      rw [← h.2]; exact hs
    | imm r =>
      refine ⟨fun err h => by simp [node.eval] at h, fun v s1 h => ?_⟩
      simp only [node.eval, Except.ok.injEq, Prod.mk.injEq] at h
      rw [← h.2]; exact hs
    | ssareg l =>
      refine ⟨fun err h => by simp [node.eval] at h, fun v s1 h => ?_⟩
      simp only [node.eval, Except.ok.injEq, Prod.mk.injEq] at h
      rw [← h.2]; exact hs
    | mi l =>
      refine ⟨fun err h => by simp [node.eval] at h, fun v s1 h => ?_⟩
      simp only [node.eval, Except.ok.injEq, Prod.mk.injEq] at h
      rw [← h.2]; exact hs
    | phyreg p =>
      refine ⟨fun err h => ?_, fun v s1 h => ?_⟩
      · simp only [node.eval] at h
        split at h <;> cases h
      · simp only [node.eval] at h
        split at h <;>
          (simp only [Except.ok.injEq, Prod.mk.injEq] at h; rw [← h.2]; exact hs)
    | var y =>
      simp only [node.eval]
      split
      · rename_i bound hb
        exact ih bound s (hs y bound hb) hs
      · refine ⟨fun err h => (by cases h), fun v s1 h => ?_⟩
        simp only [Except.ok.injEq, Prod.mk.injEq] at h
        rw [← h.2]; exact hs
    | setvar y r =>
      simp only [plain_tree] at ht
      simp only [node.eval]
      refine ih r _ ht ?_
      intro z n hn
      simp only [fn_set] at hn
      split at hn
      · cases hn; exact ht
      · exact hs z n hn
    | setreg dst r w =>
      simp only [plain_tree] at ht
      obtain ⟨k1, k2⟩ := ih r s ht hs
      simp only [node.eval, bind, Except.bind]
      split
      · rename_i e1 h1
        exact ⟨fun err h => by cases h; exact k1 _ h1, fun v s1 h => by cases h⟩
      · rename_i r1 h1
        refine ⟨fun err h => (by cases h), fun v s1 h => ?_⟩
        simp only [pure, Except.pure, Except.ok.injEq, Prod.mk.injEq] at h
        rw [← h.2]
        exact k2 r1.1 r1.2 h1
    | unaryop opcode l =>
      simp only [plain_tree, Bool.and_eq_true, Bool.not_eq_true', Bool.or_eq_false_iff,
        beq_eq_false_iff_ne, ne_eq] at ht
      obtain ⟨⟨hn1, hn2⟩, hl⟩ := ht
      obtain ⟨k1, k2⟩ := ih l s hl hs
      simp only [node.eval]
      split
      · simp only [bind, Except.bind]
        split
        · rename_i e1 h1
          exact ⟨fun err h => by cases h; exact k1 _ h1, fun v s1 h => by cases h⟩
        · rename_i r1 h1
          refine ⟨fun err h => (by cases h), fun v s1 h => ?_⟩
          simp only [pure, Except.pure, Except.ok.injEq, Prod.mk.injEq] at h
          rw [← h.2]
          exact k2 r1.1 r1.2 h1
      · exact absurd rfl hn1
      · exact absurd rfl hn2
      · refine ⟨fun err h => (by cases h), fun v s1 h => ?_⟩
        simp only [Except.ok.injEq, Prod.mk.injEq] at h
        rw [← h.2]; exact hs
    | binaryop opcode l r =>
      simp only [plain_tree, Bool.and_eq_true, Bool.or_eq_true, Bool.not_eq_true'] at ht
      obtain ⟨⟨hop, hl⟩, hr⟩ := ht
      obtain ⟨k1, k2⟩ := ih l s hl hs
      simp only [node.eval]
      split
      · rename_i hbin
        have hnf : no_fail_op opcode = true := by
          rcases hop with h | h
          · exact h
          · rw [hbin] at h; cases h
        simp only [bind, Except.bind]
        split
        · rename_i e1 h1
          exact ⟨fun err h => by cases h; exact k1 _ h1, fun v s1 h => by cases h⟩
        · rename_i r1 h1
          obtain ⟨g1, g2⟩ := ih r r1.2 hr (k2 r1.1 r1.2 h1)
          split
          · rename_i e2 h2
            exact ⟨fun err h => by cases h; exact g1 _ h2, fun v s1 h => by cases h⟩
          · rename_i r2 h2
            obtain ⟨_, w, hw⟩ := eval_binary_no_fail X hnf r1.1 r2.1
            simp only [hw, lift_num, pure, Except.pure]
            refine ⟨fun err h => (by cases h), fun v s1 h => ?_⟩
            simp only [Except.ok.injEq, Prod.mk.injEq] at h
            rw [← h.2]
            exact g2 r2.1 r2.2 h2
      · refine ⟨fun err h => (by cases h), fun v s1 h => ?_⟩
        simp only [Except.ok.injEq, Prod.mk.injEq] at h
        rw [← h.2]; exact hs

theorem eval_setvar_self (X : ext_ops) (x : String) (e : node) (d : compiler) (fuel : Nat)
    (hr : reads_var x e = true) (he : node.assigns x e = false)
    (hs : ∀ y n, y ≠ x → d.var_name y = some n → node.assigns x n = false) :
    (∃ err, node.eval X fuel (.setvar x e) d = .error err) ∧
    ((plain_tree e = true ∧ ∀ y n, y ≠ x → d.var_name y = some n → plain_tree n = true) →
      node.eval X fuel (.setvar x e) d = .error .fuel) := by
  cases fuel with
  | zero => exact ⟨⟨.fuel, rfl⟩, fun _ => rfl⟩
  | succ f =>
    have hx : fn_set d.var_name x e x = some e := by simp [fn_set]
    have hs1 : ∀ y n, y ≠ x → fn_set d.var_name x e y = some n →
        node.assigns x n = false := by
      intro y n hy hn
      simp only [fn_set, if_neg hy] at hn
      exact hs y n hy hn
    obtain ⟨err, herr⟩ := (eval_self_reference X x e he hr f e
      { d with var_name := fn_set d.var_name x e } he hx hs1).2 hr
    have e1 : node.eval X (f + 1) (.setvar x e) d =
        node.eval X f e { d with var_name := fn_set d.var_name x e } := by
      simp only [node.eval]
    rw [e1]
    refine ⟨⟨err, herr⟩, fun hp => ?_⟩
    have := (eval_plain X f e { d with var_name := fn_set d.var_name x e } hp.1 (by
      intro y n hn
      simp only [fn_set] at hn
      split at hn
      · cases hn; exact hp.1
      · rename_i hy
        exact hp.2 y n hy hn)).1 err herr
    rw [herr, this]

/-- The run over `x = c; x = e` where `e` reads `x`: the first assignment is evaluated, the
second runs out of fuel (or the first does, for less than two units of fuel). -/
theorem run_self_reference (X : ext_ops) (x : String) (c : nat) (e : node) (d0 : compiler)
    (fuel : Nat) (hr : reads_var x e = true) (he : node.assigns x e = false)
    (hp : plain_tree e = true)
    (hs : ∀ y n, y ≠ x → d0.var_name y = some n →
      node.assigns x n = false ∧ plain_tree n = true) :
    run_loop X fuel .op_setvar [.setvar x (.const_int c), .setvar x e] d0 = .error .fuel := by
  rcases fuel with _ | _ | f
  · simp [run_loop, node.opcode, node.eval, bind, Except.bind]
  · simp [run_loop, node.opcode, node.eval, bind, Except.bind]
  · have e1 : node.eval X (f + 1 + 1) (.setvar x (.const_int c)) d0 =
        .ok (nat.copy c, { d0 with var_name := fn_set d0.var_name x (.const_int c) }) := rfl
    have hs1 : ∀ y n, y ≠ x → fn_set d0.var_name x (.const_int c) y = some n →
        node.assigns x n = false ∧ plain_tree n = true := by
      intro y n hy hn
      simp only [fn_set, if_neg hy] at hn
      exact hs y n hy hn
    have e2 := (eval_setvar_self X x e
      { d0 with var_name := fn_set d0.var_name x (.const_int c) } (f + 1 + 1) hr he
      (fun y n hy hn => (hs1 y n hy hn).1)).2 ⟨hp, fun y n hy hn => (hs1 y n hy hn).2⟩
    simp only [run_loop, node.opcode, true_and, true_or, if_true, e1, e2, bind, Except.bind]

/-- C27: evaluating `setvar(x, e)` never returns a value when `e` reads `x` through unary
and binary operators the evaluator has a case for (`e` and the expressions bound to the
other variables holding no assignment to `x`): `setvar::eval` binds `x` to `e` and
`var::eval` evaluates `e` again. For every amount of fuel the evaluation ends with an
error, which is running out of fuel unless a numeric operation aborts first, and is running
out of fuel when no numeric operation of `e` and of the bound expressions can fail. The
program `x = 1; x = x + 1` is accepted by the front end, and its run over the `setvar`
nodes runs out of fuel whatever the fuel. -/
theorem C27_self_reference_never_returns (X : ext_ops) (x : String) (e : node)
    (d : compiler) (target : backend) (fuel : Nat)
    (hr : reads_var x e = true) (he : node.assigns x e = false)
    (hs : ∀ y n, y ≠ x → d.var_name y = some n → node.assigns x n = false) :
    (∃ err, node.eval X fuel (.setvar x e) d = .error err ∧ (err = .fuel ∨ err = .abort)) ∧
    ((plain_tree e = true ∧ ∀ y n, y ≠ x → d.var_name y = some n → plain_tree n = true) →
      node.eval X fuel (.setvar x e) d = .error .fuel) ∧
    accepted [] self_reference_program ∧
    compiler.run X fuel .op_setvar (compiler.of_program target self_reference_program) =
      .error .fuel := by
  obtain ⟨⟨err, herr⟩, h2⟩ := eval_setvar_self X x e d fuel hr he hs
  refine ⟨⟨err, herr, (eval_errors X _ _ _ _ herr).symm⟩, h2, ?_, ?_⟩
  · simp [accepted, self_reference_program, is_expr, expr_vars, is_binary_op]
  · have hnodes : (compiler.of_program target self_reference_program).nodes =
        self_reference_program := (of_program_spec target _).1
    simp only [compiler.run, hnodes]
    refine run_self_reference X "x" _ _ _ fuel rfl rfl rfl ?_
    intro y n hy hn
    simp [fn_set, hy, compiler.of_program, self_reference_program,
      compiler.front_end, compiler.set_variable, compiler.add_toplevel,
      compiler.ctor] at hn

/-- Witness for C27: `x = x + 1` evaluated in a fresh compiler with fuel 5. -/
theorem C27_self_reference_never_returns_witness :
    reads_var "x" (.binaryop .op_add (.var "x") (.const_int (nat.of_limb 1))) = true ∧
    node.assigns "x" (.binaryop .op_add (.var "x") (.const_int (nat.of_limb 1))) = false ∧
    node.eval ext_absent 5
      (.setvar "x" (.binaryop .op_add (.var "x") (.const_int (nat.of_limb 1))))
      (compiler.ctor sample_backend) = .error .fuel :=
  ⟨rfl, rfl,
    (C27_self_reference_never_returns ext_absent "x"
      (.binaryop .op_add (.var "x") (.const_int (nat.of_limb 1)))
      (compiler.ctor sample_backend) sample_backend 5 rfl rfl
      (fun y n _ hn => by cases hn)).2.1 ⟨rfl, fun y n _ hn => by cases hn⟩⟩

/-! ## Restricted compiler correctness -/

theorem pair_sum_literals : small_literals pair_sum_program := by
  intro x e hmem c hc
  simp only [pair_sum_program, List.mem_cons, List.mem_singleton, List.not_mem_nil,
    or_false, node.setvar.injEq] at hmem
  rcases hmem with ⟨_, rfl⟩ | ⟨_, rfl⟩ | ⟨_, rfl⟩
  · simp only [expr_literals, List.mem_singleton] at hc
    subst hc
    exact small_literal_of_limb 3 (by norm_num)
  · simp only [expr_literals, List.mem_singleton] at hc
    subst hc
    exact small_literal_of_limb 5 (by norm_num)
  · simp [expr_literals] at hc

/-- C25 as stated fails on the code for a backend whose allocation order names a register
twice: the program `x = 3; y = 5; z = x + y` meets every condition of the claim and
allocation succeeds, `x` and `y` both receive the register 5, and the allocated form yields
`z = 10` where the AST form yields `z = 8`. -/
theorem C25_register_named_twice :
    (accepted [] pair_sum_program ∧ single_assignment [] pair_sum_program ∧
      no_bare_reads pair_sum_program ∧ small_literals pair_sum_program ∧
      (compiler.lower true (compiler.of_program twice_backend pair_sum_program)).isOk = true) ∧
    ast_values ext_absent 8 twice_backend pair_sum_program =
      some [⟨[3]⟩, ⟨[5]⟩, ⟨[8]⟩] ∧
    lowered_values ext_absent 8 true twice_backend pair_sum_program =
      some [⟨[3]⟩, ⟨[5]⟩, ⟨[10]⟩] :=
  ⟨⟨by simp [accepted, pair_sum_program, is_expr, expr_vars, is_binary_op],
      by simp [single_assignment, pair_sum_program],
      by
        intro x e hmem y
        simp only [pair_sum_program, List.mem_cons, List.mem_singleton, List.not_mem_nil,
          or_false, node.setvar.injEq] at hmem
        rcases hmem with ⟨_, rfl⟩ | ⟨_, rfl⟩ | ⟨_, rfl⟩ <;> simp,
      pair_sum_literals, by decide⟩,
    by decide, by decide⟩

/-- C25 (amended): for a backend whose allocation order names no register twice and a
program in which each variable is assigned at most once, every variable read follows the
assignment of that variable, no right-hand side is a bare variable read and every literal
is below `2^32`: when the run over the `setvar` nodes yields the values `vs` and
`lower(true)` succeeds, the run over the `setreg` nodes of the allocated sequence (with
fuel 3 or more) yields, for the `setreg` nodes that carry a variable name, in sequence
order, the same values `vs`; shifts by a literal, folded to `slli` and `srli`, included. -/
theorem C25_restricted_compiler_correct (X : ext_ops) (target : backend) (prog : node_list)
    (vs : List nat) (fuelA fuel : Nat) (hacc : accepted [] prog)
    (hsingle : single_assignment [] prog) (hbare : no_bare_reads prog)
    (hlit : small_literals prog) (hnd : target.order.Nodup)
    (hast : ast_values X fuelA target prog = some vs)
    (hok : (compiler.lower true (compiler.of_program target prog)).isOk = true) :
    lowered_values X (fuel + 3) true target prog = some vs := by
  have _ := hbare
  obtain ⟨d3, h3⟩ := except_ok_of_isOk hok
  obtain ⟨p1, _⟩ := of_program_spec target prog
  have hden : prog_den X (fun _ => none) prog = some vs := by
    simp only [ast_values] at hast
    split at hast
    · rename_i r hr
      simp only [Option.some.injEq] at hast
      subst hast
      simp only [compiler.run, p1] at hr
      exact ast_run_sound X prog [] (fun _ => none) _ r.2 fuelA r.1 hacc hsingle
        (by intro y hy; cases hy) hr
    · cases hast
  obtain ⟨all, sF, g1, g2⟩ := compile_correct X hacc hlit hnd hden h3 fuel
  simp only [lowered_values, h3, g1, g2]

/-- Witness for C25: the program `x = 3; y = x << 2; z = y + 5`, whose shift is folded to
`slli`, on the backend with seven registers: the values are 3, 12 and 17. -/
theorem C25_restricted_compiler_correct_witness :
    (accepted [] example_program ∧ single_assignment [] example_program ∧
      no_bare_reads example_program ∧ small_literals example_program ∧
      sample_backend.order.Nodup ∧
      ast_values ext_absent 6 sample_backend example_program =
        some [⟨[3]⟩, ⟨[12]⟩, ⟨[17]⟩] ∧
      (compiler.lower true (compiler.of_program sample_backend example_program)).isOk =
        true) ∧
    lowered_values ext_absent 3 true sample_backend example_program =
      some [⟨[3]⟩, ⟨[12]⟩, ⟨[17]⟩] :=
  have hbare : no_bare_reads example_program := by
    intro x e hmem y
    simp only [example_program, List.mem_cons, List.mem_singleton, List.not_mem_nil,
      or_false, node.setvar.injEq] at hmem
    rcases hmem with ⟨_, rfl⟩ | ⟨_, rfl⟩ | ⟨_, rfl⟩ <;> simp
  ⟨⟨example_program_accepted, by simp [single_assignment, example_program], hbare,
      example_program_literals, by decide, by decide, by decide⟩,
    C25_restricted_compiler_correct ext_absent sample_backend example_program
      [⟨[3]⟩, ⟨[12]⟩, ⟨[17]⟩] 6 0 example_program_accepted
      (by simp [single_assignment, example_program]) hbare example_program_literals
      (by decide) (by decide) (by decide)⟩

/-! ## The allocator row by row -/

theorem alloc_row_length {d d1 : compiler} {i : Nat} {dst : reg} {rhs : node}
    {v : Option String} (h : alloc_row d i dst rhs v = .ok d1) :
    d1.nodes.length = d.nodes.length := by
  simp only [alloc_row] at h
  split at h
  · cases h
  · split at h
    · cases h
    · simp only [Except.ok.injEq] at h
      subst h
      simp

theorem alloc_upto_succ (n : Nat) (d0 : compiler) :
    alloc_upto (n + 1) d0 = (alloc_upto n d0).bind (fun d1 =>
      match d1.nodes.get? n with
      | some (.setreg dst rhs v) => alloc_row d1 n dst rhs v
      | _ => .ok d1) := rfl

theorem alloc_upto_error (d0 : compiler) (e : fault) (n : Nat)
    (h : alloc_upto n d0 = .error e) : ∀ k, alloc_upto (n + k) d0 = .error e := by
  intro k
  induction k with
  | zero => exact h
  | succ k ih =>
    rw [← Nat.add_assoc, alloc_upto_succ, ih]
    rfl

/-- The main loop of `allocate_registers`, entered at row `i` in the state the first `i`
passes leave, ends like the passes over all rows. -/
theorem alloc_loop_eq_upto (d0 : compiler) : ∀ (todo i : Nat) (d : compiler),
    alloc_upto i d0 = .ok d → d.nodes.length = i + todo →
    alloc_loop todo d = alloc_upto (i + todo) d0 := by
  intro todo
  induction todo with
  | zero =>
    intro i d h _
    simp only [alloc_loop, Nat.add_zero, h]
  | succ todo ih =>
    intro i d h hlen
    have hi : d.nodes.length - (todo + 1) = i := by omega
    have e : i + (todo + 1) = (i + 1) + todo := by omega
    have hs : alloc_upto (i + 1) d0 =
        (match d.nodes.get? i with
          | some (.setreg dst rhs v) => alloc_row d i dst rhs v
          | _ => .ok d) := by
      rw [alloc_upto_succ, h]
      rfl
    simp only [alloc_loop, hi]
    rw [e]
    obtain ⟨o, ho⟩ : ∃ o, d.nodes.get? i = o := ⟨_, rfl⟩
    rw [ho] at hs ⊢
    cases o with
    | none => exact ih (i + 1) d hs (by omega)
    | some nd =>
      cases nd with
      | setreg dst rhs v =>
        simp only at hs ⊢
        cases hrow : alloc_row d i dst rhs v with
        | error err =>
          rw [hrow] at hs
          rw [alloc_upto_error d0 err (i + 1) hs todo]
          rfl
        | ok d1 =>
          rw [hrow] at hs
          simp only [bind, Except.bind]
          exact ih (i + 1) d1 hs (by rw [alloc_row_length hrow]; omega)
      | _ => exact ih (i + 1) d hs (by omega)

/-- The method `allocate_registers` on a sequence in which only `setreg` nodes carry
`op_setreg` is the passes of `alloc_upto` over all rows, from the state `alloc_start`. -/
theorem allocate_eq_upto (d : compiler) (hbad : d.nodes.any bad_setreg = false) :
    compiler.allocate_registers d = alloc_upto d.nodes.length (alloc_start d) := by
  have h := alloc_loop_eq_upto (alloc_start d) d.nodes.length 0 (alloc_start d) rfl
    (by simp [alloc_start])
  rw [Nat.zero_add] at h
  rw [← h]
  simp only [compiler.allocate_registers, hbad, Bool.false_eq_true, if_false, alloc_start]

theorem alloc_start_inv (d : compiler) (hused : d.reg_used = []) :
    alloc_inv d.nodes d.def_use_ssa d.ssaregcount (d.reg_free ++ d.target.order) 0
      (alloc_start d) := by
  refine ⟨rfl, fun _ _ => rfl, rfl, rfl, ?_, ?_, ?_, ?_, fun _ => [], rfl, ?_, ?_, ?_⟩
  · simp [alloc_start, hused]
  · simp [alloc_start, hused]
  · intro a p h; simp [alloc_start, hused] at h
  · intro k _ _ _ hk; omega
  · exact hused.symm
  · intro k _ _ _ hk; omega
  · intro k hk; omega

/-- The allocator invariant holds in every state the main loop reaches. -/
theorem alloc_upto_inv {nodes0 : node_list} {m : List Char} {c : Nat} {free0 : List Nat}
    {d0 : compiler} (hf : ssa_form nodes0 c)
    (hM : ∀ k dst rhs v, nodes0.get? k = some (.setreg dst rhs v) →
      col_done nodes0 c m dst.l k)
    (h0 : alloc_inv nodes0 m c free0 0 d0) :
    ∀ (i : Nat) (d : compiler), alloc_upto i d0 = .ok d → alloc_inv nodes0 m c free0 i d := by
  intro i
  induction i with
  | zero =>
    intro d h
    simp only [alloc_upto, Except.ok.injEq] at h
    subst h
    exact h0
  | succ i ih =>
    intro d h
    rw [alloc_upto_succ] at h
    cases hp : alloc_upto i d0 with
    | error e => rw [hp] at h; cases h
    | ok d1 =>
      rw [hp] at h
      have hinv := ih d1 hp
      have hrow : d1.nodes.get? i = nodes0.get? i := hinv.2.1 i (Nat.le_refl _)
      simp only [Except.bind, hrow] at h
      split at h
      · rename_i dst rhs v hget
        exact alloc_row_step hf hM hinv hget h
      · rename_i hno
        simp only [Except.ok.injEq] at h
        subst h
        exact alloc_skip_step hinv (fun dst rhs v hc => hno dst rhs v hc)

/-! ## Lowered operands name registers defined before -/

theorem uses_below_unary (c r : Nat) (opcode : op) (w : Option String) (h : r < c) :
    uses_below (.setreg (.ssareg c) (.unaryop opcode (.ssareg r)) w) := by
  intro dst rhs v u e hu
  cases e
  simp only [uses_reg, beq_iff_eq, node.ssareg.injEq] at hu
  subst hu
  exact h

theorem uses_below_imm (c : Nat) (opcode : op) (z : Int) (w : Option String) :
    uses_below (.setreg (.ssareg c) (.unaryop opcode (.imm z)) w) := by
  intro dst rhs v u e hu
  cases e
  simp [uses_reg] at hu

theorem uses_below_binary_imm (c r : Nat) (opcode : op) (z : Int) (w : Option String)
    (h : r < c) :
    uses_below (.setreg (.ssareg c) (.binaryop opcode (.ssareg r) (.imm z)) w) := by
  intro dst rhs v u e hu
  cases e
  simp only [uses_reg, Bool.or_eq_true, beq_iff_eq, node.ssareg.injEq] at hu
  rcases hu with hu | hu
  · subst hu; exact h
  · cases hu

theorem uses_below_binary (c r1 r2 : Nat) (opcode : op) (w : Option String) (h1 : r1 < c)
    (h2 : r2 < c) :
    uses_below (.setreg (.ssareg c) (.binaryop opcode (.ssareg r1) (.ssareg r2)) w) := by
  intro dst rhs v u e hu
  cases e
  simp only [uses_reg, Bool.or_eq_true, beq_iff_eq, node.ssareg.injEq] at hu
  rcases hu with hu | hu
  · subst hu; exact h1
  · subst hu; exact h2

theorem uses_below_rename {dst : reg} {rhs : node} {v w : Option String}
    (h : uses_below (.setreg dst rhs v)) : uses_below (.setreg dst rhs w) := by
  intro dst1 rhs1 v1 u e hu
  cases e
  refine h dst rhs v u rfl ?_
  cases rhs <;> exact hu

/-- Lowering an expression whose variables are bound to registers below the counter: the
renaming map stays, the counter does not go down, `lower_reg` yields a register below the
new counter, and every instruction made names only registers below its destination. -/
theorem lower_below (known : List String) (e : node) :
    ∀ (d : compiler) (L : node_list) (d1 : compiler), is_expr e = true →
      (∀ y ∈ expr_vars e, y ∈ known) →
      (∀ y ∈ known, ∃ u, d.var_ssa y = some u ∧ u < d.ssaregcount) →
      node.lower e d = .ok (L, d1) →
      d1.var_ssa = d.var_ssa ∧ d.ssaregcount ≤ d1.ssaregcount ∧
      (∀ n ∈ L, uses_below n) ∧
      ∃ r L1, compiler.lower_reg L = .ok (r, L1) ∧ r < d1.ssaregcount ∧
        ∀ n ∈ L1, uses_below n := by
  induction e with
  | const_int c =>
    intro d L d1 _ _ _ h
    simp only [node.lower, Except.ok.injEq, Prod.mk.injEq] at h
    obtain ⟨rfl, rfl⟩ := h
    have hrow : ∀ n ∈ [node.setreg (.ssareg d.ssaregcount)
        (.unaryop .op_li (.imm (to_int (c.limb_at 0)))) none], uses_below n := by
      intro n hn
      simp only [List.mem_singleton] at hn
      subst hn
      exact uses_below_imm _ _ _ _
    exact ⟨rfl, Nat.le_succ _, hrow, _, _, lower_reg_single_setreg _ _ _,
      Nat.lt_succ_self _, hrow⟩
  | var y =>
    intro d L d1 _ hv hJ h
    obtain ⟨u, hu, hlt⟩ := hJ y (hv y (by simp [expr_vars]))
    simp only [node.lower, hu, Except.ok.injEq, Prod.mk.injEq] at h
    obtain ⟨rfl, rfl⟩ := h
    refine ⟨rfl, Nat.le_refl _, ?_, u, [], rfl, hlt, fun n hn => by cases hn⟩
    intro n hn
    simp only [List.mem_singleton] at hn
    subst hn
    intro dst rhs v u1 e
    cases e
  | unaryop opcode l ih =>
    intro d L d1 he hv hJ h
    simp only [is_expr, Bool.and_eq_true] at he
    simp only [node.lower, bind, Except.bind] at h
    split at h
    · cases h
    · rename_i x hl
      obtain ⟨a1, a2, _, r, L1, a4, a5, a6⟩ := ih d x.1 x.2 he.2
        (fun y hy => hv y (by simpa [expr_vars] using hy)) hJ hl
      simp only [a4, pure, Except.pure, Except.ok.injEq, Prod.mk.injEq] at h
      obtain ⟨rfl, rfl⟩ := h
      have hrows : ∀ n ∈ L1 ++ [node.setreg (.ssareg x.2.ssaregcount)
          (.unaryop opcode (.ssareg r)) none], uses_below n := by
        intro n hn
        rcases List.mem_append.1 hn with hn | hn
        · exact a6 n hn
        · simp only [List.mem_singleton] at hn
          subst hn
          exact uses_below_unary _ _ _ _ a5
      exact ⟨a1, Nat.le_succ_of_le a2, hrows, _, _, lower_reg_snoc _ _ _ _,
        Nat.lt_succ_self _, hrows⟩
  | binaryop opcode l r ihl ihr =>
    intro d L d1 he hv hJ h
    simp only [is_expr, Bool.and_eq_true] at he
    have hvl : ∀ y ∈ expr_vars l, y ∈ known :=
      fun y hy => hv y (by simp [expr_vars, hy])
    have hvr : ∀ y ∈ expr_vars r, y ∈ known :=
      fun y hy => hv y (by simp [expr_vars, hy])
    simp only [node.lower, bind, Except.bind] at h
    split at h
    · split at h
      · split at h
        · cases h
        · rename_i x hl
          obtain ⟨a1, a2, _, r1, L1, a4, a5, a6⟩ := ihl d x.1 x.2 he.1.2 hvl hJ hl
          simp only [a4, pure, Except.pure, Except.ok.injEq, Prod.mk.injEq] at h
          obtain ⟨rfl, rfl⟩ := h
          have hrows : ∀ z, ∀ n ∈ L1 ++ [node.setreg (.ssareg x.2.ssaregcount)
              (.binaryop (if opcode = .op_srl then op.op_srli else op.op_slli) (.ssareg r1)
                (.imm z)) none], uses_below n := by
            intro z n hn
            rcases List.mem_append.1 hn with hn | hn
            · exact a6 n hn
            · simp only [List.mem_singleton] at hn
              subst hn
              exact uses_below_binary_imm _ _ _ _ _ a5
          exact ⟨a1, Nat.le_succ_of_le a2, hrows _, _, _, lower_reg_snoc _ _ _ _,
            Nat.lt_succ_self _, hrows _⟩
      · cases h
    · split at h
      · cases h
      · rename_i x hl
        obtain ⟨a1, a2, _, r1, L1, a4, a5, a6⟩ := ihl d x.1 x.2 he.1.2 hvl hJ hl
        split at h
        · cases h
        · rename_i y hr
          have hJ1 : ∀ z ∈ known, ∃ u, x.2.var_ssa z = some u ∧ u < x.2.ssaregcount := by
            intro z hz
            obtain ⟨u, h1, h2⟩ := hJ z hz
            exact ⟨u, by rw [a1]; exact h1, by omega⟩
          obtain ⟨b1, b2, _, r2, L2, b4, b5, b6⟩ := ihr x.2 y.1 y.2 he.2 hvr hJ1 hr
          simp only [a4, b4, pure, Except.pure, Except.ok.injEq, Prod.mk.injEq] at h
          obtain ⟨rfl, rfl⟩ := h
          have hrows : ∀ n ∈ L1 ++ L2 ++ [node.setreg (.ssareg y.2.ssaregcount)
              (.binaryop opcode (.ssareg r1) (.ssareg r2)) none], uses_below n := by
            intro n hn
            rcases List.mem_append.1 hn with hn | hn
            · rcases List.mem_append.1 hn with hn | hn
              · exact a6 n hn
              · exact b6 n hn
            · simp only [List.mem_singleton] at hn
              subst hn
              exact uses_below_binary _ _ _ _ _ (by omega) b5
          exact ⟨b1.trans a1, Nat.le_succ_of_le (Nat.le_trans a2 b2), hrows, _, _,
            lower_reg_snoc _ _ _ _,
            Nat.lt_succ_self _, hrows⟩
  | setvar l r _ => intro d L d1 he; simp [is_expr] at he
  | ssareg l => intro d L d1 he; simp [is_expr] at he
  | phyreg l => intro d L d1 he; simp [is_expr] at he
  | setreg l r v _ => intro d L d1 he; simp [is_expr] at he
  | imm r => intro d L d1 he; simp [is_expr] at he
  | mi t => intro d L d1 he; simp [is_expr] at he

theorem lower_loop_below : ∀ (prog : node_list) (known : List String) (d d1 : compiler)
    (acc out : node_list), accepted known prog →
    (∀ y ∈ known, ∃ u, d.var_ssa y = some u ∧ u < d.ssaregcount) →
    (∀ n ∈ acc, uses_below n) → compiler.lower_loop prog acc d = .ok (out, d1) →
    ∀ n ∈ out, uses_below n := by
  intro prog
  induction prog with
  | nil =>
    intro known d d1 acc out _ _ hacc h
    simp only [compiler.lower_loop, Except.ok.injEq, Prod.mk.injEq] at h
    rw [← h.1]
    exact hacc
  | cons n rest ih =>
    intro known d d1 acc out hprog hJ hacc h
    cases n with
    | setvar x e =>
      obtain ⟨he, hv, hrest⟩ := hprog
      simp only [compiler.lower_loop, node.opcode, if_true, bind, Except.bind] at h
      split at h
      · cases h
      · rename_i y hl
        simp only [node.lower, bind, Except.bind] at hl
        split at hl
        · cases hl
        · rename_i z hz
          obtain ⟨a1, a2, a3, r, L1, a4, a5, _⟩ := lower_below known e d z.1 z.2 he hv hJ hz
          split at hl
          · rename_i dst rhs w hlast
            simp only [pure, Except.pure, Except.ok.injEq] at hl
            subst hl
            rw [lower_reg_of_last hlast] at a4
            simp only [Except.ok.injEq, Prod.mk.injEq] at a4
            have hdst : dst.l < z.2.ssaregcount := by rw [a4.1]; exact a5
            have hmem : node.setreg dst rhs w ∈ z.1 := List.mem_of_getLast?_eq_some hlast
            refine ih (x :: known) _ d1 _ out hrest ?_ ?_ h
            · intro y1 hy1
              simp only [fn_set]
              by_cases hyx : y1 = x
              · rw [if_pos hyx]
                exact ⟨dst.l, rfl, hdst⟩
              · rw [if_neg hyx]
                rcases List.mem_cons.1 hy1 with e1 | e1
                · exact absurd e1 hyx
                · obtain ⟨u, h1, h2⟩ := hJ y1 e1
                  exact ⟨u, by rw [a1]; exact h1, by
                    have : d.ssaregcount ≤ z.2.ssaregcount := a2
                    exact Nat.lt_of_lt_of_le h2 this⟩
            · intro m hm
              rcases List.mem_append.1 hm with hm | hm
              · rcases List.mem_append.1 hm with hm | hm
                · exact hacc m hm
                · simp only [List.mem_singleton] at hm
                  subst hm
                  intro dst1 rhs1 v1 u e1
                  cases e1
              · rcases List.mem_append.1 hm with hm | hm
                · exact a3 m (List.mem_of_mem_dropLast hm)
                · simp only [List.mem_singleton] at hm
                  subst hm
                  exact uses_below_rename (a3 _ hmem)
          · cases hl
    | _ => exact absurd hprog (by simp [accepted])

/-- In the sequence lowered from a program the front end accepts, every `setreg` names as
operands only registers below its destination. -/
theorem lowered_uses_below {target : backend} {prog : node_list} {d2 : compiler}
    (hacc : accepted [] prog)
    (h2 : compiler.lower false (compiler.of_program target prog) = .ok d2) :
    ∀ n ∈ d2.nodes, uses_below n := by
  obtain ⟨d1, hloop⟩ := lower_false_nodes h2
  rw [(of_program_spec target prog).1] at hloop
  exact lower_loop_below prog [] _ d1 [] d2.nodes hacc (fun y hy => by cases hy)
    (fun n hn => by cases hn) hloop

/-! ## The operand rewrite step -/

theorem rewrite_operand_bound {K : List (Nat × Nat)} {x : node}
    (h : ∀ u, x = .ssareg u → ∃ p, map_find K u = some p) :
    (rewrite_operand K x).2 = K := by
  cases x with
  | ssareg u =>
    obtain ⟨p, hp⟩ := h u rfl
    simp [rewrite_operand, reg_used_at, hp]
  | _ => rfl

theorem rewrite_operand_ssareg {K : List (Nat × Nat)} {u p : Nat}
    (h : map_find K u = some p) :
    reg_used_at K u = (p, K) ∧ rewrite_operand K (.ssareg u) = (.phyreg p, K) := by
  simp [rewrite_operand, reg_used_at, h]

theorem rewrite_rhs_bound {K : List (Nat × Nat)} {dst : reg} {rhs : node}
    {v : Option String}
    (h : ∀ u, uses_reg u (.setreg dst rhs v) = true → ∃ p, map_find K u = some p) :
    (rewrite_rhs K rhs).2 = K := by
  cases rhs with
  | unaryop opc x =>
    simp only [rewrite_rhs]
    exact rewrite_operand_bound (fun u hu => h u (by simp [uses_reg, hu]))
  | binaryop opc x y =>
    simp only [rewrite_rhs]
    rw [rewrite_operand_bound (fun u hu => h u (by simp [uses_reg, hu]))]
    exact rewrite_operand_bound (fun u hu => h u (by simp [uses_reg, hu]))
  | _ => rfl

/-- In a state the allocator reaches before the `setreg` row `i`, whose operands name
registers below its destination: the reclaim loop keeps the entries of the registers live
in row `i`, every operand is among them, bound to the register its defining row has
received, and the rewrite step leaves the map as the reclaim loop made it. -/
theorem operands_kept {nodes0 : node_list} {m : List Char} {c : Nat} {free0 : List Nat}
    {i : Nat} {d : compiler} {dst : reg} {rhs : node} {v : Option String}
    (hf : ssa_form nodes0 c)
    (hM : ∀ k dst rhs v, nodes0.get? k = some (.setreg dst rhs v) →
      col_done nodes0 c m dst.l k)
    (hinv : alloc_inv nodes0 m c free0 i d)
    (hget : nodes0.get? i = some (.setreg dst rhs v))
    (hbelow : uses_below (.setreg dst rhs v)) :
    (reclaim_loop d i d.reg_used d.def_use_phy).1 =
      d.reg_used.filter (fun e => decide (mcell c m i e.1 ≠ ' ')) ∧
    (∀ u, uses_reg u (.setreg dst rhs v) = true →
      ∃ p, map_find (reclaim_loop d i d.reg_used d.def_use_phy).1 u = some p ∧
        assigned nodes0 d.nodes u p) ∧
    (rewrite_rhs (reclaim_loop d i d.reg_used d.def_use_phy).1 rhs).2 =
      (reclaim_loop d i d.reg_used d.def_use_phy).1 := by
  have hinv0 := hinv
  obtain ⟨hlen, hrows, hm, hc, hkeys, hperm, hbound, hlive, _⟩ := hinv
  obtain ⟨hdst, hac, hrow⟩ := ssa_form_row hf hget
  have hfilt : (fun e : Nat × Nat => decide (d.cell i e.1 ≠ ' ')) =
      (fun e : Nat × Nat => decide (mcell c m i e.1 ≠ ' ')) := by
    funext e; simp [compiler.cell, mcell, hm, hc]
  have hK := (reclaim_spec d i d.reg_used d.def_use_phy).1
  rw [hfilt] at hK
  have hops : ∀ u, uses_reg u (.setreg dst rhs v) = true →
      ∃ p, map_find (reclaim_loop d i d.reg_used d.def_use_phy).1 u = some p ∧
        assigned nodes0 d.nodes u p := by
    intro u hu
    have hlt : u < rank nodes0 i := by
      have := hbelow dst rhs v u rfl hu
      rw [hdst] at this
      exact this
    obtain ⟨k0, dst0, rhs0, v0, hk0lt, hk0, hr0⟩ := exists_def_row nodes0 i u hlt
    obtain ⟨e0, _, _⟩ := ssa_form_row hf hk0
    rw [hr0] at e0
    subst e0
    have hnb : mcell c m i u ≠ ' ' := col_done_use (hM _ _ _ _ hk0) hk0lt hget hu
    obtain ⟨q, hq⟩ := live_in_used hM hinv0 hk0 hk0lt hnb
    have hqK : (u, q) ∈ d.reg_used.filter (fun e => decide (mcell c m i e.1 ≠ ' ')) :=
      List.mem_filter.2 ⟨hq, by simpa using hnb⟩
    obtain ⟨p, hp⟩ := map_find_of_mem hqK
    have hpm : (u, p) ∈ d.reg_used := (List.mem_filter.1 (map_find_mem hp)).1
    obtain ⟨k, rhs1, v1, _, hrk, ⟨dst2, rhs2, v2, hk2⟩, hk1⟩ := hbound u p hpm
    obtain ⟨e2, _, _⟩ := ssa_form_row hf hk2
    rw [hrk] at e2
    subst e2
    exact ⟨p, by rw [hK]; exact hp, k, rhs2, v2, rhs1, v1, hk2, hk1⟩
  refine ⟨hK, hops, @rewrite_rhs_bound _ dst rhs v (fun u hu => ?_)⟩
  obtain ⟨p, hp, _⟩ := hops u hu
  exact ⟨p, hp⟩

/-- What is known of a state the allocator reaches on the sequence lowered from an accepted
program: the sequence is in SSA form, its matrix holds the live ranges, its instructions
name only registers below their destination, and the allocator invariant holds. -/
theorem alloc_reach_facts {target : backend} {prog : node_list} {d2 d : compiler} {i : Nat}
    (hacc : accepted [] prog)
    (h2 : compiler.lower false (compiler.of_program target prog) = .ok d2)
    (hd : alloc_upto i (alloc_start d2) = .ok d) :
    ssa_form d2.nodes d2.ssaregcount ∧
    (∀ k dst rhs v, d2.nodes.get? k = some (.setreg dst rhs v) →
      col_done d2.nodes d2.ssaregcount d2.def_use_ssa dst.l k) ∧
    (∀ n ∈ d2.nodes, uses_below n) ∧
    alloc_inv d2.nodes d2.def_use_ssa d2.ssaregcount target.order i d ∧
    compiler.allocate_registers d2 = alloc_upto d2.nodes.length (alloc_start d2) := by
  have hprog := accepted_setvars prog [] hacc
  obtain ⟨p1, p2, p3, p4, p5, p6⟩ := of_program_spec target prog
  obtain ⟨hf, hM, _, hu, hfree, ht, _, _, _⟩ :=
    lower_false_facts (by rw [p1]; exact hprog) p2 p3 h2
  have h0 := alloc_start_inv d2 (hu.trans p4)
  rw [hfree, p5, ht, p6, List.nil_append] at h0
  exact ⟨hf, hM, lowered_uses_below hacc h2, alloc_upto_inv hf hM h0 i d hd,
    allocate_eq_upto d2 (ssa_form_not_bad hf)⟩

/-- C22: `allocate_registers` on the sequence `d2.nodes` lowered from a program the front
end accepts (every variable read follows an assignment of the variable) is the passes of
`alloc_upto` over its rows. In the state `d` in which the loop reaches a `setreg` row `i`,
the row is still the lowered one, and every SSA register `u` that is an operand of the row
is bound in the used map the reclaim loop leaves: the lookup `reg_used[u]` finds a
register `p` and creates no entry, the operand becomes `phyreg p`, `p` is the register the
row defining `u` has received, and the whole rewrite step leaves the used map as it is. -/
theorem C22_operands_are_bound (target : backend) (prog : node_list) (d2 d : compiler)
    (i : Nat) (dst : reg) (rhs : node) (v : Option String) (hacc : accepted [] prog)
    (h2 : compiler.lower false (compiler.of_program target prog) = .ok d2)
    (hd : alloc_upto i (alloc_start d2) = .ok d)
    (hget : d2.nodes.get? i = some (.setreg dst rhs v)) :
    compiler.allocate_registers d2 = alloc_upto d2.nodes.length (alloc_start d2) ∧
    d.nodes.get? i = some (.setreg dst rhs v) ∧
    (∀ u, uses_reg u (.setreg dst rhs v) = true →
      ∃ p, map_find (reclaim_loop d i d.reg_used d.def_use_phy).1 u = some p ∧
        reg_used_at (reclaim_loop d i d.reg_used d.def_use_phy).1 u =
          (p, (reclaim_loop d i d.reg_used d.def_use_phy).1) ∧
        rewrite_operand (reclaim_loop d i d.reg_used d.def_use_phy).1 (.ssareg u) =
          (.phyreg p, (reclaim_loop d i d.reg_used d.def_use_phy).1) ∧
        assigned d2.nodes d.nodes u p) ∧
    (rewrite_rhs (reclaim_loop d i d.reg_used d.def_use_phy).1 rhs).2 =
      (reclaim_loop d i d.reg_used d.def_use_phy).1 := by
  obtain ⟨hf, hM, hbelow, hinv, heq⟩ := alloc_reach_facts hacc h2 hd
  obtain ⟨_, hops, hrw⟩ := operands_kept hf hM hinv hget
    (hbelow _ (List.get?_mem hget))
  refine ⟨heq, ?_, ?_, hrw⟩
  · rw [hinv.2.1 i (Nat.le_refl _)]
    exact hget
  · intro u hu
    obtain ⟨p, hp, ha⟩ := hops u hu
    exact ⟨p, hp, (rewrite_operand_ssareg hp).1, (rewrite_operand_ssareg hp).2, ha⟩

theorem example_alloc_reaches_row6 :
    ∃ d, alloc_upto 6 (alloc_start (example_lowered sample_backend)) = .ok d :=
  except_ok_of_isOk (by decide)

/-- Witness for C22: the example program on the backend with seven registers; when the
allocator reaches the row of `_3 := add _1, _2` (row 6), the operand `_1` is bound to a
register, the one its defining row has received. -/
theorem C22_operands_are_bound_witness :
    ∃ d, alloc_upto 6 (alloc_start (example_lowered sample_backend)) = .ok d ∧
      ∃ p, map_find (reclaim_loop d 6 d.reg_used d.def_use_phy).1 1 = some p ∧
        assigned (example_lowered sample_backend).nodes d.nodes 1 p := by
  obtain ⟨d, hd⟩ := example_alloc_reaches_row6
  obtain ⟨_, _, hops, _⟩ := C22_operands_are_bound sample_backend example_program
    (example_lowered sample_backend) d 6 (.ssareg 3)
    (.binaryop .op_add (.ssareg 1) (.ssareg 2)) (some "z") example_program_accepted
    (example_lowered_eq sample_backend) hd rfl
  obtain ⟨p, hp, _, _, ha⟩ := hops 1 rfl
  exact ⟨d, hd, p, hp, ha⟩

/-! ## Conservation of the physical registers -/

/-- The reclaim loop neither loses nor duplicates a register: when it has visited the
entries `pre` of the used map, the registers of the entries kept or not yet visited,
together with the registers freed and the old free queue, are those of the used map and
the free queue before the loop. -/
theorem reclaim_prefix_perm (d : compiler) (i : Nat) (pre post : List (Nat × Nat))
    (phy : List Char) (free : List Nat) :
    (((reclaim_loop d i pre phy).1 ++ post).map Prod.snd ++
      ((reclaim_loop d i pre phy).2.1 ++ free)).Perm
      ((pre ++ post).map Prod.snd ++ free) := by
  obtain ⟨hK, hF⟩ := reclaim_spec d i pre phy
  rw [hK, hF]
  have e1 : ((pre.filter (fun e => decide (d.cell i e.1 ≠ ' '))).map Prod.snd ++
      (pre.filter (fun e => decide (d.cell i e.1 = ' '))).map Prod.snd).Perm
      (pre.map Prod.snd) := by
    rw [← List.map_append]
    apply List.Perm.map
    have e2 : pre.filter (fun e => decide (d.cell i e.1 = ' ')) =
        pre.filter (fun e => !decide (d.cell i e.1 ≠ ' ')) := by
      apply List.filter_congr
      intro x _
      simp
    rw [e2]
    exact List.filter_append_perm _ _
  simp only [List.map_append, List.append_assoc]
  refine (List.Perm.append_left _ (List.perm_append_comm_assoc _ _ _)).trans ?_
  rw [← List.append_assoc, ← List.append_assoc (pre.map Prod.snd)]
  rw [List.append_assoc (pre.map Prod.snd)]
  exact e1.append_right _

/-- The allocator invariant in every state the main loop reaches, for a sequence in SSA
form whose matrix the analysis has computed and a compiler that has allocated nothing
yet. -/
theorem alloc_reach_inv {d d1 di : compiler} {i : Nat}
    (hf : ssa_form d.nodes d.ssaregcount)
    (ha : compiler.def_use_ssa_analysis d = .ok d1) (hused : d.reg_used = [])
    (hfree : d.reg_free = []) (hd : alloc_upto i (alloc_start d1) = .ok di) :
    d1.nodes = d.nodes ∧
    (∀ k dst rhs v, d.nodes.get? k = some (.setreg dst rhs v) →
      col_done d.nodes d.ssaregcount d1.def_use_ssa dst.l k) ∧
    alloc_inv d.nodes d1.def_use_ssa d.ssaregcount d.target.order i di ∧
    compiler.allocate_registers d1 = alloc_upto d1.nodes.length (alloc_start d1) := by
  obtain ⟨e, _, hM⟩ := analysis_spec hf ha
  have en : d1.nodes = d.nodes := by rw [e]
  have ec : d1.ssaregcount = d.ssaregcount := by rw [e]
  have eu : d1.reg_used = d.reg_used := by rw [e]
  have ef : d1.reg_free = d.reg_free := by rw [e]
  have et : d1.target = d.target := by rw [e]
  have h0 := alloc_start_inv d1 (eu.trans hused)
  rw [en, ec, ef, hfree, et, List.nil_append] at h0
  exact ⟨en, hM, alloc_upto_inv hf hM h0 i di hd,
    allocate_eq_upto d1 (by rw [en]; exact ssa_form_not_bad hf)⟩

/-- C26: take a lowered sequence (in SSA form) whose instructions name only registers
below their destination, the matrix `def_use_ssa` the analysis computes for it, a compiler
that has allocated nothing yet and a backend whose allocation order names no register
twice. Then `allocate_registers` is the passes of `alloc_upto` over the rows, starting with
an empty used map and the allocation order as free queue, and in every state `di` in which
the main loop reaches a row `i` (the start, and the state after each destination
allocation): the registers bound in the used map followed by the free queue are a
rearrangement of the allocation order, pairwise distinct, so no register is both bound and
free; the same holds after each pass of the reclaim loop of row `i` (the used map being the
entries kept or not yet visited, the free queue the registers freed and the old queue); and
the rewrite step of a `setreg` row leaves the used map as the reclaim loop made it. -/
theorem C26_registers_conserved (d d1 di : compiler) (i : Nat)
    (hf : ssa_form d.nodes d.ssaregcount) (hbelow : ∀ n ∈ d.nodes, uses_below n)
    (ha : compiler.def_use_ssa_analysis d = .ok d1) (hused : d.reg_used = [])
    (hfree : d.reg_free = []) (hnd : d.target.order.Nodup)
    (hd : alloc_upto i (alloc_start d1) = .ok di) :
    compiler.allocate_registers d1 = alloc_upto d1.nodes.length (alloc_start d1) ∧
    (alloc_start d1).reg_used = [] ∧ (alloc_start d1).reg_free = d.target.order ∧
    (di.reg_used.map Prod.snd ++ di.reg_free).Perm d.target.order ∧
    (di.reg_used.map Prod.snd ++ di.reg_free).Nodup ∧
    (∀ p, p ∈ di.reg_used.map Prod.snd → p ∉ di.reg_free) ∧
    (∀ pre post, di.reg_used = pre ++ post →
      (((reclaim_loop di i pre di.def_use_phy).1 ++ post).map Prod.snd ++
        ((reclaim_loop di i pre di.def_use_phy).2.1 ++ di.reg_free)).Perm d.target.order ∧
      (((reclaim_loop di i pre di.def_use_phy).1 ++ post).map Prod.snd ++
        ((reclaim_loop di i pre di.def_use_phy).2.1 ++ di.reg_free)).Nodup) ∧
    (∀ dst rhs v, d.nodes.get? i = some (.setreg dst rhs v) →
      (rewrite_rhs (reclaim_loop di i di.reg_used di.def_use_phy).1 rhs).2 =
        (reclaim_loop di i di.reg_used di.def_use_phy).1) := by
  obtain ⟨en, hM, hinv, heq⟩ := alloc_reach_inv hf ha hused hfree hd
  obtain ⟨e, _, _⟩ := analysis_spec hf ha
  have hperm : (di.reg_used.map Prod.snd ++ di.reg_free).Perm d.target.order :=
    hinv.2.2.2.2.2.1
  have hnodup : (di.reg_used.map Prod.snd ++ di.reg_free).Nodup := (hperm.nodup_iff).2 hnd
  refine ⟨heq, ?_, ?_, hperm, hnodup, ?_, ?_, ?_⟩
  · show d1.reg_used = []
    rw [e]; exact hused
  · show d1.reg_free ++ d1.target.order = d.target.order
    rw [e]
    show d.reg_free ++ d.target.order = d.target.order
    rw [hfree, List.nil_append]
  · intro p hp hq
    exact (List.nodup_append.1 hnodup).2.2 hp hq
  · intro pre post hsplit
    have h1 := reclaim_prefix_perm di i pre post di.def_use_phy di.reg_free
    rw [← hsplit] at h1
    exact ⟨h1.trans hperm, ((h1.trans hperm).nodup_iff).2 hnd⟩
  · intro dst rhs v hget
    exact (operands_kept hf hM hinv hget (hbelow _ (List.get?_mem hget))).2.2

theorem example_lowered_analysis :
    compiler.def_use_ssa_analysis (example_lowered sample_backend) =
      .ok (example_lowered sample_backend) := rfl

theorem example_lowered_ssa_form :
    ssa_form (example_lowered sample_backend).nodes (example_lowered sample_backend).ssaregcount := by
  obtain ⟨p1, p2, p3, _⟩ := of_program_spec sample_backend example_program
  exact (lower_false_facts (by rw [p1]; exact example_program_setvars) p2 p3
    (example_lowered_eq sample_backend)).1

/-- Witness for C26: the example sequence on the backend with seven registers, in the state
in which the allocator reaches row 6. -/
theorem C26_registers_conserved_witness :
    sample_backend.order.Nodup ∧
    ∃ di, alloc_upto 6 (alloc_start (example_lowered sample_backend)) = .ok di ∧
      (di.reg_used.map Prod.snd ++ di.reg_free).Perm sample_backend.order ∧
      (di.reg_used.map Prod.snd ++ di.reg_free).Nodup := by
  obtain ⟨di, hd⟩ := example_alloc_reaches_row6
  obtain ⟨_, _, _, h1, h2, _⟩ := C26_registers_conserved (example_lowered sample_backend)
    (example_lowered sample_backend) di 6 example_lowered_ssa_form
    (lowered_uses_below example_program_accepted (example_lowered_eq sample_backend))
    example_lowered_analysis rfl rfl (by decide) hd
  exact ⟨by decide, di, hd, h1, h2⟩

end Bigint
